import Mathlib

/-! Branch-and-bound scheduling: a verification development.

Shallow embedding of `dag.c`, `schedule.c` and `bbsearch.c`.

Conventions of the embedding.

* `unsigned` values are natural numbers below `2^32`; every `unsigned`
  addition of the source is reduced modulo `2^32` (`to_unsigned`).  A C `int`
  is an `Int`; the conversion of an `unsigned` to `int` is `to_int`.
* Task identifiers and sizes are plain natural numbers.
* A C array indexed by task or machine is a function `Nat → Nat`.
* `idx_vec` is a list.  `order` keeps the insertion order; the work lists
  (`lvl_ready`, `new_ready`) are only pushed and popped, they are kept with
  the most recent element first.
* Allocation failure is outside the embedding; a failed `assert` is `none`.
* `bb` recurses on a fuel argument; the theorems give it at least as much
  fuel as the graph has tasks, which is the depth of the recursion on graphs
  whose dependency arrays name user tasks only.
* `clock()` is a sequence of readings, consumed one per call.
-/

namespace Scheduling

/-! ## Machine integers -/

/-- Conversion of an integer to `unsigned` (reduction modulo `2^32`). -/
def to_unsigned (x : Int) : Nat := (x % 4294967296).toNat

/-- Conversion of an `unsigned` to `int` (two's complement). -/
def to_int (n : Nat) : Int :=
  if n % 4294967296 < 2147483648 then ((n % 4294967296 : Nat) : Int)
  else ((n % 4294967296 : Nat) : Int) - 4294967296

/-- The constant `UINT_MAX`. -/
def UINT_MAX : Nat := 4294967295

/-! ## Bitmap (`bitmap.h`) -/

/-- Modelled from the spec: `bitmap.c` is not among the sources.  The
behaviour is the one `test_bitmap` asserts: a bitmap holds one bit per
index and grows on demand, so it is a total map from indices to bits. -/
def bitmap : Type := Nat → Bool

/-- Modelled from the spec: `bitmap_create` gives a bitmap whose bits all
read 0 (`test_bitmap` reads 0 at indices beyond the creation size). -/
def bitmap_create (_size : Nat) : bitmap := fun _ => false

/-- Modelled from the spec: `bitmap_get` reads one bit. -/
def bitmap_get (b : bitmap) (i : Nat) : Bool := b i

/-- Modelled from the spec: `bitmap_set` stores the bit and returns the
previous value of the bit (`test_bitmap`: `old30 == 1`). -/
def bitmap_set (b : bitmap) (i : Nat) (v : Bool) : bitmap × Bool :=
  (fun j => if j = i then v else b j, b i)

/-! ## Task graph (`dag.c`) -/

/-- The `struct node` of `dag.c`. -/
structure node where
  weight : Int
  preds : List Nat
  succs : List Nat
  level : Nat
deriving DecidableEq

/-- The `struct dag` of `dag.c`. -/
structure dag where
  nodes : List node
  built : Bool
deriving DecidableEq

/-- The function `node_init`: no predecessor, no successor, level 0. -/
def node_init (weight : Int) : node :=
  { weight := weight, preds := [], succs := [], level := 0 }

/-- The function `dag_create`: a graph holding only the source. -/
def dag_create : dag := { nodes := [node_init 0], built := false }

/-- The node `nodes.data[id]` (a fresh node when `id` is out of range, which
the source excludes by assertion). -/
def node_at (nodes : List node) (id : Nat) : node := nodes.getD id (node_init 0)

/-- The function `dag_size`. -/
def dag_size (g : dag) : Nat := g.nodes.length

/-- The node `g->nodes.data[id]`. -/
def dag_node (g : dag) (id : Nat) : node := node_at g.nodes id

/-- The function `dag_source`. -/
def dag_source (_g : dag) : Nat := 0

/-- The function `dag_sink`. -/
def dag_sink (g : dag) : Nat := g.nodes.length - 1

/-- The function `dag_nsuccs`. -/
def dag_nsuccs (g : dag) (id : Nat) : Nat := (dag_node g id).succs.length

/-- The function `dag_npreds`. -/
def dag_npreds (g : dag) (id : Nat) : Nat := (dag_node g id).preds.length

/-- The function `dag_succs` (the buffer it fills). -/
def dag_succs (g : dag) (id : Nat) : List Nat := (dag_node g id).succs

/-- The function `dag_preds` (the buffer it fills). -/
def dag_preds (g : dag) (id : Nat) : List Nat := (dag_node g id).preds

/-- The function `dag_weight`. -/
def dag_weight (g : dag) (id : Nat) : Int := (dag_node g id).weight

/-- The function `dag_level`: the `unsigned` level returned as `int`. -/
def dag_level (g : dag) (id : Nat) : Int := to_int (dag_node g id).level

/-- The statement `idx_vec_push(&g->nodes.data[d].succs, idx)`. -/
def add_succ (nodes : List node) (d idx : Nat) : List node :=
  nodes.modify (fun n => { n with succs := n.succs ++ [idx] }) d

/-- The loop of `dag_vertex` over `deps`: each dependency must exist, is
appended to the predecessors of the new node `n` and receives `idx` as a
successor. -/
def vertex_loop (idx : Nat) : List Nat → List node → node → Option (List node × node)
  | [], nodes, n => some (nodes, n)
  | d :: rest, nodes, n =>
    if d < nodes.length then
      vertex_loop idx rest (add_succ nodes d idx) { n with preds := n.preds ++ [d] }
    else none

/-- The function `dag_vertex`; `deps` is the array of `n_deps` entries.
Returns the graph and the new identifier. -/
def dag_vertex (g : dag) (weight : Int) (deps : List Nat) : Option (dag × Nat) :=
  let idx := g.nodes.length
  let deps1 := if deps.length = 0 then [0] else deps
  match vertex_loop idx deps1 g.nodes (node_init weight) with
  | none => none
  | some (nodes, n) => some ({ g with nodes := nodes ++ [n] }, idx)

/-- State of the level computation of `dag_build`. -/
structure lvl_state where
  nodes : List node
  lvl_ready : List Nat
  lvl_finished : bitmap

/-- The inner loop of `lvl_visit` over the successors of `pred`: `none`
when some successor is not finished (`succs_complete = 0`), otherwise the
largest level met. -/
def lvl_scan (nodes : List node) (fin : bitmap) : List Nat → Nat → Option Nat
  | [], max_level => some max_level
  | s :: rest, max_level =>
    if bitmap_get fin s != true then none
    else
      let l := (node_at nodes s).level
      lvl_scan nodes fin rest (if l > max_level then l else max_level)

/-- One iteration of the outer loop of `lvl_visit`, for the predecessor
`pred`. -/
def lvl_visit_pred (st : lvl_state) (pred : Nat) : lvl_state :=
  match lvl_scan st.nodes st.lvl_finished (node_at st.nodes pred).succs 0 with
  | none => st
  | some max_level =>
    { nodes := st.nodes.modify
        (fun n => { n with level := to_unsigned (n.weight + (max_level : Int)) }) pred,
      lvl_finished := (bitmap_set st.lvl_finished pred true).1,
      lvl_ready := pred :: st.lvl_ready }

/-- The function `lvl_visit`. -/
def lvl_visit (st : lvl_state) (idx : Nat) : lvl_state :=
  (node_at st.nodes idx).preds.foldl lvl_visit_pred st

/-- The loop `while (lvl_ready.size > 0)` of `dag_build`, run for at most
`fuel` iterations; `none` when the fuel runs out first. -/
def lvl_loop : Nat → lvl_state → Option lvl_state
  | 0, _ => none
  | fuel + 1, st =>
    match st.lvl_ready with
    | [] => some st
    | idx :: rest => lvl_loop fuel (lvl_visit { st with lvl_ready := rest } idx)

/-- The exit nodes collected by `dag_build`: the tasks without successor,
in increasing order. -/
def exit_nodes (g : dag) : List Nat :=
  (List.range g.nodes.length).filter (fun i => (dag_node g i).succs.length = 0)

/-- The function `dag_build`, its level loop run with `fuel`. -/
def dag_build (fuel : Nat) (g : dag) : Option dag :=
  if !g.built then
    match dag_vertex g 0 (exit_nodes g) with
    | none => none
    | some (g1, _) =>
      let sink := dag_sink g1
      match lvl_loop fuel
          { nodes := g1.nodes, lvl_ready := [sink],
            lvl_finished := (bitmap_set (bitmap_create (dag_size g1)) sink true).1 } with
      | none => none
      | some st => some { nodes := st.nodes, built := true }
  else some { g with built := true }

/-- A sequence of `dag_vertex` calls, each given by its weight and its
dependency array, applied to `g`. -/
def dag_vertices : List (Int × List Nat) → dag → Option dag
  | [], g => some g
  | (w, deps) :: rest, g =>
    match dag_vertex g w deps with
    | none => none
    | some (g1, _) => dag_vertices rest g1

/-- The graph obtained by `dag_create`, the given `dag_vertex` calls and
`dag_build`. -/
def dag_make (fuel : Nat) (calls : List (Int × List Nat)) : Option dag :=
  match dag_vertices calls dag_create with
  | none => none
  | some g => dag_build fuel g

/-- The 11-task graph of `test_dag`, `test_schedule` and `test_bbsearch`. -/
def test_calls : List (Int × List Nat) :=
  [(1, []), (2, [1]), (3, []), (4, [3]), (5, [2, 4]), (6, [5]), (7, []),
   (8, [6, 7]), (9, [6]), (10, [8, 9]), (11, [10])]

/-- The six independent tasks of `test_schedule` and `test_bbsearch`. -/
def test_calls_b : List (Int × List Nat) :=
  [(5, []), (2, []), (2, []), (2, []), (2, []), (2, [])]

/-! ## Partial schedule (`schedule.c`, built without `FUJITA`) -/

/-- The `struct schedule` of `schedule.c`; `max_starts` and `min_ends`
are `none` for the `NULL` pointer. -/
structure schedule where
  order : List Nat
  contents : bitmap
  g : dag
  m : Nat
  length : Nat
  max_starts : Option (Nat → Nat)
  min_ends : Option (Nat → Nat)

/-- The schedule `schedule_create` returns: no task, an empty bitmap, length
0 and no bound array. -/
def schedule_new (g : dag) (m : Nat) : schedule :=
  { order := [], contents := bitmap_create 0, g := g, m := m, length := 0,
    max_starts := none, min_ends := none }

/-- The function `schedule_create`; `none` when `assert(m > 0)` fails. -/
def schedule_create (g : dag) (m : Nat) : Option schedule :=
  if 0 < m then some (schedule_new g m) else none

/-- The function `schedule_dag`. -/
def schedule_dag (s : schedule) : dag := s.g

/-- The function `schedule_m`. -/
def schedule_m (s : schedule) : Nat := s.m

/-- The function `schedule_size`. -/
def schedule_size (s : schedule) : Nat := s.order.length

/-- The function `schedule_contains`. -/
def schedule_contains (s : schedule) (idx : Nat) : Bool := bitmap_get s.contents idx

/-- The function `schedule_add`, with its return code; `none` when one of
its assertions fails.  When `bitmap_set` returns a non-zero value the bit
is cleared again and nothing is pushed. -/
def schedule_add (s : schedule) (idx : Nat) : Option (schedule × Int) :=
  if idx < dag_size s.g ∧ s.order.length < dag_size s.g then
    if (bitmap_set s.contents idx true).2 != false then
      some ({ s with contents :=
                (bitmap_set (bitmap_set s.contents idx true).1 idx false).1 }, -1)
    else
      some ({ s with contents := (bitmap_set s.contents idx true).1,
                     order := s.order ++ [idx] }, 0)
  else none

/-- The function `schedule_pop`, with its return code; `none` when the
assertion `order.size > 0` fails. -/
def schedule_pop (s : schedule) : Option (schedule × Int) :=
  if 0 < s.order.length then
    some ({ s with contents :=
              (bitmap_set s.contents (s.order.getD (s.order.length - 1) 0) false).1,
                   order := s.order.dropLast }, 0)
  else none

/-- The loop of `schedule_is_valid` over `order`, with the bitmap
`prev_jobs`. -/
def valid_loop (g : dag) : List Nat → bitmap → Bool
  | [], _ => true
  | idx :: rest, prev_jobs =>
    if (dag_preds g idx).all (fun p => bitmap_get prev_jobs p == true) then
      valid_loop g rest (bitmap_set prev_jobs idx true).1
    else false

/-- The function `schedule_is_valid`. -/
def schedule_is_valid (s : schedule) : Bool :=
  valid_loop s.g s.order (bitmap_create (schedule_size s))

/-- The arrays of `schedule_compute`. -/
structure compute_state where
  task_ends : Nat → Nat
  assignments : Nat → Nat
  end_times : Nat → Nat

/-- The first inner loop of `schedule_compute`: the pair `(cur_time, cur_m)`
after scanning the `m` machines. -/
def machine_scan (end_times : Nat → Nat) (m : Nat) : Nat × Nat :=
  (List.range m).foldl
    (fun acc i => if end_times i < acc.1 then (end_times i, i) else acc) (UINT_MAX, 0)

/-- The second inner loop of `schedule_compute`: the pair
`(max_pred_end, max_pred_m)` after scanning the predecessors. -/
def pred_scan (task_ends assignments : Nat → Nat) (preds : List Nat) : Nat × Nat :=
  preds.foldl
    (fun acc p => if task_ends p > acc.1 then (task_ends p, assignments p) else acc) (0, 0)

/-- The machine and the start time `schedule_compute` chooses for `idx`. -/
def placement (g : dag) (m : Nat) (st : compute_state) (idx : Nat) : Nat × Nat :=
  let cur := machine_scan st.end_times m
  let mp := pred_scan st.task_ends st.assignments (dag_preds g idx)
  if mp.1 > cur.1 then (mp.2, mp.1) else (cur.2, cur.1)

/-- One iteration of the main loop of `schedule_compute`. -/
def compute_step (g : dag) (m : Nat) (st : compute_state) (idx : Nat) : compute_state :=
  let pl := placement g m st idx
  let fin := to_unsigned ((pl.2 : Int) + dag_weight g idx)
  { assignments := Function.update st.assignments idx pl.1,
    task_ends := Function.update st.task_ends idx fin,
    end_times := Function.update st.end_times pl.1 fin }

/-- The arrays of `schedule_compute` after its `memset` calls.  The source
clears only the first `schedule_size` entries of `task_ends` and leaves the
other entries of the array of `schedule_build` as they are.  On a valid order
every entry is written before it is read (`valid_reads_written`), so that the
values given here to the other entries do not matter.  On an order for which
`reads_unwritten` holds the source reads an entry that holds no determined
value, and what the embedding computes from there on says nothing of the
program: the theorems on the length and on the scheduled ends are stated for
valid orders. -/
def compute_init : compute_state :=
  { task_ends := fun _ => 0, assignments := fun _ => UINT_MAX, end_times := fun _ => 0 }

/-- The arrays of `schedule_compute` after its main loop. -/
def compute_run (g : dag) (m : Nat) (order : List Nat) : compute_state :=
  order.foldl (compute_step g m) compute_init

/-- The last loop of `schedule_compute`: the largest entry of `end_times`. -/
def final_time (end_times : Nat → Nat) (m : Nat) : Nat :=
  (List.range m).foldl (fun ft i => if end_times i > ft then end_times i else ft) 0

/-- The function `schedule_compute`: its `int` result and the array
`task_ends` it fills. -/
def schedule_compute (s : schedule) : Int × (Nat → Nat) :=
  let st := compute_run s.g s.m s.order
  (to_int (final_time st.end_times s.m), st.task_ends)

/-- The function `schedule_build` as compiled without `FUJITA`, with its
return code. -/
def schedule_build (s : schedule) (_total_time : Nat) : schedule × Int :=
  ({ s with length := to_unsigned (schedule_compute s).1 }, 0)

/-- The function `schedule_length`. -/
def schedule_length (s : schedule) : Nat := s.length

/-! ## Binary heap (`binheap.h`) -/

/-- Modelled from the spec: `binheap.c` is not among the sources.  Insertion
of an entry in a list kept by decreasing key, an entry going behind the
entries of equal key. -/
def heap_insert (x : Nat × Int) : List (Nat × Int) → List (Nat × Int)
  | [] => [x]
  | y :: ys => if x.2 > y.2 then x :: y :: ys else y :: heap_insert x ys

/-- Modelled from the spec: the values `binheap_get` returns, in sequence,
once the given `(value, key)` entries have been put: largest key first
(`test_binheap`). -/
def list_heap (items : List (Nat × Int)) : List Nat :=
  (items.foldl (fun h x => heap_insert x h) []).map Prod.fst

/-- What the embedding assumes of a binary heap given as the function from
the entries put to the sequence of values got: every entry comes out once,
by decreasing key. -/
def binheap_spec (heap : List (Nat × Int) → List Nat) : Prop :=
  ∀ items : List (Nat × Int), ∃ sorted : List (Nat × Int),
    sorted.Perm items ∧ sorted.map Prod.fst = heap items ∧
    sorted.Pairwise (fun a b => a.2 ≥ b.2)

/-! ## Branch and bound (`bbsearch.c`, built without `FUJITA`) -/

/-- What a call of `bb` works with besides its arguments: the heap, the
readings of `clock()` in the order of the calls, and the two file-scope
variables. -/
structure bb_env where
  heap : List (Nat × Int) → List Nat
  clock : Nat → Int
  do_timeout : Bool
  end_time : Int

/-- The value `bb` returns and the state it leaves: the schedule, the
ready set and the number of `clock()` calls made so far. -/
structure bb_result where
  value : Int
  s : schedule
  ready_set : bitmap
  ticks : Nat

/-- The loop of `bb` over the successors of the task just added: the
successors whose predecessors are all scheduled are pushed on `new_ready`
and marked in the ready set. -/
def mark_ready (s : schedule) (succs : List Nat) (ready_set : bitmap) : List Nat × bitmap :=
  succs.foldl
    (fun acc succ =>
      if (dag_preds s.g succ).all (fun p => schedule_contains s p) then
        (succ :: acc.1, (bitmap_set acc.2 succ true).1)
      else acc)
    ([], ready_set)

/-- The loop of `bb` that pops `new_ready` and clears the bits. -/
def clear_ready (new_ready : List Nat) (ready_set : bitmap) : bitmap :=
  new_ready.foldl (fun b r => (bitmap_set b r false).1) ready_set

/-- The loop `while (binheap_size(sorter) > 0)` of `bb` over the values
the heap returns; `rec` is the recursive call of `bb`. -/
def bb_loop (rec : schedule → bitmap → Nat → Nat → Option bb_result) :
    List Nat → schedule → bitmap → Nat → Nat → Option bb_result
  | [], s, ready_set, best_soln, ticks => some ⟨to_int best_soln, s, ready_set, ticks⟩
  | new_idx :: rest, s, ready_set, best_soln, ticks =>
    match schedule_add s new_idx with
    | none => none
    | some (s1, _) =>
      let mr := mark_ready s1 (dag_succs s1.g new_idx) ready_set
      match rec s1 (bitmap_set mr.2 new_idx false).1 best_soln ticks with
      | none => none
      | some r =>
        let ready3 := (bitmap_set r.ready_set new_idx true).1
        if r.value < 0 then some ⟨r.value, r.s, ready3, r.ticks⟩
        else
          let best1 := if best_soln < to_unsigned r.value then best_soln
                       else to_unsigned r.value
          match schedule_pop r.s with
          | none => none
          | some (s2, _) => bb_loop rec rest s2 (clear_ready mr.1 ready3) best1 r.ticks

/-- The entries `bb` puts in the heap: the ready tasks by increasing
identifier, each with its level as key. -/
def ready_items (g : dag) (ready_set : bitmap) : List (Nat × Int) :=
  ((List.range (dag_size g)).filter (fun i => bitmap_get ready_set i == true)).map
    (fun i => (i, dag_level g i))

/-- The function `bb` as compiled without `FUJITA`; `fuel` bounds the depth
of the recursion. -/
def bb (env : bb_env) : Nat → schedule → bitmap → Nat → Nat → Option bb_result
  | 0, _, _, _, _ => none
  | fuel + 1, s, ready_set, best_soln, ticks =>
    if env.do_timeout && decide (env.clock ticks ≥ env.end_time) then
      some ⟨-2, s, ready_set, ticks + 1⟩
    else
      let ticks1 := if env.do_timeout then ticks + 1 else ticks
      let sb := schedule_build s 0
      if sb.2 ≠ 0 then some ⟨-1, sb.1, ready_set, ticks1⟩
      else if schedule_size sb.1 = dag_size (schedule_dag sb.1) then
        some ⟨to_int (if best_soln < schedule_length sb.1 then best_soln
                      else schedule_length sb.1), sb.1, ready_set, ticks1⟩
      else
        bb_loop (bb env fuel) (env.heap (ready_items (schedule_dag sb.1) ready_set))
          sb.1 ready_set best_soln ticks1

/-- The function `bbsearch`.  `heap` stands for the binary heap, `clock n`
is the reading of the `n`-th call of `clock()`, `clocks_per_sec` the
constant `CLOCKS_PER_SEC` and `fuel` the depth allowed to the recursion of
`bb`; `none` when an assertion fails or the fuel runs out. -/
def bbsearch (heap : List (Nat × Int) → List Nat) (clock : Nat → Int) (clocks_per_sec : Int)
    (fuel : Nat) (g : dag) (m : Nat) (timeout : Int) : Option Int :=
  match (schedule_create g m).bind (fun s0 => schedule_add s0 (dag_source g)) with
  | none => none
  | some (s, _) =>
    let env : bb_env :=
      if timeout < 0 then ⟨heap, clock, false, 0⟩
      else ⟨heap, clock, true, clock 0 + timeout * clocks_per_sec⟩
    let ticks := if timeout < 0 then 0 else 1
    let ready_set := (dag_succs g (dag_source g)).foldl
      (fun b i => (bitmap_set b i true).1) (bitmap_create 0)
    (bb env fuel s ready_set UINT_MAX ticks).map (fun r => r.value)

/-! ## Orders -/

/-- Every task of `order` comes after all its predecessors: each predecessor
of the task at index `i` stands at an index strictly below `i`. -/
def order_valid (g : dag) (order : List Nat) : Prop :=
  ∀ (i t : Nat), order[i]? = some t → ∀ p ∈ dag_preds g t,
    ∃ j : Nat, j < i ∧ order[j]? = some p

/-! ## Well-formed graphs -/

/-- Shape of a node table made by `dag_create` and `dag_vertex`: every
predecessor has a smaller identifier, successor and predecessor lists
mirror each other, and every task but the source has a predecessor. -/
structure nodes_wf (nodes : List node) : Prop where
  pos : 0 < nodes.length
  preds_lt : ∀ x p, p ∈ (node_at nodes x).preds → p < x
  succs_lt : ∀ x y, y ∈ (node_at nodes x).succs → y < nodes.length
  mem_iff : ∀ x y, y ∈ (node_at nodes x).succs ↔ x ∈ (node_at nodes y).preds
  preds_ne : ∀ x, 0 < x → x < nodes.length → (node_at nodes x).preds ≠ []

/-- Shape of a built graph: a well-formed node table in which the last task
(the sink) is the only one without successor. -/
structure dag_wf (g : dag) : Prop where
  wf : nodes_wf g.nodes
  two : 2 ≤ g.nodes.length
  succs_ne : ∀ x, x + 1 < g.nodes.length → (node_at g.nodes x).succs ≠ []

/-- No task lists the source among several predecessors: a predecessor list
that names the source is `[source]`. -/
def source_alone (nodes : List node) : Prop :=
  ∀ x, 0 ∈ (node_at nodes x).preds → (node_at nodes x).preds = [0]

/-- Every dependency array of the calls names user tasks only
(identifiers from 1 on). -/
def calls_user_deps (calls : List (Int × List Nat)) : Prop :=
  ∀ c ∈ calls, ∀ d ∈ c.2, 1 ≤ d

/-- Every weight of the calls is non-negative. -/
def calls_nonneg (calls : List (Int × List Nat)) : Prop :=
  ∀ c ∈ calls, 0 ≤ c.1

/-- The sum of the weights of the calls. -/
def calls_total (calls : List (Int × List Nat)) : Int :=
  (calls.map Prod.fst).sum

/-! ## Invariants of the level computation -/

/-- Two node tables that differ in levels only. -/
def same_shape (ns0 ns : List node) : Prop :=
  ns.length = ns0.length ∧
    ∀ i, (node_at ns i).weight = (node_at ns0 i).weight ∧
      (node_at ns i).preds = (node_at ns0 i).preds ∧
      (node_at ns i).succs = (node_at ns0 i).succs

/-- Invariant of the level loop of `dag_build` over the node table `ns0` it
starts from: only levels change, the sink is finished with level 0, and a
finished task other than the sink holds its weight plus the largest level
of its successors, all finished. -/
structure lvl_inv (ns0 : List node) (st : lvl_state) : Prop where
  shape : same_shape ns0 st.nodes
  fin_lt : ∀ x, bitmap_get st.lvl_finished x = true → x < ns0.length
  sink_fin : bitmap_get st.lvl_finished (ns0.length - 1) = true
  sink_level : (node_at st.nodes (ns0.length - 1)).level = 0
  fin_level : ∀ x, bitmap_get st.lvl_finished x = true → x ≠ ns0.length - 1 →
    ∃ M, lvl_scan st.nodes st.lvl_finished (node_at ns0 x).succs 0 = some M ∧
      (node_at st.nodes x).level = to_unsigned ((node_at ns0 x).weight + (M : Int))

/-- Progress of the level loop while it visits `idx` with the predecessors
`rem` still to handle: a task whose successors are all finished is finished,
or has a successor on the work list, or is one of `rem`. -/
def lvl_progress (ns0 : List node) (fin : bitmap) (wl : List Nat) (idx : Nat)
    (rem : List Nat) : Prop :=
  ∀ q, (node_at ns0 q).succs ≠ [] →
    (∀ s ∈ (node_at ns0 q).succs, bitmap_get fin s = true) →
    bitmap_get fin q = true ∨ (∃ s ∈ (node_at ns0 q).succs, s ∈ wl) ∨
      (idx ∈ (node_at ns0 q).succs ∧ q ∈ rem)

/-- The levels of a built graph, as `unsigned` values: the sink has level 0
and every other task holds its weight plus the largest level `M` among its
successors, reduced modulo `2^32`. -/
structure levels_ok (g : dag) : Prop where
  sink : (node_at g.nodes (g.nodes.length - 1)).level = 0
  inner : ∀ x, x + 1 < g.nodes.length → ∃ M : Nat,
    (node_at g.nodes x).level = to_unsigned ((node_at g.nodes x).weight + (M : Int)) ∧
    (∀ s ∈ (node_at g.nodes x).succs, (node_at g.nodes s).level ≤ M) ∧
    ∃ s ∈ (node_at g.nodes x).succs, M = (node_at g.nodes s).level

/-- The sum of the weights of the tasks from `x` on. -/
def weight_from (nodes : List node) (x : Nat) : Int := ((nodes.drop x).map node.weight).sum

/-- Everything the later proofs use of a graph made by `dag_create`,
`dag_vertex` calls and `dag_build`. -/
structure built_graph (calls : List (Int × List Nat)) (g : dag) : Prop where
  wf : dag_wf g
  levels : levels_ok g
  weights : g.nodes.map node.weight = 0 :: (calls.map Prod.fst ++ [0])

/-! ## List-scheduled makespan of an order -/

/-- The value `schedule_length` holds after `schedule_build` on a schedule
of `g` and `m` machines whose order is `order`. -/
def list_makespan (g : dag) (m : Nat) (order : List Nat) : Nat :=
  schedule_length (schedule_build { schedule_new g m with order := order } 0).1

/-- The sum of the weights of the tasks of `order`. -/
def order_weight (g : dag) (order : List Nat) : Int := (order.map (dag_weight g)).sum

/-- A complete order: every task of the graph exactly once. -/
def order_complete (g : dag) (order : List Nat) : Prop :=
  order.Nodup ∧ ∀ t, t ∈ order ↔ t < dag_size g

/-! ## Invariants of the search -/

/-- The ready set holds exactly the tasks that are not in `order` and whose
predecessors are all in `order`. -/
def ready_ok (g : dag) (order : List Nat) (ready_set : bitmap) : Prop :=
  ∀ i, bitmap_get ready_set i = true ↔
    (i < dag_size g ∧ i ∉ order ∧ ∀ p ∈ dag_preds g i, p ∈ order)

/-- The contains bitmap holds exactly the tasks of `order`. -/
def contents_ok (s : schedule) : Prop :=
  ∀ i, schedule_contains s i = true ↔ i ∈ s.order

/-- State of the schedule and of the ready set at the entry of a `bb` call. -/
structure bb_pre (g : dag) (m : Nat) (s : schedule) (ready_set : bitmap) : Prop where
  hg : s.g = g
  hm : s.m = m
  nodup : s.order.Nodup
  lt : ∀ t ∈ s.order, t < dag_size g
  valid : order_valid g s.order
  contents : contents_ok s
  ready : ready_ok g s.order ready_set

/-- A complete valid order that starts with the tasks of `front`. -/
def completion (g : dag) (front o : List Nat) : Prop :=
  (∃ rest, o = front ++ rest) ∧ order_complete g o ∧ order_valid g o

/-- The call left the order, the contains bitmap and the ready set as they
were at its entry. -/
def bb_restored (s : schedule) (ready_set : bitmap) (r : bb_result) : Prop :=
  r.s.order = s.order ∧ r.s.contents = s.contents ∧ r.s.g = s.g ∧ r.s.m = s.m ∧
    r.ready_set = ready_set

/-- No reading of the clock with index in `[a, b)` reaches the deadline. -/
def clock_quiet (env : bb_env) (a b : Nat) : Prop :=
  ∀ j, a ≤ j → j < b → env.clock j < env.end_time

/-- The call ran into the deadline: its last reading of the clock reached
the deadline, no earlier reading did, and it returned -2. -/
def bb_timed_out (env : bb_env) (ticks : Nat) (r : bb_result) : Prop :=
  env.do_timeout = true ∧ r.value = -2 ∧ ticks < r.ticks ∧
    env.end_time ≤ env.clock (r.ticks - 1) ∧ clock_quiet env ticks (r.ticks - 1)

/-- The call ran to its end: state restored, no reading reached the
deadline, and the value is the least of `best_soln` and the makespans of
the orders in `cand`. -/
def bb_normal (g : dag) (m : Nat) (env : bb_env) (cand : List Nat → Prop) (s : schedule)
    (ready_set : bitmap) (best_soln ticks : Nat) (r : bb_result) : Prop :=
  bb_restored s ready_set r ∧
    (env.do_timeout = false → r.ticks = ticks) ∧ ticks ≤ r.ticks ∧
    clock_quiet env ticks r.ticks ∧
    ∃ V : Nat, r.value = (V : Int) ∧ V < 2147483648 ∧ V ≤ best_soln ∧
      (∀ o, cand o → V ≤ list_makespan g m o) ∧
      (V = best_soln ∨ ∃ o, cand o ∧ V = list_makespan g m o)

/-- The schedule once `schedule_add` has marked and pushed the task `x`. -/
@[reducible] def schedule_pushed (s : schedule) (x : Nat) : schedule :=
  { s with contents := (bitmap_set s.contents x true).1, order := s.order ++ [x] }

/-- The successors `bb` pushes on `new_ready` after adding `x`. -/
@[reducible] def ready_new (s : schedule) (ready_set : bitmap) (x : Nat) : List Nat :=
  (mark_ready (schedule_pushed s x) (dag_succs (schedule_pushed s x).g x) ready_set).1

/-- The ready set `bb` hands to the recursive call after adding `x`. -/
@[reducible] def ready_pushed (s : schedule) (ready_set : bitmap) (x : Nat) : bitmap :=
  (bitmap_set (mark_ready (schedule_pushed s x) (dag_succs (schedule_pushed s x).g x)
    ready_set).2 x false).1

/-- The schedule once `schedule_pop` has cleared and popped the last task. -/
@[reducible] def schedule_popped (s : schedule) : schedule :=
  { s with contents := (bitmap_set s.contents (s.order.getD (s.order.length - 1) 0) false).1,
           order := s.order.dropLast }

/-! ## The list-scheduling procedure as the specification words it -/

/-- The largest of the values, 0 when there is none. -/
def max_or_zero : List Int → Int
  | [] => 0
  | [a] => a
  | a :: b :: rest => max a (max_or_zero (b :: rest))

/-- State of the procedure of the specification: busy-until time `E` per
machine, finish time `F` and machine `A` per task, all in the integers. -/
structure spec_state where
  E : Nat → Int
  F : Nat → Int
  A : Nat → Nat

/-- The lowest-indexed machine among `0 .. m-1` whose busy-until time is
minimal. -/
def spec_mu_star (E : Nat → Int) (m : Nat) : Nat :=
  ((List.range m).find? (fun i => (List.range m).all (fun j => decide (E i ≤ E j)))).getD 0

/-- The maximum finish time of the predecessors (0 if there is none). -/
def spec_rho (F : Nat → Int) (preds : List Nat) : Int := max_or_zero (preds.map F)

/-- The machine of the first predecessor, in predecessor-list order, whose
finish time is `rho`. -/
def spec_mu_rho (st : spec_state) (preds : List Nat) (rho : Int) : Nat :=
  st.A ((preds.find? (fun p => decide (st.F p = rho))).getD 0)

/-- One task of the procedure: if `rho > E[mu*]` the task starts on `mu_rho`
at `rho`, otherwise on `mu*` at `E[mu*]`; its finish time is the start plus
its weight and becomes the busy-until time of the chosen machine. -/
def spec_step (g : dag) (m : Nat) (st : spec_state) (t : Nat) : spec_state :=
  let mu := spec_mu_star st.E m
  let rho := spec_rho st.F (dag_preds g t)
  let chosen := if rho > st.E mu then spec_mu_rho st (dag_preds g t) rho else mu
  let start := if rho > st.E mu then rho else st.E mu
  let finish := start + dag_weight g t
  { E := Function.update st.E chosen finish,
    F := Function.update st.F t finish,
    A := Function.update st.A t chosen }

/-- The procedure run over `order`, all busy-until times starting at 0. -/
def spec_run (g : dag) (m : Nat) (order : List Nat) : spec_state :=
  order.foldl (spec_step g m) { E := fun _ => 0, F := fun _ => 0, A := fun _ => 0 }

/-- The length the procedure gives: the maximum over the machines of `E`. -/
def spec_length (g : dag) (m : Nat) (order : List Nat) : Int :=
  max_or_zero ((List.range m).map (spec_run g m order).E)


/-- The arrays of `schedule_compute` hold what the procedure of the
specification holds, and no time exceeds `B`. -/
def compute_refines (c : compute_state) (s : spec_state) (B : Int) : Prop :=
  (∀ i, (c.end_times i : Int) = s.E i) ∧ (∀ t, (c.task_ends t : Int) = s.F t) ∧
  (∀ t, s.F t ≠ 0 → c.assignments t = s.A t) ∧ (∀ i, s.E i ≤ B) ∧ (∀ t, s.F t ≤ B)


/-- The graph obtained by `dag_create`, the given `dag_vertex` calls and
`dag_build`, for calls that `dag_vertex` accepts (the empty graph of
`dag_create` otherwise); used for concrete graphs. -/
def dag_of_calls (calls : List (Int × List Nat)) : dag :=
  (dag_make 100 calls).getD dag_create


/-! ## Enumeration of the complete valid orders of a graph -/

/-- The tasks that can follow `o`: not in `o`, with every predecessor in
`o`. -/
def next_tasks (g : dag) (o : List Nat) : List Nat :=
  (List.range (dag_size g)).filter
    (fun t => !(o.contains t) && (dag_preds g t).all (fun p => o.contains p))

/-- All the ways of extending `o` by `k` tasks, each one after its
predecessors and none twice. -/
def extensions (g : dag) : Nat → List Nat → List (List Nat)
  | 0, o => [o]
  | k + 1, o => (next_tasks g o).flatMap (fun t => extensions g k (o ++ [t]))

/-- The seven tasks of a graph on which three machines do worse than two. -/
def calls_seven : List (Int × List Nat) :=
  [(1, []), (1, []), (1, []), (3, [1, 3]), (3, [1, 2]), (3, [3, 2]), (4, [2])]


/-! ## Concrete inputs -/

/-- One task followed by three tasks that depend on it, all of weight 1. -/
def calls_fork : List (Int × List Nat) := [(1, []), (1, [1]), (1, [1]), (1, [1])]

/-- A task of weight 5 followed by a long and a short task that depend on
it. -/
def calls_long_short : List (Int × List Nat) := [(5, []), (100, [1]), (1, [1])]

/-- A chain of two tasks of weight `INT_MAX`. -/
def calls_big_chain : List (Int × List Nat) := [(2147483647, []), (2147483647, [1])]

/-- Two independent tasks of weights `INT_MAX` and 2. -/
def calls_big_pair : List (Int × List Nat) := [(2147483647, []), (2, [])]

/-- Three independent tasks of weight `INT_MAX`. -/
def calls_big_three : List (Int × List Nat) :=
  [(2147483647, []), (2147483647, []), (2147483647, [])]

/-- A task of weight `INT_MAX` followed by a task of weight 1. -/
def calls_big_level : List (Int × List Nat) := [(2147483647, []), (1, [1])]

/-- A task of weight 5 and a task whose dependency array names the source
and the first task. -/
def calls_source_dep : List (Int × List Nat) := [(5, []), (1, [0, 1])]

/-- The schedule of `g` on `m` machines whose order is `order`, as the calls
`schedule_add` leave it when none fails. -/
def schedule_of (g : dag) (m : Nat) (order : List Nat) : schedule :=
  { schedule_new g m with
    order := order,
    contents := fun i => decide (i ∈ order) }

/-- A non-preemptive schedule of the tasks of `g` on `m` identical machines:
every task has a machine and a start time, no task starts before its
predecessors have finished, and no two tasks occupy the same machine at the
same time. -/
def feasible (g : dag) (m : Nat) (mach : Nat → Nat) (start : Nat → Int) : Prop :=
  (∀ x, x < dag_size g → mach x < m ∧ 0 ≤ start x) ∧
  (∀ x, x < dag_size g → ∀ p ∈ dag_preds g x, start p + dag_weight g p ≤ start x) ∧
  (∀ x y, x < dag_size g → y < dag_size g → x ≠ y → mach x = mach y →
    ∀ τ : Int, ¬ (start x ≤ τ ∧ τ < start x + dag_weight g x ∧
      start y ≤ τ ∧ τ < start y + dag_weight g y))


/-! ## Bound dataflows (`schedule.c`, built with `FUJITA`) -/

/-- The constant `INT_MAX`. -/
def INT_MAX : Int := 2147483647

/-- The constant `INT_MIN`. -/
def INT_MIN : Int := -2147483648

/-- The value of an `int` expression: the mathematical result reduced to 32
bits, two's complement. -/
def wrap_int (x : Int) : Int := to_int (to_unsigned x)

/-- State of a propagation pass of `schedule.c`: the array it fills
(`min_ends` or `max_starts`), its work list (`end_ready` or `start_ready`,
most recent element first) and its bitmap (`end_finished` or
`start_finished`). -/
structure pass_state where
  vals : Nat → Nat
  ready : List Nat
  finished : bitmap

/-- The inner loop of `end_visit` over the predecessors of `succ`: `none`
when some predecessor is not finished (`preds_complete = 0`), otherwise the
largest `min_ends` met (`max_min_end`). -/
def end_scan (min_ends : Nat → Nat) (fin : bitmap) : List Nat → Nat → Option Nat
  | [], max_min_end => some max_min_end
  | p :: rest, max_min_end =>
    if bitmap_get fin p != true then none
    else end_scan min_ends fin rest (if min_ends p > max_min_end then min_ends p else max_min_end)

/-- One iteration of the outer loop of `end_visit`, for the successor
`succ`. -/
def end_visit_succ (g : dag) (st : pass_state) (succ : Nat) : pass_state :=
  if bitmap_get st.finished succ then st
  else
    match end_scan st.vals st.finished (dag_preds g succ) 0 with
    | none => st
    | some max_min_end =>
      { vals := Function.update st.vals succ
          (to_unsigned (dag_weight g succ + (max_min_end : Int))),
        finished := (bitmap_set st.finished succ true).1,
        ready := succ :: st.ready }

/-- The function `end_visit`. -/
def end_visit (g : dag) (st : pass_state) (idx : Nat) : pass_state :=
  (dag_succs g idx).foldl (end_visit_succ g) st

/-- The loop `while (end_ready.size > 0)` of `schedule_min_ends`, run for at
most `fuel` iterations; `none` when the fuel runs out first. -/
def end_loop (g : dag) : Nat → pass_state → Option pass_state
  | 0, _ => none
  | fuel + 1, st =>
    match st.ready with
    | [] => some st
    | idx :: rest => end_loop g fuel (end_visit g { st with ready := rest } idx)

/-- One iteration of the first loop of `schedule_min_ends`. -/
def end_seed (sched_ends : Nat → Nat) (st : pass_state) (idx : Nat) : pass_state :=
  { vals := Function.update st.vals idx (sched_ends idx),
    finished := (bitmap_set st.finished idx true).1,
    ready := idx :: st.ready }

/-- The function `schedule_min_ends`: the array `min_ends` it leaves, given
the array it is passed. -/
def schedule_min_ends (fuel : Nat) (s : schedule) (min_ends sched_ends : Nat → Nat) :
    Option (Nat → Nat) :=
  (end_loop s.g fuel
    (s.order.foldl (end_seed sched_ends)
      { vals := min_ends, ready := [], finished := bitmap_create (dag_size s.g) })).map
    (fun st => st.vals)

/-- The inner loop of `start_visit` over the successors of `pred`: `none`
when some successor is not finished (`succs_complete = 0`), otherwise the
smallest `max_starts` met (`min_max_start`). -/
def start_scan (max_starts : Nat → Nat) (fin : bitmap) : List Nat → Nat → Option Nat
  | [], min_max_start => some min_max_start
  | x :: rest, min_max_start =>
    if bitmap_get fin x != true then none
    else start_scan max_starts fin rest
      (if max_starts x < min_max_start then max_starts x else min_max_start)

/-- The value `start_visit` stores for `pred`: `min_max_start - weight` in
`unsigned` arithmetic when it is below `total_time`, else `total_time`. -/
def start_value (g : dag) (total_time pred min_max_start : Nat) : Nat :=
  if to_unsigned ((min_max_start : Int) - dag_weight g pred) < total_time then
    to_unsigned ((min_max_start : Int) - dag_weight g pred)
  else total_time

/-- One iteration of the outer loop of `start_visit`, for the predecessor
`pred`. -/
def start_visit_pred (g : dag) (total_time : Nat) (st : pass_state) (pred : Nat) :
    pass_state :=
  if bitmap_get st.finished pred then st
  else
    match start_scan st.vals st.finished (dag_succs g pred) (to_unsigned INT_MAX) with
    | none => st
    | some min_max_start =>
      { vals := Function.update st.vals pred (start_value g total_time pred min_max_start),
        finished := (bitmap_set st.finished pred true).1,
        ready := pred :: st.ready }

/-- The function `start_visit`. -/
def start_visit (g : dag) (total_time : Nat) (st : pass_state) (idx : Nat) : pass_state :=
  (dag_preds g idx).foldl (start_visit_pred g total_time) st

/-- The loop `while (start_ready.size > 0)` of `schedule_max_starts`, run for
at most `fuel` iterations; `none` when the fuel runs out first. -/
def start_loop (g : dag) (total_time : Nat) : Nat → pass_state → Option pass_state
  | 0, _ => none
  | fuel + 1, st =>
    match st.ready with
    | [] => some st
    | idx :: rest =>
      start_loop g total_time fuel (start_visit g total_time { st with ready := rest } idx)

/-- One iteration of the first loop of `schedule_max_starts` (nothing is
pushed on the work list). -/
def start_seed (g : dag) (sched_ends : Nat → Nat) (st : pass_state) (idx : Nat) :
    pass_state :=
  { vals := Function.update st.vals idx
      (to_unsigned ((sched_ends idx : Int) - dag_weight g idx)),
    finished := (bitmap_set st.finished idx true).1,
    ready := st.ready }

/-- The state of `schedule_max_starts` when its `while` loop starts: the
tasks of the order are seeded, then the sink gets `total_time`, is marked
finished and pushed. -/
def start_init (s : schedule) (max_starts : Nat → Nat) (total_time : Nat)
    (sched_ends : Nat → Nat) : pass_state :=
  let st := s.order.foldl (start_seed s.g sched_ends)
    { vals := max_starts, ready := [], finished := bitmap_create (dag_size s.g) }
  { vals := Function.update st.vals (dag_sink s.g) total_time,
    finished := (bitmap_set st.finished (dag_sink s.g) true).1,
    ready := dag_sink s.g :: st.ready }

/-- The value `diff` of `schedule_max_starts`: `total_time - level(source)`
computed in `unsigned` and stored in an `int`. -/
def start_diff (s : schedule) (total_time : Nat) : Int :=
  to_int (to_unsigned ((total_time : Int) - dag_level s.g (dag_source s.g)))

/-- The function `schedule_max_starts`: the array `max_starts` it leaves,
given the array it is passed. -/
def schedule_max_starts (fuel : Nat) (s : schedule) (max_starts : Nat → Nat)
    (total_time : Nat) (sched_ends : Nat → Nat) : Option (Nat → Nat) :=
  (start_loop s.g total_time fuel (start_init s max_starts total_time sched_ends)).map
    (fun st i =>
      if i < dag_size s.g then to_unsigned ((st.vals i : Int) + start_diff s total_time)
      else st.vals i)

/-- The arrays `schedule_build` works on: the arrays of the schedule when
both are allocated, otherwise two fresh arrays from `malloc`, whose contents
`fresh_starts` and `fresh_ends` are arbitrary. -/
def build_arrays (fresh_starts fresh_ends : Nat → Nat) (s : schedule) :
    (Nat → Nat) × (Nat → Nat) :=
  match s.max_starts, s.min_ends with
  | some a, some b => (a, b)
  | _, _ => (fresh_starts, fresh_ends)

/-- The target `schedule_build` uses: `dag_level(source)` when `total_time`
is 0. -/
def build_target (s : schedule) (total_time : Nat) : Nat :=
  if total_time = 0 then to_unsigned (dag_level s.g (dag_source s.g)) else total_time

/-- The schedule `schedule_build` leaves when both passes return. -/
def built_schedule (s : schedule) (length : Nat) (max_starts min_ends : Nat → Nat) :
    schedule :=
  { s with length := length, max_starts := some max_starts, min_ends := some min_ends }

/-- The function `schedule_build` as compiled with `FUJITA`, with its return
code; the two passes run with `fuel`, `none` when it runs out. -/
def schedule_build_fujita (fuel : Nat) (fresh_starts fresh_ends : Nat → Nat) (s : schedule)
    (total_time : Nat) : Option (schedule × Int) :=
  let sc := schedule_compute s
  let arrays := build_arrays fresh_starts fresh_ends s
  match schedule_max_starts fuel s arrays.1 (build_target s total_time) sc.2 with
  | none => none
  | some max_starts =>
    match schedule_min_ends fuel s arrays.2 sc.2 with
    | none => none
    | some min_ends => some (built_schedule s (to_unsigned sc.1) max_starts min_ends, 0)

/-- The function `schedule_max_start` (the source asserts `id < dag_size` and
reads the array, which `schedule_build` has allocated). -/
def schedule_max_start (s : schedule) (id : Nat) : Nat := (s.max_starts.getD (fun _ => 0)) id

/-- The function `schedule_min_end` (the source asserts `id < dag_size` and
reads the array, which `schedule_build` has allocated). -/
def schedule_min_end (s : schedule) (id : Nat) : Nat := (s.min_ends.getD (fun _ => 0)) id


/-! ## Bound engines (`schedule.c` and `bbsearch.c`, built with `FUJITA`) -/

/-- The entries `get_comp_list` puts in the heap, in sequence: for every task
its `max_start` and its `min_end`, each keyed by the negated value read as an
`int`. -/
def comp_items (s : schedule) : List (Nat × Int) :=
  (List.range (dag_size s.g)).flatMap (fun i =>
    [(schedule_max_start s i, wrap_int (-(to_int (schedule_max_start s i)))),
     (schedule_min_end s i, wrap_int (-(to_int (schedule_min_end s i))))])

/-- The second loop of `get_comp_list`: a value got from the heap is pushed
unless it equals the last value pushed. -/
def comp_push (last : Nat) : List Nat → List Nat
  | [] => []
  | c :: rest => if c != last then c :: comp_push c rest else comp_push last rest

/-- The function `get_comp_list`: the list `comp_list` it fills. -/
def get_comp_list (heap : List (Nat × Int) → List Nat) (s : schedule) : List Nat :=
  match heap (comp_items s) with
  | [] => []
  | c :: rest => c :: comp_push c rest

/-- The addend of `work_density` for task `k`. -/
def density_term (s : schedule) (ci cj k : Nat) : Int :=
  let case1 := to_int (to_unsigned ((schedule_min_end s k : Int) - (ci : Int)))
  let case2 := dag_weight s.g k
  let case3 := to_int (to_unsigned ((cj : Int) - (schedule_max_start s k : Int)))
  let case4 := to_int (to_unsigned ((cj : Int) - (ci : Int)))
  let min1 := if case1 < case2 then case1 else case2
  let min2 := if case3 < case4 then case3 else case4
  if min1 < min2 then min1 else min2

/-- The function `work_density`. -/
def work_density (s : schedule) (ci cj : Nat) : Int :=
  (List.range (dag_size s.g)).foldl
    (fun wd k =>
      if schedule_max_start s k < cj ∧ schedule_min_end s k > ci then
        wrap_int (wd + density_term s ci cj k)
      else wd) 0

/-- The two nested loops of `schedule_fernandez_bound` and of
`schedule_machine_bound` over the pairs `i < j` of `comp_list`, keeping the
largest value of `cur`. -/
def pairs_max (cur : Nat → Nat → Int) : List Nat → Int → Int
  | [], mx => mx
  | ci :: rest, mx =>
    pairs_max cur rest (rest.foldl (fun mx cj => if cur ci cj > mx then cur ci cj else mx) mx)

/-- The value `cur_q` of `schedule_fernandez_bound`: the difference, the
quotient by the `unsigned` machine count and the remainder test are
`unsigned`, the sum is stored in an `int`. -/
def fernandez_q (s : schedule) (ci cj : Nat) : Int :=
  to_int (to_unsigned
    ((to_unsigned ((ci : Int) - (cj : Int)) : Int) +
      ((to_unsigned (work_density s ci cj) / s.m : Nat) : Int) +
      (if to_unsigned (work_density s ci cj) % s.m != 0 then 1 else 0)))

/-- The function `schedule_fernandez_bound`. -/
def schedule_fernandez_bound (heap : List (Nat × Int) → List Nat) (s : schedule) : Int :=
  let max_q := pairs_max (fernandez_q s) (get_comp_list heap s) INT_MIN
  if max_q > 0 then wrap_int (dag_level s.g (dag_source s.g) + max_q)
  else dag_level s.g (dag_source s.g)

/-- The value `cur_m` of `schedule_machine_bound` when its division does not
trap: `int` division, which truncates. -/
def machine_m (s : schedule) (ci cj : Nat) : Int :=
  wrap_int
    (Int.tdiv (work_density s ci cj) (to_int (to_unsigned ((cj : Int) - (ci : Int)))) +
      (if Int.tmod (work_density s ci cj) (to_int (to_unsigned ((cj : Int) - (ci : Int)))) != 0
        then 1 else 0))

/-- The division of `schedule_machine_bound` traps for the pair `c_i`, `c_j`:
the `int` divisor `interval` is 0, or the dividend is `INT_MIN` and the
divisor is -1. -/
def machine_traps (s : schedule) (ci cj : Nat) : Bool :=
  decide (to_int (to_unsigned ((cj : Int) - (ci : Int))) = 0) ||
    (decide (work_density s ci cj = INT_MIN) &&
      decide (to_int (to_unsigned ((cj : Int) - (ci : Int))) = -1))

/-- Some pair `i < j` of the entries of the list satisfies `p`. -/
def pairs_any (p : Nat → Nat → Bool) : List Nat → Bool
  | [] => false
  | ci :: rest => rest.any (p ci) || pairs_any p rest

/-- A division of `schedule_machine_bound` traps, so that the function does
not return. -/
def machine_bound_traps (heap : List (Nat × Int) → List Nat) (s : schedule) : Bool :=
  pairs_any (machine_traps s) (get_comp_list heap s)

/-- The function `schedule_machine_bound`: the value it returns when none of
its divisions traps. -/
def schedule_machine_bound (heap : List (Nat × Int) → List Nat) (s : schedule) : Int :=
  pairs_max (machine_m s) (get_comp_list heap s) INT_MIN

/-- The test `min_m <= schedule_m(s)` of `fujita_bound`, in which the `int`
is converted to `unsigned`. -/
def machines_suffice (heap : List (Nat × Int) → List Nat) (s : schedule) : Bool :=
  decide (to_unsigned (schedule_machine_bound heap s) ≤ schedule_m s)

/-- The first loop of `fujita_bound`, from the value `delta`: the schedule
and the `delta` it ends with; `none` when `assert(delta != 0)` fails, a
division of `schedule_machine_bound` traps, a pass of `schedule_build` runs
out of `bfuel` or the loop runs out of fuel. -/
def fujita_double (heap : List (Nat × Int) → List Nat) (bfuel : Nat)
    (fresh_starts fresh_ends : Nat → Nat) : Nat → schedule → Nat → Option (schedule × Nat)
  | 0, _, _ => none
  | fuel + 1, s, delta =>
    match schedule_build_fujita bfuel fresh_starts fresh_ends s
        (to_unsigned (dag_level s.g (dag_source s.g) + (delta : Int))) with
    | none => none
    | some (s1, _) =>
      if machine_bound_traps heap s1 then none
      else if machines_suffice heap s1 then some (s1, delta)
      else if to_unsigned ((delta : Int) * 2) = 0 then none
      else fujita_double heap bfuel fresh_starts fresh_ends fuel s1
        (to_unsigned ((delta : Int) * 2))

/-- The second loop of `fujita_bound`, the binary search: the schedule and
`best_time` it ends with; `none` as in the first loop. -/
def fujita_search (heap : List (Nat × Int) → List Nat) (bfuel : Nat)
    (fresh_starts fresh_ends : Nat → Nat) :
    Nat → schedule → Int → Int → Int → Option (schedule × Int)
  | 0, _, _, _, _ => none
  | fuel + 1, s, low_time, high_time, best_time =>
    if wrap_int (Int.tdiv (wrap_int (high_time - low_time)) 2 + low_time) = low_time then
      some (s, best_time)
    else
      match schedule_build_fujita bfuel fresh_starts fresh_ends s
          (to_unsigned (wrap_int (Int.tdiv (wrap_int (high_time - low_time)) 2 + low_time))) with
      | none => none
      | some (s1, _) =>
        if machine_bound_traps heap s1 then none
        else if machines_suffice heap s1 then
          fujita_search heap bfuel fresh_starts fresh_ends fuel s1 low_time
            (wrap_int (Int.tdiv (wrap_int (high_time - low_time)) 2 + low_time))
            (if best_time < wrap_int (Int.tdiv (wrap_int (high_time - low_time)) 2 + low_time)
              then best_time
              else wrap_int (Int.tdiv (wrap_int (high_time - low_time)) 2 + low_time))
        else
          fujita_search heap bfuel fresh_starts fresh_ends fuel s1
            (wrap_int (Int.tdiv (wrap_int (high_time - low_time)) 2 + low_time))
            high_time best_time

/-- The function `fujita_bound`: the schedule it leaves and the value it
returns. -/
def fujita_bound (heap : List (Nat × Int) → List Nat) (fuel bfuel : Nat)
    (fresh_starts fresh_ends : Nat → Nat) (s : schedule) : Option (schedule × Int) :=
  match fujita_double heap bfuel fresh_starts fresh_ends fuel s 1 with
  | none => none
  | some (s1, delta) =>
    fujita_search heap bfuel fresh_starts fresh_ends fuel s1
      (to_int (to_unsigned (dag_level s1.g (dag_source s1.g) + ((delta / 2 : Nat) : Int))))
      (to_int (to_unsigned (dag_level s1.g (dag_source s1.g) + (delta : Int))))
      (to_int (to_unsigned (dag_level s1.g (dag_source s1.g) + (delta : Int))))


/-! ## The two propagation passes as instances of one rule -/

/-- What tells the two propagation passes of `schedule.c` apart: the tasks
`out idx` a visit of `idx` looks at, the tasks `inn x` scanned for each of
them, the accumulation `op` of a scanned value from the start value `e`, and
the value `fz x a` stored for `x`. -/
structure pass_rule where
  out : Nat → List Nat
  inn : Nat → List Nat
  op : Nat → Nat → Nat
  e : Nat
  fz : Nat → Nat → Nat

/-- The inner scan of a visit under the rule `r`. -/
def rule_scan (r : pass_rule) (vals : Nat → Nat) (fin : bitmap) : List Nat → Nat → Option Nat
  | [], a => some a
  | p :: rest, a =>
    if bitmap_get fin p != true then none
    else rule_scan r vals fin rest (r.op (vals p) a)

/-- One iteration of the outer loop of a visit under the rule `r`. -/
def rule_visit_one (r : pass_rule) (st : pass_state) (x : Nat) : pass_state :=
  if bitmap_get st.finished x then st
  else
    match rule_scan r st.vals st.finished (r.inn x) r.e with
    | none => st
    | some a =>
      { vals := Function.update st.vals x (r.fz x a),
        finished := (bitmap_set st.finished x true).1,
        ready := x :: st.ready }

/-- A visit under the rule `r`. -/
def rule_visit (r : pass_rule) (st : pass_state) (idx : Nat) : pass_state :=
  (r.out idx).foldl (rule_visit_one r) st

/-- The work-list loop under the rule `r`. -/
def rule_loop (r : pass_rule) : Nat → pass_state → Option pass_state
  | 0, _ => none
  | fuel + 1, st =>
    match st.ready with
    | [] => some st
    | idx :: rest => rule_loop r fuel (rule_visit r { st with ready := rest } idx)

/-- The accumulation of the values of the tasks of `l`, without the test of
the bitmap. -/
def rule_acc (r : pass_rule) (vals : Nat → Nat) (l : List Nat) : Nat :=
  l.foldl (fun a p => r.op (vals p) a) r.e

/-- The rule of `end_visit`. -/
def end_rule (g : dag) : pass_rule :=
  { out := dag_succs g, inn := dag_preds g,
    op := fun v a => if v > a then v else a, e := 0,
    fz := fun x a => to_unsigned (dag_weight g x + (a : Int)) }

/-- The rule of `start_visit`. -/
def start_rule (g : dag) (total_time : Nat) : pass_rule :=
  { out := dag_preds g, inn := dag_succs g,
    op := fun v a => if v < a then v else a, e := to_unsigned INT_MAX,
    fz := fun x a => start_value g total_time x a }

/-- What a pass uses of the graph of `N` tasks: the tasks looked at are
tasks, `out` and `inn` are converse, and the scanned tasks have a smaller
rank `rk`. -/
structure rule_graph (r : pass_rule) (N : Nat) (rk : Nat → Nat) : Prop where
  out_lt : ∀ x y, x < N → y ∈ r.out x → y < N
  inn_lt : ∀ x y, x < N → y ∈ r.inn x → y < N
  dual : ∀ x y, y ∈ r.out x ↔ x ∈ r.inn y
  rank : ∀ x y, y ∈ r.inn x → rk y < rk x

/-- Invariant of a pass that started with the array `vals0` and the finished
tasks `fin0`: finished tasks and tasks of the work list are tasks, the
entries of the tasks finished at the start and of the unfinished tasks are
those of `vals0`, and a task finished later holds the value of the rule over
its scanned tasks, all finished. -/
structure pass_inv (r : pass_rule) (N : Nat) (vals0 : Nat → Nat) (fin0 : bitmap)
    (st : pass_state) : Prop where
  fin_lt : ∀ x, bitmap_get st.finished x = true → x < N
  ready_lt : ∀ x ∈ st.ready, x < N
  seed : ∀ x, bitmap_get fin0 x = true →
    bitmap_get st.finished x = true ∧ st.vals x = vals0 x
  frame : ∀ x, bitmap_get st.finished x = false → st.vals x = vals0 x
  value : ∀ x, bitmap_get st.finished x = true → bitmap_get fin0 x = false →
    ∃ a, rule_scan r st.vals st.finished (r.inn x) r.e = some a ∧ st.vals x = r.fz x a

/-- Progress of a pass while it visits `idx` with the tasks `rem` still to
look at: a task whose scanned tasks are all finished is finished, or has a
scanned task on the work list, or is one of `rem`. -/
def pass_progress (r : pass_rule) (fin : bitmap) (wl : List Nat) (idx : Nat)
    (rem : List Nat) : Prop :=
  ∀ q, r.inn q ≠ [] → (∀ p ∈ r.inn q, bitmap_get fin p = true) →
    bitmap_get fin q = true ∨ (∃ p ∈ r.inn q, p ∈ wl) ∨ (idx ∈ r.inn q ∧ q ∈ rem)

/-- The tasks below `N` that are not finished. -/
def unfinished (N : Nat) (fin : bitmap) : Finset Nat :=
  (Finset.range N).filter (fun i => bitmap_get fin i = false)

/-- The measure that bounds the iterations of a pass: every iteration pops a
task, and every push finishes a task. -/
def pass_measure (N : Nat) (st : pass_state) : Nat :=
  2 * (unfinished N st.finished).card + st.ready.length


/-! ## The forward level of the specification -/

/-- The forward level computed with `fuel` steps of its recurrence. -/
def level_forward_aux (g : dag) : Nat → Nat → Int
  | 0, _ => 0
  | fuel + 1, i =>
    if i = 0 then 0
    else dag_weight g i + max_or_zero ((dag_preds g i).map (level_forward_aux g fuel))

/-- The forward level of the specification: `level_forward(source) = 0` and
`level_forward(i) = weight(i) + max over predecessors p of level_forward(p)`;
the predecessors of a task have smaller identifiers, so `i + 1` steps of the
recurrence reach the source. -/
def level_forward (g : dag) (i : Nat) : Int := level_forward_aux g (i + 1) i

/-- A chain of two tasks of weight `INT_MAX` and a task of weight 2. -/
def calls_big_chain3 : List (Int × List Nat) :=
  [(2147483647, []), (2147483647, [1]), (2, [2])]


/-! ## The Fernandez bound as the specification words it -/

/-- The sum of the weights of the tasks of the graph. -/
def total_weight (g : dag) : Int := ((List.range (dag_size g)).map (dag_weight g)).sum

/-- The work density `W(c_i, c_j)` of the specification, in the integers:
the sum over the tasks `k` with `max_start[k] < c_j` and `min_end[k] > c_i` of
`min(min_end[k] - c_i, weight(k), c_j - max_start[k], c_j - c_i)`. -/
def spec_work (s : schedule) (ci cj : Int) : Int :=
  ((List.range (dag_size s.g)).map (fun k =>
    if (schedule_max_start s k : Int) < cj ∧ (schedule_min_end s k : Int) > ci then
      min (min ((schedule_min_end s k : Int) - ci) (dag_weight s.g k))
        (min (cj - (schedule_max_start s k : Int)) (cj - ci))
    else 0)).sum

/-- The value `q(c_i, c_j) = (c_i - c_j) + ceil(W(c_i, c_j) / m)` of the
specification, in the integers (the ceiling is written with the floor
division). -/
def spec_q (s : schedule) (ci cj : Int) : Int :=
  (ci - cj) + -((-(spec_work s ci cj)) / (s.m : Int))

/-- The pairs `(c_i, c_j)` of entries of a list with `i < j`. -/
def index_pairs : List Nat → List (Nat × Nat)
  | [] => []
  | a :: rest => rest.map (fun b => (a, b)) ++ index_pairs rest

/-- The Fernandez value of the specification over the coordinate list `c`:
`level(source) + max(0, max over the pairs i < j of q(c_i, c_j))`. -/
def spec_fernandez (s : schedule) (c : List Nat) : Int :=
  dag_level s.g (dag_source s.g) +
    max_or_zero (0 :: (index_pairs c).map (fun p => spec_q s (p.1 : Int) (p.2 : Int)))


/-- Five independent tasks of weight `2^30`: every coordinate of the prefix
`[source]` is 0 or `2^30`, the weights sum to more than `2^32`. -/
def calls_big_five : List (Int × List Nat) :=
  [(1073741824, []), (1073741824, []), (1073741824, []), (1073741824, []), (1073741824, [])]

/-- A single task of weight 1. -/
def calls_one : List (Int × List Nat) := [(1, [])]


/-- The schedule `schedule_build(s, 0)` leaves, built with the bound
dataflows, on the prefix `order` of the graph of `calls` with `m` machines. -/
def built_from (calls : List (Int × List Nat)) (m : Nat) (order : List Nat) : schedule :=
  ((schedule_build_fujita 100 (fun _ => 0) (fun _ => 0)
    (schedule_of (dag_of_calls calls) m order) 0).getD
      (schedule_of (dag_of_calls calls) m order, 0)).1


/-- A single task of weight `INT_MAX`. -/
def calls_max_task : List (Int × List Nat) := [(2147483647, [])]


/-! ## The calls of `bb` -/

/-- The loop of `bb` as in `bb_loop`, with the record of the calls: the
recursive call `rec` returns, with its result, the schedule and the ready
set at the entry of every call of `bb` made in it, and the loop returns those
of all the calls made in it, in sequence. -/
def bb_loop_trace
    (rec : schedule → bitmap → Nat → Nat → Option (bb_result × List (schedule × bitmap))) :
    List Nat → schedule → bitmap → Nat → Nat → Option (bb_result × List (schedule × bitmap))
  | [], s, ready_set, best_soln, ticks => some (⟨to_int best_soln, s, ready_set, ticks⟩, [])
  | new_idx :: rest, s, ready_set, best_soln, ticks =>
    match schedule_add s new_idx with
    | none => none
    | some (s1, _) =>
      let mr := mark_ready s1 (dag_succs s1.g new_idx) ready_set
      match rec s1 (bitmap_set mr.2 new_idx false).1 best_soln ticks with
      | none => none
      | some (r, entries) =>
        let ready3 := (bitmap_set r.ready_set new_idx true).1
        if r.value < 0 then some (⟨r.value, r.s, ready3, r.ticks⟩, entries)
        else
          let best1 := if best_soln < to_unsigned r.value then best_soln
                       else to_unsigned r.value
          match schedule_pop r.s with
          | none => none
          | some (s2, _) =>
            (bb_loop_trace rec rest s2 (clear_ready mr.1 ready3) best1 r.ticks).map
              (fun p => (p.1, entries ++ p.2))

/-- The function `bb` as in `bb`, with the record of the calls: the
schedule and the ready set at the entry of this call, followed by those of
the calls made in it. -/
def bb_trace (env : bb_env) :
    Nat → schedule → bitmap → Nat → Nat → Option (bb_result × List (schedule × bitmap))
  | 0, _, _, _, _ => none
  | fuel + 1, s, ready_set, best_soln, ticks =>
    if env.do_timeout && decide (env.clock ticks ≥ env.end_time) then
      some (⟨-2, s, ready_set, ticks + 1⟩, [(s, ready_set)])
    else
      let ticks1 := if env.do_timeout then ticks + 1 else ticks
      let sb := schedule_build s 0
      if sb.2 ≠ 0 then some (⟨-1, sb.1, ready_set, ticks1⟩, [(s, ready_set)])
      else if schedule_size sb.1 = dag_size (schedule_dag sb.1) then
        some (⟨to_int (if best_soln < schedule_length sb.1 then best_soln
                       else schedule_length sb.1), sb.1, ready_set, ticks1⟩, [(s, ready_set)])
      else
        (bb_loop_trace (bb_trace env fuel) (env.heap (ready_items (schedule_dag sb.1) ready_set))
          sb.1 ready_set best_soln ticks1).map (fun p => (p.1, (s, ready_set) :: p.2))

/-- The function `bbsearch` as in `bbsearch`, with the record of the calls of
`bb` made in it. -/
def bbsearch_trace (heap : List (Nat × Int) → List Nat) (clock : Nat → Int)
    (clocks_per_sec : Int) (fuel : Nat) (g : dag) (m : Nat) (timeout : Int) :
    Option (Int × List (schedule × bitmap)) :=
  match (schedule_create g m).bind (fun s0 => schedule_add s0 (dag_source g)) with
  | none => none
  | some (s, _) =>
    let env : bb_env :=
      if timeout < 0 then ⟨heap, clock, false, 0⟩
      else ⟨heap, clock, true, clock 0 + timeout * clocks_per_sec⟩
    let ticks := if timeout < 0 then 0 else 1
    let ready_set := (dag_succs g (dag_source g)).foldl
      (fun b i => (bitmap_set b i true).1) (bitmap_create 0)
    (bb_trace env fuel s ready_set UINT_MAX ticks).map (fun p => (p.1.value, p.2))

/-- What the specification says of the entry of a call of `bb` with the
schedule `e.1` and the ready set `e.2`: the order is a valid prefix of
distinct tasks that starts with the source, and the bit of a task is 1 if
and only if the task is not in the order and all its predecessors are. -/
def entry_ok (g : dag) (e : schedule × bitmap) : Prop :=
  order_valid g e.1.order ∧ e.1.order.Nodup ∧ e.1.order.head? = some (dag_source g) ∧
    ∀ i, i < dag_size g →
      (bitmap_get e.2 i = true ↔ (i ∉ e.1.order ∧ ∀ p ∈ dag_preds g i, p ∈ e.1.order))


/-! ## The tasks the level loop pops -/

/-- The tasks the loop `while (lvl_ready.size > 0)` of `dag_build` pops from
`lvl_ready`, in sequence, during at most `fuel` iterations: one entry for
every push on the work list that the loop gets to. -/
def lvl_pops : Nat → lvl_state → List Nat
  | 0, _ => []
  | fuel + 1, st =>
    match st.lvl_ready with
    | [] => []
    | idx :: rest => idx :: lvl_pops fuel (lvl_visit { st with lvl_ready := rest } idx)

/-- The tasks `dag_build` pops from `lvl_ready` during its level
computation, run with `fuel`. -/
def dag_build_pops (fuel : Nat) (g : dag) : Option (List Nat) :=
  if !g.built then
    match dag_vertex g 0 (exit_nodes g) with
    | none => none
    | some (g1, _) =>
      let sink := dag_sink g1
      some (lvl_pops fuel
        { nodes := g1.nodes, lvl_ready := [sink],
          lvl_finished := (bitmap_set (bitmap_create (dag_size g1)) sink true).1 })
  else some []

/-- Two independent tasks of weight 1. -/
def calls_two : List (Int × List Nat) := [(1, []), (1, [])]


/-! ## Branch and bound with the Fernandez bound (`bbsearch.c`, built with `FUJITA` and `FB`) -/

/-- The function `bb` as compiled with `FUJITA` and `FB`: `schedule_build`
fills the bound arrays (its passes run with `bfuel`, fresh arrays hold
`fresh_starts` and `fresh_ends`), and the call returns `best_soln` when the
Fernandez bound, converted to `unsigned`, is not below it. -/
def bb_fb (env : bb_env) (bfuel : Nat) (fresh_starts fresh_ends : Nat → Nat) :
    Nat → schedule → bitmap → Nat → Nat → Option bb_result
  | 0, _, _, _, _ => none
  | fuel + 1, s, ready_set, best_soln, ticks =>
    if env.do_timeout && decide (env.clock ticks ≥ env.end_time) then
      some ⟨-2, s, ready_set, ticks + 1⟩
    else
      let ticks1 := if env.do_timeout then ticks + 1 else ticks
      match schedule_build_fujita bfuel fresh_starts fresh_ends s 0 with
      | none => none
      | some sb =>
        if sb.2 ≠ 0 then some ⟨-1, sb.1, ready_set, ticks1⟩
        else if schedule_size sb.1 = dag_size (schedule_dag sb.1) then
          some ⟨to_int (if best_soln < schedule_length sb.1 then best_soln
                        else schedule_length sb.1), sb.1, ready_set, ticks1⟩
        else if to_unsigned (schedule_fernandez_bound env.heap sb.1) ≥ best_soln then
          some ⟨to_int best_soln, sb.1, ready_set, ticks1⟩
        else
          bb_loop (bb_fb env bfuel fresh_starts fresh_ends fuel)
            (env.heap (ready_items (schedule_dag sb.1) ready_set))
            sb.1 ready_set best_soln ticks1

/-- The function `bbsearch` as compiled with `FUJITA` and `FB`. -/
def bbsearch_fb (heap : List (Nat × Int) → List Nat) (clock : Nat → Int) (clocks_per_sec : Int)
    (fuel bfuel : Nat) (fresh_starts fresh_ends : Nat → Nat) (g : dag) (m : Nat)
    (timeout : Int) : Option Int :=
  match (schedule_create g m).bind (fun s0 => schedule_add s0 (dag_source g)) with
  | none => none
  | some (s, _) =>
    let env : bb_env :=
      if timeout < 0 then ⟨heap, clock, false, 0⟩
      else ⟨heap, clock, true, clock 0 + timeout * clocks_per_sec⟩
    let ticks := if timeout < 0 then 0 else 1
    let ready_set := (dag_succs g (dag_source g)).foldl
      (fun b i => (bitmap_set b i true).1) (bitmap_create 0)
    (bb_fb env bfuel fresh_starts fresh_ends fuel s ready_set UINT_MAX ticks).map
      (fun r => r.value)

/-- A task of weight 1 followed by two tasks of weight 1 that depend on it,
and an independent task of weight 2. -/
def calls_prune : List (Int × List Nat) := [(1, []), (1, [1]), (1, [1]), (2, [])]

/-! ## The builds of `bbsearch.c` -/

/-- The three ways `bbsearch.c` is compiled: without `FUJITA`, where `bb`
consults no bound; with `FUJITA` and `FB`, where it consults
`schedule_fernandez_bound`; with `FUJITA` alone, where it consults
`fujita_bound`. -/
inductive bb_build where
  | no_bound
  | fernandez
  | fujita

/-- What the builds with `FUJITA` work with besides `bb_env`: the fuel
`bfuel` of the passes of `schedule_build`, the fuel `ffuel` of the two loops
of `fujita_bound`, and the contents `fresh_starts` and `fresh_ends` of the
arrays `schedule_build` allocates. -/
structure bound_env where
  bfuel : Nat
  ffuel : Nat
  fresh_starts : Nat → Nat
  fresh_ends : Nat → Nat

/-- The call `schedule_build(s, 0)` of `bb` in the build `b`: without
`FUJITA` only the length is computed, with `FUJITA` the bound arrays are
filled too. -/
def build_in (b : bb_build) (be : bound_env) (s : schedule) : Option (schedule × Int) :=
  match b with
  | bb_build.no_bound => some (schedule_build s 0)
  | bb_build.fernandez => schedule_build_fujita be.bfuel be.fresh_starts be.fresh_ends s 0
  | bb_build.fujita => schedule_build_fujita be.bfuel be.fresh_starts be.fresh_ends s 0

/-- The lines of `bb` between `#ifdef FUJITA` and its `#endif` in the build
`b`: the schedule they leave and whether `bb` returns `best_soln` there, the
bound converted to `unsigned` being not below `best_soln`; `none` when
`fujita_bound` does not return. -/
def prune_in (b : bb_build) (be : bound_env) (heap : List (Nat × Int) → List Nat)
    (s : schedule) (best_soln : Nat) : Option (schedule × Bool) :=
  match b with
  | bb_build.no_bound => some (s, false)
  | bb_build.fernandez =>
    some (s, decide (to_unsigned (schedule_fernandez_bound heap s) ≥ best_soln))
  | bb_build.fujita =>
    (fujita_bound heap be.ffuel be.bfuel be.fresh_starts be.fresh_ends s).map
      (fun p => (p.1, decide (to_unsigned p.2 ≥ best_soln)))

/-- The function `bb` as compiled in the build `b`; `fuel` bounds the depth
of the recursion. -/
def bb_in (b : bb_build) (be : bound_env) (env : bb_env) :
    Nat → schedule → bitmap → Nat → Nat → Option bb_result
  | 0, _, _, _, _ => none
  | fuel + 1, s, ready_set, best_soln, ticks =>
    if env.do_timeout && decide (env.clock ticks ≥ env.end_time) then
      some ⟨-2, s, ready_set, ticks + 1⟩
    else
      let ticks1 := if env.do_timeout then ticks + 1 else ticks
      match build_in b be s with
      | none => none
      | some sb =>
        if sb.2 ≠ 0 then some ⟨-1, sb.1, ready_set, ticks1⟩
        else if schedule_size sb.1 = dag_size (schedule_dag sb.1) then
          some ⟨to_int (if best_soln < schedule_length sb.1 then best_soln
                        else schedule_length sb.1), sb.1, ready_set, ticks1⟩
        else
          match prune_in b be env.heap sb.1 best_soln with
          | none => none
          | some (s2, true) => some ⟨to_int best_soln, s2, ready_set, ticks1⟩
          | some (s2, false) =>
            bb_loop (bb_in b be env fuel)
              (env.heap (ready_items (schedule_dag s2) ready_set))
              s2 ready_set best_soln ticks1

/-- The function `bbsearch` as compiled in the build `b`. -/
def bbsearch_in (b : bb_build) (be : bound_env) (heap : List (Nat × Int) → List Nat)
    (clock : Nat → Int) (clocks_per_sec : Int) (fuel : Nat) (g : dag) (m : Nat)
    (timeout : Int) : Option Int :=
  match (schedule_create g m).bind (fun s0 => schedule_add s0 (dag_source g)) with
  | none => none
  | some (s, _) =>
    let env : bb_env :=
      if timeout < 0 then ⟨heap, clock, false, 0⟩
      else ⟨heap, clock, true, clock 0 + timeout * clocks_per_sec⟩
    let ticks := if timeout < 0 then 0 else 1
    let ready_set := (dag_succs g (dag_source g)).foldl
      (fun b i => (bitmap_set b i true).1) (bitmap_create 0)
    (bb_in b be env fuel s ready_set UINT_MAX ticks).map (fun r => r.value)

/-- The call ran to its end, as `bb_normal` without the minimality: state
restored, no reading reached the deadline, and the value is below `2^31`, at
most `best_soln`, and either `best_soln` or the makespan of an order in
`cand`. -/
def bb_weak (g : dag) (m : Nat) (env : bb_env) (cand : List Nat → Prop) (s : schedule)
    (ready_set : bitmap) (best_soln ticks : Nat) (r : bb_result) : Prop :=
  bb_restored s ready_set r ∧
    (env.do_timeout = false → r.ticks = ticks) ∧ ticks ≤ r.ticks ∧
    clock_quiet env ticks r.ticks ∧
    ∃ V : Nat, r.value = (V : Int) ∧ V < 2147483648 ∧ V ≤ best_soln ∧
      (V = best_soln ∨ ∃ o, cand o ∧ V = list_makespan g m o)

/-- What the search needs of `schedule_build` and of the bound in the build
`b`, on every schedule that meets the entry invariant of `bb`:
`schedule_build` returns 0, keeps the order, the contains bitmap, the graph
and the machine count and sets the length; on a schedule that is not
complete the bound returns, keeps the same fields, and makes `bb` return
`best_soln` only when `best_soln` is not `UINT_MAX`. -/
def build_ok (b : bb_build) (be : bound_env) (heap : List (Nat × Int) → List Nat) (g : dag)
    (m : Nat) : Prop :=
  ∀ s ready_set, bb_pre g m s ready_set → s.order ≠ [] →
    ∃ s1, build_in b be s = some (s1, 0) ∧ s1.order = s.order ∧ s1.contents = s.contents ∧
      s1.g = s.g ∧ s1.m = s.m ∧ schedule_length s1 = list_makespan g m s.order ∧
      (s.order.length < dag_size g → ∀ best, ∃ s2 p,
        prune_in b be heap s1 best = some (s2, p) ∧ s2.order = s.order ∧
          s2.contents = s.contents ∧ s2.g = s.g ∧ s2.m = s.m ∧
          (p = true → best ≠ UINT_MAX))

/-- What `fujita_bound` is called on by `bb`: a schedule of a built graph
with `m >= 1` whose order is a valid non-empty order of distinct tasks of the
graph. -/
structure fujita_pre (calls : List (Int × List Nat)) (s : schedule) : Prop where
  built : built_graph calls s.g
  hm : 1 ≤ s.m
  ne : s.order ≠ []
  valid : order_valid s.g s.order
  nodup : s.order.Nodup
  lt : ∀ t ∈ s.order, t < dag_size s.g

/-- What the theorems on the search ask of a build: nothing of the build
without `FUJITA`; fuel for the passes of `schedule_build` in the builds with
`FUJITA`; and, in the build that consults `fujita_bound`, fuel for its two
loops and a sum over the calls below `2^27`, which keeps the targets of its
doubling loop, up to several times that sum, below `2^31`. -/
def build_guard (b : bb_build) (be : bound_env) (calls : List (Int × List Nat)) (g : dag) :
    Prop :=
  match b with
  | bb_build.no_bound => True
  | bb_build.fernandez => 3 * dag_size g + 1 < be.bfuel
  | bb_build.fujita =>
    3 * dag_size g + 1 < be.bfuel ∧ 32 ≤ be.ffuel ∧ calls_total calls < 134217728

/-! ## The calls of `bb` in every build -/

/-- The loop of `bb` as in `bb_loop`, with the record of the calls: `rec`
gives what the recursive call returns, `none` when it does not return, and
the schedule and the ready set at the entry of every call of `bb` made in
it; the loop gives the same for all the calls made in it, in sequence. -/
def bb_loop_log
    (rec : schedule → bitmap → Nat → Nat → Option bb_result × List (schedule × bitmap)) :
    List Nat → schedule → bitmap → Nat → Nat → Option bb_result × List (schedule × bitmap)
  | [], s, ready_set, best_soln, ticks => (some ⟨to_int best_soln, s, ready_set, ticks⟩, [])
  | new_idx :: rest, s, ready_set, best_soln, ticks =>
    match schedule_add s new_idx with
    | none => (none, [])
    | some (s1, _) =>
      let mr := mark_ready s1 (dag_succs s1.g new_idx) ready_set
      match rec s1 (bitmap_set mr.2 new_idx false).1 best_soln ticks with
      | (none, entries) => (none, entries)
      | (some r, entries) =>
        let ready3 := (bitmap_set r.ready_set new_idx true).1
        if r.value < 0 then (some ⟨r.value, r.s, ready3, r.ticks⟩, entries)
        else
          let best1 := if best_soln < to_unsigned r.value then best_soln
                       else to_unsigned r.value
          match schedule_pop r.s with
          | none => (none, entries)
          | some (s2, _) =>
            ((bb_loop_log rec rest s2 (clear_ready mr.1 ready3) best1 r.ticks).1,
              entries ++ (bb_loop_log rec rest s2 (clear_ready mr.1 ready3) best1 r.ticks).2)

/-- The function `bb` as in `bb_in`, with the record of the calls: what the
call returns, `none` when it does not return, and the schedule and the ready
set at the entry of this call, followed by those of the calls made in it. -/
def bb_in_log (b : bb_build) (be : bound_env) (env : bb_env) :
    Nat → schedule → bitmap → Nat → Nat → Option bb_result × List (schedule × bitmap)
  | 0, _, _, _, _ => (none, [])
  | fuel + 1, s, ready_set, best_soln, ticks =>
    if env.do_timeout && decide (env.clock ticks ≥ env.end_time) then
      (some ⟨-2, s, ready_set, ticks + 1⟩, [(s, ready_set)])
    else
      let ticks1 := if env.do_timeout then ticks + 1 else ticks
      match build_in b be s with
      | none => (none, [(s, ready_set)])
      | some sb =>
        if sb.2 ≠ 0 then (some ⟨-1, sb.1, ready_set, ticks1⟩, [(s, ready_set)])
        else if schedule_size sb.1 = dag_size (schedule_dag sb.1) then
          (some ⟨to_int (if best_soln < schedule_length sb.1 then best_soln
                         else schedule_length sb.1), sb.1, ready_set, ticks1⟩,
            [(s, ready_set)])
        else
          match prune_in b be env.heap sb.1 best_soln with
          | none => (none, [(s, ready_set)])
          | some (s2, true) => (some ⟨to_int best_soln, s2, ready_set, ticks1⟩, [(s, ready_set)])
          | some (s2, false) =>
            ((bb_loop_log (bb_in_log b be env fuel)
                (env.heap (ready_items (schedule_dag s2) ready_set))
                s2 ready_set best_soln ticks1).1,
              (s, ready_set) :: (bb_loop_log (bb_in_log b be env fuel)
                (env.heap (ready_items (schedule_dag s2) ready_set))
                s2 ready_set best_soln ticks1).2)

/-- The function `bbsearch` as in `bbsearch_in`, with the record of the calls
of `bb` made in it. -/
def bbsearch_in_log (b : bb_build) (be : bound_env) (heap : List (Nat × Int) → List Nat)
    (clock : Nat → Int) (clocks_per_sec : Int) (fuel : Nat) (g : dag) (m : Nat)
    (timeout : Int) : Option Int × List (schedule × bitmap) :=
  match (schedule_create g m).bind (fun s0 => schedule_add s0 (dag_source g)) with
  | none => (none, [])
  | some (s, _) =>
    let env : bb_env :=
      if timeout < 0 then ⟨heap, clock, false, 0⟩
      else ⟨heap, clock, true, clock 0 + timeout * clocks_per_sec⟩
    let ticks := if timeout < 0 then 0 else 1
    let ready_set := (dag_succs g (dag_source g)).foldl
      (fun b i => (bitmap_set b i true).1) (bitmap_create 0)
    ((bb_in_log b be env fuel s ready_set UINT_MAX ticks).1.map (fun r => r.value),
      (bb_in_log b be env fuel s ready_set UINT_MAX ticks).2)

/-! ## Entries of `task_ends` read before they are written -/

/-- The main loop of `schedule_compute` reads an entry of `task_ends` that
its `memset` has not cleared and that no earlier iteration has written: some
task of the order has a predecessor `p` with `p >= schedule_size` that is not
among the tasks before it in the order. -/
def reads_unwritten (g : dag) (order : List Nat) : Bool :=
  (List.range order.length).any (fun i =>
    (dag_preds g (order.getD i 0)).any (fun p =>
      decide (order.length ≤ p) && !(order.take i).contains p))

/-! # Theorems -/

/-! ## Bitmap -/

theorem bitmap_get_set (b : bitmap) (i j : Nat) (v : Bool) :
    bitmap_get (bitmap_set b i v).1 j = if j = i then v else bitmap_get b j := rfl

theorem bitmap_get_create (n i : Nat) : bitmap_get (bitmap_create n) i = false := rfl

/-! ## `schedule_is_valid` -/

theorem valid_loop_iff (g : dag) (l : List Nat) (prev : bitmap) :
    valid_loop g l prev = true ↔
      ∀ (i t : Nat), l[i]? = some t → ∀ p ∈ dag_preds g t,
        bitmap_get prev p = true ∨ ∃ j : Nat, j < i ∧ l[j]? = some p := by
  induction l generalizing prev with
  | nil => simp [valid_loop]
  | cons x rest ih =>
    simp only [valid_loop]
    split
    · rename_i hall
      rw [List.all_eq_true] at hall
      rw [ih]
      constructor
      · intro h i t hi p hp
        cases i with
        | zero =>
          simp only [List.getElem?_cons_zero, Option.some.injEq] at hi
          subst hi
          left
          simpa using hall p hp
        | succ i =>
          simp only [List.getElem?_cons_succ] at hi
          rcases h i t hi p hp with h1 | ⟨j, hj, hjp⟩
          · rw [bitmap_get_set] at h1
            by_cases hpx : p = x
            · right
              exact ⟨0, Nat.succ_pos _, by simp [hpx]⟩
            · left
              simpa [hpx] using h1
          · right
            exact ⟨j + 1, Nat.succ_lt_succ hj, by simpa using hjp⟩
      · intro h i t hi p hp
        rcases h (i + 1) t (by simpa using hi) p hp with h1 | ⟨j, hj, hjp⟩
        · left
          rw [bitmap_get_set]
          split
          · rfl
          · exact h1
        · cases j with
          | zero =>
            simp only [List.getElem?_cons_zero, Option.some.injEq] at hjp
            left
            rw [bitmap_get_set]
            simp [hjp]
          | succ j =>
            right
            exact ⟨j, Nat.lt_of_succ_lt_succ hj, by simpa using hjp⟩
    · rename_i hall
      simp only [Bool.false_eq_true, false_iff]
      intro h
      apply hall
      rw [List.all_eq_true]
      intro p hp
      rcases h 0 x (by simp) p hp with h1 | ⟨j, hj, _⟩
      · simpa using h1
      · exact absurd hj (Nat.not_lt_zero _)

/-- C8: `schedule_is_valid` returns 1 exactly when, for every index `i` of
`order`, every predecessor of `order[i]` occurs in `order` at an index
strictly smaller than `i`; otherwise it returns 0. -/
theorem schedule_is_valid_iff (s : schedule) :
    schedule_is_valid s = true ↔
      ∀ (i t : Nat), s.order[i]? = some t → ∀ p ∈ dag_preds s.g t,
        ∃ j : Nat, j < i ∧ s.order[j]? = some p := by
  unfold schedule_is_valid
  rw [valid_loop_iff]
  constructor
  · intro h i t hi p hp
    rcases h i t hi p hp with h1 | h2
    · simp [bitmap_get_create] at h1
    · exact h2
  · intro h i t hi p hp
    exact Or.inr (h i t hi p hp)

/-! ## `schedule_add` and `schedule_pop` -/

/-- C9 (amended): for a task `t` that the schedule does not contain yet,
`schedule_add(S, t)` succeeds and a following `schedule_pop(S)` leaves the
order and every bit of the contains bitmap as they were. -/
theorem schedule_add_pop_restores (s : schedule) (t : Nat)
    (ht : t < dag_size s.g) (hlen : s.order.length < dag_size s.g)
    (hc : schedule_contains s t = false) :
    ∃ s1 s2, schedule_add s t = some (s1, 0) ∧ schedule_pop s1 = some (s2, 0) ∧
      s2.order = s.order ∧ ∀ i, schedule_contains s2 i = schedule_contains s i := by
  have hold : (bitmap_set s.contents t true).2 = false := hc
  have hlast : (s.order ++ [t]).getD s.order.length 0 = t := by
    simp [List.getD_eq_getElem?_getD]
  refine ⟨{ s with contents := (bitmap_set s.contents t true).1, order := s.order ++ [t] },
    { s with contents := (bitmap_set (bitmap_set s.contents t true).1 t false).1 },
    ?_, ?_, rfl, ?_⟩
  · simp [schedule_add, ht, hlen, hold]
  · simp [schedule_pop, hlast]
  · intro i
    simp only [schedule_contains, bitmap_get_set]
    split
    · rename_i h
      rw [h]
      exact hc.symm
    · rfl

/-! ## Node tables -/

theorem node_at_lt {nodes : List node} {i : Nat} (h : i < nodes.length) :
    node_at nodes i = nodes[i] := by
  simp [node_at, List.getD_eq_getElem?_getD, List.getElem?_eq_getElem h]

theorem node_at_ge {nodes : List node} {i : Nat} (h : nodes.length ≤ i) :
    node_at nodes i = node_init 0 := by
  simp [node_at, List.getD_eq_getElem?_getD, List.getElem?_eq_none h]

theorem node_at_modify (f : node → node) (nodes : List node) (n i : Nat) :
    node_at (nodes.modify f n) i =
      if i = n ∧ n < nodes.length then f (node_at nodes i) else node_at nodes i := by
  unfold node_at
  rw [List.getD_eq_getElem?_getD, List.getD_eq_getElem?_getD, List.getElem?_modify]
  by_cases hin : n = i
  · subst hin
    by_cases hl : n < nodes.length
    · simp [hl, List.getElem?_eq_getElem hl]
    · simp [hl, List.getElem?_eq_none (Nat.le_of_not_lt hl)]
  · have hin2 : ¬ i = n := fun h => hin h.symm
    simp [hin, hin2]

theorem node_at_append (nodes : List node) (n : node) (i : Nat) :
    node_at (nodes ++ [n]) i =
      if i < nodes.length then node_at nodes i
      else if i = nodes.length then n else node_init 0 := by
  unfold node_at
  rw [List.getD_eq_getElem?_getD, List.getD_eq_getElem?_getD]
  by_cases h1 : i < nodes.length
  · simp [h1, List.getElem?_append_left h1]
  · by_cases h2 : i = nodes.length
    · subst h2
      simp
    · have h3 : nodes.length < i := by omega
      have h4 : (nodes ++ [n])[i]? = none := by
        apply List.getElem?_eq_none
        simp
        omega
      simp [h1, h2, h4]

theorem node_at_add_succ (nodes : List node) (d idx i : Nat) :
    node_at (add_succ nodes d idx) i =
      if i = d ∧ d < nodes.length then
        { node_at nodes i with succs := (node_at nodes i).succs ++ [idx] }
      else node_at nodes i := by
  unfold add_succ
  rw [node_at_modify]

theorem length_add_succ (nodes : List node) (d idx : Nat) :
    (add_succ nodes d idx).length = nodes.length := by
  simp [add_succ]

/-- What the loop of `dag_vertex` does when it runs through. -/
theorem vertex_loop_spec (idx : Nat) (ds : List Nat) (nodes : List node) (n : node)
    (nodes1 : List node) (n1 : node)
    (h : vertex_loop idx ds nodes n = some (nodes1, n1)) :
    nodes1.length = nodes.length ∧ (∀ d ∈ ds, d < nodes.length) ∧
      n1 = { n with preds := n.preds ++ ds } ∧
      ∀ i, node_at nodes1 i =
        { node_at nodes i with
          succs := (node_at nodes i).succs ++ List.replicate (ds.count i) idx } := by
  induction ds generalizing nodes n with
  | nil =>
    simp only [vertex_loop, Option.some.injEq, Prod.mk.injEq] at h
    obtain ⟨h1, h2⟩ := h
    subst h1 h2
    simp
  | cons d rest ih =>
    simp only [vertex_loop] at h
    split at h
    · rename_i hd
      obtain ⟨h1, h2, h3, h4⟩ := ih _ _ h
      rw [length_add_succ] at h1 h2
      refine ⟨h1, ?_, ?_, ?_⟩
      · intro x hx
        rcases List.mem_cons.1 hx with rfl | hx
        · exact hd
        · exact h2 x hx
      · rw [h3]
        simp
      · intro i
        rw [h4 i, node_at_add_succ]
        by_cases hid : i = d
        · subst hid
          simp [hd, List.count_cons_self, List.replicate_succ]
        · have : ¬ d = i := fun h => hid h.symm
          simp [hid, List.count_cons, this]
    · exact absurd h (by simp)

/-- The loop of `dag_vertex` runs through when every dependency exists. -/
theorem vertex_loop_some (idx : Nat) (ds : List Nat) (nodes : List node) (n : node)
    (h : ∀ d ∈ ds, d < nodes.length) : ∃ r, vertex_loop idx ds nodes n = some r := by
  induction ds generalizing nodes n with
  | nil => exact ⟨_, rfl⟩
  | cons d rest ih =>
    simp only [vertex_loop]
    rw [if_pos (h d (List.mem_cons_self _ _))]
    apply ih
    intro x hx
    rw [length_add_succ]
    exact h x (List.mem_cons_of_mem _ hx)

/-- The effective dependency list of a `dag_vertex` call. -/
theorem dag_vertex_spec (g g1 : dag) (w : Int) (deps : List Nat) (idx : Nat)
    (h : dag_vertex g w deps = some (g1, idx)) :
    ∃ ds, ds = (if deps.length = 0 then [0] else deps) ∧
      idx = g.nodes.length ∧ g1.built = g.built ∧
      g1.nodes.length = g.nodes.length + 1 ∧ (∀ d ∈ ds, d < g.nodes.length) ∧
      ∀ i, node_at g1.nodes i =
        if i < g.nodes.length then
          { node_at g.nodes i with
            succs := (node_at g.nodes i).succs ++ List.replicate (ds.count i) g.nodes.length }
        else if i = g.nodes.length then
          { weight := w, preds := ds, succs := [], level := 0 }
        else node_init 0 := by
  unfold dag_vertex at h
  simp only at h
  split at h
  · exact absurd h (by simp)
  · rename_i nodes n hv
    simp only [Option.some.injEq, Prod.mk.injEq] at h
    obtain ⟨hg, hidx⟩ := h
    obtain ⟨h1, h2, h3, h4⟩ := vertex_loop_spec _ _ _ _ _ _ hv
    refine ⟨_, rfl, hidx.symm, ?_, ?_, h2, ?_⟩
    · rw [← hg]
    · rw [← hg]
      simp [h1]
    · intro i
      rw [← hg]
      simp only
      rw [node_at_append, h1]
      by_cases hi : i < g.nodes.length
      · simp [hi, h4 i]
      · simp [hi, h3, node_init]

/-! ## Well-formedness of the graphs made by `dag_vertex` -/

theorem node_at_singleton (n : node) (x : Nat) :
    node_at [n] x = if x = 0 then n else node_init 0 := by
  cases x with
  | zero => rfl
  | succ x => rfl

theorem nodes_wf_create : nodes_wf dag_create.nodes := by
  have hnode : ∀ x, node_at dag_create.nodes x = node_init 0 := by
    intro x
    show node_at [node_init 0] x = node_init 0
    rw [node_at_singleton]
    split <;> rfl
  refine ⟨by simp [dag_create], ?_, ?_, ?_, ?_⟩
  · intro x p hp
    rw [hnode] at hp
    simp [node_init] at hp
  · intro x y hy
    rw [hnode] at hy
    simp [node_init] at hy
  · intro x y
    rw [hnode, hnode]
    simp [node_init]
  · intro x hx hx2
    simp [dag_create] at hx2
    omega

/-- The three kinds of node after a `dag_vertex` call. -/
theorem dag_vertex_nodes (g g1 : dag) (w : Int) (deps : List Nat) (idx : Nat)
    (h : dag_vertex g w deps = some (g1, idx)) :
    ∃ ds, ds = (if deps.length = 0 then [0] else deps) ∧
      g1.nodes.length = g.nodes.length + 1 ∧ (∀ d ∈ ds, d < g.nodes.length) ∧
      (∀ i, i < g.nodes.length → node_at g1.nodes i =
        { node_at g.nodes i with
          succs := (node_at g.nodes i).succs ++
            List.replicate (ds.count i) g.nodes.length }) ∧
      node_at g1.nodes g.nodes.length = { weight := w, preds := ds, succs := [], level := 0 } ∧
      (∀ i, g.nodes.length < i → node_at g1.nodes i = node_init 0) := by
  obtain ⟨ds, hds, _, _, hlen, hlt, hnode⟩ := dag_vertex_spec g g1 w deps idx h
  refine ⟨ds, hds, hlen, hlt, ?_, ?_, ?_⟩
  · intro i hi
    rw [hnode i, if_pos hi]
  · rw [hnode, if_neg (Nat.lt_irrefl _), if_pos rfl]
  · intro i hi
    rw [hnode i, if_neg (by omega), if_neg (by omega)]

theorem dag_vertex_wf (g g1 : dag) (w : Int) (deps : List Nat) (idx : Nat)
    (h : dag_vertex g w deps = some (g1, idx)) (hwf : nodes_wf g.nodes) :
    nodes_wf g1.nodes := by
  obtain ⟨ds, hds, hlen, hlt, hA, hB, hC⟩ := dag_vertex_nodes g g1 w deps idx h
  have hne : ds ≠ [] := by
    rw [hds]
    split
    · simp
    · rename_i h0
      intro h1
      exact h0 (by simp [h1])
  have hold_succ : ∀ x y, y ∈ (node_at g.nodes x).succs → x < y ∧ y < g.nodes.length := by
    intro x y hy
    exact ⟨hwf.preds_lt y x ((hwf.mem_iff x y).1 hy), hwf.succs_lt x y hy⟩
  have hold_pred : ∀ x p, p ∈ (node_at g.nodes x).preds → p < x ∧ x < g.nodes.length := by
    intro x p hp
    refine ⟨hwf.preds_lt x p hp, ?_⟩
    by_contra hx
    rw [node_at_ge (Nat.le_of_not_lt hx)] at hp
    simp [node_init] at hp
  have hpreds : ∀ x p, p ∈ (node_at g1.nodes x).preds → p < x ∧ p < g.nodes.length ∧
      x ≤ g.nodes.length ∧
      (x < g.nodes.length → p ∈ (node_at g.nodes x).preds) ∧
      (x = g.nodes.length → p ∈ ds) := by
    intro x p hp
    rcases Nat.lt_trichotomy x g.nodes.length with h1 | h1 | h1
    · rw [hA x h1] at hp
      have := hold_pred x p hp
      exact ⟨this.1, by omega, by omega, fun _ => hp, fun h2 => absurd h2 (by omega)⟩
    · rw [h1, hB] at hp
      have := hlt p hp
      exact ⟨by omega, this, by omega, fun h2 => absurd h2 (by omega), fun _ => hp⟩
    · rw [hC x h1] at hp
      simp [node_init] at hp
  have hsuccs : ∀ x y, y ∈ (node_at g1.nodes x).succs → x < g.nodes.length ∧
      (y ∈ (node_at g.nodes x).succs ∨ (y = g.nodes.length ∧ x ∈ ds)) := by
    intro x y hy
    rcases Nat.lt_trichotomy x g.nodes.length with h1 | h1 | h1
    · rw [hA x h1] at hy
      refine ⟨h1, ?_⟩
      rcases List.mem_append.1 hy with hy | hy
      · exact Or.inl hy
      · obtain ⟨hc, hy⟩ := List.mem_replicate.1 hy
        exact Or.inr ⟨hy, List.count_pos_iff.1 (Nat.pos_of_ne_zero hc)⟩
    · rw [h1, hB] at hy
      simp at hy
    · rw [hC x h1] at hy
      simp [node_init] at hy
  refine ⟨by omega, ?_, ?_, ?_, ?_⟩
  · intro x p hp
    exact (hpreds x p hp).1
  · intro x y hy
    rcases (hsuccs x y hy).2 with h1 | h1
    · have := (hold_succ x y h1).2
      omega
    · omega
  · intro x y
    constructor
    · intro hy
      obtain ⟨hx, h1 | ⟨h1, h2⟩⟩ := hsuccs x y hy
      · have hyl := (hold_succ x y h1).2
        rw [hA y hyl]
        exact (hwf.mem_iff x y).1 h1
      · rw [h1, hB]
        exact h2
    · intro hx
      obtain ⟨h1, h2, h3, h4, h5⟩ := hpreds y x hx
      rw [hA x h2]
      apply List.mem_append.2
      rcases Nat.lt_or_ge y g.nodes.length with h6 | h6
      · exact Or.inl ((hwf.mem_iff x y).2 (h4 h6))
      · have h7 : y = g.nodes.length := by omega
        right
        rw [h7]
        exact List.mem_replicate.2 ⟨Nat.ne_of_gt (List.count_pos_iff.2 (h5 h7)), rfl⟩
  · intro x hx hx2
    rcases Nat.lt_or_ge x g.nodes.length with h1 | h1
    · rw [hA x h1]
      exact hwf.preds_ne x hx h1
    · have h2 : x = g.nodes.length := by omega
      rw [h2, hB]
      exact hne

theorem dag_vertices_wf (calls : List (Int × List Nat)) (g g1 : dag)
    (h : dag_vertices calls g = some g1) (hwf : nodes_wf g.nodes) : nodes_wf g1.nodes := by
  induction calls generalizing g with
  | nil =>
    simp only [dag_vertices, Option.some.injEq] at h
    rw [← h]
    exact hwf
  | cons c rest ih =>
    obtain ⟨w, deps⟩ := c
    simp only [dag_vertices] at h
    split at h
    · exact absurd h (by simp)
    · rename_i g2 idx hv
      exact ih g2 h (dag_vertex_wf g g2 w deps idx hv hwf)

theorem dag_vertices_built (calls : List (Int × List Nat)) (g g1 : dag)
    (h : dag_vertices calls g = some g1) : g1.built = g.built := by
  induction calls generalizing g with
  | nil =>
    simp only [dag_vertices, Option.some.injEq] at h
    rw [← h]
  | cons c rest ih =>
    obtain ⟨w, deps⟩ := c
    simp only [dag_vertices] at h
    split at h
    · exact absurd h (by simp)
    · rename_i g2 idx hv
      obtain ⟨ds, _, _, hb, _⟩ := dag_vertex_spec g g2 w deps idx hv
      rw [ih g2 h, hb]

/-! ## The level computation of `dag_build` -/

theorem lvl_scan_congr (ns ns1 : List node) (fin fin1 : bitmap) (l : List Nat) (acc : Nat)
    (h : ∀ s ∈ l, (node_at ns1 s).level = (node_at ns s).level ∧
      bitmap_get fin1 s = bitmap_get fin s) :
    lvl_scan ns1 fin1 l acc = lvl_scan ns fin l acc := by
  induction l generalizing acc with
  | nil => rfl
  | cons s rest ih =>
    simp only [lvl_scan]
    obtain ⟨h1, h2⟩ := h s (List.mem_cons_self _ _)
    rw [h1, h2]
    split
    · rfl
    · exact ih _ (fun x hx => h x (List.mem_cons_of_mem _ hx))

theorem lvl_scan_some_iff (ns : List node) (fin : bitmap) (l : List Nat) (acc : Nat) :
    (∃ M, lvl_scan ns fin l acc = some M) ↔ ∀ s ∈ l, bitmap_get fin s = true := by
  induction l generalizing acc with
  | nil => simp [lvl_scan]
  | cons s rest ih =>
    simp only [lvl_scan]
    cases hs : bitmap_get fin s
    · simp [hs]
    · simp [hs, ih]

theorem lvl_scan_max (ns : List node) (fin : bitmap) (l : List Nat) (acc M : Nat)
    (h : lvl_scan ns fin l acc = some M) :
    acc ≤ M ∧ (∀ s ∈ l, (node_at ns s).level ≤ M) ∧
      (M = acc ∨ ∃ s ∈ l, M = (node_at ns s).level) := by
  induction l generalizing acc with
  | nil =>
    simp only [lvl_scan, Option.some.injEq] at h
    subst h
    simp
  | cons s rest ih =>
    simp only [lvl_scan] at h
    split at h
    · exact absurd h (by simp)
    · obtain ⟨h1, h2, h3⟩ := ih _ h
      by_cases hl : (node_at ns s).level > acc
      · simp only [hl, if_true] at h1 h3
        refine ⟨by omega, ?_, ?_⟩
        · intro x hx
          rcases List.mem_cons.1 hx with rfl | hx
          · exact h1
          · exact h2 x hx
        · rcases h3 with h3 | ⟨x, hx, h3⟩
          · exact Or.inr ⟨s, List.mem_cons_self _ _, h3⟩
          · exact Or.inr ⟨x, List.mem_cons_of_mem _ hx, h3⟩
      · simp only [hl, if_false] at h1 h3
        refine ⟨h1, ?_, ?_⟩
        · intro x hx
          rcases List.mem_cons.1 hx with rfl | hx
          · omega
          · exact h2 x hx
        · rcases h3 with h3 | ⟨x, hx, h3⟩
          · exact Or.inl h3
          · exact Or.inr ⟨x, List.mem_cons_of_mem _ hx, h3⟩

/-- One predecessor step of `lvl_visit` keeps the invariant; the finished
set and the work list only grow, by `p` at most. -/
theorem lvl_visit_pred_inv (ns0 : List node) (hwf : nodes_wf ns0) (st : lvl_state) (p : Nat)
    (hp : p + 1 < ns0.length) (hinv : lvl_inv ns0 st) :
    lvl_inv ns0 (lvl_visit_pred st p) ∧
      (∀ x, bitmap_get st.lvl_finished x = true →
        bitmap_get (lvl_visit_pred st p).lvl_finished x = true) ∧
      (∀ x, bitmap_get (lvl_visit_pred st p).lvl_finished x = true →
        bitmap_get st.lvl_finished x = true ∨
          (x = p ∧ (lvl_visit_pred st p).lvl_ready = p :: st.lvl_ready)) ∧
      ((∀ s ∈ (node_at ns0 p).succs, bitmap_get st.lvl_finished s = true) →
        bitmap_get (lvl_visit_pred st p).lvl_finished p = true) ∧
      ((lvl_visit_pred st p).lvl_ready = st.lvl_ready ∨
        (lvl_visit_pred st p).lvl_ready = p :: st.lvl_ready) := by
  have hsuccs : (node_at st.nodes p).succs = (node_at ns0 p).succs := (hinv.shape.2 p).2.2
  unfold lvl_visit_pred
  rw [hsuccs]
  cases hscan : lvl_scan st.nodes st.lvl_finished (node_at ns0 p).succs 0 with
  | none =>
    simp only
    refine ⟨hinv, fun x hx => hx, fun x hx => Or.inl hx, ?_, Or.inl trivial⟩
    intro hall
    obtain ⟨M, hM⟩ := (lvl_scan_some_iff st.nodes st.lvl_finished _ 0).2 hall
    rw [hscan] at hM
    exact absurd hM (by simp)
  | some M =>
    simp only
    have hpl : p < st.nodes.length := by
      rw [hinv.shape.1]
      omega
    have hnode : ∀ i, node_at (st.nodes.modify
        (fun n => { n with level := to_unsigned (n.weight + (M : Int)) }) p) i =
        if i = p then { node_at st.nodes i with
          level := to_unsigned ((node_at st.nodes i).weight + (M : Int)) }
        else node_at st.nodes i := by
      intro i
      rw [node_at_modify]
      by_cases hi : i = p
      · simp [hi, hpl]
      · simp [hi]
    have hfin : ∀ i, bitmap_get (bitmap_set st.lvl_finished p true).1 i =
        if i = p then true else bitmap_get st.lvl_finished i := fun i => bitmap_get_set _ _ _ _
    have hallfin : ∀ s ∈ (node_at ns0 p).succs, bitmap_get st.lvl_finished s = true :=
      (lvl_scan_some_iff st.nodes st.lvl_finished _ 0).1 ⟨M, hscan⟩
    -- when `p` was finished already, its level does not change
    have hsame : bitmap_get st.lvl_finished p = true →
        (node_at st.nodes p).level = to_unsigned ((node_at st.nodes p).weight + (M : Int)) := by
      intro hfp
      obtain ⟨M1, hM1, hl⟩ := hinv.fin_level p hfp (by omega)
      rw [hscan] at hM1
      simp only [Option.some.injEq] at hM1
      rw [hl, (hinv.shape.2 p).1, hM1]
    have hlevel : ∀ i, (i ≠ p ∨ bitmap_get st.lvl_finished p = true) →
        (node_at (st.nodes.modify
          (fun n => { n with level := to_unsigned (n.weight + (M : Int)) }) p) i).level =
        (node_at st.nodes i).level := by
      intro i hi
      rw [hnode i]
      by_cases hip : i = p
      · rw [if_pos hip]
        rcases hi with hi | hi
        · exact absurd hip hi
        · rw [hip]
          exact (hsame hi).symm
      · rw [if_neg hip]
    refine ⟨⟨?_, ?_, ?_, ?_, ?_⟩, ?_, ?_, ?_, Or.inr trivial⟩
    · refine ⟨by simp [hinv.shape.1], ?_⟩
      intro i
      rw [hnode i]
      split
      · exact hinv.shape.2 i
      · exact hinv.shape.2 i
    · intro x hx
      rw [hfin] at hx
      by_cases hxp : x = p
      · omega
      · rw [if_neg hxp] at hx
        exact hinv.fin_lt x hx
    · rw [hfin]
      split
      · rfl
      · exact hinv.sink_fin
    · rw [hnode, if_neg (by omega)]
      exact hinv.sink_level
    · intro x hx hxs
      rw [hfin] at hx
      by_cases hxp : x = p
      · subst hxp
        refine ⟨M, ?_, ?_⟩
        · rw [← hscan]
          apply lvl_scan_congr
          intro s hs
          have hsx : x < s := hwf.preds_lt s x ((hwf.mem_iff x s).1 hs)
          refine ⟨hlevel s (Or.inl (by omega)), ?_⟩
          rw [hfin, if_neg (by omega)]
        · rw [hnode, if_pos rfl]
          simp only
          rw [(hinv.shape.2 x).1]
      · rw [if_neg hxp] at hx
        obtain ⟨Mx, hMx, hl⟩ := hinv.fin_level x hx hxs
        have hxall := (lvl_scan_some_iff st.nodes st.lvl_finished _ 0).1 ⟨Mx, hMx⟩
        refine ⟨Mx, ?_, ?_⟩
        · rw [← hMx]
          apply lvl_scan_congr
          intro s hs
          have hfs := hxall s hs
          constructor
          · apply hlevel
            by_cases hsp : s = p
            · right
              rw [← hsp]
              exact hfs
            · exact Or.inl hsp
          · rw [hfin, hfs]
            simp
        · rw [hlevel x (Or.inl hxp)]
          exact hl
    · intro x hx
      rw [hfin]
      split
      · rfl
      · exact hx
    · intro x hx
      rw [hfin] at hx
      by_cases hxp : x = p
      · exact Or.inr ⟨hxp, trivial⟩
      · rw [if_neg hxp] at hx
        exact Or.inl hx
    · intro _
      rw [hfin, if_pos rfl]
theorem lvl_progress_nil (ns0 : List node) (fin : bitmap) (wl : List Nat) (i j : Nat)
    (h : lvl_progress ns0 fin wl i []) : lvl_progress ns0 fin wl j [] := by
  intro q hne hall
  rcases h q hne hall with h1 | h1 | ⟨_, h1⟩
  · exact Or.inl h1
  · exact Or.inr (Or.inl h1)
  · simp at h1

/-- The loop of `lvl_visit` over the predecessors `rem` of `idx`. -/
theorem lvl_visit_fold (ns0 : List node) (hwf : nodes_wf ns0) (idx : Nat) (rem : List Nat)
    (st : lvl_state) (hrem : ∀ p ∈ rem, p + 1 < ns0.length) (hinv : lvl_inv ns0 st)
    (hprog : lvl_progress ns0 st.lvl_finished st.lvl_ready idx rem) :
    lvl_inv ns0 (rem.foldl lvl_visit_pred st) ∧
      lvl_progress ns0 (rem.foldl lvl_visit_pred st).lvl_finished
        (rem.foldl lvl_visit_pred st).lvl_ready idx [] ∧
      ∃ pushed, (rem.foldl lvl_visit_pred st).lvl_ready = pushed ++ st.lvl_ready ∧
        ∀ x ∈ pushed, x ∈ rem := by
  induction rem generalizing st with
  | nil => exact ⟨hinv, hprog, [], rfl, fun x hx => by simp at hx⟩
  | cons p rem1 ih =>
    obtain ⟨hinv1, hmono, hnew, hcompl, hwl⟩ :=
      lvl_visit_pred_inv ns0 hwf st p (hrem p (List.mem_cons_self _ _)) hinv
    have hsub : ∀ x, x ∈ st.lvl_ready → x ∈ (lvl_visit_pred st p).lvl_ready := by
      intro x hx
      rcases hwl with h | h
      · rw [h]
        exact hx
      · rw [h]
        exact List.mem_cons_of_mem _ hx
    have hprog1 : lvl_progress ns0 (lvl_visit_pred st p).lvl_finished
        (lvl_visit_pred st p).lvl_ready idx rem1 := by
      intro q hne hall1
      by_cases hall : ∀ s ∈ (node_at ns0 q).succs, bitmap_get st.lvl_finished s = true
      · rcases hprog q hne hall with h | ⟨s, hs, hw⟩ | ⟨hidx, hq⟩
        · exact Or.inl (hmono q h)
        · exact Or.inr (Or.inl ⟨s, hs, hsub s hw⟩)
        · rcases List.mem_cons.1 hq with hq | hq
          · left
            rw [hq]
            apply hcompl
            rw [← hq]
            exact hall
          · exact Or.inr (Or.inr ⟨hidx, hq⟩)
      · simp only [not_forall] at hall
        obtain ⟨s, hs, hns⟩ := hall
        rcases hnew s (hall1 s hs) with h | ⟨h1, h2⟩
        · exact absurd h hns
        · right
          left
          refine ⟨s, hs, ?_⟩
          rw [h2, h1]
          exact List.mem_cons_self _ _
    obtain ⟨h1, h2, pushed, h3, h4⟩ :=
      ih (lvl_visit_pred st p) (fun x hx => hrem x (List.mem_cons_of_mem _ hx)) hinv1 hprog1
    refine ⟨h1, h2, ?_⟩
    rcases hwl with h | h
    · refine ⟨pushed, ?_, fun x hx => List.mem_cons_of_mem _ (h4 x hx)⟩
      rw [List.foldl_cons, h3, h]
    · refine ⟨pushed ++ [p], ?_, ?_⟩
      · rw [List.foldl_cons, h3, h]
        simp
      · intro x hx
        rcases List.mem_append.1 hx with hx | hx
        · exact List.mem_cons_of_mem _ (h4 x hx)
        · simp only [List.mem_singleton] at hx
          rw [hx]
          exact List.mem_cons_self _ _

/-- The level loop of `dag_build` ends, with enough fuel, in a state that
satisfies the invariant and has an empty work list. -/
theorem lvl_loop_terminates (ns0 : List node) (hwf : nodes_wf ns0) :
    ∀ st : lvl_state, lvl_inv ns0 st →
      lvl_progress ns0 st.lvl_finished st.lvl_ready 0 [] →
      ∃ fuel st1, lvl_loop fuel st = some st1 ∧ lvl_inv ns0 st1 ∧
        lvl_progress ns0 st1.lvl_finished [] 0 [] := by
  have hwfm : WellFounded (Relation.CutExpand (fun a b : Nat => a < b)) :=
    WellFounded.cutExpand Nat.lt_wfRel.wf
  intro st
  generalize hms : (st.lvl_ready : Multiset Nat) = ms
  induction ms using hwfm.induction generalizing st with
  | _ ms ih =>
    intro hinv hprog
    cases hwl : st.lvl_ready with
    | nil =>
      refine ⟨1, st, ?_, hinv, ?_⟩
      · simp [lvl_loop, hwl]
      · rw [hwl] at hprog
        exact hprog
    | cons idx rest =>
      have hshape := hinv.shape
      have hpreds : (node_at st.nodes idx).preds = (node_at ns0 idx).preds :=
        (hshape.2 idx).2.1
      have hrem : ∀ p ∈ (node_at ns0 idx).preds, p + 1 < ns0.length := by
        intro p hp
        have h1 := hwf.preds_lt idx p hp
        have h2 : idx < ns0.length := by
          by_contra hx
          rw [node_at_ge (Nat.le_of_not_lt hx)] at hp
          simp [node_init] at hp
        omega
      have hinv0 : lvl_inv ns0 { st with lvl_ready := rest } :=
        ⟨hinv.shape, hinv.fin_lt, hinv.sink_fin, hinv.sink_level, hinv.fin_level⟩
      have hprog0 : lvl_progress ns0 st.lvl_finished rest idx (node_at ns0 idx).preds := by
        intro q hne hall
        rcases hprog q hne hall with h | ⟨s, hs, hw⟩ | ⟨_, h⟩
        · exact Or.inl h
        · rw [hwl] at hw
          rcases List.mem_cons.1 hw with h | h
          · right
            right
            rw [h] at hs
            exact ⟨hs, (hwf.mem_iff q idx).1 hs⟩
          · exact Or.inr (Or.inl ⟨s, hs, h⟩)
        · simp at h
      obtain ⟨h1, h2, pushed, h3, h4⟩ :=
        lvl_visit_fold ns0 hwf idx (node_at ns0 idx).preds { st with lvl_ready := rest }
          hrem hinv0 hprog0
      have hvisit : lvl_visit { st with lvl_ready := rest } idx =
          (node_at ns0 idx).preds.foldl lvl_visit_pred { st with lvl_ready := rest } := by
        unfold lvl_visit
        rw [show (node_at ({ st with lvl_ready := rest } : lvl_state).nodes idx).preds =
          (node_at ns0 idx).preds from hpreds]
      have hcut : Relation.CutExpand (fun a b : Nat => a < b)
          ((lvl_visit { st with lvl_ready := rest } idx).lvl_ready : Multiset Nat) ms := by
        rw [hvisit, h3, ← hms, hwl]
        refine ⟨(pushed : Multiset Nat), idx, ?_, ?_⟩
        · intro a ha
          exact hwf.preds_lt idx a (h4 a (by simpa using ha))
        · simp only [← Multiset.cons_coe, ← Multiset.coe_add, ← Multiset.singleton_add]
          abel
      obtain ⟨fuel, st1, hrun, hinv1, hprog1⟩ :=
        ih _ hcut (lvl_visit { st with lvl_ready := rest } idx) rfl
          (by rw [hvisit]; exact h1)
          (by rw [hvisit]; exact lvl_progress_nil _ _ _ _ _ h2)
      refine ⟨fuel + 1, st1, ?_, hinv1, hprog1⟩
      simp only [lvl_loop, hwl]
      exact hrun

theorem lvl_loop_succ (fuel : Nat) (st st1 : lvl_state) (h : lvl_loop fuel st = some st1) :
    lvl_loop (fuel + 1) st = some st1 := by
  induction fuel generalizing st with
  | zero => simp [lvl_loop] at h
  | succ n ih =>
    rw [lvl_loop] at h
    rw [lvl_loop]
    cases hwl : st.lvl_ready with
    | nil =>
      rw [hwl] at h
      exact h
    | cons idx rest =>
      rw [hwl] at h
      exact ih _ h

theorem lvl_loop_add (fuel k : Nat) (st st1 : lvl_state) (h : lvl_loop fuel st = some st1) :
    lvl_loop (fuel + k) st = some st1 := by
  induction k with
  | zero => exact h
  | succ k ih => exact lvl_loop_succ _ _ _ ih

/-- Two runs of the level loop that both end give the same state. -/
theorem lvl_loop_unique (f1 f2 : Nat) (st a b : lvl_state) (h1 : lvl_loop f1 st = some a)
    (h2 : lvl_loop f2 st = some b) : a = b := by
  have e1 := lvl_loop_add f1 f2 st a h1
  have e2 := lvl_loop_add f2 f1 st b h2
  rw [Nat.add_comm] at e2
  rw [e1] at e2
  exact Option.some.inj e2

/-- The sink added by `dag_build` makes the graph a built graph. -/
theorem sink_vertex_wf (g g1 : dag) (idx : Nat) (hwf : nodes_wf g.nodes)
    (h : dag_vertex g 0 (exit_nodes g) = some (g1, idx)) :
    dag_wf g1 := by
  have hwf1 := dag_vertex_wf g g1 0 _ idx h hwf
  obtain ⟨ds, hds, hlen, hlt, hA, hB, hC⟩ := dag_vertex_nodes g g1 0 _ idx h
  have hpos := hwf.pos
  refine ⟨hwf1, by omega, ?_⟩
  intro x hx
  have hx1 : x < g.nodes.length := by omega
  rw [hA x hx1]
  simp only
  intro hnil
  obtain ⟨h1, h2⟩ := List.append_eq_nil.1 hnil
  have hex : x ∈ exit_nodes g := by
    unfold exit_nodes
    rw [List.mem_filter]
    refine ⟨List.mem_range.2 hx1, ?_⟩
    simp [dag_node, h1]
  have hds2 : ds = exit_nodes g := by
    rw [hds]
    split
    · rename_i h0
      rw [List.length_eq_zero] at h0
      rw [h0] at hex
      simp at hex
    · rfl
  rw [← hds2] at hex
  have hc := List.count_pos_iff.2 hex
  have h3 := (List.replicate_eq_nil_iff _).1 h2
  omega

theorem same_shape_wf (ns0 ns : List node) (hs : same_shape ns0 ns) (hwf : nodes_wf ns0) :
    nodes_wf ns := by
  obtain ⟨hl, hn⟩ := hs
  refine ⟨by rw [hl]; exact hwf.pos, ?_, ?_, ?_, ?_⟩
  · intro x p hp
    rw [(hn x).2.1] at hp
    exact hwf.preds_lt x p hp
  · intro x y hy
    rw [(hn x).2.2] at hy
    rw [hl]
    exact hwf.succs_lt x y hy
  · intro x y
    rw [(hn x).2.2, (hn y).2.1]
    exact hwf.mem_iff x y
  · intro x hx hx2
    rw [(hn x).2.1]
    rw [hl] at hx2
    exact hwf.preds_ne x hx hx2

theorem same_shape_dag_wf (g0 g : dag) (hs : same_shape g0.nodes g.nodes) (hwf : dag_wf g0) :
    dag_wf g := by
  refine ⟨same_shape_wf _ _ hs hwf.wf, by rw [hs.1]; exact hwf.two, ?_⟩
  intro x hx
  rw [(hs.2 x).2.2]
  rw [hs.1] at hx
  exact hwf.succs_ne x hx

/-- With an empty work list every task is finished. -/
theorem lvl_all_finished (g1 : dag) (hwf : dag_wf g1) (fin : bitmap)
    (hsink : bitmap_get fin (g1.nodes.length - 1) = true)
    (hprog : lvl_progress g1.nodes fin [] 0 []) :
    ∀ k x, x + k + 1 = g1.nodes.length → bitmap_get fin x = true := by
  intro k
  induction k using Nat.strong_induction_on with
  | _ k ih =>
    intro x hx
    by_cases hk : k = 0
    · have : x = g1.nodes.length - 1 := by omega
      rw [this]
      exact hsink
    · have hne := hwf.succs_ne x (by omega)
      have hall : ∀ s ∈ (node_at g1.nodes x).succs, bitmap_get fin s = true := by
        intro s hs
        have h1 := hwf.wf.succs_lt _ _ hs
        have h2 := hwf.wf.preds_lt _ _ ((hwf.wf.mem_iff _ _).1 hs)
        exact ih (g1.nodes.length - 1 - s) (by omega) s (by omega)
      rcases hprog x hne hall with h | ⟨s, _, h⟩ | ⟨_, h⟩
      · exact h
      · simp at h
      · simp at h

/-- Every run of the level loop from the start state of `dag_build` ends,
with enough fuel, and every run that ends leaves the levels in place. -/
theorem lvl_loop_levels (g1 : dag) (hwf : dag_wf g1)
    (hsl : (node_at g1.nodes (g1.nodes.length - 1)).level = 0) :
    (∃ fuel st, lvl_loop fuel
      { nodes := g1.nodes, lvl_ready := [dag_sink g1],
        lvl_finished := (bitmap_set (bitmap_create (dag_size g1)) (dag_sink g1) true).1 } =
      some st) ∧
    ∀ fuel st, lvl_loop fuel
      { nodes := g1.nodes, lvl_ready := [dag_sink g1],
        lvl_finished := (bitmap_set (bitmap_create (dag_size g1)) (dag_sink g1) true).1 } =
      some st →
      same_shape g1.nodes st.nodes ∧ levels_ok { nodes := st.nodes, built := true } := by
  have hfin : ∀ x, bitmap_get
      (bitmap_set (bitmap_create (dag_size g1)) (dag_sink g1) true).1 x = true →
      x = g1.nodes.length - 1 := by
    intro x hx
    rw [bitmap_get_set, bitmap_get_create] at hx
    by_cases hxs : x = dag_sink g1
    · exact hxs
    · simp [hxs] at hx
  have hinv0 : lvl_inv g1.nodes
      { nodes := g1.nodes, lvl_ready := [dag_sink g1],
        lvl_finished := (bitmap_set (bitmap_create (dag_size g1)) (dag_sink g1) true).1 } := by
    refine ⟨⟨rfl, fun i => ⟨rfl, rfl, rfl⟩⟩, ?_, ?_, hsl, ?_⟩
    · intro x hx
      have := hfin x hx
      have := hwf.two
      omega
    · rw [bitmap_get_set]
      simp [dag_sink]
    · intro x hx hxs
      exact absurd (hfin x hx) hxs
  have hprog0 : lvl_progress g1.nodes
      (bitmap_set (bitmap_create (dag_size g1)) (dag_sink g1) true).1 [dag_sink g1] 0 [] := by
    intro q hne hall
    right
    left
    cases hs : (node_at g1.nodes q).succs with
    | nil => exact absurd hs hne
    | cons y rest =>
      have hy : y ∈ (node_at g1.nodes q).succs := by
        rw [hs]
        exact List.mem_cons_self _ _
      refine ⟨y, List.mem_cons_self _ _, ?_⟩
      have := hfin y (hall y hy)
      simp [dag_sink, this]
  obtain ⟨fuel0, st0, hrun0, hinvf, hprogf⟩ :=
    lvl_loop_terminates g1.nodes hwf.wf _ hinv0 hprog0
  refine ⟨⟨fuel0, st0, hrun0⟩, ?_⟩
  intro fuel st hrun
  have hst : st0 = st := lvl_loop_unique _ _ _ _ _ hrun0 hrun
  subst hst
  have hshape := hinvf.shape
  refine ⟨hshape, ?_, ?_⟩
  · show (node_at st0.nodes (st0.nodes.length - 1)).level = 0
    rw [hshape.1]
    exact hinvf.sink_level
  · intro x hx
    have hx1 : x + 1 < g1.nodes.length := by
      rw [← hshape.1]
      exact hx
    have hfx := lvl_all_finished g1 hwf st0.lvl_finished hinvf.sink_fin hprogf
      (g1.nodes.length - 1 - x) x (by omega)
    obtain ⟨M, hM, hl⟩ := hinvf.fin_level x hfx (by omega)
    obtain ⟨_, h2, h3⟩ := lvl_scan_max _ _ _ _ _ hM
    have hne := hwf.succs_ne x hx1
    refine ⟨M, ?_, ?_, ?_⟩
    · show (node_at st0.nodes x).level = to_unsigned ((node_at st0.nodes x).weight + (M : Int))
      rw [hl, (hshape.2 x).1]
    · show ∀ s ∈ (node_at st0.nodes x).succs, (node_at st0.nodes s).level ≤ M
      rw [(hshape.2 x).2.2]
      exact h2
    · show ∃ s ∈ (node_at st0.nodes x).succs, M = (node_at st0.nodes s).level
      rw [(hshape.2 x).2.2]
      rcases h3 with h3 | h3
      · cases hs : (node_at g1.nodes x).succs with
        | nil => exact absurd hs hne
        | cons y rest =>
          have hy : y ∈ (node_at g1.nodes x).succs := by
            rw [hs]
            exact List.mem_cons_self _ _
          refine ⟨y, List.mem_cons_self _ _, ?_⟩
          have := h2 y hy
          omega
      · exact h3

theorem to_unsigned_lt (y : Int) : to_unsigned y < 4294967296 := by
  unfold to_unsigned
  omega

theorem to_unsigned_cast (y : Int) (h0 : 0 ≤ y) (h1 : y < 4294967296) :
    ((to_unsigned y : Nat) : Int) = y := by
  unfold to_unsigned
  omega

theorem to_unsigned_le (y : Int) (h0 : 0 ≤ y) : ((to_unsigned y : Nat) : Int) ≤ y := by
  unfold to_unsigned
  omega

theorem to_int_cast (n : Nat) (h : n < 2147483648) : to_int n = (n : Int) := by
  unfold to_int
  split <;> omega

theorem to_unsigned_to_int (n : Nat) (h : n < 4294967296) : to_unsigned (to_int n) = n := by
  unfold to_unsigned to_int
  split <;> omega

/-! ## Built graphs -/

theorem map_weight_getElem? (ns : List node) (i : Nat) :
    (ns.map node.weight)[i]? =
      if i < ns.length then some (node_at ns i).weight else none := by
  rw [List.getElem?_map]
  by_cases h : i < ns.length
  · simp [h, node_at_lt h, List.getElem?_eq_getElem h]
  · simp [h, List.getElem?_eq_none (Nat.le_of_not_lt h)]

theorem same_shape_weights (ns0 ns : List node) (hs : same_shape ns0 ns) :
    ns.map node.weight = ns0.map node.weight := by
  apply List.ext_getElem?
  intro i
  rw [map_weight_getElem?, map_weight_getElem?, hs.1, (hs.2 i).1]

theorem dag_vertex_weights (g g1 : dag) (w : Int) (deps : List Nat) (idx : Nat)
    (h : dag_vertex g w deps = some (g1, idx)) :
    g1.nodes.map node.weight = g.nodes.map node.weight ++ [w] := by
  obtain ⟨ds, hds, hlen, hlt, hA, hB, hC⟩ := dag_vertex_nodes g g1 w deps idx h
  apply List.ext_getElem?
  intro i
  rw [map_weight_getElem?, hlen]
  rcases Nat.lt_trichotomy i g.nodes.length with h1 | h1 | h1
  · rw [if_pos (by omega), hA i h1, List.getElem?_append_left (by simpa using h1),
      map_weight_getElem?, if_pos h1]
  · rw [if_pos (by omega), h1, hB]
    simp
  · rw [if_neg (by omega)]
    symm
    apply List.getElem?_eq_none
    simp
    omega

theorem dag_vertices_weights (calls : List (Int × List Nat)) (g g1 : dag)
    (h : dag_vertices calls g = some g1) :
    g1.nodes.map node.weight = g.nodes.map node.weight ++ calls.map Prod.fst := by
  induction calls generalizing g with
  | nil =>
    simp only [dag_vertices, Option.some.injEq] at h
    rw [← h]
    simp
  | cons c rest ih =>
    obtain ⟨w, deps⟩ := c
    simp only [dag_vertices] at h
    split at h
    · exact absurd h (by simp)
    · rename_i g2 idx hv
      rw [ih g2 h, dag_vertex_weights g g2 w deps idx hv]
      simp

/-- `dag_build` on a graph made by `dag_create` and `dag_vertex` calls ends,
with enough fuel, and every run that ends gives a built graph. -/
theorem dag_build_spec (g : dag) (hb : g.built = false) (hwf : nodes_wf g.nodes) :
    (∃ fuel g2, dag_build fuel g = some g2) ∧
    ∀ fuel g2, dag_build fuel g = some g2 →
      dag_wf g2 ∧ levels_ok g2 ∧ g2.nodes.map node.weight = g.nodes.map node.weight ++ [0] ∧
      ∃ g1 idx, dag_vertex g 0 (exit_nodes g) = some (g1, idx) ∧
        same_shape g1.nodes g2.nodes := by
  have hex : ∀ d ∈ (if (exit_nodes g).length = 0 then [0] else exit_nodes g),
      d < g.nodes.length := by
    intro d hd
    split at hd
    · simp only [List.mem_singleton] at hd
      rw [hd]
      exact hwf.pos
    · unfold exit_nodes at hd
      exact List.mem_range.1 (List.mem_filter.1 hd).1
  obtain ⟨⟨nodes1, n1⟩, hloop⟩ :=
    vertex_loop_some g.nodes.length _ g.nodes (node_init 0) hex
  have hv : dag_vertex g 0 (exit_nodes g) =
      some ({ g with nodes := nodes1 ++ [n1] }, g.nodes.length) := by
    unfold dag_vertex
    simp only [hloop]
  have hwf1 := sink_vertex_wf g _ _ hwf hv
  obtain ⟨ds, hds, hlen, hlt, hA, hB, hC⟩ := dag_vertex_nodes g _ 0 _ _ hv
  have hsl : (node_at ({ g with nodes := nodes1 ++ [n1] } : dag).nodes
      (({ g with nodes := nodes1 ++ [n1] } : dag).nodes.length - 1)).level = 0 := by
    rw [hlen, Nat.add_sub_cancel, hB]
  obtain ⟨⟨fuel0, st0, hrun0⟩, hall⟩ := lvl_loop_levels _ hwf1 hsl
  have hbuild : ∀ fuel, dag_build fuel g =
      match lvl_loop fuel
          { nodes := ({ g with nodes := nodes1 ++ [n1] } : dag).nodes,
            lvl_ready := [dag_sink { g with nodes := nodes1 ++ [n1] }],
            lvl_finished := (bitmap_set (bitmap_create
              (dag_size { g with nodes := nodes1 ++ [n1] }))
              (dag_sink { g with nodes := nodes1 ++ [n1] }) true).1 } with
      | none => none
      | some st => some { nodes := st.nodes, built := true } := by
    intro fuel
    unfold dag_build
    simp only [hb, Bool.not_false, if_true, hv]
  constructor
  · refine ⟨fuel0, { nodes := st0.nodes, built := true }, ?_⟩
    rw [hbuild, hrun0]
  · intro fuel g2 hg2
    rw [hbuild] at hg2
    split at hg2
    · exact absurd hg2 (by simp)
    · rename_i st hst
      simp only [Option.some.injEq] at hg2
      obtain ⟨hshape, hlev⟩ := hall fuel st hst
      rw [← hg2]
      refine ⟨same_shape_dag_wf _ _ hshape hwf1, hlev, ?_, _, _, hv, hshape⟩
      rw [same_shape_weights _ _ hshape]
      exact dag_vertex_weights g _ 0 _ _ hv

/-- A graph made by `dag_make` is a built graph. -/
theorem dag_make_built (fuel : Nat) (calls : List (Int × List Nat)) (g : dag)
    (h : dag_make fuel calls = some g) : built_graph calls g := by
  unfold dag_make at h
  split at h
  · exact absurd h (by simp)
  · rename_i g0 hv
    have hwf0 := dag_vertices_wf calls dag_create g0 hv nodes_wf_create
    have hb0 : g0.built = false := by
      rw [dag_vertices_built calls dag_create g0 hv]
      rfl
    obtain ⟨h1, h2, h3, _⟩ := (dag_build_spec g0 hb0 hwf0).2 fuel g h
    refine ⟨h1, h2, ?_⟩
    rw [h3, dag_vertices_weights calls dag_create g0 hv]
    simp [dag_create, node_init]

/-- `dag_make` ends, with enough fuel, whenever every dependency exists. -/
theorem dag_make_some (calls : List (Int × List Nat)) (g0 : dag)
    (hv : dag_vertices calls dag_create = some g0) :
    ∃ fuel g, dag_make fuel calls = some g ∧ dag_build fuel g0 = some g := by
  have hwf0 := dag_vertices_wf calls dag_create g0 hv nodes_wf_create
  have hb0 : g0.built = false := by
    rw [dag_vertices_built calls dag_create g0 hv]
    rfl
  obtain ⟨fuel, g, hg⟩ := (dag_build_spec g0 hb0 hwf0).1
  refine ⟨fuel, g, ?_, hg⟩
  unfold dag_make
  simp only [hv]
  exact hg

/-! ## Weights and levels of a built graph -/

theorem node_weight_mem (ns : List node) (x : Nat) (hx : x < ns.length) :
    (node_at ns x).weight ∈ ns.map node.weight := by
  rw [node_at_lt hx]
  exact List.mem_map_of_mem _ (List.getElem_mem _)

theorem built_weight_nonneg (calls : List (Int × List Nat)) (g : dag)
    (hb : built_graph calls g) (hnn : calls_nonneg calls) :
    ∀ x, 0 ≤ (node_at g.nodes x).weight := by
  intro x
  by_cases hx : x < g.nodes.length
  · have hm := node_weight_mem g.nodes x hx
    rw [hb.weights] at hm
    simp only [List.mem_cons, List.mem_append, List.mem_map, List.mem_singleton,
      List.not_mem_nil, or_false] at hm
    rcases hm with hm | ⟨c, hc, hm⟩ | hm
    · omega
    · rw [← hm]
      exact hnn c hc
    · omega
  · rw [node_at_ge (Nat.le_of_not_lt hx)]
    simp [node_init]

theorem weight_from_zero (calls : List (Int × List Nat)) (g : dag)
    (hb : built_graph calls g) : weight_from g.nodes 0 = calls_total calls := by
  unfold weight_from calls_total
  rw [List.drop_zero, hb.weights]
  simp

theorem weight_from_step (ns : List node) (x : Nat) (hx : x < ns.length) :
    weight_from ns x = (node_at ns x).weight + weight_from ns (x + 1) := by
  unfold weight_from
  rw [List.drop_eq_getElem_cons hx, node_at_lt hx, List.map_cons, List.sum_cons]

theorem weight_from_ge (ns : List node) (x : Nat) (hx : ns.length ≤ x) :
    weight_from ns x = 0 := by
  unfold weight_from
  rw [List.drop_eq_nil_of_le hx]
  simp

theorem weight_from_nonneg (ns : List node) (hnn : ∀ x, 0 ≤ (node_at ns x).weight)
    (k : Nat) : ∀ x, x + k = ns.length → 0 ≤ weight_from ns x := by
  induction k with
  | zero =>
    intro x hx
    rw [weight_from_ge ns x (by omega)]
  | succ k ih =>
    intro x hx
    rw [weight_from_step ns x (by omega)]
    have := ih (x + 1) (by omega)
    have := hnn x
    omega

theorem weight_from_nonneg_all (ns : List node) (hnn : ∀ x, 0 ≤ (node_at ns x).weight)
    (x : Nat) : 0 ≤ weight_from ns x := by
  by_cases hx : x ≤ ns.length
  · exact weight_from_nonneg ns hnn (ns.length - x) x (by omega)
  · rw [weight_from_ge ns x (by omega)]

theorem weight_from_mono (ns : List node) (hnn : ∀ x, 0 ≤ (node_at ns x).weight)
    (x k : Nat) : weight_from ns (x + k) ≤ weight_from ns x := by
  induction k with
  | zero => exact le_refl _
  | succ k ih =>
    by_cases hx : x + k < ns.length
    · have h1 := weight_from_step ns (x + k) hx
      have h2 := hnn (x + k)
      rw [show x + (k + 1) = x + k + 1 from rfl]
      omega
    · rw [weight_from_ge ns (x + (k + 1)) (by omega)]
      exact weight_from_nonneg_all ns hnn x

/-- The level of a task is at most the sum of the weights from the task on. -/
theorem level_le_weight_from (calls : List (Int × List Nat)) (g : dag)
    (hb : built_graph calls g) (hnn : calls_nonneg calls) :
    ∀ k x, x + k + 1 = g.nodes.length →
      ((node_at g.nodes x).level : Int) ≤ weight_from g.nodes x := by
  have hw := built_weight_nonneg calls g hb hnn
  intro k
  induction k using Nat.strong_induction_on with
  | _ k ih =>
    intro x hx
    by_cases hk : k = 0
    · have hxs : x = g.nodes.length - 1 := by omega
      rw [hxs, hb.levels.sink]
      exact weight_from_nonneg_all _ hw _
    · obtain ⟨M, hM, _, s, hs, hMs⟩ := hb.levels.inner x (by omega)
      have h1 := hb.wf.wf.succs_lt _ _ hs
      have h2 := hb.wf.wf.preds_lt _ _ ((hb.wf.wf.mem_iff _ _).1 hs)
      have h3 := ih (g.nodes.length - 1 - s) (by omega) s (by omega)
      have h4 := weight_from_mono g.nodes hw (x + 1) (s - (x + 1))
      rw [show x + 1 + (s - (x + 1)) = s by omega] at h4
      have h5 := weight_from_step g.nodes x (by omega)
      have h6 := hw x
      rw [hM]
      have h7 := to_unsigned_le ((node_at g.nodes x).weight + (M : Int)) (by omega)
      rw [hMs] at h7 ⊢
      omega

/-- The weight of a task and the level of one of its successors add up to
at most the sum of the weights from the task on. -/
theorem weight_level_le (calls : List (Int × List Nat)) (g : dag)
    (hb : built_graph calls g) (hnn : calls_nonneg calls) (x s : Nat)
    (hs : s ∈ (node_at g.nodes x).succs) :
    (node_at g.nodes x).weight + ((node_at g.nodes s).level : Int) ≤
      weight_from g.nodes x := by
  have hw := built_weight_nonneg calls g hb hnn
  have h1 := hb.wf.wf.succs_lt _ _ hs
  have h2 := hb.wf.wf.preds_lt _ _ ((hb.wf.wf.mem_iff _ _).1 hs)
  have h3 := level_le_weight_from calls g hb hnn (g.nodes.length - 1 - s) s (by omega)
  have h4 := weight_from_mono g.nodes hw (x + 1) (s - (x + 1))
  rw [show x + 1 + (s - (x + 1)) = s by omega] at h4
  have h5 := weight_from_step g.nodes x (by omega)
  omega

theorem weight_from_le_total (calls : List (Int × List Nat)) (g : dag)
    (hb : built_graph calls g) (hnn : calls_nonneg calls) (x : Nat) :
    weight_from g.nodes x ≤ calls_total calls := by
  have hw := built_weight_nonneg calls g hb hnn
  rw [← weight_from_zero calls g hb]
  have h2 := weight_from_mono g.nodes hw 0 x
  rw [Nat.zero_add] at h2
  exact h2

theorem level_le_total (calls : List (Int × List Nat)) (g : dag)
    (hb : built_graph calls g) (hnn : calls_nonneg calls) (x : Nat) :
    ((node_at g.nodes x).level : Int) ≤ calls_total calls := by
  have hw := built_weight_nonneg calls g hb hnn
  rw [← weight_from_zero calls g hb]
  by_cases hx : x < g.nodes.length
  · have h1 := level_le_weight_from calls g hb hnn (g.nodes.length - 1 - x) x (by omega)
    have h2 := weight_from_mono g.nodes hw 0 x
    rw [Nat.zero_add] at h2
    omega
  · rw [node_at_ge (Nat.le_of_not_lt hx)]
    simp only [node_init, Nat.cast_zero]
    exact weight_from_nonneg_all _ hw _

/-- Without overflow the `int` level of a task is its `unsigned` level, and
the level equation holds in the integers. -/
theorem built_levels_int (calls : List (Int × List Nat)) (g : dag)
    (hb : built_graph calls g) (hnn : calls_nonneg calls)
    (htot : calls_total calls < 2147483648) :
    (∀ x, dag_level g x = ((node_at g.nodes x).level : Int)) ∧
    dag_level g (dag_sink g) = 0 ∧
    ∀ x, x + 1 < g.nodes.length →
      (∃ s ∈ dag_succs g x, dag_level g x = dag_weight g x + dag_level g s) ∧
      ∀ s ∈ dag_succs g x, dag_weight g x + dag_level g s ≤ dag_level g x := by
  have hw := built_weight_nonneg calls g hb hnn
  have hlev : ∀ x, dag_level g x = ((node_at g.nodes x).level : Int) := by
    intro x
    unfold dag_level dag_node
    apply to_int_cast
    have := level_le_total calls g hb hnn x
    omega
  refine ⟨hlev, ?_, ?_⟩
  · rw [hlev]
    unfold dag_sink
    rw [hb.levels.sink]
    rfl
  · intro x hx
    obtain ⟨M, hM, hle, s, hs, hMs⟩ := hb.levels.inner x hx
    have h1 := level_le_total calls g hb hnn s
    have h2 := level_le_weight_from calls g hb hnn (g.nodes.length - 1 - x) x (by omega)
    have h3 := hw x
    have h4 := hb.wf.wf.succs_lt _ _ hs
    have h5 := hb.wf.wf.preds_lt _ _ ((hb.wf.wf.mem_iff _ _).1 hs)
    have h6 := weight_level_le calls g hb hnn x s hs
    have h7 := weight_from_le_total calls g hb hnn x
    have hxl : ((node_at g.nodes x).level : Int) = (node_at g.nodes x).weight + (M : Int) := by
      rw [hM]
      apply to_unsigned_cast
      · omega
      · rw [hMs]
        omega
    constructor
    · refine ⟨s, hs, ?_⟩
      rw [hlev, hlev, hxl, hMs]
      rfl
    · intro t ht
      have := hle t ht
      rw [hlev, hlev, hxl]
      unfold dag_weight dag_node
      omega

/-! ## `schedule_compute` -/

theorem compute_run_snoc (g : dag) (m : Nat) (l : List Nat) (x : Nat) :
    compute_run g m (l ++ [x]) = compute_step g m (compute_run g m l) x := by
  simp [compute_run, List.foldl_append]

theorem machine_scan_aux (E : Nat → Nat) (l : List Nat) (acc : Nat × Nat) :
    let r := l.foldl (fun acc i => if E i < acc.1 then (E i, i) else acc) acc
    r.1 ≤ acc.1 ∧ (∀ i ∈ l, r.1 ≤ E i) ∧ (r = acc ∨ (r.2 ∈ l ∧ r.1 = E r.2)) := by
  induction l generalizing acc with
  | nil => simp
  | cons a rest ih =>
    simp only [List.foldl_cons]
    have h := ih (if E a < acc.1 then (E a, a) else acc)
    simp only at h
    obtain ⟨h1, h2, h3⟩ := h
    by_cases hlt : E a < acc.1
    · simp only [hlt, if_true] at h1 h2 h3 ⊢
      refine ⟨by omega, ?_, ?_⟩
      · intro i hi
        rcases List.mem_cons.1 hi with rfl | hi
        · exact h1
        · exact h2 i hi
      · rcases h3 with h3 | ⟨h3, h4⟩
        · right
          rw [h3]
          exact ⟨List.mem_cons_self _ _, rfl⟩
        · exact Or.inr ⟨List.mem_cons_of_mem _ h3, h4⟩
    · simp only [hlt, if_false] at h1 h2 h3 ⊢
      refine ⟨h1, ?_, ?_⟩
      · intro i hi
        rcases List.mem_cons.1 hi with rfl | hi
        · omega
        · exact h2 i hi
      · rcases h3 with h3 | ⟨h3, h4⟩
        · exact Or.inl h3
        · exact Or.inr ⟨List.mem_cons_of_mem _ h3, h4⟩

/-- The first inner loop of `schedule_compute` finds a machine of least
busy-until time, provided there is a machine and the times are `unsigned`. -/
theorem machine_scan_spec (E : Nat → Nat) (m : Nat) (hm : 1 ≤ m)
    (hE : ∀ i, E i < 4294967296) :
    (machine_scan E m).2 < m ∧ (machine_scan E m).1 = E (machine_scan E m).2 ∧
      ∀ i, i < m → (machine_scan E m).1 ≤ E i := by
  have h := machine_scan_aux E (List.range m) (UINT_MAX, 0)
  simp only at h
  obtain ⟨h1, h2, h3⟩ := h
  unfold machine_scan
  refine ⟨?_, ?_, fun i hi => h2 i (List.mem_range.2 hi)⟩
  · rcases h3 with h3 | ⟨h3, _⟩
    · rw [h3]
      exact hm
    · exact List.mem_range.1 h3
  · rcases h3 with h3 | ⟨_, h3⟩
    · have h4 := h2 0 (List.mem_range.2 hm)
      rw [h3] at h4 ⊢
      have := hE 0
      simp only [UINT_MAX] at h4 ⊢
      omega
    · exact h3

theorem pred_scan_aux (te asg : Nat → Nat) (l : List Nat) (acc : Nat × Nat) :
    let r := l.foldl (fun acc p => if te p > acc.1 then (te p, asg p) else acc) acc
    acc.1 ≤ r.1 ∧ (∀ p ∈ l, te p ≤ r.1) ∧
      (r = acc ∨ ∃ p ∈ l, r.1 = te p ∧ r.2 = asg p) := by
  induction l generalizing acc with
  | nil => simp
  | cons a rest ih =>
    simp only [List.foldl_cons]
    have h := ih (if te a > acc.1 then (te a, asg a) else acc)
    simp only at h
    obtain ⟨h1, h2, h3⟩ := h
    by_cases hlt : te a > acc.1
    · simp only [hlt, if_true] at h1 h2 h3 ⊢
      refine ⟨by omega, ?_, ?_⟩
      · intro i hi
        rcases List.mem_cons.1 hi with rfl | hi
        · exact h1
        · exact h2 i hi
      · rcases h3 with h3 | ⟨p, hp, h3⟩
        · right
          rw [h3]
          exact ⟨a, List.mem_cons_self _ _, rfl, rfl⟩
        · exact Or.inr ⟨p, List.mem_cons_of_mem _ hp, h3⟩
    · simp only [hlt, if_false] at h1 h2 h3 ⊢
      refine ⟨h1, ?_, ?_⟩
      · intro i hi
        rcases List.mem_cons.1 hi with rfl | hi
        · omega
        · exact h2 i hi
      · rcases h3 with h3 | ⟨p, hp, h3⟩
        · exact Or.inl h3
        · exact Or.inr ⟨p, List.mem_cons_of_mem _ hp, h3⟩

/-- The second inner loop of `schedule_compute` finds the largest finish
time among the predecessors, and the machine of a predecessor that has it. -/
theorem pred_scan_spec (te asg : Nat → Nat) (l : List Nat) :
    (∀ p ∈ l, te p ≤ (pred_scan te asg l).1) ∧
      ((pred_scan te asg l).1 = 0 ∨
        ∃ p ∈ l, (pred_scan te asg l).1 = te p ∧ (pred_scan te asg l).2 = asg p) := by
  have h := pred_scan_aux te asg l (0, 0)
  simp only at h
  obtain ⟨_, h2, h3⟩ := h
  unfold pred_scan
  refine ⟨h2, ?_⟩
  rcases h3 with h3 | h3
  · left
    rw [h3]
  · exact Or.inr h3

theorem final_time_aux (E : Nat → Nat) (l : List Nat) (acc : Nat) :
    let r := l.foldl (fun ft i => if E i > ft then E i else ft) acc
    acc ≤ r ∧ (∀ i ∈ l, E i ≤ r) ∧ (r = acc ∨ ∃ i ∈ l, r = E i) := by
  induction l generalizing acc with
  | nil => simp
  | cons a rest ih =>
    simp only [List.foldl_cons]
    have h := ih (if E a > acc then E a else acc)
    simp only at h
    obtain ⟨h1, h2, h3⟩ := h
    by_cases hlt : E a > acc
    · simp only [hlt, if_true] at h1 h2 h3 ⊢
      refine ⟨by omega, ?_, ?_⟩
      · intro i hi
        rcases List.mem_cons.1 hi with rfl | hi
        · exact h1
        · exact h2 i hi
      · rcases h3 with h3 | ⟨p, hp, h3⟩
        · exact Or.inr ⟨a, List.mem_cons_self _ _, h3⟩
        · exact Or.inr ⟨p, List.mem_cons_of_mem _ hp, h3⟩
    · simp only [hlt, if_false] at h1 h2 h3 ⊢
      refine ⟨h1, ?_, ?_⟩
      · intro i hi
        rcases List.mem_cons.1 hi with rfl | hi
        · omega
        · exact h2 i hi
      · rcases h3 with h3 | ⟨p, hp, h3⟩
        · exact Or.inl h3
        · exact Or.inr ⟨p, List.mem_cons_of_mem _ hp, h3⟩

/-- The last loop of `schedule_compute` returns the largest busy-until time
of the `m` machines (0 when there is none). -/
theorem final_time_spec (E : Nat → Nat) (m : Nat) :
    (∀ i, i < m → E i ≤ final_time E m) ∧
      (final_time E m = 0 ∨ ∃ i, i < m ∧ final_time E m = E i) := by
  have h := final_time_aux E (List.range m) 0
  simp only at h
  obtain ⟨_, h2, h3⟩ := h
  unfold final_time
  refine ⟨fun i hi => h2 i (List.mem_range.2 hi), ?_⟩
  rcases h3 with h3 | ⟨i, hi, h3⟩
  · exact Or.inl h3
  · exact Or.inr ⟨i, List.mem_range.1 hi, h3⟩
/-- The start time `schedule_compute` chooses is the larger of the least
busy-until time and the largest finish time of the predecessors; the
machine is the least busy one or the machine of a predecessor. -/
theorem placement_spec (g : dag) (m : Nat) (hm : 1 ≤ m) (st : compute_state) (x : Nat)
    (hE : ∀ i, st.end_times i < 4294967296) :
    (∀ p ∈ dag_preds g x, st.task_ends p ≤ (placement g m st x).2) ∧
    (∀ i, i < m → (machine_scan st.end_times m).1 ≤ st.end_times i) ∧
    (machine_scan st.end_times m).1 ≤ (placement g m st x).2 ∧
    ((placement g m st x).1 < m ∧
        (placement g m st x).2 = st.end_times (placement g m st x).1 ∨
      ∃ p ∈ dag_preds g x, (placement g m st x).2 = st.task_ends p ∧
        (placement g m st x).1 = st.assignments p ∧
        (machine_scan st.end_times m).1 < st.task_ends p) := by
  obtain ⟨h1, h2, h3⟩ := machine_scan_spec st.end_times m hm hE
  obtain ⟨h4, h5⟩ := pred_scan_spec st.task_ends st.assignments (dag_preds g x)
  unfold placement
  simp only
  by_cases hgt : (pred_scan st.task_ends st.assignments (dag_preds g x)).1 >
      (machine_scan st.end_times m).1
  · simp only [hgt, if_true]
    refine ⟨h4, h3, by omega, ?_⟩
    right
    rcases h5 with h5 | ⟨p, hp, h5, h6⟩
    · omega
    · exact ⟨p, hp, h5, h6, by omega⟩
  · simp only [hgt, if_false]
    refine ⟨?_, h3, le_refl _, Or.inl ⟨h1, h2⟩⟩
    intro p hp
    have := h4 p hp
    omega

theorem order_weight_snoc (g : dag) (l : List Nat) (x : Nat) :
    order_weight g (l ++ [x]) = order_weight g l + dag_weight g x := by
  simp [order_weight]

theorem order_weight_nonneg (g : dag) (hw : ∀ x, 0 ≤ dag_weight g x) (l : List Nat) :
    0 ≤ order_weight g l := by
  unfold order_weight
  apply List.sum_nonneg
  intro y hy
  obtain ⟨x, _, hx⟩ := List.mem_map.1 hy
  rw [← hx]
  exact hw x

/-- No finish time and no busy-until time exceeds the sum of the weights of
the tasks placed so far. -/
theorem compute_run_bound (g : dag) (m : Nat) (hm : 1 ≤ m) (hw : ∀ x, 0 ≤ dag_weight g x)
    (l : List Nat) :
    (∀ t, ((compute_run g m l).task_ends t : Int) ≤ order_weight g l) ∧
    (∀ i, ((compute_run g m l).end_times i : Int) ≤ order_weight g l) ∧
    (∀ i, (compute_run g m l).end_times i < 4294967296) := by
  induction l using List.reverseRecOn with
  | nil =>
    refine ⟨?_, ?_, ?_⟩
    · intro t
      simp [compute_run, compute_init, order_weight]
    · intro i
      simp [compute_run, compute_init, order_weight]
    · intro i
      simp [compute_run, compute_init]
  | append_singleton l x ih =>
    obtain ⟨h1, h2, h3⟩ := ih
    rw [compute_run_snoc, order_weight_snoc]
    obtain ⟨_, _, _, hp4⟩ := placement_spec g m hm (compute_run g m l) x h3
    have hpl : (((placement g m (compute_run g m l) x).2 : Nat) : Int) ≤ order_weight g l := by
      rcases hp4 with ⟨_, h⟩ | ⟨p, _, h, _⟩
      · rw [h]
        exact h2 _
      · rw [h]
        exact h1 _
    have hwx := hw x
    have hfin := to_unsigned_le
      (((placement g m (compute_run g m l) x).2 : Int) + dag_weight g x) (by omega)
    have hlt := to_unsigned_lt
      (((placement g m (compute_run g m l) x).2 : Int) + dag_weight g x)
    unfold compute_step
    simp only
    refine ⟨?_, ?_, ?_⟩
    · intro t
      by_cases ht : t = x
      · rw [ht, Function.update_same]
        omega
      · rw [Function.update_noteq ht]
        have := h1 t
        omega
    · intro i
      by_cases hi : i = (placement g m (compute_run g m l) x).1
      · rw [hi, Function.update_same]
        omega
      · rw [Function.update_noteq hi]
        have := h2 i
        omega
    · intro i
      by_cases hi : i = (placement g m (compute_run g m l) x).1
      · rw [hi, Function.update_same]
        exact hlt
      · rw [Function.update_noteq hi]
        exact h3 i

/-- The value of `schedule_length` is the largest busy-until time. -/
theorem list_makespan_eq (g : dag) (m : Nat) (hm : 1 ≤ m) (hw : ∀ x, 0 ≤ dag_weight g x)
    (l : List Nat) :
    list_makespan g m l = final_time (compute_run g m l).end_times m := by
  unfold list_makespan schedule_length schedule_build schedule_compute schedule_new
  simp only
  apply to_unsigned_to_int
  obtain ⟨_, _, h3⟩ := compute_run_bound g m hm hw l
  rcases (final_time_spec (compute_run g m l).end_times m).2 with h | ⟨i, _, h⟩
  · rw [h]
    omega
  · rw [h]
    exact h3 i

theorem list_makespan_le (g : dag) (m : Nat) (hm : 1 ≤ m) (hw : ∀ x, 0 ≤ dag_weight g x)
    (l : List Nat) : (list_makespan g m l : Int) ≤ order_weight g l := by
  rw [list_makespan_eq g m hm hw l]
  obtain ⟨_, h2, _⟩ := compute_run_bound g m hm hw l
  rcases (final_time_spec (compute_run g m l).end_times m).2 with h | ⟨i, _, h⟩
  · rw [h]
    exact order_weight_nonneg g hw l
  · rw [h]
    exact h2 i

theorem order_valid_snoc (g : dag) (l : List Nat) (x : Nat) :
    order_valid g (l ++ [x]) ↔ order_valid g l ∧ ∀ p ∈ dag_preds g x, p ∈ l := by
  constructor
  · intro h
    constructor
    · intro i t hi p hp
      have hil : i < l.length := by
        by_contra hc
        rw [List.getElem?_eq_none (Nat.le_of_not_lt hc)] at hi
        exact absurd hi (by simp)
      obtain ⟨j, hj, hjp⟩ := h i t (by rw [List.getElem?_append_left hil]; exact hi) p hp
      refine ⟨j, hj, ?_⟩
      rw [List.getElem?_append_left (by omega)] at hjp
      exact hjp
    · intro p hp
      obtain ⟨j, hj, hjp⟩ := h l.length x (by simp) p hp
      rw [List.getElem?_append_left hj] at hjp
      exact List.getElem?_mem hjp
  · intro ⟨h1, h2⟩ i t hi p hp
    by_cases hil : i < l.length
    · rw [List.getElem?_append_left hil] at hi
      obtain ⟨j, hj, hjp⟩ := h1 i t hi p hp
      exact ⟨j, hj, by rw [List.getElem?_append_left (by omega)]; exact hjp⟩
    · have hil2 : i = l.length := by
        by_contra hc
        have : (l ++ [x])[i]? = none := by
          apply List.getElem?_eq_none
          simp
          omega
        rw [this] at hi
        exact absurd hi (by simp)
      rw [hil2] at hi ⊢
      simp only [List.getElem?_concat_length, Option.some.injEq] at hi
      rw [← hi] at hp
      obtain ⟨j, hj⟩ := List.getElem?_of_mem (h2 p hp)
      have hjl : j < l.length := by
        by_contra hc
        rw [List.getElem?_eq_none (Nat.le_of_not_lt hc)] at hj
        exact absurd hj (by simp)
      exact ⟨j, hjl, by rw [List.getElem?_append_left hjl]; exact hj⟩

theorem order_valid_pred_mem (g : dag) (l : List Nat) (hv : order_valid g l) (t p : Nat)
    (ht : t ∈ l) (hp : p ∈ dag_preds g t) : p ∈ l := by
  obtain ⟨i, hi⟩ := List.getElem?_of_mem ht
  obtain ⟨j, _, hj⟩ := hv i t hi p hp
  exact List.getElem?_mem hj

/-- In a valid order without repetition every task finishes no earlier
than each predecessor's finish time plus its own weight, as long as the
sum of the weights stays below `2^32`. -/
theorem compute_run_prec (g : dag) (m : Nat) (hm : 1 ≤ m) (hw : ∀ x, 0 ≤ dag_weight g x)
    (l : List Nat) (hv : order_valid g l) (hnd : l.Nodup)
    (hB : order_weight g l < 4294967296) :
    (∀ t ∈ l, ∀ p ∈ dag_preds g t,
      ((compute_run g m l).task_ends p : Int) + dag_weight g t ≤
        (compute_run g m l).task_ends t) ∧
    (∀ t ∈ l, (compute_run g m l).assignments t < m) ∧
    (∀ l1 z, l = l1 ++ [z] →
      (compute_run g m l).task_ends z ≤ final_time (compute_run g m l).end_times m) := by
  induction l using List.reverseRecOn with
  | nil =>
    refine ⟨?_, ?_, ?_⟩
    · intro t ht
      simp at ht
    · intro t ht
      simp at ht
    · intro l1 z h
      simp at h
  | append_singleton l x ih =>
    obtain ⟨hv1, hv2⟩ := (order_valid_snoc g l x).1 hv
    have hnd1 : l.Nodup := (List.nodup_append.1 hnd).1
    have hxl : x ∉ l := by
      intro hx
      exact (List.nodup_append.1 hnd).2.2 hx (List.mem_singleton_self x)
    rw [order_weight_snoc] at hB
    have hwx := hw x
    have hBl := order_weight_nonneg g hw l
    obtain ⟨ih1, ih2, _⟩ := ih hv1 hnd1 (by omega)
    obtain ⟨hb1, hb2, hb3⟩ := compute_run_bound g m hm hw l
    obtain ⟨hp1, _, _, hp4⟩ := placement_spec g m hm (compute_run g m l) x hb3
    have hpl : (((placement g m (compute_run g m l) x).2 : Nat) : Int) ≤ order_weight g l := by
      rcases hp4 with ⟨_, h⟩ | ⟨p, _, h, _⟩
      · rw [h]
        exact hb2 _
      · rw [h]
        exact hb1 _
    have hfin := to_unsigned_cast
      (((placement g m (compute_run g m l) x).2 : Int) + dag_weight g x) (by omega) (by omega)
    have hplm : (placement g m (compute_run g m l) x).1 < m := by
      rcases hp4 with ⟨h, _⟩ | ⟨p, hp, _, h, _⟩
      · exact h
      · rw [h]
        exact ih2 p (hv2 p hp)
    rw [compute_run_snoc]
    unfold compute_step
    simp only
    refine ⟨?_, ?_, ?_⟩
    · intro t ht p hp
      rcases List.mem_append.1 ht with ht | ht
      · have htx : t ≠ x := fun h => hxl (h ▸ ht)
        have hpl1 : p ∈ l := order_valid_pred_mem g l hv1 t p ht hp
        have hpx : p ≠ x := fun h => hxl (h ▸ hpl1)
        rw [Function.update_noteq htx, Function.update_noteq hpx]
        exact ih1 t ht p hp
      · simp only [List.mem_singleton] at ht
        subst ht
        have hpl1 : p ∈ l := hv2 p hp
        have hpx : p ≠ t := fun h => hxl (h ▸ hpl1)
        rw [Function.update_same, Function.update_noteq hpx, hfin]
        have := hp1 p hp
        omega
    · intro t ht
      rcases List.mem_append.1 ht with ht | ht
      · have htx : t ≠ x := fun h => hxl (h ▸ ht)
        rw [Function.update_noteq htx]
        exact ih2 t ht
      · simp only [List.mem_singleton] at ht
        subst ht
        rw [Function.update_same]
        exact hplm
    · intro l1 z h
      obtain ⟨_, hz⟩ := List.append_inj' h rfl
      simp only [List.cons.injEq, and_true] at hz
      subst hz
      rw [Function.update_same]
      have h5 := (final_time_spec
        (Function.update (compute_run g m l).end_times (placement g m (compute_run g m l) x).1
          (to_unsigned (((placement g m (compute_run g m l) x).2 : Int) + dag_weight g x)))
        m).1 _ hplm
      rw [Function.update_same] at h5
      exact h5

/-- The last task of a complete valid order of a built graph is the sink. -/
theorem complete_last_sink (g : dag) (hwf : dag_wf g) (l : List Nat) (z : Nat)
    (hc : order_complete g (l ++ [z])) (hv : order_valid g (l ++ [z])) :
    z = dag_sink g := by
  by_contra hz
  obtain ⟨hnd, hmem⟩ := hc
  have hzl : z < dag_size g := (hmem z).1 (by simp)
  unfold dag_sink at hz
  unfold dag_size at hzl hmem
  have hne := hwf.succs_ne z (by omega)
  cases hs : (node_at g.nodes z).succs with
  | nil => exact hne hs
  | cons s rest =>
    have hsm : s ∈ (node_at g.nodes z).succs := by
      rw [hs]
      exact List.mem_cons_self _ _
    have h1 := hwf.wf.succs_lt _ _ hsm
    have h2 := (hwf.wf.mem_iff _ _).1 hsm
    have h3 := hwf.wf.preds_lt _ _ h2
    have hsl : s ∈ l := by
      have := (hmem s).2 h1
      rcases List.mem_append.1 this with h | h
      · exact h
      · simp only [List.mem_singleton] at h
        omega
    obtain ⟨hv1, _⟩ := (order_valid_snoc g l z).1 hv
    have hzl2 : z ∈ l := order_valid_pred_mem g l hv1 s z hsl h2
    exact (List.nodup_append.1 hnd).2.2 hzl2 (List.mem_singleton_self z)

/-- The weights of distinct tasks from `x` on sum to at most the weights of
all tasks from `x` on. -/
theorem order_weight_le_from (g : dag) (hw : ∀ x, 0 ≤ (node_at g.nodes x).weight) :
    ∀ k x (l : List Nat), x + k = g.nodes.length → l.Nodup →
      (∀ t ∈ l, x ≤ t ∧ t < g.nodes.length) →
      order_weight g l ≤ weight_from g.nodes x := by
  intro k
  induction k with
  | zero =>
    intro x l hx hnd hl
    cases l with
    | nil =>
      simp only [order_weight, List.map_nil, List.sum_nil]
      exact weight_from_nonneg_all _ hw _
    | cons a rest =>
      have := hl a (List.mem_cons_self _ _)
      omega
  | succ k ih =>
    intro x l hx hnd hl
    have hstep := weight_from_step g.nodes x (by omega)
    by_cases hxl : x ∈ l
    · have hperm := List.perm_cons_erase hxl
      have hsum : order_weight g l = dag_weight g x + order_weight g (l.erase x) := by
        unfold order_weight
        rw [(hperm.map (dag_weight g)).sum_eq]
        simp
      have h2 := ih (x + 1) (l.erase x) (by omega) (hnd.erase x) (by
        intro t ht
        have htl := List.mem_of_mem_erase ht
        have htx : t ≠ x := by
          intro h
          rw [h] at ht
          exact (List.Nodup.not_mem_erase hnd) ht
        have := hl t htl
        omega)
      rw [hsum, hstep]
      unfold dag_weight dag_node
      omega
    · have h2 := ih (x + 1) l (by omega) hnd (by
        intro t ht
        have htx : t ≠ x := fun h => hxl (h ▸ ht)
        have := hl t ht
        omega)
      have := hw x
      omega

theorem order_weight_le_total (calls : List (Int × List Nat)) (g : dag)
    (hb : built_graph calls g) (hnn : calls_nonneg calls) (l : List Nat) (hnd : l.Nodup)
    (hl : ∀ t ∈ l, t < g.nodes.length) : order_weight g l ≤ calls_total calls := by
  have hw := built_weight_nonneg calls g hb hnn
  rw [← weight_from_zero calls g hb]
  apply order_weight_le_from g hw g.nodes.length 0 l (by omega) hnd
  intro t ht
  exact ⟨Nat.zero_le _, hl t ht⟩

theorem built_source_weight (calls : List (Int × List Nat)) (g : dag)
    (hb : built_graph calls g) : (node_at g.nodes 0).weight = 0 := by
  have h := map_weight_getElem? g.nodes 0
  rw [hb.weights, if_pos hb.wf.wf.pos] at h
  simp only [List.getElem?_cons_zero, Option.some.injEq] at h
  exact h.symm

/-- The list-scheduled makespan of a complete valid order is at least the
level of the source, when the weights are non-negative and sum to less
than `2^31`. -/
theorem makespan_ge_level (calls : List (Int × List Nat)) (g : dag)
    (hb : built_graph calls g) (hnn : calls_nonneg calls)
    (htot : calls_total calls < 2147483648) (m : Nat) (hm : 1 ≤ m) (o : List Nat)
    (hc : order_complete g o) (hv : order_valid g o) :
    dag_level g (dag_source g) ≤ (list_makespan g m o : Int) := by
  have hw : ∀ x, 0 ≤ dag_weight g x := built_weight_nonneg calls g hb hnn
  have hB : order_weight g o ≤ calls_total calls :=
    order_weight_le_total calls g hb hnn o hc.1 (fun t ht => (hc.2 t).1 ht)
  obtain ⟨hlev, _, hinner⟩ := built_levels_int calls g hb hnn htot
  rcases List.eq_nil_or_concat o with h | ⟨l, z, h⟩
  · have := (hc.2 0).2 hb.wf.wf.pos
    rw [h] at this
    simp at this
  · rw [List.concat_eq_append] at h
    have hz : z = dag_sink g := by
      rw [h] at hc hv
      exact complete_last_sink g hb.wf l z hc hv
    obtain ⟨hprec, _, hlast⟩ := compute_run_prec g m hm hw o hv hc.1 (by omega)
    have hl := hlast l z h
    rw [list_makespan_eq g m hm hw o]
    have hchain : ∀ k x, x + k + 1 = g.nodes.length →
        ((compute_run g m o).task_ends x : Int) + dag_level g x ≤
          ((compute_run g m o).task_ends (dag_sink g) : Int) + dag_weight g x := by
      intro k
      induction k using Nat.strong_induction_on with
      | _ k ih =>
        intro x hx
        by_cases hk : k = 0
        · have hxs : x = dag_sink g := by
            unfold dag_sink
            omega
          rw [hxs]
          have := hw (dag_sink g)
          have h0 : dag_level g (dag_sink g) = 0 := (built_levels_int calls g hb hnn htot).2.1
          omega
        · obtain ⟨⟨s, hs, hxs⟩, _⟩ := hinner x (by omega)
          have h1 := hb.wf.wf.succs_lt _ _ hs
          have h2 := (hb.wf.wf.mem_iff _ _).1 hs
          have h3 := hb.wf.wf.preds_lt _ _ h2
          have h4 := ih (g.nodes.length - 1 - s) (by omega) s (by omega)
          have h5 := hprec s ((hc.2 s).2 h1) x h2
          omega
    have h0 := hchain (g.nodes.length - 1) 0 (by have := hb.wf.two; omega)
    have hw0 : dag_weight g 0 = 0 := built_source_weight calls g hb
    rw [hw0] at h0
    rw [hz] at hl
    unfold dag_source
    have : (0 : Int) ≤ ((compute_run g m o).task_ends 0 : Int) := Int.natCast_nonneg _
    omega

/-! ## The ready set of `bb` -/

theorem mark_ready_aux (s : schedule) (succs : List Nat) (acc : List Nat × bitmap) :
    let r := succs.foldl
      (fun acc succ =>
        if (dag_preds s.g succ).all (fun p => schedule_contains s p) then
          (succ :: acc.1, (bitmap_set acc.2 succ true).1)
        else acc) acc
    (∀ i, i ∈ r.1 ↔ i ∈ acc.1 ∨
      (i ∈ succs ∧ (dag_preds s.g i).all (fun p => schedule_contains s p) = true)) ∧
    (∀ i, bitmap_get r.2 i = true ↔ bitmap_get acc.2 i = true ∨
      (i ∈ succs ∧ (dag_preds s.g i).all (fun p => schedule_contains s p) = true)) := by
  induction succs generalizing acc with
  | nil => simp
  | cons a rest ih =>
    simp only [List.foldl_cons]
    have h := ih (if (dag_preds s.g a).all (fun p => schedule_contains s p) then
          (a :: acc.1, (bitmap_set acc.2 a true).1) else acc)
    simp only at h
    obtain ⟨h1, h2⟩ := h
    by_cases ha : (dag_preds s.g a).all (fun p => schedule_contains s p) = true
    · simp only [ha, if_true] at h1 h2 ⊢
      constructor
      · intro i
        rw [h1 i]
        simp only [List.mem_cons]
        constructor
        · rintro ((h | h) | h)
          · right
            exact ⟨Or.inl h, h ▸ ha⟩
          · exact Or.inl h
          · exact Or.inr ⟨Or.inr h.1, h.2⟩
        · rintro (h | ⟨h | h, h3⟩)
          · exact Or.inl (Or.inr h)
          · exact Or.inl (Or.inl h)
          · exact Or.inr ⟨h, h3⟩
      · intro i
        rw [h2 i, bitmap_get_set]
        simp only [List.mem_cons]
        constructor
        · rintro (h | h)
          · by_cases hia : i = a
            · right
              exact ⟨Or.inl hia, hia ▸ ha⟩
            · rw [if_neg hia] at h
              exact Or.inl h
          · exact Or.inr ⟨Or.inr h.1, h.2⟩
        · rintro (h | ⟨h | h, h3⟩)
          · left
            split
            · rfl
            · exact h
          · left
            rw [if_pos h]
          · exact Or.inr ⟨h, h3⟩
    · simp only [ha, if_false, Bool.false_eq_true] at h1 h2 ⊢
      constructor
      · intro i
        rw [h1 i]
        simp only [List.mem_cons]
        constructor
        · rintro (h | h)
          · exact Or.inl h
          · exact Or.inr ⟨Or.inr h.1, h.2⟩
        · rintro (h | ⟨h | h, h3⟩)
          · exact Or.inl h
          · rw [h] at h3
            exact absurd h3 ha
          · exact Or.inr ⟨h, h3⟩
      · intro i
        rw [h2 i]
        simp only [List.mem_cons]
        constructor
        · rintro (h | h)
          · exact Or.inl h
          · exact Or.inr ⟨Or.inr h.1, h.2⟩
        · rintro (h | ⟨h | h, h3⟩)
          · exact Or.inl h
          · rw [h] at h3
            exact absurd h3 ha
          · exact Or.inr ⟨h, h3⟩

/-- The successors `mark_ready` pushes and marks are those whose
predecessors are all contained in the schedule. -/
theorem mark_ready_spec (s : schedule) (succs : List Nat) (ready_set : bitmap) :
    (∀ i, i ∈ (mark_ready s succs ready_set).1 ↔
      (i ∈ succs ∧ ∀ p ∈ dag_preds s.g i, schedule_contains s p = true)) ∧
    (∀ i, bitmap_get (mark_ready s succs ready_set).2 i = true ↔
      bitmap_get ready_set i = true ∨
        (i ∈ succs ∧ ∀ p ∈ dag_preds s.g i, schedule_contains s p = true)) := by
  have h := mark_ready_aux s succs ([], ready_set)
  simp only [List.not_mem_nil, false_or] at h
  obtain ⟨h1, h2⟩ := h
  unfold mark_ready
  constructor
  · intro i
    rw [h1 i, List.all_eq_true]
  · intro i
    rw [h2 i, List.all_eq_true]

theorem clear_ready_spec (l : List Nat) (b : bitmap) (i : Nat) :
    bitmap_get (clear_ready l b) i = true ↔ bitmap_get b i = true ∧ i ∉ l := by
  unfold clear_ready
  induction l generalizing b with
  | nil => simp
  | cons a rest ih =>
    simp only [List.foldl_cons, List.mem_cons, not_or]
    rw [ih, bitmap_get_set]
    constructor
    · rintro ⟨h1, h2⟩
      by_cases hia : i = a
      · rw [if_pos hia] at h1
        exact absurd h1 (by simp)
      · rw [if_neg hia] at h1
        exact ⟨h1, hia, h2⟩
    · rintro ⟨h1, h2, h3⟩
      rw [if_neg h2]
      exact ⟨h1, h3⟩

theorem bitmap_ext (a b : bitmap) (h : ∀ i, bitmap_get a i = true ↔ bitmap_get b i = true) :
    a = b := by
  funext i
  have := h i
  unfold bitmap_get at this
  cases ha : a i <;> cases hb : b i <;> simp [ha, hb] at this ⊢

theorem set_ready_spec (l : List Nat) (b : bitmap) (i : Nat) :
    bitmap_get (l.foldl (fun b i => (bitmap_set b i true).1) b) i = true ↔
      bitmap_get b i = true ∨ i ∈ l := by
  induction l generalizing b with
  | nil => simp
  | cons a rest ih =>
    simp only [List.foldl_cons, List.mem_cons]
    rw [ih, bitmap_get_set]
    constructor
    · rintro (h | h)
      · by_cases hia : i = a
        · exact Or.inr (Or.inl hia)
        · rw [if_neg hia] at h
          exact Or.inl h
      · exact Or.inr (Or.inr h)
    · rintro (h | h | h)
      · left
        split
        · rfl
        · exact h
      · left
        rw [if_pos h]
      · exact Or.inr h

/-! ## One step of the search -/

theorem nodup_length_le (l : List Nat) (N : Nat) (hnd : l.Nodup) (hl : ∀ t ∈ l, t < N) :
    l.length ≤ N := by
  have hsub : l ⊆ List.range N := fun t ht => List.mem_range.2 (hl t ht)
  have := (List.Nodup.subperm hnd hsub).length_le
  simpa using this

/-- A task of the ready set can be added; the schedule and the ready set
that `bb` hands to the recursive call satisfy the entry invariant again. -/
theorem bb_add_step (g : dag) (hwf : dag_wf g) (m : Nat) (s : schedule) (ready_set : bitmap)
    (hpre : bb_pre g m s ready_set) (x : Nat) (hx : bitmap_get ready_set x = true) :
    schedule_add s x =
      some (schedule_pushed s x, 0) ∧
    bb_pre g m (schedule_pushed s x)
      (ready_pushed s ready_set x) := by
  obtain ⟨hxl, hxo, hxp⟩ := (hpre.ready x).1 hx
  have hcx : s.contents x = false := by
    have h := hpre.contents x
    unfold schedule_contains bitmap_get at h
    cases hc : s.contents x
    · rfl
    · exact absurd (h.1 hc) hxo
  have hlen : s.order.length < dag_size g := by
    have h := nodup_length_le (x :: s.order) (dag_size g)
      (List.nodup_cons.2 ⟨hxo, hpre.nodup⟩) (by
        intro t ht
        rcases List.mem_cons.1 ht with h | h
        · rw [h]
          exact hxl
        · exact hpre.lt t h)
    simp only [List.length_cons] at h
    omega
  have hcont : ∀ i, schedule_contains (schedule_pushed s x) i = true ↔
      i ∈ s.order ++ [x] := by
    intro i
    show bitmap_get (bitmap_set s.contents x true).1 i = true ↔ _
    rw [bitmap_get_set]
    by_cases hix : i = x
    · simp [hix]
    · rw [if_neg hix]
      have := hpre.contents i
      unfold schedule_contains at this
      rw [this]
      simp [hix]
  constructor
  · unfold schedule_add
    have h1 : x < dag_size s.g ∧ s.order.length < dag_size s.g := by
      rw [hpre.hg]
      exact ⟨hxl, hlen⟩
    rw [if_pos h1]
    have : (bitmap_set s.contents x true).2 = false := hcx
    simp [this]
  · refine ⟨hpre.hg, hpre.hm, ?_, ?_, ?_, hcont, ?_⟩
    · show (s.order ++ [x]).Nodup
      rw [List.nodup_append]
      refine ⟨hpre.nodup, List.nodup_singleton x, ?_⟩
      intro a ha hb
      simp only [List.mem_singleton] at hb
      exact hxo (hb ▸ ha)
    · intro t ht
      rcases List.mem_append.1 ht with h | h
      · exact hpre.lt t h
      · simp only [List.mem_singleton] at h
        rw [h]
        exact hxl
    · exact (order_valid_snoc g s.order x).2 ⟨hpre.valid, hxp⟩
    · intro i
      show bitmap_get (bitmap_set _ x false).1 i = true ↔
        (i < dag_size g ∧ i ∉ s.order ++ [x] ∧ ∀ p ∈ dag_preds g i, p ∈ s.order ++ [x])
      rw [bitmap_get_set]
      by_cases hix : i = x
      · rw [if_pos hix]
        simp [hix]
      · rw [if_neg hix, (mark_ready_spec _ _ _).2 i]
        have hgg : (schedule_pushed s x).g = g := hpre.hg
        rw [hgg]
        show (bitmap_get ready_set i = true ∨ i ∈ dag_succs g x ∧
          ∀ p ∈ dag_preds g i, schedule_contains (schedule_pushed s x) p = true) ↔ _
        constructor
        · rintro (h | ⟨h1, h2⟩)
          · obtain ⟨h3, h4, h5⟩ := (hpre.ready i).1 h
            refine ⟨h3, ?_, fun p hp => List.mem_append_left _ (h5 p hp)⟩
            simp [h4, hix]
          · have hs1 := hwf.wf.succs_lt _ _ h1
            have hs2 := (hwf.wf.mem_iff _ _).1 h1
            refine ⟨hs1, ?_, fun p hp => (hcont p).1 (h2 p hp)⟩
            intro hi
            rcases List.mem_append.1 hi with hi | hi
            · exact hxo (order_valid_pred_mem g s.order hpre.valid i x hi hs2)
            · simp only [List.mem_singleton] at hi
              exact hix hi
        · rintro ⟨h1, h2, h3⟩
          by_cases hall : ∀ p ∈ dag_preds g i, p ∈ s.order
          · left
            exact (hpre.ready i).2 ⟨h1, fun h => h2 (List.mem_append_left _ h), hall⟩
          · right
            simp only [not_forall] at hall
            obtain ⟨p, hp, hpo⟩ := hall
            have hpx : p = x := by
              rcases List.mem_append.1 (h3 p hp) with h | h
              · exact absurd h hpo
              · simpa using h
            rw [hpx] at hp
            exact ⟨(hwf.wf.mem_iff x i).2 hp, fun q hq => (hcont q).2 (h3 q hq)⟩

/-- After the recursive call `bb` re-marks the task, clears the bits it had
set and pops the task: the schedule and the ready set are as before. -/
theorem bb_restore_step (g : dag) (hwf : dag_wf g) (m : Nat) (s : schedule)
    (ready_set : bitmap) (hpre : bb_pre g m s ready_set) (x : Nat)
    (hx : bitmap_get ready_set x = true) (r : bb_result)
    (hr : bb_restored
      (schedule_pushed s x)
      (ready_pushed s ready_set x) r) :
    clear_ready (ready_new s ready_set x) (bitmap_set r.ready_set x true).1 = ready_set ∧
    ∃ s2, schedule_pop r.s = some (s2, 0) ∧ s2.order = s.order ∧ s2.contents = s.contents ∧
      s2.g = s.g ∧ s2.m = s.m := by
  obtain ⟨hxl, hxo, hxp⟩ := (hpre.ready x).1 hx
  obtain ⟨ho, hc, hg, hm, hrs⟩ := hr
  simp only at ho hc hg hm
  have hcx : s.contents x = false := by
    have h := hpre.contents x
    unfold schedule_contains bitmap_get at h
    cases hc : s.contents x
    · rfl
    · exact absurd (h.1 hc) hxo
  constructor
  · apply bitmap_ext
    intro i
    rw [clear_ready_spec, (mark_ready_spec _ _ _).1 i, bitmap_get_set, hrs, bitmap_get_set]
    have hgg : (schedule_pushed s x).g = g := hpre.hg
    rw [hgg]
    by_cases hix : i = x
    · rw [if_pos hix, hix]
      simp only [true_and, hx, iff_true]
      intro ⟨h1, _⟩
      have := hwf.wf.preds_lt _ _ ((hwf.wf.mem_iff _ _).1 h1)
      omega
    · rw [if_neg hix, if_neg hix, (mark_ready_spec _ _ _).2 i, hgg]
      constructor
      · rintro ⟨h1 | h1, h2⟩
        · exact h1
        · exact absurd h1 h2
      · intro h
        refine ⟨Or.inl h, ?_⟩
        intro ⟨h1, _⟩
        obtain ⟨_, _, h5⟩ := (hpre.ready i).1 h
        exact hxo (h5 x ((hwf.wf.mem_iff _ _).1 h1))
  · have hlast : (s.order ++ [x]).getD (s.order ++ [x]).length.pred 0 = x := by
      simp [List.getD_eq_getElem?_getD]
    refine ⟨schedule_popped r.s, ?_, ?_, ?_, hg, hm⟩
    · unfold schedule_pop
      rw [if_pos (by rw [ho]; simp)]
    · show r.s.order.dropLast = s.order
      rw [ho]
      simp
    · show (bitmap_set r.s.contents (r.s.order.getD (r.s.order.length - 1) 0) false).1 =
        s.contents
      rw [ho, hc]
      have hl : (s.order ++ [x]).getD ((s.order ++ [x]).length - 1) 0 = x := by
        simp [List.getD_eq_getElem?_getD]
      rw [hl]
      funext i
      show (if i = x then false else if i = x then true else s.contents i) = s.contents i
      by_cases hix : i = x
      · rw [if_pos hix, hix, hcx]
      · rw [if_neg hix, if_neg hix]

/-! ## The search visits every completion -/

theorem bb_loop_cons (rec : schedule → bitmap → Nat → Nat → Option bb_result)
    (x : Nat) (rest : List Nat) (s : schedule) (ready_set : bitmap) (best ticks : Nat)
    (rc : Int) (hadd : schedule_add s x = some (schedule_pushed s x, rc)) :
    bb_loop rec (x :: rest) s ready_set best ticks =
      match rec (schedule_pushed s x) (ready_pushed s ready_set x) best ticks with
      | none => none
      | some r =>
        if r.value < 0 then some ⟨r.value, r.s, (bitmap_set r.ready_set x true).1, r.ticks⟩
        else
          match schedule_pop r.s with
          | none => none
          | some (s2, _) =>
            bb_loop rec rest s2
              (clear_ready (ready_new s ready_set x) (bitmap_set r.ready_set x true).1)
              (if best < to_unsigned r.value then best else to_unsigned r.value) r.ticks := by
  rw [bb_loop, hadd]

theorem clock_quiet_trans (env : bb_env) (a b c : Nat) (h1 : clock_quiet env a b)
    (h2 : clock_quiet env b c) : clock_quiet env a c := by
  intro j hj1 hj2
  by_cases hjb : j < b
  · exact h1 j hj1 hjb
  · exact h2 j (by omega) hj2

/-- The loop of `bb` over ready tasks: given that the recursive call meets
its specification on schedules one task longer, the loop returns the least
of `best` and the makespans of the completions through the tasks of
`items`, or runs into the deadline. -/
theorem bb_loop_spec (g : dag) (hwf : dag_wf g) (m : Nat) (env : bb_env)
    (rec : schedule → bitmap → Nat → Nat → Option bb_result) (len : Nat)
    (hrec : ∀ s ready_set best ticks, bb_pre g m s ready_set → s.order.length = len + 1 →
      ∃ r, rec s ready_set best ticks = some r ∧
        (bb_timed_out env ticks r ∨
          bb_normal g m env (completion g s.order) s ready_set best ticks r))
    (items : List Nat) :
    ∀ (s : schedule) (ready_set : bitmap) (best ticks : Nat), bb_pre g m s ready_set →
      s.order.length = len → (∀ x ∈ items, bitmap_get ready_set x = true) →
      (items ≠ [] ∨ best < 2147483648) →
      ∃ r, bb_loop rec items s ready_set best ticks = some r ∧
        (bb_timed_out env ticks r ∨
          bb_normal g m env (fun o => ∃ x ∈ items, completion g (s.order ++ [x]) o)
            s ready_set best ticks r) := by
  induction items with
  | nil =>
    intro s ready_set best ticks _ _ _ hb
    refine ⟨⟨to_int best, s, ready_set, ticks⟩, rfl, Or.inr ?_⟩
    have hb1 : best < 2147483648 := by
      rcases hb with h | h
      · exact absurd rfl h
      · exact h
    refine ⟨⟨rfl, rfl, rfl, rfl, rfl⟩, fun _ => rfl, le_refl _, ?_, best, ?_, hb1, le_refl _,
      ?_, Or.inl rfl⟩
    · intro j h1 h2
      simp only at h2
      omega
    · exact to_int_cast best hb1
    · intro o ⟨x, hx, _⟩
      simp at hx
  | cons x rest ih =>
    intro s ready_set best ticks hpre hlen hitems _
    have hx := hitems x (List.mem_cons_self _ _)
    obtain ⟨hadd, hpre1⟩ := bb_add_step g hwf m s ready_set hpre x hx
    obtain ⟨r1, hr1, hpost1⟩ := hrec (schedule_pushed s x) (ready_pushed s ready_set x) best ticks
      hpre1 (by simp [hlen])
    rw [bb_loop_cons rec x rest s ready_set best ticks 0 hadd, hr1]
    simp only
    rcases hpost1 with hto | hn
    · -- the recursive call ran into the deadline
      obtain ⟨h1, h2, h3, h4, h5⟩ := hto
      rw [if_pos (by rw [h2]; decide)]
      exact ⟨_, rfl, Or.inl ⟨h1, h2, h3, h4, h5⟩⟩
    · obtain ⟨hres, ht1, ht2, ht3, V1, hV1, hV1lt, hV1le, hV1all, hV1ex⟩ := hn
      rw [if_neg (by rw [hV1]; omega)]
      obtain ⟨hready, s2, hpop, hs2o, hs2c, hs2g, hs2m⟩ :=
        bb_restore_step g hwf m s ready_set hpre x hx r1 hres
      rw [hpop]
      simp only
      rw [hready]
      have hconv : to_unsigned r1.value = V1 := by
        rw [hV1]
        unfold to_unsigned
        omega
      rw [hconv]
      have hpre2 : bb_pre g m s2 ready_set := by
        refine ⟨by rw [hs2g, hpre.hg], by rw [hs2m, hpre.hm], by rw [hs2o]; exact hpre.nodup,
          by rw [hs2o]; exact hpre.lt, by rw [hs2o]; exact hpre.valid, ?_,
          by rw [hs2o]; exact hpre.ready⟩
        intro i
        have := hpre.contents i
        unfold schedule_contains at this ⊢
        rw [hs2c, hs2o]
        exact this
      have hbest1 : (if best < V1 then best else V1) < 2147483648 := by
        split <;> omega
      obtain ⟨r, hr, hpost⟩ := ih s2 ready_set (if best < V1 then best else V1) r1.ticks hpre2
        (by rw [hs2o]; exact hlen) (fun y hy => hitems y (List.mem_cons_of_mem _ hy))
        (Or.inr hbest1)
      refine ⟨r, hr, ?_⟩
      rcases hpost with hto | hn
      · obtain ⟨h1, h2, h3, h4, h5⟩ := hto
        left
        refine ⟨h1, h2, by omega, h4, ?_⟩
        apply clock_quiet_trans env ticks r1.ticks _ ht3 h5
      · obtain ⟨hres2, hu1, hu2, hu3, V, hV, hVlt, hVle, hVall, hVex⟩ := hn
        right
        obtain ⟨e1, e2, e3, e4, e5⟩ := hres2
        refine ⟨⟨by rw [e1, hs2o], by rw [e2, hs2c], by rw [e3, hs2g], by rw [e4, hs2m], e5⟩,
          ?_, by omega, clock_quiet_trans env ticks r1.ticks _ ht3 hu3, V, hV, hVlt, ?_, ?_, ?_⟩
        · intro hd
          rw [hu1 hd, ht1 hd]
        · have : (if best < V1 then best else V1) ≤ best := by
            split <;> omega
          omega
        · intro o ⟨y, hy, hyo⟩
          rcases List.mem_cons.1 hy with hyx | hyr
          · rw [hyx] at hyo
            have h1 := hV1all o hyo
            have : (if best < V1 then best else V1) ≤ V1 := by
              split <;> omega
            omega
          · rw [hs2o] at hVall
            exact hVall o ⟨y, hyr, hyo⟩
        · rcases hVex with h | ⟨o, ⟨y, hy, hyo⟩, ho⟩
          · by_cases hbv : best < V1
            · rw [if_pos hbv] at h
              exact Or.inl h
            · rw [if_neg hbv] at h
              rcases hV1ex with h1 | ⟨o, ho1, ho2⟩
              · left
                omega
              · right
                exact ⟨o, ⟨x, List.mem_cons_self _ _, ho1⟩, by omega⟩
          · right
            rw [hs2o] at hyo
            exact ⟨o, ⟨y, List.mem_cons_of_mem _ hy, hyo⟩, ho⟩

/-! ## Complete orders and ready tasks -/

theorem order_valid_append_left (g : dag) (a b : List Nat) (h : order_valid g (a ++ b)) :
    order_valid g a := by
  intro i t hi p hp
  have hil : i < a.length := by
    by_contra hc
    rw [List.getElem?_eq_none (Nat.le_of_not_lt hc)] at hi
    exact absurd hi (by simp)
  obtain ⟨j, hj, hjp⟩ := h i t (by rw [List.getElem?_append_left hil]; exact hi) p hp
  refine ⟨j, hj, ?_⟩
  rw [List.getElem?_append_left (by omega)] at hjp
  exact hjp

/-- A schedule that holds as many tasks as the graph holds every task. -/
theorem full_order_complete (g : dag) (l : List Nat) (hnd : l.Nodup)
    (hlt : ∀ t ∈ l, t < dag_size g) (hlen : l.length = dag_size g) : order_complete g l := by
  refine ⟨hnd, fun t => ⟨hlt t, ?_⟩⟩
  intro ht
  have hsub : l ⊆ List.range (dag_size g) := fun t ht => List.mem_range.2 (hlt t ht)
  have hperm := (List.Nodup.subperm hnd hsub).perm_of_length_le (by simp [hlen])
  exact hperm.mem_iff.2 (List.mem_range.2 ht)

/-- The only completion of a complete order is the order itself. -/
theorem completion_full (g : dag) (l o : List Nat) (hlen : l.length = dag_size g)
    (h : completion g l o) : o = l := by
  obtain ⟨⟨rest, hrest⟩, hc, _⟩ := h
  have h1 := nodup_length_le o (dag_size g) hc.1 (fun t ht => (hc.2 t).1 ht)
  rw [hrest, List.length_append] at h1
  have : rest = [] := List.length_eq_zero.1 (by omega)
  rw [hrest, this, List.append_nil]

/-- A completion of a shorter order goes on with a ready task. -/
theorem completion_next (g : dag) (l o : List Nat) (hlen : l.length < dag_size g)
    (h : completion g l o) :
    ∃ y, y < dag_size g ∧ y ∉ l ∧ (∀ p ∈ dag_preds g y, p ∈ l) ∧
      completion g (l ++ [y]) o := by
  obtain ⟨⟨rest, hrest⟩, hc, hv⟩ := h
  cases rest with
  | nil =>
    rw [List.append_nil] at hrest
    have h0 : ∀ t, t ∈ List.range (dag_size g) → t ∈ o :=
      fun t ht => (hc.2 t).2 (List.mem_range.1 ht)
    have := (List.Nodup.subperm (List.nodup_range _) h0).length_le
    rw [hrest] at this
    simp at this
    omega
  | cons y rest1 =>
    have hsplit : o = (l ++ [y]) ++ rest1 := by
      rw [hrest]
      simp
    have hv1 : order_valid g (l ++ [y]) := by
      rw [hsplit] at hv
      exact order_valid_append_left g _ _ hv
    refine ⟨y, (hc.2 y).1 (by rw [hrest]; simp), ?_,
      ((order_valid_snoc g l y).1 hv1).2, ⟨rest1, hsplit⟩, hc, hv⟩
    intro hy
    have hnd := hc.1
    rw [hrest] at hnd
    exact (List.nodup_append.1 hnd).2.2 hy (List.mem_cons_self _ _)

/-- An order that is not complete yet leaves some task ready. -/
theorem exists_ready (g : dag) (hwf : dag_wf g) (l : List Nat)
    (hlen : l.length < dag_size g) :
    ∃ y, y < dag_size g ∧ y ∉ l ∧ ∀ p ∈ dag_preds g y, p ∈ l := by
  have hex : ∃ y, y < dag_size g ∧ y ∉ l := by
    by_contra hc
    simp only [not_exists, not_and, not_not] at hc
    have h0 : ∀ t, t ∈ List.range (dag_size g) → t ∈ l :=
      fun t ht => hc t (List.mem_range.1 ht)
    have := (List.Nodup.subperm (List.nodup_range _) h0).length_le
    simp at this
    omega
  refine ⟨Nat.find hex, (Nat.find_spec hex).1, (Nat.find_spec hex).2, ?_⟩
  intro p hp
  have hlt : p < Nat.find hex := hwf.wf.preds_lt _ _ hp
  have hmin := Nat.find_min hex hlt
  simp only [not_and, not_not] at hmin
  exact hmin (by have := (Nat.find_spec hex).1; omega)

/-- The values the heap returns are the ready tasks. -/
theorem heap_items_mem (heap : List (Nat × Int) → List Nat) (hheap : binheap_spec heap)
    (g : dag) (ready_set : bitmap) (x : Nat) :
    x ∈ heap (ready_items g ready_set) ↔ x < dag_size g ∧ bitmap_get ready_set x = true := by
  obtain ⟨sorted, hperm, hmap, _⟩ := hheap (ready_items g ready_set)
  rw [← hmap, (hperm.map Prod.fst).mem_iff]
  unfold ready_items
  simp only [List.map_map, List.mem_map, List.mem_filter, List.mem_range, beq_iff_eq,
    Function.comp]
  constructor
  · rintro ⟨a, ⟨h1, h2⟩, h3⟩
    rw [← h3]
    exact ⟨h1, h2⟩
  · intro h
    exact ⟨x, h, rfl⟩

/-- The first task of a valid order is the source. -/
theorem valid_head_source (g : dag) (hwf : dag_wf g) (y : Nat) (rest : List Nat)
    (hy : y < dag_size g) (hv : order_valid g (y :: rest)) : y = 0 := by
  by_contra hne
  have hp := hwf.wf.preds_ne y (by omega) hy
  cases hps : (node_at g.nodes y).preds with
  | nil => exact hp hps
  | cons p ps =>
    obtain ⟨j, hj, _⟩ := hv 0 y (by simp) p (by
      show p ∈ (node_at g.nodes y).preds
      rw [hps]
      exact List.mem_cons_self _ _)
    omega

/-- The function `bb` on a built graph whose weights are non-negative and
sum to less than `2^31`: called with enough fuel on a valid schedule and
its ready set, it returns; either it ran into the deadline and returns -2,
or it restores the schedule and the ready set and returns the least of
`best` and the makespans of the completions of the order. -/
theorem bb_spec (calls : List (Int × List Nat)) (g : dag) (hb : built_graph calls g)
    (hnn : calls_nonneg calls) (htot : calls_total calls < 2147483648) (m : Nat)
    (hm : 1 ≤ m) (env : bb_env) (hheap : binheap_spec env.heap) :
    ∀ (fuel : Nat) (s : schedule) (ready_set : bitmap) (best ticks : Nat),
      bb_pre g m s ready_set → dag_size g + 1 ≤ s.order.length + fuel →
      ∃ r, bb env fuel s ready_set best ticks = some r ∧
        (bb_timed_out env ticks r ∨
          bb_normal g m env (completion g s.order) s ready_set best ticks r) := by
  have hw : ∀ x, 0 ≤ dag_weight g x := built_weight_nonneg calls g hb hnn
  intro fuel
  induction fuel with
  | zero =>
    intro s ready_set best ticks hpre hfuel
    have := nodup_length_le s.order (dag_size g) hpre.nodup hpre.lt
    omega
  | succ fuel ih =>
    intro s ready_set best ticks hpre hfuel
    rw [bb]
    by_cases hto : (env.do_timeout && decide (env.clock ticks ≥ env.end_time)) = true
    · rw [if_pos hto]
      simp only [Bool.and_eq_true, decide_eq_true_eq] at hto
      refine ⟨_, rfl, Or.inl ⟨hto.1, rfl, Nat.lt_succ_self _, ?_, ?_⟩⟩
      · exact hto.2
      · intro j h1 h2
        simp only [Nat.add_sub_cancel] at h2
        omega
    · rw [if_neg hto]
      simp only [Bool.and_eq_true, decide_eq_true_eq, not_and, not_le] at hto
      have hsb2 : (schedule_build s 0).2 = 0 := rfl
      have hsbo : (schedule_build s 0).1.order = s.order := rfl
      have hsbc : (schedule_build s 0).1.contents = s.contents := rfl
      have hsbg : (schedule_build s 0).1.g = s.g := rfl
      have hsbm : (schedule_build s 0).1.m = s.m := rfl
      have hsbl : schedule_length (schedule_build s 0).1 = list_makespan g m s.order := by
        unfold list_makespan schedule_length schedule_build schedule_compute schedule_new
        simp only
        rw [hpre.hg, hpre.hm]
      have hquiet : clock_quiet env ticks (if env.do_timeout = true then ticks + 1 else ticks) := by
        intro j h1 h2
        by_cases hd : env.do_timeout = true
        · rw [if_pos hd] at h2
          have : j = ticks := by omega
          rw [this]
          exact hto hd
        · rw [if_neg hd] at h2
          omega
      simp only [hsb2, ne_eq, not_true_eq_false, if_false]
      by_cases hleaf : schedule_size (schedule_build s 0).1 =
          dag_size (schedule_dag (schedule_build s 0).1)
      · rw [if_pos hleaf]
        have hlen : s.order.length = dag_size g := by
          unfold schedule_size schedule_dag at hleaf
          rw [hsbo, hsbg, hpre.hg] at hleaf
          exact hleaf
        have hcomp : order_complete g s.order :=
          full_order_complete g s.order hpre.nodup hpre.lt hlen
        have hself : completion g s.order s.order := ⟨⟨[], by simp⟩, hcomp, hpre.valid⟩
        have hL : (list_makespan g m s.order : Int) < 2147483648 := by
          have h1 := list_makespan_le g m hm hw s.order
          have h2 := order_weight_le_total calls g hb hnn s.order hpre.nodup hpre.lt
          omega
        refine ⟨_, rfl, Or.inr ⟨⟨hsbo, hsbc, hsbg, hsbm, rfl⟩, ?_, ?_, hquiet,
          (if best < list_makespan g m s.order then best else list_makespan g m s.order),
          ?_, ?_, ?_, ?_, ?_⟩⟩
        · intro hd
          simp [hd]
        · show ticks ≤ (if env.do_timeout = true then ticks + 1 else ticks)
          split <;> omega
        · show to_int _ = _
          rw [hsbl]
          apply to_int_cast
          split <;> omega
        · split <;> omega
        · split <;> omega
        · intro o ho
          rw [completion_full g s.order o hlen ho]
          split <;> omega
        · by_cases hbl : best < list_makespan g m s.order
          · rw [if_pos hbl]
            exact Or.inl rfl
          · rw [if_neg hbl]
            exact Or.inr ⟨s.order, hself, rfl⟩
      · rw [if_neg hleaf]
        have hlen : s.order.length < dag_size g := by
          unfold schedule_size schedule_dag at hleaf
          rw [hsbo, hsbg, hpre.hg] at hleaf
          have := nodup_length_le s.order (dag_size g) hpre.nodup hpre.lt
          omega
        have hpre1 : bb_pre g m (schedule_build s 0).1 ready_set :=
          ⟨hpre.hg, hpre.hm, hpre.nodup, hpre.lt, hpre.valid, hpre.contents, hpre.ready⟩
        have hdag : schedule_dag (schedule_build s 0).1 = g := hpre.hg
        rw [hdag]
        have hmem := heap_items_mem env.heap hheap g ready_set
        have hne : env.heap (ready_items g ready_set) ≠ [] := by
          obtain ⟨y, hy1, hy2, hy3⟩ := exists_ready g hb.wf s.order hlen
          have : y ∈ env.heap (ready_items g ready_set) :=
            (hmem y).2 ⟨hy1, (hpre.ready y).2 ⟨hy1, hy2, hy3⟩⟩
          intro h
          rw [h] at this
          simp at this
        obtain ⟨r, hr, hpost⟩ := bb_loop_spec g hb.wf m env (bb env fuel) s.order.length
          (fun s1 rs1 b1 t1 hp1 hl1 => ih s1 rs1 b1 t1 hp1 (by omega))
          (env.heap (ready_items g ready_set)) (schedule_build s 0).1 ready_set best
          (if env.do_timeout = true then ticks + 1 else ticks) hpre1 rfl
          (fun x hx => ((hmem x).1 hx).2) (Or.inl hne)
        refine ⟨r, hr, ?_⟩
        rcases hpost with hto2 | hn
        · obtain ⟨h1, h2, h3, h4, h5⟩ := hto2
          left
          rw [if_pos h1] at h3 h5
          rw [if_pos h1] at hquiet
          exact ⟨h1, h2, by omega, h4, clock_quiet_trans env ticks (ticks + 1) _ hquiet h5⟩
        · obtain ⟨hres, hu1, hu2, hu3, V, hV, hVlt, hVle, hVall, hVex⟩ := hn
          right
          refine ⟨hres, ?_, ?_, clock_quiet_trans env ticks _ _ hquiet hu3, V, hV, hVlt, hVle,
            ?_, ?_⟩
          · intro hd
            rw [hu1 hd]
            simp [hd]
          · have : ticks ≤ (if env.do_timeout = true then ticks + 1 else ticks) := by
              split <;> omega
            omega
          · intro o ho
            obtain ⟨y, hy1, hy2, hy3, hy4⟩ := completion_next g s.order o hlen ho
            apply hVall o
            exact ⟨y, (hmem y).2 ⟨hy1, (hpre.ready y).2 ⟨hy1, hy2, hy3⟩⟩, hy4⟩
          · rcases hVex with h | ⟨o, ⟨y, _, hyo⟩, ho⟩
            · exact Or.inl h
            · right
              refine ⟨o, ?_, ho⟩
              obtain ⟨⟨rest, hrest⟩, hc, hv⟩ := hyo
              exact ⟨⟨y :: rest, by rw [hrest, hsbo]; simp⟩, hc, hv⟩

/-! ## The entry point `bbsearch` -/

theorem dag_vertex_source_alone (g g1 : dag) (w : Int) (deps : List Nat) (idx : Nat)
    (h : dag_vertex g w deps = some (g1, idx)) (hsa : source_alone g.nodes)
    (hd : ∀ d ∈ deps, 1 ≤ d) : source_alone g1.nodes := by
  obtain ⟨ds, hds, hlen, hlt, hA, hB, hC⟩ := dag_vertex_nodes g g1 w deps idx h
  intro x hx
  rcases Nat.lt_trichotomy x g.nodes.length with h1 | h1 | h1
  · rw [hA x h1] at hx ⊢
    exact hsa x hx
  · rw [h1, hB] at hx ⊢
    simp only at hx ⊢
    rw [hds] at hx ⊢
    split at hx
    · rename_i h0
      rw [if_pos h0]
    · have := hd 0 hx
      omega
  · rw [hC x h1] at hx
    simp [node_init] at hx

theorem dag_vertices_source_alone (calls : List (Int × List Nat)) (g g1 : dag)
    (h : dag_vertices calls g = some g1) (hsa : source_alone g.nodes)
    (hd : calls_user_deps calls) : source_alone g1.nodes := by
  induction calls generalizing g with
  | nil =>
    simp only [dag_vertices, Option.some.injEq] at h
    rw [← h]
    exact hsa
  | cons c rest ih =>
    obtain ⟨w, deps⟩ := c
    simp only [dag_vertices] at h
    split at h
    · exact absurd h (by simp)
    · rename_i g2 idx hv
      exact ih g2 h
        (dag_vertex_source_alone g g2 w deps idx hv hsa
          (fun d hdd => hd (w, deps) (List.mem_cons_self _ _) d hdd))
        (fun c hc => hd c (List.mem_cons_of_mem _ hc))

/-- The sink keeps the source alone: the source is an exit node only in
the graph without user task. -/
theorem sink_source_alone (g g1 : dag) (idx : Nat) (hwf : nodes_wf g.nodes)
    (h : dag_vertex g 0 (exit_nodes g) = some (g1, idx)) (hsa : source_alone g.nodes) :
    source_alone g1.nodes := by
  obtain ⟨ds, hds, hlen, hlt, hA, hB, hC⟩ := dag_vertex_nodes g g1 0 _ idx h
  intro x hx
  rcases Nat.lt_trichotomy x g.nodes.length with h1 | h1 | h1
  · rw [hA x h1] at hx ⊢
    exact hsa x hx
  · rw [h1, hB] at hx ⊢
    simp only at hx ⊢
    rw [hds] at hx ⊢
    split at hx
    · rename_i h0
      rw [if_pos h0]
    · rename_i h0
      rw [if_neg h0]
      have hex : (node_at g.nodes 0).succs = [] := by
        unfold exit_nodes at hx
        have := (List.mem_filter.1 hx).2
        simpa [dag_node] using this
      have hone : g.nodes.length = 1 := by
        by_contra hne
        have hpos := hwf.pos
        have hp := hwf.preds_ne 1 (by omega) (by omega)
        cases hps : (node_at g.nodes 1).preds with
        | nil => exact hp hps
        | cons p ps =>
          have hpm : p ∈ (node_at g.nodes 1).preds := by
            rw [hps]
            exact List.mem_cons_self _ _
          have hp0 : p = 0 := by
            have := hwf.preds_lt 1 p hpm
            omega
          rw [hp0] at hpm
          have := (hwf.mem_iff 0 1).2 hpm
          rw [hex] at this
          simp at this
      unfold exit_nodes
      rw [hone]
      simp [List.range_succ, dag_node, hex]
  · rw [hC x h1] at hx
    simp [node_init] at hx

theorem dag_make_source_alone (fuel : Nat) (calls : List (Int × List Nat)) (g : dag)
    (h : dag_make fuel calls = some g) (hd : calls_user_deps calls) :
    source_alone g.nodes := by
  unfold dag_make at h
  split at h
  · exact absurd h (by simp)
  · rename_i g0 hv
    have hwf0 := dag_vertices_wf calls dag_create g0 hv nodes_wf_create
    have hb0 : g0.built = false := by
      rw [dag_vertices_built calls dag_create g0 hv]
      rfl
    have hsa0 : source_alone g0.nodes := by
      apply dag_vertices_source_alone calls dag_create g0 hv _ hd
      intro x hx
      have : node_at dag_create.nodes x = node_init 0 := by
        show node_at [node_init 0] x = node_init 0
        rw [node_at_singleton]
        split <;> rfl
      rw [this] at hx
      simp [node_init] at hx
    obtain ⟨_, _, _, g1, idx, hv1, hshape⟩ := (dag_build_spec g0 hb0 hwf0).2 fuel g h
    have hsa1 := sink_source_alone g0 g1 idx hwf0 hv1 hsa0
    intro x hx
    rw [(hshape.2 x).2.1] at hx ⊢
    exact hsa1 x hx

/-- With `m >= 1` the assertion of `schedule_create` holds, and `bbsearch`
adds the source to the schedule it returns. -/
theorem bbsearch_start (g : dag) (m : Nat) (hm : 1 ≤ m) :
    (schedule_create g m).bind (fun s0 => schedule_add s0 (dag_source g)) =
      schedule_add (schedule_new g m) (dag_source g) := by
  unfold schedule_create
  rw [if_pos (by omega)]
  rfl

/-- The schedule and the ready set `bbsearch` hands to `bb`. -/
theorem bbsearch_init (g : dag) (hwf : dag_wf g) (hsa : source_alone g.nodes) (m : Nat) :
    schedule_add (schedule_new g m) (dag_source g) =
      some (schedule_pushed (schedule_new g m) 0, 0) ∧
    bb_pre g m (schedule_pushed (schedule_new g m) 0)
      ((dag_succs g (dag_source g)).foldl (fun b i => (bitmap_set b i true).1)
        (bitmap_create 0)) := by
  have hpos : 0 < dag_size g := hwf.wf.pos
  have hp0 : dag_preds g 0 = [] := by
    cases hps : dag_preds g 0 with
    | nil => rfl
    | cons p ps =>
      have := hwf.wf.preds_lt 0 p (by
        show p ∈ dag_preds g 0
        rw [hps]
        exact List.mem_cons_self _ _)
      omega
  constructor
  · unfold schedule_add dag_source
    simp [schedule_new, hpos, bitmap_set, bitmap_create]
  · refine ⟨rfl, rfl, ?_, ?_, ?_, ?_, ?_⟩
    · show ([] ++ [0] : List Nat).Nodup
      simp
    · intro t ht
      have : t = 0 := by simpa [schedule_new] using ht
      rw [this]
      exact hpos
    · show order_valid g ([] ++ [0])
      rw [order_valid_snoc]
      refine ⟨?_, ?_⟩
      · intro i t hi
        simp at hi
      · rw [hp0]
        intro p hp
        simp at hp
    · intro i
      show bitmap_get (bitmap_set (bitmap_create 0) 0 true).1 i = true ↔ i ∈ ([] ++ [0] : List Nat)
      rw [bitmap_get_set, bitmap_get_create]
      by_cases hi : i = 0
      · simp [hi]
      · simp [hi]
    · intro i
      rw [set_ready_spec, bitmap_get_create]
      show (false = true ∨ i ∈ (node_at g.nodes 0).succs) ↔
        (i < dag_size g ∧ i ∉ ([] ++ [0] : List Nat) ∧
          ∀ p ∈ (node_at g.nodes i).preds, p ∈ ([] ++ [0] : List Nat))
      simp only [Bool.false_eq_true, false_or, List.nil_append, List.mem_singleton]
      constructor
      · intro hi
        have h1 := hwf.wf.succs_lt _ _ hi
        have h2 := (hwf.wf.mem_iff _ _).1 hi
        have h3 := hwf.wf.preds_lt _ _ h2
        refine ⟨h1, by omega, ?_⟩
        rw [hsa i h2]
        intro p hp
        simpa using hp
      · rintro ⟨h1, h2, h3⟩
        apply (hwf.wf.mem_iff 0 i).2
        have hp := hwf.wf.preds_ne i (by omega) h1
        cases hps : (node_at g.nodes i).preds with
        | nil => exact absurd hps hp
        | cons p ps =>
          have hpm : p ∈ (node_at g.nodes i).preds := by
            rw [hps]
            exact List.mem_cons_self _ _
          have := h3 p hpm
          rw [this] at hpm
          rw [← hps]
          exact hpm

/-- What `bbsearch` returns on a graph made with user dependencies only,
non-negative weights and a total weight below `2^31`: it returns; with a
deadline the value may be -2; otherwise the value is the least makespan
over the complete valid orders. -/
theorem bbsearch_spec (heap : List (Nat × Int) → List Nat) (hheap : binheap_spec heap)
    (clock : Nat → Int) (cps : Int) (calls : List (Int × List Nat)) (fuel : Nat) (g : dag)
    (hmk : dag_make fuel calls = some g) (hdeps : calls_user_deps calls)
    (hnn : calls_nonneg calls) (htot : calls_total calls < 2147483648) (m : Nat)
    (hm : 1 ≤ m) (bfuel : Nat) (hfuel : dag_size g ≤ bfuel) (timeout : Int) :
    ∃ v, bbsearch heap clock cps bfuel g m timeout = some v ∧
      ((0 ≤ timeout ∧ v = -2) ∨
        ∃ V : Nat, v = (V : Int) ∧ V < 2147483648 ∧
          (∃ o, order_complete g o ∧ order_valid g o ∧ list_makespan g m o = V) ∧
          ∀ o, order_complete g o → order_valid g o → V ≤ list_makespan g m o) := by
  have hb := dag_make_built fuel calls g hmk
  have hsa := dag_make_source_alone fuel calls g hmk hdeps
  obtain ⟨hadd, hpre⟩ := bbsearch_init g hb.wf hsa m
  have hcand : ∀ o, completion g (schedule_pushed (schedule_new g m) 0).order o ↔
      (order_complete g o ∧ order_valid g o) := by
    intro o
    constructor
    · intro h
      exact h.2
    · intro ⟨hc, hv⟩
      refine ⟨?_, hc, hv⟩
      cases o with
      | nil =>
        have := (hc.2 0).2 hb.wf.wf.pos
        simp at this
      | cons y rest =>
        have hy := valid_head_source g hb.wf y rest ((hc.2 y).1 (List.mem_cons_self _ _)) hv
        exact ⟨rest, by rw [hy]; rfl⟩
  have hmain : ∀ env : bb_env, env.heap = heap → ∀ ticks,
      ∃ r, bb env bfuel (schedule_pushed (schedule_new g m) 0)
        ((dag_succs g (dag_source g)).foldl (fun b i => (bitmap_set b i true).1)
          (bitmap_create 0)) UINT_MAX ticks = some r ∧
      ((env.do_timeout = true ∧ r.value = -2) ∨
        ∃ V : Nat, r.value = (V : Int) ∧ V < 2147483648 ∧
          (∃ o, order_complete g o ∧ order_valid g o ∧ list_makespan g m o = V) ∧
          ∀ o, order_complete g o → order_valid g o → V ≤ list_makespan g m o) := by
    intro env henv ticks
    obtain ⟨r, hr, hpost⟩ := bb_spec calls g hb hnn htot m hm env (by rw [henv]; exact hheap)
      bfuel _ _ UINT_MAX ticks hpre (by
        show dag_size g + 1 ≤ ([] ++ [0] : List Nat).length + bfuel
        simp
        omega)
    refine ⟨r, hr, ?_⟩
    rcases hpost with hto | hn
    · exact Or.inl ⟨hto.1, hto.2.1⟩
    · obtain ⟨_, _, _, _, V, hV, hVlt, _, hVall, hVex⟩ := hn
      right
      refine ⟨V, hV, hVlt, ?_, fun o hc hv => hVall o ((hcand o).2 ⟨hc, hv⟩)⟩
      rcases hVex with h | ⟨o, ho, hVo⟩
      · simp only [UINT_MAX] at h
        omega
      · exact ⟨o, ((hcand o).1 ho).1, ((hcand o).1 ho).2, hVo.symm⟩
  unfold bbsearch
  rw [bbsearch_start g m hm, hadd]
  simp only
  by_cases ht : timeout < 0
  · simp only [ht, if_true]
    obtain ⟨r, hr, hpost⟩ := hmain ⟨heap, clock, false, 0⟩ rfl 0
    rw [hr]
    refine ⟨r.value, rfl, ?_⟩
    rcases hpost with ⟨h, _⟩ | h
    · simp at h
    · exact Or.inr h
  · simp only [ht, if_false]
    obtain ⟨r, hr, hpost⟩ := hmain ⟨heap, clock, true, clock 0 + timeout * cps⟩ rfl 1
    rw [hr]
    refine ⟨r.value, rfl, ?_⟩
    rcases hpost with ⟨_, h⟩ | h
    · exact Or.inl ⟨by omega, h⟩
    · exact Or.inr h

/-- C1 (amended): on a graph built with user dependencies only and
non-negative weights whose sum is below `2^31`, and for `m >= 1`,
`bbsearch(G, m, -1)` built without lower bound returns (with fuel for a
recursion as deep as the graph has tasks) the minimum of the list-scheduled
makespan over all complete orders in which every task comes after its
predecessors. -/
theorem bbsearch_min_makespan (heap : List (Nat × Int) → List Nat)
    (hheap : binheap_spec heap) (clock : Nat → Int) (cps : Int)
    (calls : List (Int × List Nat)) (fuel : Nat) (g : dag)
    (hmk : dag_make fuel calls = some g) (hdeps : calls_user_deps calls)
    (hnn : calls_nonneg calls) (htot : calls_total calls < 2147483648) (m : Nat)
    (hm : 1 ≤ m) (bfuel : Nat) (hfuel : dag_size g ≤ bfuel) :
    ∃ V : Nat, bbsearch heap clock cps bfuel g m (-1) = some (V : Int) ∧
      (∃ o, order_complete g o ∧ order_valid g o ∧ list_makespan g m o = V) ∧
      ∀ o, order_complete g o → order_valid g o → V ≤ list_makespan g m o := by
  obtain ⟨v, hv, h⟩ := bbsearch_spec heap hheap clock cps calls fuel g hmk hdeps hnn htot m hm
    bfuel hfuel (-1)
  rcases h with ⟨h, _⟩ | ⟨V, hV, _, h1, h2⟩
  · omega
  · exact ⟨V, by rw [hv, hV], h1, h2⟩

/-! ## The list heap meets the heap specification -/

theorem heap_insert_perm (x : Nat × Int) (h : List (Nat × Int)) :
    (heap_insert x h).Perm (x :: h) := by
  induction h with
  | nil => exact List.Perm.refl _
  | cons y ys ih =>
    simp only [heap_insert]
    split
    · exact List.Perm.refl _
    · exact (List.Perm.cons y ih).trans (List.Perm.swap x y ys)

theorem heap_insert_sorted (x : Nat × Int) (h : List (Nat × Int))
    (hs : h.Pairwise (fun a b => a.2 ≥ b.2)) :
    (heap_insert x h).Pairwise (fun a b => a.2 ≥ b.2) := by
  induction h with
  | nil => simp [heap_insert]
  | cons y ys ih =>
    simp only [heap_insert]
    obtain ⟨h1, h2⟩ := List.pairwise_cons.1 hs
    split
    · rename_i hgt
      apply List.pairwise_cons.2
      refine ⟨?_, hs⟩
      intro z hz
      rcases List.mem_cons.1 hz with hz | hz
      · rw [hz]
        omega
      · have := h1 z hz
        omega
    · rename_i hgt
      apply List.pairwise_cons.2
      refine ⟨?_, ih h2⟩
      intro z hz
      rcases List.mem_cons.1 ((heap_insert_perm x ys).mem_iff.1 hz) with hz | hz
      · rw [hz]
        omega
      · exact h1 z hz

theorem heap_fold_spec (items h : List (Nat × Int))
    (hs : h.Pairwise (fun a b => a.2 ≥ b.2)) :
    (items.foldl (fun h x => heap_insert x h) h).Perm (items ++ h) ∧
      (items.foldl (fun h x => heap_insert x h) h).Pairwise (fun a b => a.2 ≥ b.2) := by
  induction items generalizing h with
  | nil => exact ⟨List.Perm.refl _, hs⟩
  | cons x rest ih =>
    simp only [List.foldl_cons]
    obtain ⟨h1, h2⟩ := ih (heap_insert x h) (heap_insert_sorted x h hs)
    refine ⟨h1.trans ?_, h2⟩
    refine ((heap_insert_perm x h).append_left rest).trans ?_
    simp only [List.cons_append]
    exact List.perm_middle

/-- The list heap returns every entry once, by decreasing key. -/
theorem list_heap_spec : binheap_spec list_heap := by
  intro items
  obtain ⟨h1, h2⟩ := heap_fold_spec items [] List.Pairwise.nil
  refine ⟨items.foldl (fun h x => heap_insert x h) [], ?_, rfl, h2⟩
  simpa using h1

/-! ## The deadline -/

/-- The loop of `bb` when a deadline is configured: the readings of the
clock it consumes stay below the deadline, except that the last one may
reach it, and then the loop returns -2. -/
theorem bb_loop_deadline (env : bb_env)
    (rec : schedule → bitmap → Nat → Nat → Option bb_result)
    (hrec : ∀ s ready_set best ticks r, rec s ready_set best ticks = some r →
      ticks < r.ticks ∧
        ((r.value = -2 ∧ env.end_time ≤ env.clock (r.ticks - 1) ∧
            clock_quiet env ticks (r.ticks - 1)) ∨
          clock_quiet env ticks r.ticks))
    (items : List Nat) :
    ∀ (s : schedule) (ready_set : bitmap) (best ticks : Nat) (r : bb_result),
      bb_loop rec items s ready_set best ticks = some r →
      ticks ≤ r.ticks ∧
        ((r.value = -2 ∧ ticks < r.ticks ∧ env.end_time ≤ env.clock (r.ticks - 1) ∧
            clock_quiet env ticks (r.ticks - 1)) ∨
          clock_quiet env ticks r.ticks) := by
  induction items with
  | nil =>
    intro s ready_set best ticks r h
    simp only [bb_loop, Option.some.injEq] at h
    rw [← h]
    refine ⟨le_refl _, Or.inr ?_⟩
    intro j h1 h2
    simp only at h2
    omega
  | cons x rest ih =>
    intro s ready_set best ticks r h
    rw [bb_loop] at h
    split at h
    · exact absurd h (by simp)
    · rename_i s1 rc hadd
      simp only at h
      split at h
      · exact absurd h (by simp)
      · rename_i r1 hr1
        obtain ⟨ht1, hc1⟩ := hrec _ _ _ _ _ hr1
        split at h
        · simp only [Option.some.injEq] at h
          rw [← h]
          simp only
          refine ⟨by omega, ?_⟩
          rcases hc1 with ⟨h1, h2, h3⟩ | h1
          · exact Or.inl ⟨h1, ht1, h2, h3⟩
          · exact Or.inr h1
        · rename_i hneg
          have hq1 : clock_quiet env ticks r1.ticks := by
            rcases hc1 with ⟨h1, _, _⟩ | h1
            · rw [h1] at hneg
              exact absurd (by decide) hneg
            · exact h1
          split at h
          · exact absurd h (by simp)
          · rename_i s2 rc2 hpop
            obtain ⟨ht2, hc2⟩ := ih _ _ _ _ _ h
            refine ⟨by omega, ?_⟩
            rcases hc2 with ⟨h1, h2, h3, h4⟩ | h1
            · exact Or.inl ⟨h1, by omega, h3, clock_quiet_trans env _ _ _ hq1 h4⟩
            · exact Or.inr (clock_quiet_trans env _ _ _ hq1 h1)

/-- A call of `bb` under a configured deadline reads the clock at its top;
the readings it consumes stay below the deadline, except that the last one
may reach it, and then the call returns -2. -/
theorem bb_deadline (env : bb_env) (hd : env.do_timeout = true) :
    ∀ (fuel : Nat) (s : schedule) (ready_set : bitmap) (best ticks : Nat) (r : bb_result),
      bb env fuel s ready_set best ticks = some r →
      ticks < r.ticks ∧
        ((r.value = -2 ∧ env.end_time ≤ env.clock (r.ticks - 1) ∧
            clock_quiet env ticks (r.ticks - 1)) ∨
          clock_quiet env ticks r.ticks) := by
  intro fuel
  induction fuel with
  | zero =>
    intro s ready_set best ticks r h
    simp [bb] at h
  | succ fuel ih =>
    intro s ready_set best ticks r h
    rw [bb] at h
    by_cases hto : (env.do_timeout && decide (env.clock ticks ≥ env.end_time)) = true
    · rw [if_pos hto] at h
      simp only [Option.some.injEq] at h
      simp only [Bool.and_eq_true, decide_eq_true_eq] at hto
      rw [← h]
      refine ⟨Nat.lt_succ_self _, Or.inl ⟨rfl, hto.2, ?_⟩⟩
      intro j h1 h2
      simp only [Nat.add_sub_cancel] at h2
      omega
    · rw [if_neg hto] at h
      simp only [Bool.and_eq_true, decide_eq_true_eq, not_and, not_le] at hto
      have hq : clock_quiet env ticks (ticks + 1) := by
        intro j h1 h2
        have : j = ticks := by omega
        rw [this]
        exact hto hd
      simp only [hd, if_true] at h
      have hsb2 : (schedule_build s 0).2 = 0 := rfl
      simp only [hsb2, ne_eq, not_true_eq_false, if_false] at h
      split at h
      · simp only [Option.some.injEq] at h
        rw [← h]
        exact ⟨Nat.lt_succ_self _, Or.inr hq⟩
      · obtain ⟨h1, h2⟩ := bb_loop_deadline env (bb env fuel) ih _ _ _ _ _ _ h
        refine ⟨by omega, ?_⟩
        rcases h2 with ⟨h3, h4, h5, h6⟩ | h3
        · exact Or.inl ⟨h3, h5, clock_quiet_trans env _ _ _ hq h6⟩
        · exact Or.inr (clock_quiet_trans env _ _ _ hq h3)

/-- With a budget of 0 seconds the first reading of `bb` already reaches the
deadline. -/
theorem bbsearch_zero_timeout (heap : List (Nat × Int) → List Nat) (clock : Nat → Int)
    (hmono : clock 0 ≤ clock 1) (cps : Int) (bfuel : Nat) (hfuel : 0 < bfuel) (g : dag)
    (hpos : 0 < dag_size g) (m : Nat) (hm : 1 ≤ m) :
    bbsearch heap clock cps bfuel g m 0 = some (-2) := by
  have hadd : schedule_add (schedule_new g m) (dag_source g) =
      some (schedule_pushed (schedule_new g m) 0, 0) := by
    unfold schedule_add dag_source
    simp [schedule_new, hpos, bitmap_set, bitmap_create]
  unfold bbsearch
  rw [bbsearch_start g m hm, hadd]
  simp only [lt_self_iff_false, if_false, zero_mul, add_zero]
  obtain ⟨k, hk⟩ : ∃ k, bfuel = k + 1 := ⟨bfuel - 1, by omega⟩
  rw [hk, bb]
  simp [hmono]


/-! ## `schedule_compute` against the procedure of the specification -/

theorem machine_scan_succ (E : Nat → Nat) (m : Nat) :
    machine_scan E (m + 1) =
      if E m < (machine_scan E m).1 then (E m, m) else machine_scan E m := by
  unfold machine_scan
  rw [List.range_succ, List.foldl_append]
  rfl

/-- The machine the first inner loop of `schedule_compute` finds is the
lowest-indexed one of least busy-until time. -/
theorem machine_scan_first (E : Nat → Nat) (hE : ∀ i, E i < 4294967296) (m : Nat) :
    (m = 0 ∧ machine_scan E m = (UINT_MAX, 0)) ∨
      ((machine_scan E m).2 < m ∧ (machine_scan E m).1 = E (machine_scan E m).2 ∧
        (∀ i, i < m → (machine_scan E m).1 ≤ E i) ∧
        ∀ i, i < (machine_scan E m).2 → (machine_scan E m).1 < E i) := by
  induction m with
  | zero =>
    left
    exact ⟨rfl, rfl⟩
  | succ k ih =>
    right
    rw [machine_scan_succ]
    rcases ih with ⟨hk, h0⟩ | ⟨h1, h2, h3, h4⟩
    · subst hk
      rw [h0]
      have := hE 0
      by_cases hlt : E 0 < UINT_MAX
      · simp only [hlt, if_true]
        refine ⟨by omega, trivial, ?_, ?_⟩
        · intro i hi
          have : i = 0 := by omega
          subst this
          exact le_refl _
        · intro i hi
          omega
      · simp only [hlt, if_false]
        have h5 : E 0 = UINT_MAX := by
          unfold UINT_MAX at hlt ⊢
          omega
        refine ⟨by omega, h5.symm, ?_, ?_⟩
        · intro i hi
          have : i = 0 := by omega
          subst this
          exact le_of_eq h5.symm
        · intro i hi
          omega
    · by_cases hlt : E k < (machine_scan E k).1
      · simp only [hlt, if_true]
        refine ⟨by omega, trivial, ?_, ?_⟩
        · intro i hi
          by_cases hik : i = k
          · subst hik
            exact le_refl _
          · have := h3 i (by omega)
            omega
        · intro i hi
          have := h3 i hi
          omega
      · simp only [hlt, if_false]
        refine ⟨by omega, h2, ?_, h4⟩
        intro i hi
        by_cases hik : i = k
        · subst hik
          omega
        · exact h3 i (by omega)

theorem find_range_first (p : Nat → Bool) (m k : Nat) (hk : k < m) (hp : p k = true)
    (hmin : ∀ i, i < k → p i = false) : (List.range m).find? p = some k := by
  induction m with
  | zero => omega
  | succ n ih =>
    rw [List.range_succ, List.find?_append]
    by_cases hkn : k < n
    · rw [ih hkn]
      rfl
    · have hkn2 : k = n := by omega
      subst hkn2
      have h0 : (List.range k).find? p = none := by
        rw [List.find?_eq_none]
        intro x hx
        rw [hmin x (List.mem_range.1 hx)]
        simp
      rw [h0]
      simp [hp]

/-- The machine `mu*` of the specification is the one the first inner loop of
`schedule_compute` finds. -/
theorem spec_mu_star_eq (E : Nat → Nat) (hE : ∀ i, E i < 4294967296) (m : Nat) (hm : 1 ≤ m)
    (F : Nat → Int) (hEF : ∀ i, (E i : Int) = F i) :
    spec_mu_star F m = (machine_scan E m).2 ∧
      F (spec_mu_star F m) = ((machine_scan E m).1 : Int) := by
  rcases machine_scan_first E hE m with ⟨h0, _⟩ | ⟨h1, h2, h3, h4⟩
  · omega
  · have hfind : (List.range m).find?
        (fun i => (List.range m).all (fun j => decide (F i ≤ F j))) =
        some (machine_scan E m).2 := by
      apply find_range_first _ _ _ h1
      · rw [List.all_eq_true]
        intro j hj
        have := h3 j (List.mem_range.1 hj)
        rw [decide_eq_true_eq, ← hEF, ← hEF]
        omega
      · intro i hi
        rw [Bool.eq_false_iff]
        intro hall
        rw [List.all_eq_true] at hall
        have h5 := hall (machine_scan E m).2 (List.mem_range.2 h1)
        rw [decide_eq_true_eq, ← hEF, ← hEF] at h5
        have := h4 i hi
        omega
    have heq : spec_mu_star F m = (machine_scan E m).2 := by
      unfold spec_mu_star
      rw [hfind]
      rfl
    refine ⟨heq, ?_⟩
    rw [heq, ← hEF, h2]

theorem max_or_zero_cons (a : Int) (l : List Int) (ha : 0 ≤ a) :
    max_or_zero (a :: l) = max a (max_or_zero l) := by
  cases l with
  | nil =>
    simp only [max_or_zero, max_def]
    split_ifs <;> omega
  | cons b rest => rfl

theorem max_or_zero_nonneg (l : List Int) (hl : ∀ v ∈ l, 0 ≤ v) : 0 ≤ max_or_zero l := by
  induction l with
  | nil => simp [max_or_zero]
  | cons a rest ih =>
    rw [max_or_zero_cons a rest (hl a (List.mem_cons_self _ _))]
    have := ih (fun v hv => hl v (List.mem_cons_of_mem _ hv))
    simp only [max_def]
    split_ifs <;> omega

theorem max_or_zero_map_nonneg (te : Nat → Nat) (F : Nat → Int) (hF : ∀ p, (te p : Int) = F p)
    (l : List Nat) : 0 ≤ max_or_zero (l.map F) := by
  apply max_or_zero_nonneg
  intro v hv
  obtain ⟨p, _, rfl⟩ := List.mem_map.1 hv
  rw [← hF]
  omega

/-- The second inner loop of `schedule_compute`, started from any pair:
the time it ends with is the largest seen, and the machine is the one of the
first predecessor that has this time when the time has grown. -/
theorem pred_scan_first_aux (te asg : Nat → Nat) (F : Nat → Int)
    (hF : ∀ p, (te p : Int) = F p) (l : List Nat) (acc : Nat × Nat) :
    let r := l.foldl (fun acc p => if te p > acc.1 then (te p, asg p) else acc) acc
    (r.1 : Int) = max (acc.1 : Int) (max_or_zero (l.map F)) ∧
      (r.1 = acc.1 → r.2 = acc.2) ∧
      (acc.1 < r.1 →
        ∃ p0, l.find? (fun p => decide (F p = (r.1 : Int))) = some p0 ∧ r.2 = asg p0) := by
  induction l generalizing acc with
  | nil =>
    simp only [List.foldl_nil, List.map_nil, max_or_zero]
    refine ⟨by simp only [max_def]; split_ifs <;> omega, fun _ => trivial, ?_⟩
    intro h
    omega
  | cons a rest ih =>
    simp only [List.foldl_cons, List.map_cons]
    have h := ih (if te a > acc.1 then (te a, asg a) else acc)
    simp only at h
    obtain ⟨h1, h2, h3⟩ := h
    have hcons := max_or_zero_cons (F a) (rest.map F) (by rw [← hF]; omega)
    have hnn := max_or_zero_map_nonneg te F hF rest
    have hFa := hF a
    rw [hcons]
    simp only [max_def] at h1 ⊢
    by_cases hlt : te a > acc.1
    · simp only [hlt, if_true] at h1 h2 h3 ⊢
      refine ⟨by split_ifs at h1 ⊢ <;> omega, ?_, ?_⟩
      · intro h
        split_ifs at h1 <;> omega
      · intro _
        by_cases hgt : te a < (List.foldl
            (fun acc p => if te p > acc.1 then (te p, asg p) else acc) (te a, asg a) rest).1
        · obtain ⟨p0, hp0, hr⟩ := h3 hgt
          refine ⟨p0, ?_, hr⟩
          rw [List.find?_cons_of_neg, hp0]
          rw [decide_eq_true_eq, ← hF]
          omega
        · have heq : (List.foldl
              (fun acc p => if te p > acc.1 then (te p, asg p) else acc) (te a, asg a) rest).1
              = te a := by split_ifs at h1 <;> omega
          refine ⟨a, ?_, h2 heq⟩
          rw [List.find?_cons_of_pos]
          rw [decide_eq_true_eq, ← hF, heq]
    · simp only [hlt, if_false] at h1 h2 h3 ⊢
      refine ⟨by split_ifs at h1 ⊢ <;> omega, h2, ?_⟩
      intro hgt
      obtain ⟨p0, hp0, hr⟩ := h3 hgt
      refine ⟨p0, ?_, hr⟩
      rw [List.find?_cons_of_neg, hp0]
      rw [decide_eq_true_eq, ← hF]
      split_ifs at h1 <;> omega

/-- The second inner loop of `schedule_compute` computes `rho` and, when
`rho` is positive, `mu_rho` of the specification. -/
theorem pred_scan_first (te asg : Nat → Nat) (st : spec_state)
    (hF : ∀ p, (te p : Int) = st.F p) (hA : ∀ p, st.F p ≠ 0 → asg p = st.A p)
    (l : List Nat) :
    ((pred_scan te asg l).1 : Int) = spec_rho st.F l ∧
      (0 < (pred_scan te asg l).1 →
        (pred_scan te asg l).2 = spec_mu_rho st l (spec_rho st.F l)) := by
  have h := pred_scan_first_aux te asg st.F hF l (0, 0)
  simp only at h
  obtain ⟨h1, _, h3⟩ := h
  have hnn := max_or_zero_map_nonneg te st.F hF l
  have hrho : ((pred_scan te asg l).1 : Int) = spec_rho st.F l := by
    unfold pred_scan spec_rho
    rw [h1, max_def]
    split_ifs <;> omega
  refine ⟨hrho, ?_⟩
  intro hpos
  obtain ⟨p0, hp0, hr⟩ := h3 hpos
  unfold spec_mu_rho
  rw [← hrho]
  unfold pred_scan
  rw [hp0, hr]
  have hp1 := List.find?_some hp0
  rw [decide_eq_true_eq] at hp1
  apply hA
  rw [hp1]
  unfold pred_scan at hpos
  omega

/-- The last loop of `schedule_compute` computes the maximum over the
machines of the busy-until times. -/
theorem final_time_aux_max (E : Nat → Nat) (F : Nat → Int) (hF : ∀ i, (E i : Int) = F i)
    (l : List Nat) (a : Nat) :
    ((l.foldl (fun ft i => if E i > ft then E i else ft) a : Nat) : Int) =
      max (a : Int) (max_or_zero (l.map F)) := by
  induction l generalizing a with
  | nil =>
    simp only [List.foldl_nil, List.map_nil, max_or_zero, max_def]
    split_ifs <;> omega
  | cons x rest ih =>
    simp only [List.foldl_cons, List.map_cons]
    rw [ih, max_or_zero_cons (F x) (rest.map F) (by rw [← hF]; omega)]
    have := hF x
    by_cases hlt : E x > a
    · rw [if_pos hlt]
      simp only [max_def]
      split_ifs <;> omega
    · rw [if_neg hlt]
      simp only [max_def]
      split_ifs <;> omega

theorem final_time_max (E : Nat → Nat) (F : Nat → Int) (hF : ∀ i, (E i : Int) = F i)
    (m : Nat) : (final_time E m : Int) = max_or_zero ((List.range m).map F) := by
  unfold final_time
  rw [final_time_aux_max E F hF]
  have := max_or_zero_map_nonneg E F hF (List.range m)
  simp only [max_def]
  split_ifs <;> omega

/-- One iteration of the main loop of `schedule_compute` is one task of the
procedure of the specification, as long as the finish time fits `unsigned`. -/
theorem compute_step_refines (g : dag) (m : Nat) (hm : 1 ≤ m) (c : compute_state)
    (s : spec_state) (B : Int) (t : Nat) (h : compute_refines c s B)
    (hw : 0 ≤ dag_weight g t) (hB : B + dag_weight g t < 4294967296) :
    compute_refines (compute_step g m c t) (spec_step g m s t) (B + dag_weight g t) := by
  obtain ⟨h1, h2, h3, h4, h5⟩ := h
  have hB0 : 0 ≤ B := by
    have := h4 0
    have := h1 0
    omega
  have hE : ∀ i, c.end_times i < 4294967296 := by
    intro i
    have := h1 i
    have := h4 i
    omega
  obtain ⟨hmu, hEmu⟩ := spec_mu_star_eq c.end_times hE m hm s.E h1
  obtain ⟨hrho, hmurho⟩ := pred_scan_first c.task_ends c.assignments s h2 h3 (dag_preds g t)
  have hrhoB : spec_rho s.F (dag_preds g t) ≤ B := by
    rw [← hrho]
    rcases (pred_scan_spec c.task_ends c.assignments (dag_preds g t)).2 with h0 | ⟨p, _, hp, _⟩
    · rw [h0]
      omega
    · rw [hp, h2]
      exact h5 p
  have hmuB := h4 (spec_mu_star s.E m)
  have hpl : (placement g m c t).1 =
        (if spec_rho s.F (dag_preds g t) > s.E (spec_mu_star s.E m)
          then spec_mu_rho s (dag_preds g t) (spec_rho s.F (dag_preds g t))
          else spec_mu_star s.E m) ∧
      ((placement g m c t).2 : Int) =
        (if spec_rho s.F (dag_preds g t) > s.E (spec_mu_star s.E m)
          then spec_rho s.F (dag_preds g t) else s.E (spec_mu_star s.E m)) := by
    unfold placement
    simp only
    by_cases hgt : (pred_scan c.task_ends c.assignments (dag_preds g t)).1 >
        (machine_scan c.end_times m).1
    · have hgt2 : spec_rho s.F (dag_preds g t) > s.E (spec_mu_star s.E m) := by
        rw [hEmu, ← hrho]
        omega
      rw [if_pos hgt, if_pos hgt2, if_pos hgt2]
      exact ⟨hmurho (by omega), hrho⟩
    · have hgt2 : ¬ spec_rho s.F (dag_preds g t) > s.E (spec_mu_star s.E m) := by
        rw [hEmu, ← hrho]
        omega
      rw [if_neg hgt, if_neg hgt2, if_neg hgt2]
      exact ⟨hmu.symm, hEmu.symm⟩
  obtain ⟨hpl1, hpl2⟩ := hpl
  have hstart : ((placement g m c t).2 : Int) ≤ B := by
    rw [hpl2]
    split_ifs <;> assumption
  have hfin : ((to_unsigned (((placement g m c t).2 : Int) + dag_weight g t) : Nat) : Int) =
      ((placement g m c t).2 : Int) + dag_weight g t :=
    to_unsigned_cast _ (by omega) (by omega)
  unfold compute_refines compute_step spec_step
  simp only
  rw [← hpl1, ← hpl2]
  refine ⟨?_, ?_, ?_, ?_, ?_⟩
  · intro i
    by_cases hi : i = (placement g m c t).1
    · subst hi
      rw [Function.update_same, Function.update_same, hfin]
    · rw [Function.update_noteq hi, Function.update_noteq hi]
      exact h1 i
  · intro x
    by_cases hx : x = t
    · subst hx
      rw [Function.update_same, Function.update_same, hfin]
    · rw [Function.update_noteq hx, Function.update_noteq hx]
      exact h2 x
  · intro x
    by_cases hx : x = t
    · subst hx
      intro _
      rw [Function.update_same, Function.update_same]
    · rw [Function.update_noteq hx, Function.update_noteq hx, Function.update_noteq hx]
      exact h3 x
  · intro i
    by_cases hi : i = (placement g m c t).1
    · subst hi
      rw [Function.update_same]
      omega
    · rw [Function.update_noteq hi]
      have := h4 i
      omega
  · intro x
    by_cases hx : x = t
    · subst hx
      rw [Function.update_same]
      omega
    · rw [Function.update_noteq hx]
      have := h5 x
      omega

/-- The main loop of `schedule_compute` run over an order holds what the
procedure of the specification holds, as long as the weights are not negative
and their sum fits `unsigned`. -/
theorem compute_run_refines (g : dag) (m : Nat) (hm : 1 ≤ m) (l : List Nat)
    (hw : ∀ t ∈ l, 0 ≤ dag_weight g t) (hB : order_weight g l < 4294967296) :
    compute_refines (compute_run g m l) (spec_run g m l) (order_weight g l) := by
  induction l using List.reverseRecOn with
  | nil =>
    unfold compute_refines compute_run spec_run compute_init order_weight
    simp
  | append_singleton l t ih =>
    rw [order_weight_snoc] at hB ⊢
    have hwt := hw t (by simp)
    have hih := ih (fun x hx => hw x (List.mem_append_left _ hx)) (by omega)
    have hc : compute_run g m (l ++ [t]) = compute_step g m (compute_run g m l) t := by
      unfold compute_run
      rw [List.foldl_append]
      rfl
    have hs : spec_run g m (l ++ [t]) = spec_step g m (spec_run g m l) t := by
      unfold spec_run
      rw [List.foldl_append]
      rfl
    rw [hc, hs]
    exact compute_step_refines g m hm _ _ _ t hih hwt hB

/-- The length `schedule_build` sets is the one the procedure of the
specification gives, for `m >= 1` and weights of the tasks of the order that
are not negative and sum to less than `2^32`. -/
theorem schedule_length_refines (s : schedule) (T : Nat) (hm : 1 ≤ s.m)
    (hw : ∀ t ∈ s.order, 0 ≤ dag_weight s.g t)
    (hB : order_weight s.g s.order < 4294967296) :
    (schedule_length (schedule_build s T).1 : Int) = spec_length s.g s.m s.order := by
  obtain ⟨h1, _, _, h4, _⟩ := compute_run_refines s.g s.m hm s.order hw hB
  have hft := final_time_max (compute_run s.g s.m s.order).end_times
    (spec_run s.g s.m s.order).E h1 s.m
  unfold schedule_length schedule_build schedule_compute
  simp only
  unfold spec_length
  rw [← hft, to_unsigned_to_int]
  rcases (final_time_spec (compute_run s.g s.m s.order).end_times s.m).2 with h | ⟨i, _, h⟩
  · rw [h]
    omega
  · rw [h]
    have := h1 i
    have := h4 i
    omega


/-! ## Levels of a built graph -/

/-- C10 (amended): for every graph obtained by `dag_create`, a sequence of
`dag_vertex` calls with non-negative weights whose sum is below `2^31`, and
`dag_build`: `dag_build` returns, `dag_level(sink) = 0`, and for every other
task `x`, `dag_level(x)` is `dag_weight(x)` plus the largest `dag_level` among
the successors of `x` (it is attained by a successor and no successor
exceeds it). -/
theorem dag_build_levels (calls : List (Int × List Nat)) (g0 : dag)
    (hv : dag_vertices calls dag_create = some g0) (hnn : calls_nonneg calls)
    (htot : calls_total calls < 2147483648) :
    (∃ fuel g, dag_build fuel g0 = some g) ∧
    ∀ fuel g, dag_build fuel g0 = some g →
      dag_level g (dag_sink g) = 0 ∧
      ∀ x, x < dag_size g → x ≠ dag_sink g →
        (∃ s ∈ dag_succs g x, dag_level g x = dag_weight g x + dag_level g s) ∧
        ∀ s ∈ dag_succs g x, dag_weight g x + dag_level g s ≤ dag_level g x := by
  refine ⟨?_, ?_⟩
  · obtain ⟨fuel, g, _, hg⟩ := dag_make_some calls g0 hv
    exact ⟨fuel, g, hg⟩
  · intro fuel g hg
    have hmk : dag_make fuel calls = some g := by
      unfold dag_make
      simp only [hv]
      exact hg
    obtain ⟨_, h2, h3⟩ := built_levels_int calls g (dag_make_built fuel calls g hmk) hnn htot
    refine ⟨h2, ?_⟩
    intro x hx hxs
    apply h3
    unfold dag_size at hx
    unfold dag_sink at hxs
    omega


/-! ## Every complete valid order is enumerated -/

theorem extensions_mem (g : dag) (k : Nat) :
    ∀ (o rest : List Nat), rest.length = k → order_valid g (o ++ rest) →
      (o ++ rest).Nodup → (∀ t ∈ rest, t < dag_size g) → o ++ rest ∈ extensions g k o := by
  induction k with
  | zero =>
    intro o rest hlen _ _ _
    have : rest = [] := List.length_eq_zero.1 hlen
    subst this
    simp [extensions]
  | succ k ih =>
    intro o rest hlen hv hnd hlt
    cases rest with
    | nil => simp at hlen
    | cons t rest1 =>
      have hlen1 : rest1.length = k := by simpa using hlen
      have heq : o ++ t :: rest1 = (o ++ [t]) ++ rest1 := by simp
      have hto : t ∉ o := by
        intro hmem
        have := List.nodup_append.1 hnd
        exact this.2.2 hmem (List.mem_cons_self _ _)
      have hpreds : ∀ p ∈ dag_preds g t, p ∈ o := by
        intro p hp
        obtain ⟨j, hj, hjp⟩ := hv o.length t
          (by rw [List.getElem?_append_right (le_refl _)]; simp) p hp
        rw [List.getElem?_append_left hj] at hjp
        exact List.getElem?_mem hjp
      have hnext : t ∈ next_tasks g o := by
        unfold next_tasks
        rw [List.mem_filter, List.mem_range]
        refine ⟨hlt t (List.mem_cons_self _ _), ?_⟩
        rw [Bool.and_eq_true, List.all_eq_true]
        refine ⟨by simp [hto], ?_⟩
        intro p hp
        simp [hpreds p hp]
      have hrec := ih (o ++ [t]) rest1 hlen1 (by rw [← heq]; exact hv) (by rw [← heq]; exact hnd)
        (fun x hx => hlt x (List.mem_cons_of_mem _ hx))
      rw [heq]
      simp only [extensions, List.mem_flatMap]
      exact ⟨t, hnext, hrec⟩

/-- Every complete order of a graph in which each task comes after its
predecessors is among the enumerated ones. -/
theorem complete_mem_extensions (g : dag) (o : List Nat) (hc : order_complete g o)
    (hv : order_valid g o) : o ∈ extensions g (dag_size g) [] := by
  obtain ⟨hnd, hmem⟩ := hc
  have hperm : o.Perm (List.range (dag_size g)) :=
    (List.perm_ext_iff_of_nodup hnd (List.nodup_range _)).2
      (fun t => by rw [hmem, List.mem_range])
  have hlen : o.length = dag_size g := by
    rw [hperm.length_eq, List.length_range]
  have := extensions_mem g (dag_size g) [] o hlen (by simpa using hv) (by simpa using hnd)
    (fun t ht => (hmem t).1 ht)
  simpa using this


/-! ## The claims on concrete graphs -/

set_option maxRecDepth 100000 in
theorem dag_make_fork : dag_make 100 calls_fork = some (dag_of_calls calls_fork) := by decide

theorem calls_fork_ok : calls_user_deps calls_fork ∧ calls_nonneg calls_fork ∧
    calls_total calls_fork < 2147483648 := by
  unfold calls_user_deps calls_nonneg calls_total calls_fork
  decide

set_option maxRecDepth 100000 in
theorem dag_size_fork : dag_size (dag_of_calls calls_fork) = 6 := by decide

/-- Witness of C1 on the fork graph with two machines. -/
theorem bbsearch_min_makespan_witness :
    ∃ V : Nat, bbsearch list_heap (fun _ => 0) 1 6 (dag_of_calls calls_fork) 2 (-1) =
        some (V : Int) ∧
      (∃ o, order_complete (dag_of_calls calls_fork) o ∧
        order_valid (dag_of_calls calls_fork) o ∧
        list_makespan (dag_of_calls calls_fork) 2 o = V) ∧
      ∀ o, order_complete (dag_of_calls calls_fork) o →
        order_valid (dag_of_calls calls_fork) o →
        V ≤ list_makespan (dag_of_calls calls_fork) 2 o :=
  bbsearch_min_makespan list_heap list_heap_spec (fun _ => 0) 1 calls_fork 100
    (dag_of_calls calls_fork) dag_make_fork calls_fork_ok.1 calls_fork_ok.2.1
    calls_fork_ok.2.2 2 (by decide) 6 (le_of_eq dag_size_fork)

set_option maxRecDepth 100000 in
/-- Witness of C9: adding task 1 to the empty schedule of the fork graph and
popping it. -/
theorem schedule_add_pop_restores_witness :
    ∃ s1 s2, schedule_add (schedule_new (dag_of_calls calls_fork) 2) 1 = some (s1, 0) ∧
      schedule_pop s1 = some (s2, 0) ∧
      s2.order = (schedule_new (dag_of_calls calls_fork) 2).order ∧
      ∀ i, schedule_contains s2 i =
        schedule_contains (schedule_new (dag_of_calls calls_fork) 2) i :=
  schedule_add_pop_restores (schedule_new (dag_of_calls calls_fork) 2) 1 (by decide)
    (by decide) (by decide)

set_option maxRecDepth 100000 in
theorem dag_vertices_fork : dag_vertices calls_fork dag_create =
    some ((dag_vertices calls_fork dag_create).getD dag_create) := by decide

/-- Witness of C10 on the fork graph. -/
theorem dag_build_levels_witness :
    (∃ fuel g, dag_build fuel ((dag_vertices calls_fork dag_create).getD dag_create) = some g) ∧
    ∀ fuel g, dag_build fuel ((dag_vertices calls_fork dag_create).getD dag_create) = some g →
      dag_level g (dag_sink g) = 0 ∧
      ∀ x, x < dag_size g → x ≠ dag_sink g →
        (∃ s ∈ dag_succs g x, dag_level g x = dag_weight g x + dag_level g s) ∧
        ∀ s ∈ dag_succs g x, dag_weight g x + dag_level g s ≤ dag_level g x :=
  dag_build_levels calls_fork ((dag_vertices calls_fork dag_create).getD dag_create)
    dag_vertices_fork calls_fork_ok.2.1 calls_fork_ok.2.2


/-! ## Where weights near `INT_MAX` make the arithmetic wrap -/

set_option maxRecDepth 100000 in
/-- Counterexample to C1 as stated: on the chain of two tasks of weight
`2^31 - 1` (non-negative weights, user dependencies) and one machine,
`bbsearch(G, 1, -1)` returns -2, while the only complete order has the
list-scheduled makespan `2^32 - 2`; no makespan is the value returned. -/
theorem bbsearch_wraps :
    dag_make 100 calls_big_chain = some (dag_of_calls calls_big_chain) ∧
    bbsearch list_heap (fun _ => 0) 1 4 (dag_of_calls calls_big_chain) 1 (-1) = some (-2) ∧
    list_makespan (dag_of_calls calls_big_chain) 1 [0, 1, 2, 3] = 4294967294 ∧
    ∀ o, bbsearch list_heap (fun _ => 0) 1 4 (dag_of_calls calls_big_chain) 1 (-1) ≠
      some ((list_makespan (dag_of_calls calls_big_chain) 1 o : Nat) : Int) := by
  have h : bbsearch list_heap (fun _ => 0) 1 4 (dag_of_calls calls_big_chain) 1 (-1) =
      some (-2) := by decide
  refine ⟨by decide, h, by decide, ?_⟩
  intro o ho
  rw [h] at ho
  have := Option.some.inj ho
  omega

set_option maxRecDepth 100000 in
/-- Counterexample to C3 as stated: on two independent tasks of weights
`2^31 - 1` and 2 and one machine, `bbsearch(G, 1, -1)`, in the build without
`FUJITA`, returns `-2147483647`, below `dag_level(G, source) = 2147483647`. -/
theorem bbsearch_below_level :
    dag_make 100 calls_big_pair = some (dag_of_calls calls_big_pair) ∧
    bbsearch list_heap (fun _ => 0) 1 4 (dag_of_calls calls_big_pair) 1 (-1) =
      some (-2147483647) ∧
    dag_level (dag_of_calls calls_big_pair) (dag_source (dag_of_calls calls_big_pair)) =
      2147483647 := by decide

set_option maxRecDepth 100000 in
/-- Counterexample to C5 as stated: with `timeout = -1` and a constant clock,
`bbsearch`, in the build without `FUJITA`, returns -2 on the chain of two
tasks of weight `2^31 - 1` with one machine. -/
theorem bbsearch_minus_two_without_deadline :
    (∀ n : Nat, (fun _ : Nat => (0 : Int)) n ≤ (fun _ : Nat => (0 : Int)) (n + 1)) ∧
    dag_make 100 calls_big_chain = some (dag_of_calls calls_big_chain) ∧
    bbsearch list_heap (fun _ => 0) 1 4 (dag_of_calls calls_big_chain) 1 (-1) = some (-2) :=
  ⟨fun _ => le_refl _, by decide, by decide⟩

set_option maxRecDepth 100000 in
/-- Counterexample to C6 as stated: on three independent tasks of weight
`2^31 - 1` and one machine, the valid order `[source, 1, 2, 3]` gets the
length `2147483645` from `schedule_build` and `6442450941` from the procedure
of the specification. -/
theorem schedule_build_wraps :
    schedule_is_valid (schedule_of (dag_of_calls calls_big_three) 1 [0, 1, 2, 3]) = true ∧
    schedule_length
      (schedule_build (schedule_of (dag_of_calls calls_big_three) 1 [0, 1, 2, 3]) 0).1 =
      2147483645 ∧
    spec_length (dag_of_calls calls_big_three) 1 [0, 1, 2, 3] = 6442450941 := by decide!

set_option maxRecDepth 100000 in
/-- Counterexample to C9 as stated: the schedule `[source]` of the fork
graph is reached by `schedule_create` and `schedule_add(source)`, which
returns 0; adding the source again returns -1 and clears its bit, and the
pop that follows returns 0 and removes the source from the order: the
order is empty and `schedule_contains(source)` is 0, where they were
`[source]` and 1. -/
theorem schedule_add_pop_changes :
    (schedule_add (schedule_new (dag_of_calls calls_fork) 2) 0).map
        (fun r => (r.2, r.1.order, schedule_contains r.1 0)) = some (0, [0], true) ∧
    ((schedule_add (schedule_new (dag_of_calls calls_fork) 2) 0).bind
        (fun r1 => schedule_add r1.1 0)).map (fun r => r.2) = some (-1) ∧
    (((schedule_add (schedule_new (dag_of_calls calls_fork) 2) 0).bind
        (fun r1 => schedule_add r1.1 0)).bind (fun r2 => schedule_pop r2.1)).map
        (fun r => (r.2, r.1.order, schedule_contains r.1 0)) = some (0, [], false) := by
  decide

set_option maxRecDepth 100000 in
/-- Counterexample to C10 as stated: after a task of weight `2^31 - 1`
followed by a task of weight 1, the first task has the second as only
successor and `dag_level` gives it `-2147483648`, not
`2147483647 + 1`. -/
theorem dag_level_wraps :
    dag_make 100 calls_big_level = some (dag_of_calls calls_big_level) ∧
    dag_succs (dag_of_calls calls_big_level) 1 = [2] ∧
    dag_sink (dag_of_calls calls_big_level) = 3 ∧
    dag_level (dag_of_calls calls_big_level) 1 = -2147483648 ∧
    dag_weight (dag_of_calls calls_big_level) 1 + dag_level (dag_of_calls calls_big_level) 2 =
      2147483648 := by decide

/-! ## Where `schedule_compute` books a machine twice -/

set_option maxRecDepth 100000 in
/-- C7 fails in the code: on `calls_long_short` with two machines the valid
order `[source, 1, 2, 3]` puts task 2 on machine 0 from 5 to 105 and then task
3 on the same machine from 5 to 6; `schedule_length` is 6, below the finish
time 105 of task 2. -/
theorem schedule_compute_double_books :
    schedule_is_valid (schedule_of (dag_of_calls calls_long_short) 2 [0, 1, 2, 3]) = true ∧
    schedule_length
      (schedule_build (schedule_of (dag_of_calls calls_long_short) 2 [0, 1, 2, 3]) 0).1 = 6 ∧
    (schedule_compute (schedule_of (dag_of_calls calls_long_short) 2 [0, 1, 2, 3])).2 2 =
      105 := by decide

set_option maxRecDepth 100000 in
theorem fork_facts :
    dag_size (dag_of_calls calls_fork) = 6 ∧
    dag_preds (dag_of_calls calls_fork) 2 = [1] ∧
    dag_preds (dag_of_calls calls_fork) 3 = [1] ∧
    dag_preds (dag_of_calls calls_fork) 4 = [1] ∧
    dag_weight (dag_of_calls calls_fork) 1 = 1 ∧
    dag_weight (dag_of_calls calls_fork) 2 = 1 ∧
    dag_weight (dag_of_calls calls_fork) 3 = 1 ∧
    dag_weight (dag_of_calls calls_fork) 4 = 1 := by decide

/-- On the fork graph two of the three tasks that follow task 1 share one of
the two machines, so some task finishes at 3 or later in every feasible
schedule. -/
theorem fork_feasible_bound (mach : Nat → Nat) (start : Nat → Int)
    (h : feasible (dag_of_calls calls_fork) 2 mach start) :
    ∃ x, x < dag_size (dag_of_calls calls_fork) ∧
      3 ≤ start x + dag_weight (dag_of_calls calls_fork) x := by
  obtain ⟨hsz, hp2, hp3, hp4, hw1, hw2, hw3, hw4⟩ := fork_facts
  obtain ⟨h1, h2, h3⟩ := h
  rw [hsz] at h1 h2 h3
  rw [hsz]
  have s1 := (h1 1 (by omega)).2
  have m2 := (h1 2 (by omega)).1
  have m3 := (h1 3 (by omega)).1
  have m4 := (h1 4 (by omega)).1
  have p2 := h2 2 (by omega) 1 (by rw [hp2]; simp)
  have p3 := h2 3 (by omega) 1 (by rw [hp3]; simp)
  have p4 := h2 4 (by omega) 1 (by rw [hp4]; simp)
  rw [hw1] at p2 p3 p4
  have key : ∀ x y, x < 6 → y < 6 → x ≠ y → mach x = mach y →
      dag_weight (dag_of_calls calls_fork) x = 1 →
      dag_weight (dag_of_calls calls_fork) y = 1 → start x ≠ start y := by
    intro x y hx hy hxy hm hwx hwy heq
    apply h3 x y hx hy hxy hm (start x)
    rw [hwx, hwy, heq]
    omega
  by_cases e23 : mach 2 = mach 3
  · have := key 2 3 (by omega) (by omega) (by omega) e23 hw2 hw3
    by_cases hlt : start 2 < start 3
    · exact ⟨3, by omega, by rw [hw3]; omega⟩
    · exact ⟨2, by omega, by rw [hw2]; omega⟩
  · by_cases e24 : mach 2 = mach 4
    · have := key 2 4 (by omega) (by omega) (by omega) e24 hw2 hw4
      by_cases hlt : start 2 < start 4
      · exact ⟨4, by omega, by rw [hw4]; omega⟩
      · exact ⟨2, by omega, by rw [hw2]; omega⟩
    · have e34 : mach 3 = mach 4 := by omega
      have := key 3 4 (by omega) (by omega) (by omega) e34 hw3 hw4
      by_cases hlt : start 3 < start 4
      · exact ⟨4, by omega, by rw [hw4]; omega⟩
      · exact ⟨3, by omega, by rw [hw3]; omega⟩

set_option maxRecDepth 100000 in
theorem fork_facts_more :
    dag_preds (dag_of_calls calls_fork) 0 = [] ∧
    dag_preds (dag_of_calls calls_fork) 1 = [0] ∧
    dag_preds (dag_of_calls calls_fork) 5 = [2, 3, 4] ∧
    dag_weight (dag_of_calls calls_fork) 0 = 0 ∧
    dag_weight (dag_of_calls calls_fork) 5 = 0 := by decide

/-- The fork graph has a feasible schedule on two machines in which every
task has finished at 3. -/
theorem fork_feasible_three :
    ∃ (mach : Nat → Nat) (start : Nat → Int),
      feasible (dag_of_calls calls_fork) 2 mach start ∧
      ∀ x, x < dag_size (dag_of_calls calls_fork) →
        start x + dag_weight (dag_of_calls calls_fork) x ≤ 3 := by
  obtain ⟨hsz, hp2, hp3, hp4, hw1, hw2, hw3, hw4⟩ := fork_facts
  obtain ⟨hp0, hp1, hp5, hw0, hw5⟩ := fork_facts_more
  refine ⟨fun x => if x = 3 then 1 else 0, fun x => ([0, 0, 1, 1, 2, 3] : List Int).getD x 0,
    ⟨?_, ?_, ?_⟩, ?_⟩
  · intro x hx
    rw [hsz] at hx
    interval_cases x <;> simp
  · intro x hx p hp
    rw [hsz] at hx
    interval_cases x
    · rw [hp0] at hp
      simp at hp
    · rw [hp1] at hp
      simp at hp
      subst hp
      simp [hw0]
    · rw [hp2] at hp
      simp at hp
      subst hp
      simp [hw1]
    · rw [hp3] at hp
      simp at hp
      subst hp
      simp [hw1]
    · rw [hp4] at hp
      simp at hp
      subst hp
      simp [hw1]
    · rw [hp5] at hp
      simp at hp
      rcases hp with rfl | rfl | rfl
      · simp [hw2]
      · simp [hw3]
      · simp [hw4]
  · intro x y hx hy hxy hm τ
    rw [hsz] at hx hy
    interval_cases x <;> interval_cases y <;>
      simp [hw0, hw1, hw2, hw3, hw4, hw5] at hxy hm ⊢ <;> omega
  · intro x hx
    rw [hsz] at hx
    interval_cases x <;> simp [hw0, hw1, hw2, hw3, hw4, hw5]

set_option maxRecDepth 100000 in
/-- C2 fails in the code: on the fork graph (task 1, then three tasks that
depend on it, all of weight 1) with two machines `bbsearch(G, 2, -1)` returns
2, while in every feasible schedule some task finishes at 3 or later, and
a feasible schedule in which every task has finished at 3 exists: the
optimum is 3. -/
theorem bbsearch_below_optimum :
    dag_make 100 calls_fork = some (dag_of_calls calls_fork) ∧
    bbsearch list_heap (fun _ => 0) 1 6 (dag_of_calls calls_fork) 2 (-1) = some 2 ∧
    (∀ (mach : Nat → Nat) (start : Nat → Int),
      feasible (dag_of_calls calls_fork) 2 mach start →
      ∃ x, x < dag_size (dag_of_calls calls_fork) ∧
        3 ≤ start x + dag_weight (dag_of_calls calls_fork) x) ∧
    ∃ (mach : Nat → Nat) (start : Nat → Int),
      feasible (dag_of_calls calls_fork) 2 mach start ∧
      ∀ x, x < dag_size (dag_of_calls calls_fork) →
        start x + dag_weight (dag_of_calls calls_fork) x ≤ 3 :=
  ⟨by decide, by decide, fork_feasible_bound, fork_feasible_three⟩

/-! ## Three machines doing worse than two -/

/-- A schedule that `schedule_is_valid` accepts has every task after its
predecessors. -/
theorem schedule_is_valid_order (s : schedule) (h : schedule_is_valid s = true) :
    order_valid s.g s.order := by
  unfold schedule_is_valid at h
  rw [valid_loop_iff] at h
  intro i t hi p hp
  rcases h i t hi p hp with h1 | h2
  · simp [bitmap_get_create] at h1
  · exact h2

set_option maxRecDepth 1000000 in
theorem seven_facts :
    dag_make 100 calls_seven = some (dag_of_calls calls_seven) ∧
    dag_size (dag_of_calls calls_seven) = 9 := by decide

theorem calls_seven_ok : calls_user_deps calls_seven ∧ calls_nonneg calls_seven ∧
    calls_total calls_seven < 2147483648 := by
  unfold calls_user_deps calls_nonneg calls_total calls_seven
  decide

set_option maxRecDepth 1000000 in
/-- Every complete valid order of the seven-task graph has a makespan of at
least 6 on two machines and of at least 7 on three. -/
theorem seven_bounds : ∀ o ∈ extensions (dag_of_calls calls_seven) 9 [],
    6 ≤ list_makespan (dag_of_calls calls_seven) 2 o ∧
      7 ≤ list_makespan (dag_of_calls calls_seven) 3 o := by decide!

set_option maxRecDepth 1000000 in
theorem seven_orders :
    schedule_is_valid (schedule_of (dag_of_calls calls_seven) 2 [0, 1, 3, 2, 5, 6, 7, 4, 8]) =
      true ∧
    list_makespan (dag_of_calls calls_seven) 2 [0, 1, 3, 2, 5, 6, 7, 4, 8] = 6 ∧
    schedule_is_valid (schedule_of (dag_of_calls calls_seven) 3 [0, 1, 2, 3, 4, 5, 7, 6, 8]) =
      true ∧
    list_makespan (dag_of_calls calls_seven) 3 [0, 1, 2, 3, 4, 5, 7, 6, 8] = 7 := by decide!

/-- C4 fails in the code: on the seven-task graph `calls_seven` (weights
1, 1, 1, 3, 3, 3, 4; tasks 4, 5, 6 depend on `[1, 3]`, `[1, 2]`, `[3, 2]`
and task 7 on `[2]`), whatever the heap does with equal keys,
`bbsearch(G, 2, -1)` returns 6 and `bbsearch(G, 3, -1)` returns 7. -/
theorem bbsearch_not_monotone (heap : List (Nat × Int) → List Nat)
    (hheap : binheap_spec heap) (clock : Nat → Int) (cps : Int) (bfuel : Nat)
    (hfuel : 9 ≤ bfuel) :
    bbsearch heap clock cps bfuel (dag_of_calls calls_seven) 2 (-1) = some 6 ∧
      bbsearch heap clock cps bfuel (dag_of_calls calls_seven) 3 (-1) = some 7 := by
  obtain ⟨hmk, hsz⟩ := seven_facts
  obtain ⟨hdeps, hnn, htot⟩ := calls_seven_ok
  obtain ⟨hv2, hl2, hv3, hl3⟩ := seven_orders
  have hcomp : ∀ o : List Nat, o.Nodup → (∀ t ∈ o, t < 9) → o.length = 9 →
      order_complete (dag_of_calls calls_seven) o := by
    intro o h1 h2 h3
    exact full_order_complete _ o h1 (by rw [hsz]; exact h2) (by rw [hsz]; exact h3)
  have hc2 := hcomp [0, 1, 3, 2, 5, 6, 7, 4, 8] (by decide) (by decide) rfl
  have hc3 := hcomp [0, 1, 2, 3, 4, 5, 7, 6, 8] (by decide) (by decide) rfl
  have ho2 : order_valid (dag_of_calls calls_seven) [0, 1, 3, 2, 5, 6, 7, 4, 8] :=
    schedule_is_valid_order _ hv2
  have ho3 : order_valid (dag_of_calls calls_seven) [0, 1, 2, 3, 4, 5, 7, 6, 8] :=
    schedule_is_valid_order _ hv3
  have hval : ∀ (m L : Nat) (o1 : List Nat), 1 ≤ m →
      order_complete (dag_of_calls calls_seven) o1 →
      order_valid (dag_of_calls calls_seven) o1 →
      list_makespan (dag_of_calls calls_seven) m o1 = L →
      (∀ o ∈ extensions (dag_of_calls calls_seven) 9 [],
        L ≤ list_makespan (dag_of_calls calls_seven) m o) →
      bbsearch heap clock cps bfuel (dag_of_calls calls_seven) m (-1) = some (L : Int) := by
    intro m L o1 hm hc1 hv1 hL hall
    obtain ⟨v, hv, h⟩ := bbsearch_spec heap hheap clock cps calls_seven 100
      (dag_of_calls calls_seven) hmk hdeps hnn htot m hm bfuel (by rw [hsz]; exact hfuel) (-1)
    rcases h with ⟨h, _⟩ | ⟨V, hV, _, ⟨o, hc, hvo, hLo⟩, hmin⟩
    · omega
    · have hmem := complete_mem_extensions _ o hc hvo
      rw [hsz] at hmem
      have h1 := hall o hmem
      have h2 := hmin o1 hc1 hv1
      rw [hv, hV]
      congr 1
      omega
  exact ⟨hval 2 6 _ (by omega) hc2 ho2 hl2 (fun o ho => (seven_bounds o ho).1),
    hval 3 7 _ (by omega) hc3 ho3 hl3 (fun o ho => (seven_bounds o ho).2)⟩

/-- Witness of the failure of C4 with the list heap and a constant clock. -/
theorem bbsearch_not_monotone_witness :
    bbsearch list_heap (fun _ => 0) 1 9 (dag_of_calls calls_seven) 2 (-1) = some 6 ∧
      bbsearch list_heap (fun _ => 0) 1 9 (dag_of_calls calls_seven) 3 (-1) = some 7 :=
  bbsearch_not_monotone list_heap list_heap_spec (fun _ => 0) 1 9 (le_refl 9)


/-! ## The values of `tests.c` -/

set_option maxRecDepth 1000000 in
/-- The graph of `test_dag`: 13 nodes, level 48 at the source and 36 at
`g`. -/
theorem test_dag_levels :
    (dag_make 100 test_calls).map (fun g => (dag_size g, dag_level g 0, dag_level g 7)) =
      some (13, 48, 36) := by decide

set_option maxRecDepth 1000000 in
/-- The lengths of `test_schedule` on the 11-task graph with two machines,
and its validity checks: `[source, k]` is rejected, the full order is
accepted. -/
theorem test_schedule_values :
    list_makespan (dag_of_calls test_calls) 2 [0] = 0 ∧
    list_makespan (dag_of_calls test_calls) 2 [0, 1, 3, 2] = 3 ∧
    list_makespan (dag_of_calls test_calls) 2 [0, 1, 3, 2, 4, 5] = 12 ∧
    list_makespan (dag_of_calls test_calls) 2 [0, 1, 3, 2, 4, 5, 7, 6, 8, 9, 10, 11, 12] = 48 ∧
    schedule_is_valid (schedule_of (dag_of_calls test_calls) 2 [0, 11]) = false ∧
    schedule_is_valid
      (schedule_of (dag_of_calls test_calls) 2 [0, 1, 3, 2, 4, 5, 7, 6, 8, 9, 10, 11, 12]) =
      true := by decide!


/-! ## Shape and levels of a built graph -/

/-- On a built graph with non-negative weights that sum to less than `2^31`
no level exceeds the level of the source. -/
theorem level_le_source (calls : List (Int × List Nat)) (g : dag)
    (hb : built_graph calls g) (hnn : calls_nonneg calls)
    (htot : calls_total calls < 2147483648) :
    ∀ x, x < g.nodes.length → dag_level g x ≤ dag_level g 0 := by
  obtain ⟨_, _, h3⟩ := built_levels_int calls g hb hnn htot
  have hw := built_weight_nonneg calls g hb hnn
  intro x
  induction x using Nat.strong_induction_on with
  | _ x ih =>
    intro hx
    by_cases h0 : x = 0
    · rw [h0]
    · have hne := hb.wf.wf.preds_ne x (by omega) hx
      cases hps : (node_at g.nodes x).preds with
      | nil => exact absurd hps hne
      | cons p ps =>
        have hp : p ∈ (node_at g.nodes x).preds := by
          rw [hps]
          exact List.mem_cons_self _ _
        have hpx := hb.wf.wf.preds_lt x p hp
        have hxs : x ∈ dag_succs g p := (hb.wf.wf.mem_iff p x).2 hp
        have h4 := (h3 p (by omega)).2 x hxs
        have h5 := ih p hpx (by omega)
        have h6 : 0 ≤ dag_weight g p := hw p
        omega

/-- C11 (amended): on a graph built by `dag_create`, `dag_vertex` calls and
`dag_build` with non-negative weights that sum to less than `2^31`, every
task `x` has `dag_level(source) >= dag_level(x) >= dag_level(sink) = 0`. -/
theorem dag_level_bounds (calls : List (Int × List Nat)) (fuel : Nat) (g : dag)
    (hmk : dag_make fuel calls = some g) (hnn : calls_nonneg calls)
    (htot : calls_total calls < 2147483648) :
    dag_level g (dag_sink g) = 0 ∧
      ∀ x, x < dag_size g →
        dag_level g x ≤ dag_level g (dag_source g) ∧ dag_level g (dag_sink g) ≤ dag_level g x := by
  have hb := dag_make_built fuel calls g hmk
  obtain ⟨h1, h2, _⟩ := built_levels_int calls g hb hnn htot
  refine ⟨h2, ?_⟩
  intro x hx
  refine ⟨level_le_source calls g hb hnn htot x hx, ?_⟩
  rw [h2, h1 x]
  omega

/-- C12: a graph obtained by `dag_create`, a sequence of `dag_vertex` calls
and one `dag_build` (which returns) has, with `N = dag_size`: task 0 of
weight 0 and the only task without predecessors; task `N - 1 = dag_sink` of
weight 0 and the only task without successors; every predecessor of a task
smaller than the task; and `s` in `succs(p)` exactly when `p` is in
`preds(s)`. -/
theorem dag_build_shape (calls : List (Int × List Nat)) (g0 : dag)
    (hv : dag_vertices calls dag_create = some g0) :
    (∃ fuel g, dag_build fuel g0 = some g) ∧
    ∀ fuel g, dag_build fuel g0 = some g →
      dag_size g = calls.length + 2 ∧
      dag_weight g 0 = 0 ∧ dag_preds g 0 = [] ∧
      (∀ x, 0 < x → x < dag_size g → dag_preds g x ≠ []) ∧
      dag_sink g = dag_size g - 1 ∧
      dag_weight g (dag_sink g) = 0 ∧ dag_succs g (dag_sink g) = [] ∧
      (∀ x, x < dag_size g → x ≠ dag_sink g → dag_succs g x ≠ []) ∧
      (∀ x p, p ∈ dag_preds g x → p < x) ∧
      (∀ p s, s ∈ dag_succs g p ↔ p ∈ dag_preds g s) := by
  refine ⟨?_, ?_⟩
  · obtain ⟨fuel, g, _, hg⟩ := dag_make_some calls g0 hv
    exact ⟨fuel, g, hg⟩
  · intro fuel g hg
    have hmk : dag_make fuel calls = some g := by
      unfold dag_make
      simp only [hv]
      exact hg
    have hb := dag_make_built fuel calls g hmk
    have hlen : g.nodes.length = calls.length + 2 := by
      have := congrArg List.length hb.weights
      simpa using this
    have hsink : (node_at g.nodes (g.nodes.length - 1)).weight = 0 := by
      have h := map_weight_getElem? g.nodes (g.nodes.length - 1)
      rw [hb.weights, if_pos (by have := hb.wf.wf.pos; omega), hlen] at h
      have h2 : (0 :: (List.map Prod.fst calls ++ [0]))[calls.length + 2 - 1]? = some (0 : Int) := by
        have : calls.length + 2 - 1 = (calls.length) + 1 := by omega
        rw [this, List.getElem?_cons_succ, List.getElem?_append_right (by simp)]
        simp
      rw [h2] at h
      rw [hlen]
      exact (Option.some.inj h).symm
    refine ⟨hlen, built_source_weight calls g hb, ?_, ?_, rfl, hsink, ?_, ?_, ?_, ?_⟩
    · cases hps : (node_at g.nodes 0).preds with
      | nil => exact hps
      | cons p ps =>
        have := hb.wf.wf.preds_lt 0 p (by rw [hps]; exact List.mem_cons_self _ _)
        omega
    · intro x h0 hx
      exact hb.wf.wf.preds_ne x h0 hx
    · cases hss : (node_at g.nodes (g.nodes.length - 1)).succs with
      | nil => exact hss
      | cons y ys =>
        have hy : y ∈ (node_at g.nodes (g.nodes.length - 1)).succs := by
          rw [hss]
          exact List.mem_cons_self _ _
        have h1 := hb.wf.wf.succs_lt _ y hy
        have h2 := hb.wf.wf.preds_lt y _ ((hb.wf.wf.mem_iff _ y).1 hy)
        omega
    · intro x hx hxs
      apply hb.wf.succs_ne x
      unfold dag_size at hx
      unfold dag_sink at hxs
      omega
    · intro x p hp
      exact hb.wf.wf.preds_lt x p hp
    · intro p s
      exact hb.wf.wf.mem_iff p s

/-- C13: a call `dag_vertex(g, w, n, deps)` whose dependencies all exist
(the source when `n = 0`) returns the size of the graph before the call; the
size grows by one; the new task has weight `w`, no successor and the
predecessor list `deps` (`[source]` when `n = 0`); every task listed gains the
new identifier at the end of its successor list, once per listing; the
weight, the predecessors and the level of every older task, and the successors
of the tasks not listed, are unchanged. -/
theorem dag_vertex_effect (g : dag) (w : Int) (deps : List Nat)
    (hd : ∀ d ∈ (if deps.length = 0 then [0] else deps), d < dag_size g) :
    ∃ g1, dag_vertex g w deps = some (g1, dag_size g) ∧
      dag_size g1 = dag_size g + 1 ∧
      dag_weight g1 (dag_size g) = w ∧ dag_succs g1 (dag_size g) = [] ∧
      dag_preds g1 (dag_size g) = (if deps.length = 0 then [0] else deps) ∧
      ∀ i, i < dag_size g →
        dag_weight g1 i = dag_weight g i ∧ dag_preds g1 i = dag_preds g i ∧
        dag_level g1 i = dag_level g i ∧
        dag_succs g1 i = dag_succs g i ++
          List.replicate ((if deps.length = 0 then [0] else deps).count i) (dag_size g) := by
  obtain ⟨r, hr⟩ := vertex_loop_some g.nodes.length (if deps.length = 0 then [0] else deps)
    g.nodes (node_init w) hd
  have hv : dag_vertex g w deps = some ({ g with nodes := r.1 ++ [r.2] }, g.nodes.length) := by
    unfold dag_vertex
    simp only [hr]
  obtain ⟨ds, hds, h1, _, h3, h4, _⟩ := dag_vertex_nodes g _ w deps _ hv
  subst hds
  refine ⟨_, hv, h1, ?_, ?_, ?_, ?_⟩
  · show (node_at _ g.nodes.length).weight = w
    rw [h4]
  · show (node_at _ g.nodes.length).succs = []
    rw [h4]
  · show (node_at _ g.nodes.length).preds = _
    rw [h4]
  · intro i hi
    have h5 := h3 i hi
    refine ⟨?_, ?_, ?_, ?_⟩
    · show (node_at _ i).weight = (node_at g.nodes i).weight
      rw [h5]
    · show (node_at _ i).preds = (node_at g.nodes i).preds
      rw [h5]
    · show to_int (node_at _ i).level = to_int (node_at g.nodes i).level
      rw [h5]
    · show (node_at _ i).succs = _
      rw [h5]
      rfl

/-- C14: the graph a call of `dag_build` returns is built, and a second call
of `dag_build` returns it unchanged (same nodes, weights, predecessor and
successor lists, levels, sink), whatever the fuel. -/
theorem dag_build_twice (fuel : Nat) (g g1 : dag) (h : dag_build fuel g = some g1) :
    g1.built = true ∧ ∀ fuel2, dag_build fuel2 g1 = some g1 := by
  have hb : g1.built = true := by
    unfold dag_build at h
    split at h
    · split at h
      · exact absurd h (by simp)
      · simp only at h
        split at h
        · exact absurd h (by simp)
        · rw [← Option.some.inj h]
    · rw [← Option.some.inj h]
  refine ⟨hb, ?_⟩
  intro fuel2
  unfold dag_build
  rw [hb]
  simp only [Bool.not_true, Bool.false_eq_true, if_false]
  congr 1
  cases g1
  simp only at hb
  rw [hb]


set_option maxRecDepth 100000 in
/-- Counterexample to C11 as stated: after a task of weight `2^31 - 1`
followed by a task of weight 1 (non-negative weights), the first task has
level `-2147483648`, below the level 0 of the sink. -/
theorem dag_level_negative :
    dag_make 100 calls_big_level = some (dag_of_calls calls_big_level) ∧
    dag_size (dag_of_calls calls_big_level) = 4 ∧
    dag_level (dag_of_calls calls_big_level) 1 = -2147483648 ∧
    dag_level (dag_of_calls calls_big_level) (dag_sink (dag_of_calls calls_big_level)) = 0 := by
  decide

/-- Witness of C11 on the fork graph. -/
theorem dag_level_bounds_witness :
    dag_level (dag_of_calls calls_fork) (dag_sink (dag_of_calls calls_fork)) = 0 ∧
      ∀ x, x < dag_size (dag_of_calls calls_fork) →
        dag_level (dag_of_calls calls_fork) x ≤
            dag_level (dag_of_calls calls_fork) (dag_source (dag_of_calls calls_fork)) ∧
          dag_level (dag_of_calls calls_fork) (dag_sink (dag_of_calls calls_fork)) ≤
            dag_level (dag_of_calls calls_fork) x :=
  dag_level_bounds calls_fork 100 (dag_of_calls calls_fork) dag_make_fork calls_fork_ok.2.1
    calls_fork_ok.2.2

/-- Witness of C12 on the fork graph. -/
theorem dag_build_shape_witness :
    ∃ fuel g, dag_build fuel ((dag_vertices calls_fork dag_create).getD dag_create) = some g :=
  (dag_build_shape calls_fork ((dag_vertices calls_fork dag_create).getD dag_create)
    dag_vertices_fork).1

set_option maxRecDepth 100000 in
/-- Witness of C13: a task of weight 7 that depends on tasks 2 and 3 of the
fork graph. -/
theorem dag_vertex_effect_witness :
    ∃ g1, dag_vertex (dag_of_calls calls_fork) 7 [2, 3] =
        some (g1, dag_size (dag_of_calls calls_fork)) ∧
      dag_size g1 = dag_size (dag_of_calls calls_fork) + 1 ∧
      dag_weight g1 (dag_size (dag_of_calls calls_fork)) = 7 ∧
      dag_succs g1 (dag_size (dag_of_calls calls_fork)) = [] ∧
      dag_preds g1 (dag_size (dag_of_calls calls_fork)) =
        (if [2, 3].length = 0 then [0] else [2, 3]) ∧
      ∀ i, i < dag_size (dag_of_calls calls_fork) →
        dag_weight g1 i = dag_weight (dag_of_calls calls_fork) i ∧
        dag_preds g1 i = dag_preds (dag_of_calls calls_fork) i ∧
        dag_level g1 i = dag_level (dag_of_calls calls_fork) i ∧
        dag_succs g1 i = dag_succs (dag_of_calls calls_fork) i ++
          List.replicate ((if [2, 3].length = 0 then [0] else [2, 3]).count i)
            (dag_size (dag_of_calls calls_fork)) :=
  dag_vertex_effect (dag_of_calls calls_fork) 7 [2, 3] (by decide)

/-- Witness of C14 on the fork graph. -/
theorem dag_build_twice_witness :
    (dag_of_calls calls_fork).built = true ∧
      ∀ fuel2, dag_build fuel2 (dag_of_calls calls_fork) = some (dag_of_calls calls_fork) :=
  dag_build_twice 100 ((dag_vertices calls_fork dag_create).getD dag_create)
    (dag_of_calls calls_fork) (by decide)


/-! ## The propagation passes of `schedule.c` -/

theorem end_scan_rule (g : dag) (vals : Nat → Nat) (fin : bitmap) (l : List Nat) (a : Nat) :
    end_scan vals fin l a = rule_scan (end_rule g) vals fin l a := by
  induction l generalizing a with
  | nil => rfl
  | cons p rest ih =>
    simp only [end_scan, rule_scan]
    split
    · rfl
    · exact ih _

theorem end_visit_succ_rule (g : dag) (st : pass_state) (x : Nat) :
    end_visit_succ g st x = rule_visit_one (end_rule g) st x := by
  unfold end_visit_succ rule_visit_one
  rw [end_scan_rule g]
  rfl

theorem end_visit_rule (g : dag) (st : pass_state) (idx : Nat) :
    end_visit g st idx = rule_visit (end_rule g) st idx := by
  unfold end_visit rule_visit
  have : end_visit_succ g = rule_visit_one (end_rule g) := by
    funext st x
    exact end_visit_succ_rule g st x
  rw [this]
  rfl

theorem end_loop_rule (g : dag) (fuel : Nat) (st : pass_state) :
    end_loop g fuel st = rule_loop (end_rule g) fuel st := by
  induction fuel generalizing st with
  | zero => rfl
  | succ n ih =>
    simp only [end_loop, rule_loop]
    split
    · rfl
    · rw [end_visit_rule, ih]

theorem start_scan_rule (g : dag) (T : Nat) (vals : Nat → Nat) (fin : bitmap) (l : List Nat)
    (a : Nat) : start_scan vals fin l a = rule_scan (start_rule g T) vals fin l a := by
  induction l generalizing a with
  | nil => rfl
  | cons p rest ih =>
    simp only [start_scan, rule_scan]
    split
    · rfl
    · exact ih _

theorem start_visit_pred_rule (g : dag) (T : Nat) (st : pass_state) (x : Nat) :
    start_visit_pred g T st x = rule_visit_one (start_rule g T) st x := by
  unfold start_visit_pred rule_visit_one
  rw [start_scan_rule g T]
  rfl

theorem start_visit_rule (g : dag) (T : Nat) (st : pass_state) (idx : Nat) :
    start_visit g T st idx = rule_visit (start_rule g T) st idx := by
  unfold start_visit rule_visit
  have : start_visit_pred g T = rule_visit_one (start_rule g T) := by
    funext st x
    exact start_visit_pred_rule g T st x
  rw [this]
  rfl

theorem start_loop_rule (g : dag) (T : Nat) (fuel : Nat) (st : pass_state) :
    start_loop g T fuel st = rule_loop (start_rule g T) fuel st := by
  induction fuel generalizing st with
  | zero => rfl
  | succ n ih =>
    simp only [start_loop, rule_loop]
    split
    · rfl
    · rw [start_visit_rule, ih]

theorem rule_scan_congr (r : pass_rule) (vals vals1 : Nat → Nat) (fin fin1 : bitmap)
    (l : List Nat) (a : Nat)
    (h : ∀ s ∈ l, vals1 s = vals s ∧ bitmap_get fin1 s = bitmap_get fin s) :
    rule_scan r vals1 fin1 l a = rule_scan r vals fin l a := by
  induction l generalizing a with
  | nil => rfl
  | cons s rest ih =>
    simp only [rule_scan]
    obtain ⟨h1, h2⟩ := h s (List.mem_cons_self _ _)
    rw [h1, h2]
    split
    · rfl
    · exact ih _ (fun x hx => h x (List.mem_cons_of_mem _ hx))

theorem rule_scan_some_iff (r : pass_rule) (vals : Nat → Nat) (fin : bitmap) (l : List Nat)
    (a : Nat) :
    (∃ M, rule_scan r vals fin l a = some M) ↔ ∀ s ∈ l, bitmap_get fin s = true := by
  induction l generalizing a with
  | nil => simp [rule_scan]
  | cons s rest ih =>
    simp only [rule_scan]
    cases hs : bitmap_get fin s
    · simp [hs]
    · simp [hs, ih]

theorem rule_scan_acc (r : pass_rule) (vals : Nat → Nat) (fin : bitmap) (l : List Nat)
    (a M : Nat) (h : rule_scan r vals fin l a = some M) :
    M = l.foldl (fun a p => r.op (vals p) a) a := by
  induction l generalizing a with
  | nil =>
    simp only [rule_scan, Option.some.injEq] at h
    exact h.symm
  | cons s rest ih =>
    simp only [rule_scan] at h
    split at h
    · exact absurd h (by simp)
    · exact ih _ h


theorem unfinished_set (N : Nat) (fin : bitmap) (x : Nat) (hx : x < N)
    (hf : bitmap_get fin x = false) :
    (unfinished N (bitmap_set fin x true).1).card + 1 = (unfinished N fin).card := by
  have hmem : x ∈ unfinished N fin := by
    unfold unfinished
    rw [Finset.mem_filter, Finset.mem_range]
    exact ⟨hx, hf⟩
  have heq : unfinished N (bitmap_set fin x true).1 = (unfinished N fin).erase x := by
    ext i
    unfold unfinished
    rw [Finset.mem_erase, Finset.mem_filter, Finset.mem_filter, bitmap_get_set]
    by_cases hi : i = x
    · simp [hi]
    · simp [hi]
  rw [heq, Finset.card_erase_of_mem hmem]
  have : 0 < (unfinished N fin).card := Finset.card_pos.2 ⟨x, hmem⟩
  omega

/-- One step of a visit keeps the invariant; the finished set and the work
list grow by `x` at most, and the measure does not grow. -/
theorem rule_visit_one_inv (r : pass_rule) (N : Nat) (rk : Nat → Nat)
    (hg : rule_graph r N rk) (vals0 : Nat → Nat) (fin0 : bitmap) (st : pass_state) (x : Nat)
    (hx : x < N) (hinv : pass_inv r N vals0 fin0 st) :
    pass_inv r N vals0 fin0 (rule_visit_one r st x) ∧
      (∀ y, bitmap_get st.finished y = true →
        bitmap_get (rule_visit_one r st x).finished y = true) ∧
      (∀ y, bitmap_get (rule_visit_one r st x).finished y = true →
        bitmap_get st.finished y = true ∨
          (y = x ∧ (rule_visit_one r st x).ready = x :: st.ready)) ∧
      ((∀ s ∈ r.inn x, bitmap_get st.finished s = true) →
        bitmap_get (rule_visit_one r st x).finished x = true) ∧
      ((rule_visit_one r st x).ready = st.ready ∨
        (rule_visit_one r st x).ready = x :: st.ready) ∧
      pass_measure N (rule_visit_one r st x) ≤ pass_measure N st := by
  unfold rule_visit_one
  cases hfx : bitmap_get st.finished x with
  | true =>
    simp only [if_true]
    exact ⟨hinv, fun y hy => hy, fun y hy => Or.inl hy, fun _ => hfx, Or.inl trivial,
      le_refl _⟩
  | false =>
    simp only [Bool.false_eq_true, if_false]
    cases hscan : rule_scan r st.vals st.finished (r.inn x) r.e with
    | none =>
      simp only
      refine ⟨hinv, fun y hy => hy, fun y hy => Or.inl hy, ?_, Or.inl trivial, le_refl _⟩
      intro hall
      obtain ⟨M, hM⟩ := (rule_scan_some_iff r st.vals st.finished _ r.e).2 hall
      rw [hscan] at hM
      exact absurd hM (by simp)
    | some a =>
      simp only
      have hfin : ∀ i, bitmap_get (bitmap_set st.finished x true).1 i =
          if i = x then true else bitmap_get st.finished i := fun i => bitmap_get_set _ _ _ _
      have hne : ∀ y, bitmap_get st.finished y = true → y ≠ x := by
        intro y hy hyx
        rw [hyx, hfx] at hy
        exact absurd hy (by simp)
      have hinnx : ∀ s ∈ r.inn x, s ≠ x := by
        intro s hs hsx
        have := hg.rank x s hs
        rw [hsx] at this
        omega
      refine ⟨⟨?_, ?_, ?_, ?_, ?_⟩, ?_, ?_, ?_, Or.inr trivial, ?_⟩
      · intro y hy
        rw [hfin] at hy
        by_cases hyx : y = x
        · rw [hyx]
          exact hx
        · rw [if_neg hyx] at hy
          exact hinv.fin_lt y hy
      · intro y hy
        rcases List.mem_cons.1 hy with hy | hy
        · rw [hy]
          exact hx
        · exact hinv.ready_lt y hy
      · intro y hy
        obtain ⟨h1, h2⟩ := hinv.seed y hy
        have hyx := hne y h1
        refine ⟨?_, ?_⟩
        · rw [hfin, if_neg hyx]
          exact h1
        · show Function.update st.vals x (r.fz x a) y = vals0 y
          rw [Function.update_noteq hyx]
          exact h2
      · intro y hy
        rw [hfin] at hy
        by_cases hyx : y = x
        · rw [if_pos hyx] at hy
          exact absurd hy (by simp)
        · rw [if_neg hyx] at hy
          show Function.update st.vals x (r.fz x a) y = vals0 y
          rw [Function.update_noteq hyx]
          exact hinv.frame y hy
      · intro y hy hy0
        rw [hfin] at hy
        by_cases hyx : y = x
        · subst hyx
          refine ⟨a, ?_, ?_⟩
          · rw [← hscan]
            apply rule_scan_congr
            intro s hs
            have hsy := hinnx s hs
            refine ⟨Function.update_noteq hsy _ _, ?_⟩
            rw [hfin, if_neg hsy]
          · show Function.update st.vals y (r.fz y a) y = r.fz y a
            rw [Function.update_same]
        · rw [if_neg hyx] at hy
          obtain ⟨a1, ha1, hv⟩ := hinv.value y hy hy0
          have hall := (rule_scan_some_iff r st.vals st.finished _ r.e).1 ⟨a1, ha1⟩
          refine ⟨a1, ?_, ?_⟩
          · rw [← ha1]
            apply rule_scan_congr
            intro s hs
            have hsx := hne s (hall s hs)
            refine ⟨Function.update_noteq hsx _ _, ?_⟩
            rw [hfin, if_neg hsx]
          · show Function.update st.vals x (r.fz x a) y = r.fz y a1
            rw [Function.update_noteq hyx]
            exact hv
      · intro y hy
        rw [hfin]
        split
        · rfl
        · exact hy
      · intro y hy
        rw [hfin] at hy
        by_cases hyx : y = x
        · exact Or.inr ⟨hyx, trivial⟩
        · rw [if_neg hyx] at hy
          exact Or.inl hy
      · intro _
        rw [hfin, if_pos rfl]
      · unfold pass_measure
        have := unfinished_set N st.finished x hx hfx
        simp only [List.length_cons]
        omega


theorem pass_progress_nil (r : pass_rule) (fin : bitmap) (wl : List Nat) (i j : Nat)
    (h : pass_progress r fin wl i []) : pass_progress r fin wl j [] := by
  intro q hne hall
  rcases h q hne hall with h1 | h1 | ⟨_, h1⟩
  · exact Or.inl h1
  · exact Or.inr (Or.inl h1)
  · simp at h1

/-- The loop of a visit of `idx` over the tasks `rem`. -/
theorem rule_visit_fold (r : pass_rule) (N : Nat) (rk : Nat → Nat) (hg : rule_graph r N rk)
    (vals0 : Nat → Nat) (fin0 : bitmap) (idx : Nat) (rem : List Nat) (st : pass_state)
    (hrem : ∀ p ∈ rem, p < N) (hinv : pass_inv r N vals0 fin0 st) :
    pass_inv r N vals0 fin0 (rem.foldl (rule_visit_one r) st) ∧
      pass_measure N (rem.foldl (rule_visit_one r) st) ≤ pass_measure N st ∧
      (pass_progress r st.finished st.ready idx rem →
        pass_progress r (rem.foldl (rule_visit_one r) st).finished
          (rem.foldl (rule_visit_one r) st).ready idx []) := by
  induction rem generalizing st with
  | nil => exact ⟨hinv, le_refl _, fun h => h⟩
  | cons p rem1 ih =>
    obtain ⟨hinv1, hmono, hnew, hcompl, hwl, hmeas⟩ :=
      rule_visit_one_inv r N rk hg vals0 fin0 st p (hrem p (List.mem_cons_self _ _)) hinv
    have hsub : ∀ x, x ∈ st.ready → x ∈ (rule_visit_one r st p).ready := by
      intro x hx
      rcases hwl with h | h
      · rw [h]
        exact hx
      · rw [h]
        exact List.mem_cons_of_mem _ hx
    obtain ⟨h1, h2, h3⟩ :=
      ih (rule_visit_one r st p) (fun x hx => hrem x (List.mem_cons_of_mem _ hx)) hinv1
    refine ⟨h1, le_trans h2 hmeas, ?_⟩
    intro hprog
    apply h3
    intro q hne hall1
    by_cases hall : ∀ s ∈ r.inn q, bitmap_get st.finished s = true
    · rcases hprog q hne hall with h | ⟨s, hs, hw⟩ | ⟨hidx, hq⟩
      · exact Or.inl (hmono q h)
      · exact Or.inr (Or.inl ⟨s, hs, hsub s hw⟩)
      · rcases List.mem_cons.1 hq with hq | hq
        · left
          rw [hq]
          apply hcompl
          rw [← hq]
          exact hall
        · exact Or.inr (Or.inr ⟨hidx, hq⟩)
    · simp only [not_forall] at hall
      obtain ⟨s, hs, hns⟩ := hall
      rcases hnew s (hall1 s hs) with h | ⟨h1, h2⟩
      · exact absurd h hns
      · right
        left
        refine ⟨s, hs, ?_⟩
        rw [h2, h1]
        exact List.mem_cons_self _ _

/-- A pass whose fuel exceeds its measure ends, in a state that satisfies
the invariant and has an empty work list; progress is kept. -/
theorem rule_loop_run (r : pass_rule) (N : Nat) (rk : Nat → Nat) (hg : rule_graph r N rk)
    (vals0 : Nat → Nat) (fin0 : bitmap) :
    ∀ (fuel : Nat) (st : pass_state), pass_inv r N vals0 fin0 st →
      pass_measure N st < fuel →
      ∃ st1, rule_loop r fuel st = some st1 ∧ pass_inv r N vals0 fin0 st1 ∧
        st1.ready = [] ∧
        (pass_progress r st.finished st.ready 0 [] →
          pass_progress r st1.finished [] 0 []) := by
  intro fuel
  induction fuel with
  | zero =>
    intro st _ h
    omega
  | succ n ih =>
    intro st hinv hm
    cases hwl : st.ready with
    | nil =>
      refine ⟨st, ?_, hinv, hwl, ?_⟩
      · simp [rule_loop, hwl]
      · intro h
        exact h
    | cons idx rest =>
      have hidx : idx < N := hinv.ready_lt idx (by rw [hwl]; exact List.mem_cons_self _ _)
      have hinv0 : pass_inv r N vals0 fin0 { st with ready := rest } :=
        ⟨hinv.fin_lt, fun x hx => hinv.ready_lt x (by rw [hwl]; exact List.mem_cons_of_mem _ hx),
          hinv.seed, hinv.frame, hinv.value⟩
      have hm0 : pass_measure N { st with ready := rest } + 1 = pass_measure N st := by
        unfold pass_measure
        simp only [hwl, List.length_cons]
        omega
      obtain ⟨h1, h2, h3⟩ := rule_visit_fold r N rk hg vals0 fin0 idx (r.out idx)
        { st with ready := rest } (fun p hp => hg.out_lt idx p hidx hp) hinv0
      obtain ⟨st1, hrun, hinv1, hr1, hp1⟩ := ih (rule_visit r { st with ready := rest } idx) h1
        (by
          show pass_measure N ((r.out idx).foldl (rule_visit_one r) { st with ready := rest }) < n
          omega)
      refine ⟨st1, ?_, hinv1, hr1, ?_⟩
      · simp only [rule_loop, hwl]
        exact hrun
      · intro hprog
        apply hp1
        apply pass_progress_nil r _ _ idx 0
        apply h3
        intro q hne hall
        rcases hprog q hne hall with h | ⟨s, hs, hw⟩ | ⟨_, h⟩
        · exact Or.inl h
        · rcases List.mem_cons.1 hw with h | h
          · right
            right
            rw [h] at hs
            exact ⟨hs, (hg.dual idx q).2 hs⟩
          · exact Or.inr (Or.inl ⟨s, hs, h⟩)
        · simp at h

theorem rule_loop_succ (r : pass_rule) (fuel : Nat) (st st1 : pass_state)
    (h : rule_loop r fuel st = some st1) : rule_loop r (fuel + 1) st = some st1 := by
  induction fuel generalizing st with
  | zero => simp [rule_loop] at h
  | succ n ih =>
    simp only [rule_loop] at h ⊢
    split
    · rename_i hwl
      simp only [hwl] at h
      exact h
    · rename_i idx rest hwl
      simp only [hwl] at h
      have := ih _ h
      simp only [rule_loop] at this
      exact this

theorem rule_loop_add (r : pass_rule) (fuel k : Nat) (st st1 : pass_state)
    (h : rule_loop r fuel st = some st1) : rule_loop r (fuel + k) st = some st1 := by
  induction k with
  | zero => exact h
  | succ n ih => exact rule_loop_succ r _ st st1 ih

/-- The result of a pass does not depend on the fuel. -/
theorem rule_loop_unique (r : pass_rule) (f1 f2 : Nat) (st a b : pass_state)
    (h1 : rule_loop r f1 st = some a) (h2 : rule_loop r f2 st = some b) : a = b := by
  have e1 := rule_loop_add r f1 f2 st a h1
  have e2 := rule_loop_add r f2 f1 st b h2
  rw [Nat.add_comm] at e2
  rw [e1] at e2
  exact Option.some.inj e2

/-- When a pass has ended and every task not finished at the start has a
scanned task, every task is finished. -/
theorem rule_all_finished (r : pass_rule) (N : Nat) (rk : Nat → Nat) (hg : rule_graph r N rk)
    (vals0 : Nat → Nat) (fin0 : bitmap) (st : pass_state) (hinv : pass_inv r N vals0 fin0 st)
    (hprog : pass_progress r st.finished [] 0 [])
    (hne : ∀ x, x < N → bitmap_get fin0 x = false → r.inn x ≠ []) :
    ∀ x, x < N → bitmap_get st.finished x = true := by
  have key : ∀ n x, rk x = n → x < N → bitmap_get st.finished x = true := by
    intro n
    induction n using Nat.strong_induction_on with
    | _ n ih =>
      intro x hrk hx
      cases h0 : bitmap_get fin0 x with
      | true => exact (hinv.seed x h0).1
      | false =>
        have hall : ∀ p ∈ r.inn x, bitmap_get st.finished p = true := by
          intro p hp
          exact ih (rk p) (by rw [← hrk]; exact hg.rank x p hp) p rfl (hg.inn_lt x p hx hp)
        rcases hprog x (hne x hx h0) hall with h | ⟨_, _, h⟩ | ⟨_, h⟩
        · exact h
        · simp at h
        · simp at h
  intro x hx
  exact key (rk x) x rfl hx


theorem pass_measure_le (N : Nat) (st : pass_state) :
    pass_measure N st ≤ 2 * N + st.ready.length := by
  unfold pass_measure unfinished
  have h := Finset.card_filter_le (Finset.range N) (fun i => bitmap_get st.finished i = false)
  rw [Finset.card_range] at h
  omega

theorem end_rule_graph (g : dag) (hwf : dag_wf g) :
    rule_graph (end_rule g) (dag_size g) (fun x => x) := by
  refine ⟨?_, ?_, ?_, ?_⟩
  · intro x y _ hy
    exact hwf.wf.succs_lt x y hy
  · intro x y hx hy
    have := hwf.wf.preds_lt x y hy
    omega
  · intro x y
    exact hwf.wf.mem_iff x y
  · intro x y hy
    exact hwf.wf.preds_lt x y hy

theorem start_rule_graph (g : dag) (T : Nat) (hwf : dag_wf g) :
    rule_graph (start_rule g T) (dag_size g) (fun x => dag_size g - x) := by
  refine ⟨?_, ?_, ?_, ?_⟩
  · intro x y hx hy
    have := hwf.wf.preds_lt x y hy
    omega
  · intro x y _ hy
    exact hwf.wf.succs_lt x y hy
  · intro x y
    exact (hwf.wf.mem_iff y x).symm
  · intro x y hy
    have h1 := hwf.wf.succs_lt x y hy
    have h2 := hwf.wf.preds_lt y x ((hwf.wf.mem_iff x y).1 hy)
    show dag_size g - y < dag_size g - x
    unfold dag_size
    omega

/-- The first loop of `schedule_min_ends`: the tasks of the order are
finished, hold their scheduled end and are on the work list. -/
theorem end_seed_fold (sched_ends : Nat → Nat) (order : List Nat) (st : pass_state) :
    (∀ x, bitmap_get (order.foldl (end_seed sched_ends) st).finished x =
      (decide (x ∈ order) || bitmap_get st.finished x)) ∧
    (∀ x, (order.foldl (end_seed sched_ends) st).vals x =
      if x ∈ order then sched_ends x else st.vals x) ∧
    (order.foldl (end_seed sched_ends) st).ready = order.reverse ++ st.ready := by
  induction order generalizing st with
  | nil => simp
  | cons t rest ih =>
    obtain ⟨h1, h2, h3⟩ := ih (end_seed sched_ends st t)
    rw [List.foldl_cons]
    refine ⟨?_, ?_, ?_⟩
    · intro x
      rw [h1]
      show (decide (x ∈ rest) || bitmap_get (bitmap_set st.finished t true).1 x) = _
      rw [bitmap_get_set]
      by_cases hxt : x = t
      · simp [hxt]
      · simp [hxt]
    · intro x
      rw [h2]
      show (if x ∈ rest then sched_ends x else Function.update st.vals t (sched_ends t) x) = _
      by_cases hxt : x = t
      · subst hxt
        simp
      · rw [Function.update_noteq hxt]
        simp [hxt]
    · rw [h3]
      show rest.reverse ++ (t :: st.ready) = _
      simp

/-- The first loop of `schedule_max_starts`: the tasks of the order are
finished and hold their scheduled start; nothing is pushed. -/
theorem start_seed_fold (g : dag) (sched_ends : Nat → Nat) (order : List Nat)
    (st : pass_state) :
    (∀ x, bitmap_get (order.foldl (start_seed g sched_ends) st).finished x =
      (decide (x ∈ order) || bitmap_get st.finished x)) ∧
    (∀ x, (order.foldl (start_seed g sched_ends) st).vals x =
      if x ∈ order then to_unsigned ((sched_ends x : Int) - dag_weight g x) else st.vals x) ∧
    (order.foldl (start_seed g sched_ends) st).ready = st.ready := by
  induction order generalizing st with
  | nil => simp
  | cons t rest ih =>
    obtain ⟨h1, h2, h3⟩ := ih (start_seed g sched_ends st t)
    rw [List.foldl_cons]
    refine ⟨?_, ?_, ?_⟩
    · intro x
      rw [h1]
      show (decide (x ∈ rest) || bitmap_get (bitmap_set st.finished t true).1 x) = _
      rw [bitmap_get_set]
      by_cases hxt : x = t
      · simp [hxt]
      · simp [hxt]
    · intro x
      rw [h2]
      show (if x ∈ rest then to_unsigned ((sched_ends x : Int) - dag_weight g x)
        else Function.update st.vals t (to_unsigned ((sched_ends t : Int) - dag_weight g t)) x) = _
      by_cases hxt : x = t
      · subst hxt
        simp
      · rw [Function.update_noteq hxt]
        simp [hxt]
    · rw [h3]
      rfl

/-- A state is its own starting point as soon as its finished tasks and
its work list are tasks. -/
theorem pass_inv_start (r : pass_rule) (N : Nat) (st : pass_state)
    (h1 : ∀ x, bitmap_get st.finished x = true → x < N) (h2 : ∀ x ∈ st.ready, x < N) :
    pass_inv r N st.vals st.finished st :=
  ⟨h1, h2, fun _ hx => ⟨hx, rfl⟩, fun _ _ => rfl,
    fun x hx h0 => absurd hx (by rw [h0]; simp)⟩


/-- The pass `schedule_min_ends` on a built graph, with fuel for its
iterations: it returns; the tasks of the order hold their scheduled end; when
the source is in the order every other task holds its weight plus the
accumulated `min_ends` of its predecessors; entries beyond the graph are
left alone. -/
theorem schedule_min_ends_spec (s : schedule) (hwf : dag_wf s.g)
    (horder : ∀ t ∈ s.order, t < dag_size s.g) (me0 sched_ends : Nat → Nat) (fuel : Nat)
    (hfuel : 2 * dag_size s.g + s.order.length < fuel) :
    ∃ me, schedule_min_ends fuel s me0 sched_ends = some me ∧
      (∀ x, x ∈ s.order → me x = sched_ends x) ∧
      (∀ x, dag_size s.g ≤ x → me x = me0 x) ∧
      (0 ∈ s.order → ∀ x, x < dag_size s.g → x ∉ s.order →
        me x = to_unsigned (dag_weight s.g x +
          (rule_acc (end_rule s.g) me (dag_preds s.g x) : Int))) := by
  obtain ⟨hf, hv, hr⟩ := end_seed_fold sched_ends s.order
    { vals := me0, ready := [], finished := bitmap_create (dag_size s.g) }
  have hf1 : ∀ x, bitmap_get (s.order.foldl (end_seed sched_ends)
      { vals := me0, ready := [], finished := bitmap_create (dag_size s.g) }).finished x =
      decide (x ∈ s.order) := by
    intro x
    rw [hf x]
    show (decide (x ∈ s.order) || bitmap_get (bitmap_create (dag_size s.g)) x) = _
    rw [bitmap_get_create]
    simp
  have hr1 : (s.order.foldl (end_seed sched_ends)
      { vals := me0, ready := [], finished := bitmap_create (dag_size s.g) }).ready =
      s.order.reverse := by
    rw [hr]
    simp
  have hinv0 := pass_inv_start (end_rule s.g) (dag_size s.g) _
    (fun x hx => by
      rw [hf1 x] at hx
      exact horder x (by simpa using hx))
    (fun x hx => by
      rw [hr1] at hx
      exact horder x (List.mem_reverse.1 hx))
  have hm := pass_measure_le (dag_size s.g) (s.order.foldl (end_seed sched_ends)
      { vals := me0, ready := [], finished := bitmap_create (dag_size s.g) })
  rw [hr1, List.length_reverse] at hm
  obtain ⟨st1, hrun, hinv1, _, hp1⟩ := rule_loop_run (end_rule s.g) (dag_size s.g) (fun x => x)
    (end_rule_graph s.g hwf) _ _ fuel _ hinv0 (by omega)
  refine ⟨st1.vals, ?_, ?_, ?_, ?_⟩
  · unfold schedule_min_ends
    rw [end_loop_rule, hrun]
    rfl
  · intro x hx
    rw [(hinv1.seed x (by rw [hf1 x]; simpa using hx)).2, hv x, if_pos hx]
  · intro x hx
    have hnf : bitmap_get st1.finished x = false := by
      cases h : bitmap_get st1.finished x with
      | false => rfl
      | true =>
        have := hinv1.fin_lt x h
        omega
    have hno : x ∉ s.order := fun h => by
      have := horder x h
      omega
    rw [hinv1.frame x hnf, hv x, if_neg hno]
  · intro h0 x hx hxo
    have hprog := hp1 (by
      intro q hne hall
      right
      left
      cases hq : (end_rule s.g).inn q with
      | nil => exact absurd hq hne
      | cons p ps =>
        have hp : p ∈ (end_rule s.g).inn q := by
          rw [hq]
          exact List.mem_cons_self _ _
        have := hall p hp
        rw [hf1 p] at this
        refine ⟨p, List.mem_cons_self _ _, ?_⟩
        rw [hr1]
        exact List.mem_reverse.2 (by simpa using this))
    have hall := rule_all_finished (end_rule s.g) (dag_size s.g) (fun x => x)
      (end_rule_graph s.g hwf) _ _ st1 hinv1 hprog (by
        intro y hy hy0
        rw [hf1 y] at hy0
        have hyo : y ∉ s.order := by simpa using hy0
        have hy1 : 0 < y := by
          rcases Nat.eq_zero_or_pos y with h | h
          · rw [h] at hyo
            exact absurd h0 hyo
          · exact h
        exact hwf.wf.preds_ne y hy1 hy)
    obtain ⟨a, ha, hval⟩ := hinv1.value x (hall x hx) (by rw [hf1 x]; simpa using hxo)
    rw [hval]
    have := rule_scan_acc (end_rule s.g) st1.vals st1.finished _ _ a ha
    rw [this]
    rfl


/-- The pass `schedule_max_starts` on a built graph, with fuel for its
iterations: it returns the array `pre` of its work-list loop shifted by
`diff`; in `pre` the sink holds `total_time`, the other tasks of the order
hold their scheduled start, and, when the order holds the predecessors of
its tasks, every other task holds the value of `start_visit` over the
accumulated entries of its successors; entries beyond the graph are left
alone. -/
theorem schedule_max_starts_spec (s : schedule) (hwf : dag_wf s.g)
    (horder : ∀ t ∈ s.order, t < dag_size s.g) (ms0 sched_ends : Nat → Nat) (T fuel : Nat)
    (hfuel : 2 * dag_size s.g + 1 < fuel) :
    ∃ ms pre, schedule_max_starts fuel s ms0 T sched_ends = some ms ∧
      (∀ x, x < dag_size s.g → ms x = to_unsigned ((pre x : Int) + start_diff s T)) ∧
      (∀ x, dag_size s.g ≤ x → ms x = ms0 x) ∧
      pre (dag_sink s.g) = T ∧
      (∀ x, x ∈ s.order → x ≠ dag_sink s.g →
        pre x = to_unsigned ((sched_ends x : Int) - dag_weight s.g x)) ∧
      ((∀ t ∈ s.order, ∀ p ∈ dag_preds s.g t, p ∈ s.order) →
        ∀ x, x < dag_size s.g → x ∉ s.order → x ≠ dag_sink s.g →
          pre x = start_value s.g T x (rule_acc (start_rule s.g T) pre (dag_succs s.g x))) := by
  obtain ⟨hf, hv, hr⟩ := start_seed_fold s.g sched_ends s.order
    { vals := ms0, ready := [], finished := bitmap_create (dag_size s.g) }
  have hsink : dag_sink s.g < dag_size s.g := by
    have := hwf.two
    unfold dag_sink dag_size
    omega
  have hf1 : ∀ x, bitmap_get (start_init s ms0 T sched_ends).finished x =
      (decide (x = dag_sink s.g) || decide (x ∈ s.order)) := by
    intro x
    show bitmap_get (bitmap_set _ (dag_sink s.g) true).1 x = _
    rw [bitmap_get_set, hf x]
    show (if x = dag_sink s.g then true
      else (decide (x ∈ s.order) || bitmap_get (bitmap_create (dag_size s.g)) x)) = _
    rw [bitmap_get_create]
    by_cases hx : x = dag_sink s.g
    · simp [hx]
    · simp [hx]
  have hv1 : ∀ x, (start_init s ms0 T sched_ends).vals x =
      if x = dag_sink s.g then T
      else if x ∈ s.order then to_unsigned ((sched_ends x : Int) - dag_weight s.g x)
      else ms0 x := by
    intro x
    unfold start_init
    dsimp only
    by_cases hx : x = dag_sink s.g
    · rw [hx, Function.update_same, if_pos rfl]
    · rw [Function.update_noteq hx, if_neg hx, hv x]
  have hr1 : (start_init s ms0 T sched_ends).ready = [dag_sink s.g] := by
    show dag_sink s.g :: _ = _
    rw [hr]
  have hinv0 := pass_inv_start (start_rule s.g T) (dag_size s.g) (start_init s ms0 T sched_ends)
    (fun x hx => by
      rw [hf1 x] at hx
      simp only [Bool.or_eq_true, decide_eq_true_eq] at hx
      rcases hx with hx | hx
      · rw [hx]
        exact hsink
      · exact horder x hx)
    (fun x hx => by
      rw [hr1] at hx
      simp only [List.mem_singleton] at hx
      rw [hx]
      exact hsink)
  have hm := pass_measure_le (dag_size s.g) (start_init s ms0 T sched_ends)
  rw [hr1] at hm
  simp only [List.length_singleton] at hm
  obtain ⟨st1, hrun, hinv1, _, hp1⟩ := rule_loop_run (start_rule s.g T) (dag_size s.g)
    (fun x => dag_size s.g - x) (start_rule_graph s.g T hwf) _ _ fuel _ hinv0 (by omega)
  refine ⟨fun i => if i < dag_size s.g then
      to_unsigned ((st1.vals i : Int) + start_diff s T) else st1.vals i,
    st1.vals, ?_, ?_, ?_, ?_, ?_, ?_⟩
  · unfold schedule_max_starts
    rw [start_loop_rule, hrun]
    rfl
  · intro x hx
    simp only [hx, if_true]
  · intro x hx
    have hx1 : ¬ x < dag_size s.g := by omega
    simp only [hx1, if_false]
    have hnf : bitmap_get st1.finished x = false := by
      cases h : bitmap_get st1.finished x with
      | false => rfl
      | true =>
        have := hinv1.fin_lt x h
        omega
    have hno : x ∉ s.order := fun h => by
      have := horder x h
      omega
    rw [hinv1.frame x hnf, hv1 x, if_neg (by omega), if_neg hno]
  · rw [(hinv1.seed _ (by rw [hf1]; simp)).2, hv1, if_pos rfl]
  · intro x hx hxs
    rw [(hinv1.seed x (by rw [hf1]; simp [hx])).2, hv1, if_neg hxs, if_pos hx]
  · intro hclosed x hx hxo hxs
    have hprog := hp1 (by
      intro q hne hall
      by_cases hq : q = dag_sink s.g ∨ q ∈ s.order
      · left
        rw [hf1 q]
        simpa using hq
      · right
        left
        simp only [not_or] at hq
        cases hsq : (start_rule s.g T).inn q with
        | nil => exact absurd hsq hne
        | cons p ps =>
          have hp : p ∈ (start_rule s.g T).inn q := by
            rw [hsq]
            exact List.mem_cons_self _ _
          have hpf := hall p hp
          rw [hf1 p] at hpf
          simp only [Bool.or_eq_true, decide_eq_true_eq] at hpf
          refine ⟨p, List.mem_cons_self _ _, ?_⟩
          rw [hr1]
          rcases hpf with hpf | hpf
          · rw [hpf]
            exact List.mem_singleton_self _
          · exact absurd (hclosed p hpf q ((hwf.wf.mem_iff q p).1 hp)) hq.2)
    have hall := rule_all_finished (start_rule s.g T) (dag_size s.g)
      (fun x => dag_size s.g - x) (start_rule_graph s.g T hwf) _ _ st1 hinv1 hprog (by
        intro y hy hy0
        rw [hf1 y] at hy0
        simp only [Bool.or_eq_false_iff, decide_eq_false_iff_not] at hy0
        apply hwf.succs_ne y
        have := hy0.1
        unfold dag_sink at this
        unfold dag_size at hy
        omega)
    obtain ⟨a, ha, hval⟩ := hinv1.value x (hall x hx) (by rw [hf1 x]; simp [hxo, hxs])
    rw [hval]
    have := rule_scan_acc (start_rule s.g T) st1.vals st1.finished _ _ a ha
    rw [this]
    rfl


/-- The function `schedule_build` with the bound dataflows returns 0 on a
built graph when the tasks of the order are tasks of the graph: both of its
passes return. -/
theorem schedule_build_fujita_some (s : schedule) (hwf : dag_wf s.g)
    (horder : ∀ t ∈ s.order, t < dag_size s.g) (fs fe : Nat → Nat) (T fuel : Nat)
    (hfuel : 2 * dag_size s.g + s.order.length + 1 < fuel) :
    ∃ ms me,
      schedule_build_fujita fuel fs fe s T =
        some (built_schedule s (to_unsigned (schedule_compute s).1) ms me, 0) ∧
      schedule_max_starts fuel s (build_arrays fs fe s).1 (build_target s T)
        (schedule_compute s).2 = some ms ∧
      schedule_min_ends fuel s (build_arrays fs fe s).2 (schedule_compute s).2 = some me := by
  obtain ⟨ms, _, h1, _⟩ := schedule_max_starts_spec s hwf horder (build_arrays fs fe s).1
    (schedule_compute s).2 (build_target s T) fuel (by omega)
  obtain ⟨me, h2, _⟩ := schedule_min_ends_spec s hwf horder (build_arrays fs fe s).2
    (schedule_compute s).2 fuel (by omega)
  refine ⟨ms, me, ?_, h1, h2⟩
  unfold schedule_build_fujita
  simp only [h1, h2]

/-- C17 (amended): on a built graph, for a valid prefix `S` of tasks of the
graph on `m >= 1` machines, `schedule_build(S, T)` with the bound dataflows
returns 0 and leaves `schedule_max_start(S, sink)` equal to
`T + (T - level(source))` modulo `2^32` when `T >= 1`, and to `level(source)`
modulo `2^32` when `T = 0`; it is `T` only when `T = level(source)`. -/
theorem schedule_build_max_start_sink (calls : List (Int × List Nat)) (gfuel : Nat)
    (s : schedule) (hmk : dag_make gfuel calls = some s.g)
    (_hvalid : schedule_is_valid s = true) (_hm : 1 ≤ s.m)
    (horder : ∀ t ∈ s.order, t < dag_size s.g) (fs fe : Nat → Nat) (T fuel : Nat)
    (hfuel : 2 * dag_size s.g + s.order.length + 1 < fuel) :
    ∃ s1, schedule_build_fujita fuel fs fe s T = some (s1, 0) ∧
      (1 ≤ T → (schedule_max_start s1 (dag_sink s.g) : Int) =
        (2 * (T : Int) - dag_level s.g (dag_source s.g)) % 4294967296) ∧
      (T = 0 → (schedule_max_start s1 (dag_sink s.g) : Int) =
        dag_level s.g (dag_source s.g) % 4294967296) := by
  have hwf := (dag_make_built gfuel calls s.g hmk).wf
  obtain ⟨ms, me, hb, hms, _⟩ := schedule_build_fujita_some s hwf horder fs fe T fuel hfuel
  obtain ⟨ms1, pre, h1, h2, _, h4, _⟩ := schedule_max_starts_spec s hwf horder
    (build_arrays fs fe s).1 (schedule_compute s).2 (build_target s T) fuel (by omega)
  rw [hms] at h1
  have hmseq : ms = ms1 := Option.some.inj h1
  have hsink : dag_sink s.g < dag_size s.g := by
    have := hwf.two
    unfold dag_sink dag_size
    omega
  have hval : schedule_max_start (built_schedule s (to_unsigned (schedule_compute s).1) ms me)
      (dag_sink s.g) =
      to_unsigned ((build_target s T : Int) + start_diff s (build_target s T)) := by
    show ms (dag_sink s.g) = _
    rw [hmseq, h2 _ hsink, h4]
  refine ⟨_, hb, ?_, ?_⟩
  · intro hT
    rw [hval]
    unfold build_target start_diff
    rw [if_neg (by omega)]
    unfold to_unsigned to_int
    split <;> omega
  · intro hT
    rw [hval]
    unfold build_target start_diff
    rw [if_pos hT]
    unfold to_unsigned to_int
    split <;> omega

set_option maxRecDepth 100000 in
/-- Counterexample to C17 as stated: on the fork graph, whose source has
level 2, `schedule_build(S, 5)` on the prefix `[source]` leaves
`schedule_max_start(S, sink) = 8`. -/
theorem schedule_max_start_sink_shifted :
    schedule_is_valid (schedule_of (dag_of_calls calls_fork) 2 [0]) = true ∧
    dag_level (dag_of_calls calls_fork) (dag_source (dag_of_calls calls_fork)) = 2 ∧
    (schedule_build_fujita 100 (fun _ => 0) (fun _ => 0)
        (schedule_of (dag_of_calls calls_fork) 2 [0]) 5).map
      (fun r => (r.2, schedule_max_start r.1 (dag_sink (dag_of_calls calls_fork)))) =
      some (0, 8) := by decide!

/-- Witness of C17 on the fork graph, prefix `[source]`, `T = 5`. -/
theorem schedule_build_max_start_sink_witness :
    ∃ s1, schedule_build_fujita 100 (fun _ => 0) (fun _ => 0)
        (schedule_of (dag_of_calls calls_fork) 2 [0]) 5 = some (s1, 0) ∧
      (1 ≤ 5 → (schedule_max_start s1 (dag_sink (dag_of_calls calls_fork)) : Int) =
        (2 * ((5 : Nat) : Int) -
          dag_level (dag_of_calls calls_fork) (dag_source (dag_of_calls calls_fork))) %
          4294967296) ∧
      (5 = 0 → (schedule_max_start s1 (dag_sink (dag_of_calls calls_fork)) : Int) =
        dag_level (dag_of_calls calls_fork) (dag_source (dag_of_calls calls_fork)) %
          4294967296) :=
  schedule_build_max_start_sink calls_fork 100 (schedule_of (dag_of_calls calls_fork) 2 [0])
    dag_make_fork (by decide) (by decide) (by decide) (fun _ => 0) (fun _ => 0) 5 100
    (by decide)


/-! ## The earliest ends -/

/-- The accumulation of `end_visit` over a non-empty list is the largest
entry of the list. -/
theorem end_acc_aux (g : dag) (vals : Nat → Nat) (l : List Nat) (a : Nat) :
    a ≤ l.foldl (fun a p => (end_rule g).op (vals p) a) a ∧
      (∀ p ∈ l, vals p ≤ l.foldl (fun a p => (end_rule g).op (vals p) a) a) ∧
      (l.foldl (fun a p => (end_rule g).op (vals p) a) a = a ∨
        ∃ p ∈ l, l.foldl (fun a p => (end_rule g).op (vals p) a) a = vals p) := by
  induction l generalizing a with
  | nil => simp
  | cons x rest ih =>
    simp only [List.foldl_cons]
    obtain ⟨h1, h2, h3⟩ := ih ((end_rule g).op (vals x) a)
    have hop : (end_rule g).op (vals x) a = if vals x > a then vals x else a := rfl
    rw [hop] at h1 h2 h3 ⊢
    by_cases hlt : vals x > a
    · simp only [hlt, if_true] at h1 h2 h3 ⊢
      refine ⟨by omega, ?_, ?_⟩
      · intro p hp
        rcases List.mem_cons.1 hp with rfl | hp
        · exact h1
        · exact h2 p hp
      · rcases h3 with h3 | ⟨p, hp, h3⟩
        · exact Or.inr ⟨x, List.mem_cons_self _ _, h3⟩
        · exact Or.inr ⟨p, List.mem_cons_of_mem _ hp, h3⟩
    · simp only [hlt, if_false] at h1 h2 h3 ⊢
      refine ⟨h1, ?_, ?_⟩
      · intro p hp
        rcases List.mem_cons.1 hp with rfl | hp
        · omega
        · exact h2 p hp
      · rcases h3 with h3 | ⟨p, hp, h3⟩
        · exact Or.inl h3
        · exact Or.inr ⟨p, List.mem_cons_of_mem _ hp, h3⟩

theorem end_acc_spec (g : dag) (vals : Nat → Nat) (l : List Nat) (hl : l ≠ []) :
    (∃ p ∈ l, rule_acc (end_rule g) vals l = vals p) ∧
      ∀ p ∈ l, vals p ≤ rule_acc (end_rule g) vals l := by
  obtain ⟨_, h2, h3⟩ := end_acc_aux g vals l 0
  refine ⟨?_, h2⟩
  rcases h3 with h3 | h3
  · cases l with
    | nil => exact absurd rfl hl
    | cons x rest =>
      refine ⟨x, List.mem_cons_self _ _, ?_⟩
      have := h2 x (List.mem_cons_self _ _)
      show List.foldl (fun a p => (end_rule g).op (vals p) a) 0 (x :: rest) = vals x
      omega
  · exact h3

theorem built_sink_weight (calls : List (Int × List Nat)) (g : dag)
    (hb : built_graph calls g) : (node_at g.nodes (g.nodes.length - 1)).weight = 0 := by
  have hlen : g.nodes.length = calls.length + 2 := by
    have := congrArg List.length hb.weights
    simpa using this
  have h := map_weight_getElem? g.nodes (g.nodes.length - 1)
  rw [hb.weights, if_pos (by have := hb.wf.wf.pos; omega), hlen] at h
  have h2 : (0 :: (List.map Prod.fst calls ++ [0]))[calls.length + 2 - 1]? = some (0 : Int) := by
    have : calls.length + 2 - 1 = (calls.length) + 1 := by omega
    rw [this, List.getElem?_cons_succ, List.getElem?_append_right (by simp)]
    simp
  rw [h2] at h
  rw [hlen]
  exact (Option.some.inj h).symm

/-- On a built graph with non-negative weights that sum to less than
`2^31` the level of a task is at least its weight. -/
theorem level_ge_weight (calls : List (Int × List Nat)) (g : dag)
    (hb : built_graph calls g) (hnn : calls_nonneg calls)
    (htot : calls_total calls < 2147483648) (x : Nat) (hx : x < g.nodes.length) :
    dag_weight g x ≤ dag_level g x := by
  obtain ⟨h1, h2, h3⟩ := built_levels_int calls g hb hnn htot
  by_cases hs : x + 1 < g.nodes.length
  · obtain ⟨⟨s, _, hs1⟩, _⟩ := h3 x hs
    have := h1 s
    omega
  · have hxs : x = g.nodes.length - 1 := by omega
    have hw := built_sink_weight calls g hb
    have hl : dag_level g x = 0 := by
      rw [hxs]
      exact h2
    rw [hl]
    show (node_at g.nodes x).weight ≤ 0
    rw [hxs, hw]

/-- The array `schedule_min_ends` leaves on a built graph with non-negative
weights that sum to less than `2^31`, for an order of distinct tasks that
holds the source: no entry wraps, and a task outside the order holds its
weight plus the largest entry of its predecessors. -/
theorem min_ends_exact (calls : List (Int × List Nat)) (s : schedule)
    (hb : built_graph calls s.g) (hnn : calls_nonneg calls)
    (htot : calls_total calls < 2147483648) (hm : 1 ≤ s.m) (h0 : 0 ∈ s.order)
    (hnd : s.order.Nodup) (horder : ∀ t ∈ s.order, t < dag_size s.g) (me : Nat → Nat)
    (hseed : ∀ x, x ∈ s.order → me x = (schedule_compute s).2 x)
    (hval : ∀ x, x < dag_size s.g → x ∉ s.order →
      me x = to_unsigned (dag_weight s.g x +
        (rule_acc (end_rule s.g) me (dag_preds s.g x) : Int))) :
    ∀ x, x < dag_size s.g →
      (me x : Int) + (dag_level s.g x - dag_weight s.g x) ≤
          order_weight s.g s.order + dag_level s.g 0 ∧
        (x ∉ s.order →
          (∃ p ∈ dag_preds s.g x, (me x : Int) = dag_weight s.g x + me p) ∧
            ∀ p ∈ dag_preds s.g x, dag_weight s.g x + (me p : Int) ≤ me x) := by
  obtain ⟨hl1, _, hl3⟩ := built_levels_int calls s.g hb hnn htot
  have hw := built_weight_nonneg calls s.g hb hnn
  have hW := order_weight_le_total calls s.g hb hnn s.order hnd horder
  have hL := level_le_total calls s.g hb hnn 0
  have hL0 : dag_level s.g 0 ≤ calls_total calls := by
    rw [hl1 0]
    exact hL
  have hF := (compute_run_bound s.g s.m hm hw s.order).1
  intro x
  induction x using Nat.strong_induction_on with
  | _ x ih =>
    intro hx
    have hlw := level_ge_weight calls s.g hb hnn htot x hx
    by_cases hxo : x ∈ s.order
    · refine ⟨?_, fun h => absurd hxo h⟩
      rw [hseed x hxo]
      have h1 : (((schedule_compute s).2 x : Nat) : Int) ≤ order_weight s.g s.order := hF x
      have h2 := level_le_source calls s.g hb hnn htot x hx
      have h3 : 0 ≤ dag_weight s.g x := hw x
      omega
    · have hx0 : 0 < x := by
        rcases Nat.eq_zero_or_pos x with h | h
        · rw [h] at hxo
          exact absurd h0 hxo
        · exact h
      have hne : dag_preds s.g x ≠ [] := hb.wf.wf.preds_ne x hx0 hx
      obtain ⟨⟨p, hp, hacc⟩, hmax⟩ := end_acc_spec s.g me (dag_preds s.g x) hne
      have hpx : p < x := hb.wf.wf.preds_lt x p hp
      obtain ⟨hbp, _⟩ := ih p hpx (by omega)
      have hxs : x ∈ dag_succs s.g p := (hb.wf.wf.mem_iff p x).2 hp
      have hlev := (hl3 p (by unfold dag_size at hx; omega)).2 x hxs
      have hwx : 0 ≤ dag_weight s.g x := hw x
      have hexact : (me x : Int) = dag_weight s.g x + me p := by
        rw [hval x hx hxo, hacc]
        apply to_unsigned_cast
        · omega
        · omega
      refine ⟨by omega, fun _ => ⟨⟨p, hp, hexact⟩, ?_⟩⟩
      intro q hq
      have := hmax q hq
      rw [hacc] at this
      omega


theorem valid_has_source (g : dag) (hwf : dag_wf g) (order : List Nat) (hne : order ≠ [])
    (hv : order_valid g order) (horder : ∀ t ∈ order, t < dag_size g) : 0 ∈ order := by
  cases order with
  | nil => exact absurd rfl hne
  | cons y rest =>
    have := valid_head_source g hwf y rest (horder y (List.mem_cons_self _ _)) hv
    rw [this]
    exact List.mem_cons_self _ _

/-- What `schedule_build` with the bound dataflows leaves in `min_ends`, on
a built graph with non-negative weights that sum to less than `2^31`, for a
valid non-empty order of distinct tasks: the scheduled end for a task of the
order, the weight plus the largest entry of the predecessors for another
task, and for every task other than the source an entry that is at least
the weight plus the entry of each predecessor. -/
theorem schedule_build_min_ends (calls : List (Int × List Nat)) (gfuel : Nat) (s : schedule)
    (hmk : dag_make gfuel calls = some s.g) (hnn : calls_nonneg calls)
    (htot : calls_total calls < 2147483648) (hm : 1 ≤ s.m) (hne : s.order ≠ [])
    (hv : order_valid s.g s.order) (hnd : s.order.Nodup)
    (horder : ∀ t ∈ s.order, t < dag_size s.g) (fs fe : Nat → Nat) (T fuel : Nat)
    (hfuel : 2 * dag_size s.g + s.order.length + 1 < fuel) :
    ∃ s1, schedule_build_fujita fuel fs fe s T = some (s1, 0) ∧
      (∀ i, i ∈ s.order → schedule_min_end s1 i = (schedule_compute s).2 i) ∧
      (∀ i, i < dag_size s.g → i ∉ s.order →
        ∃ p ∈ dag_preds s.g i,
          (schedule_min_end s1 i : Int) = dag_weight s.g i + schedule_min_end s1 p) ∧
      (∀ i, i < dag_size s.g → ∀ p ∈ dag_preds s.g i,
        dag_weight s.g i + (schedule_min_end s1 p : Int) ≤ schedule_min_end s1 i) := by
  have hb := dag_make_built gfuel calls s.g hmk
  have hwf := hb.wf
  have h0 := valid_has_source s.g hwf s.order hne hv horder
  obtain ⟨ms, me, hbuild, _, hme⟩ := schedule_build_fujita_some s hwf horder fs fe T fuel hfuel
  obtain ⟨me1, hme1, hseed, _, hval⟩ := schedule_min_ends_spec s hwf horder
    (build_arrays fs fe s).2 (schedule_compute s).2 fuel (by omega)
  rw [hme] at hme1
  have hmeeq : me = me1 := Option.some.inj hme1
  subst hmeeq
  have hex := min_ends_exact calls s hb hnn htot hm h0 hnd horder me hseed (hval h0)
  have hw := built_weight_nonneg calls s.g hb hnn
  have hW := order_weight_le_total calls s.g hb hnn s.order hnd horder
  obtain ⟨hprec, _, _⟩ := compute_run_prec s.g s.m hm hw s.order hv hnd (by omega)
  refine ⟨_, hbuild, ?_, ?_, ?_⟩
  · intro i hi
    exact hseed i hi
  · intro i hi hio
    exact ((hex i hi).2 hio).1
  · intro i hi p hp
    by_cases hio : i ∈ s.order
    · have hpo := order_valid_pred_mem s.g s.order hv i p hio hp
      show dag_weight s.g i + (me p : Int) ≤ me i
      rw [hseed i hio, hseed p hpo]
      have := hprec i hio p hp
      show dag_weight s.g i + (((compute_run s.g s.m s.order).task_ends p : Nat) : Int) ≤
        (((compute_run s.g s.m s.order).task_ends i : Nat) : Int)
      omega
    · exact ((hex i hi).2 hio).2 p hp

/-- C15 (amended): on a built graph with non-negative weights that sum to
less than `2^31`, for `m >= 1` and a valid non-empty prefix of distinct
tasks, `schedule_build` with the bound dataflows returns 0 and leaves
`schedule_min_end(S, i)` equal to the list-scheduled finish time of `i` for
every task `i` of the order, and equal to `weight(i)` plus the largest
`schedule_min_end(S, p)` over the predecessors `p` of `i` for every other
task `i` (it is attained by a predecessor and no predecessor exceeds
it). -/
theorem schedule_min_end_spec (calls : List (Int × List Nat)) (gfuel : Nat) (s : schedule)
    (hmk : dag_make gfuel calls = some s.g) (hnn : calls_nonneg calls)
    (htot : calls_total calls < 2147483648) (hm : 1 ≤ s.m) (hne : s.order ≠ [])
    (hv : order_valid s.g s.order) (hnd : s.order.Nodup)
    (horder : ∀ t ∈ s.order, t < dag_size s.g) (fs fe : Nat → Nat) (T fuel : Nat)
    (hfuel : 2 * dag_size s.g + s.order.length + 1 < fuel) :
    ∃ s1, schedule_build_fujita fuel fs fe s T = some (s1, 0) ∧
      (∀ i, i ∈ s.order → schedule_min_end s1 i = (schedule_compute s).2 i) ∧
      (∀ i, i < dag_size s.g → i ∉ s.order →
        (∃ p ∈ dag_preds s.g i,
          (schedule_min_end s1 i : Int) = dag_weight s.g i + schedule_min_end s1 p) ∧
        ∀ p ∈ dag_preds s.g i,
          dag_weight s.g i + (schedule_min_end s1 p : Int) ≤ schedule_min_end s1 i) := by
  obtain ⟨s1, h1, h2, h3, h4⟩ := schedule_build_min_ends calls gfuel s hmk hnn htot hm hne hv
    hnd horder fs fe T fuel hfuel
  exact ⟨s1, h1, h2, fun i hi hio => ⟨h3 i hi hio, h4 i hi⟩⟩

theorem max_or_zero_le (B : Int) (l : List Int) (hl : l ≠ []) (h : ∀ v ∈ l, v ≤ B) :
    max_or_zero l ≤ B := by
  induction l with
  | nil => exact absurd rfl hl
  | cons a rest ih =>
    cases rest with
    | nil => exact h a (List.mem_cons_self _ _)
    | cons b rest1 =>
      have h1 := ih (by simp) (fun v hv => h v (List.mem_cons_of_mem _ hv))
      have h2 := h a (List.mem_cons_self _ _)
      show max a (max_or_zero (b :: rest1)) ≤ B
      exact max_le h2 h1

/-- C16 (amended): on a built graph with non-negative weights that sum to
less than `2^31`, for `m >= 1` and a valid non-empty prefix of distinct
tasks, `schedule_build` with the bound dataflows returns 0 and leaves
`schedule_min_end(S, i) >= level_forward(i)` for every task `i`. -/
theorem schedule_min_end_ge_forward (calls : List (Int × List Nat)) (gfuel : Nat)
    (s : schedule) (hmk : dag_make gfuel calls = some s.g) (hnn : calls_nonneg calls)
    (htot : calls_total calls < 2147483648) (hm : 1 ≤ s.m) (hne : s.order ≠ [])
    (hv : order_valid s.g s.order) (hnd : s.order.Nodup)
    (horder : ∀ t ∈ s.order, t < dag_size s.g) (fs fe : Nat → Nat) (T fuel : Nat)
    (hfuel : 2 * dag_size s.g + s.order.length + 1 < fuel) :
    ∃ s1, schedule_build_fujita fuel fs fe s T = some (s1, 0) ∧
      ∀ i, i < dag_size s.g → level_forward s.g i ≤ (schedule_min_end s1 i : Int) := by
  obtain ⟨s1, h1, _, _, h4⟩ := schedule_build_min_ends calls gfuel s hmk hnn htot hm hne hv
    hnd horder fs fe T fuel hfuel
  have hwf := (dag_make_built gfuel calls s.g hmk).wf
  refine ⟨s1, h1, ?_⟩
  have key : ∀ k i, i < k → i < dag_size s.g →
      level_forward_aux s.g k i ≤ (schedule_min_end s1 i : Int) := by
    intro k
    induction k with
    | zero =>
      intro i hi
      omega
    | succ n ih =>
      intro i hi hiN
      simp only [level_forward_aux]
      by_cases hi0 : i = 0
      · rw [if_pos hi0]
        omega
      · rw [if_neg hi0]
        have hne1 : dag_preds s.g i ≠ [] := hwf.wf.preds_ne i (by omega) hiN
        have := max_or_zero_le ((schedule_min_end s1 i : Int) - dag_weight s.g i)
          ((dag_preds s.g i).map (level_forward_aux s.g n)) (by simpa using hne1) (by
            intro v hv
            obtain ⟨p, hp, rfl⟩ := List.mem_map.1 hv
            have hpi := hwf.wf.preds_lt i p hp
            have h5 := ih p (by omega) (by omega)
            have h6 := h4 i hiN p hp
            omega)
        omega
  intro i hi
  exact key (i + 1) i (by omega) hi


set_option maxRecDepth 100000 in
/-- Witness of C15 on the fork graph, prefix `[source, 1]`, two machines. -/
theorem schedule_min_end_spec_witness :
    ∃ s1, schedule_build_fujita 100 (fun _ => 0) (fun _ => 0)
        (schedule_of (dag_of_calls calls_fork) 2 [0, 1]) 0 = some (s1, 0) ∧
      (∀ i, i ∈ (schedule_of (dag_of_calls calls_fork) 2 [0, 1]).order →
        schedule_min_end s1 i =
          (schedule_compute (schedule_of (dag_of_calls calls_fork) 2 [0, 1])).2 i) ∧
      (∀ i, i < dag_size (schedule_of (dag_of_calls calls_fork) 2 [0, 1]).g →
        i ∉ (schedule_of (dag_of_calls calls_fork) 2 [0, 1]).order →
        (∃ p ∈ dag_preds (schedule_of (dag_of_calls calls_fork) 2 [0, 1]).g i,
          (schedule_min_end s1 i : Int) =
            dag_weight (schedule_of (dag_of_calls calls_fork) 2 [0, 1]).g i +
              schedule_min_end s1 p) ∧
        ∀ p ∈ dag_preds (schedule_of (dag_of_calls calls_fork) 2 [0, 1]).g i,
          dag_weight (schedule_of (dag_of_calls calls_fork) 2 [0, 1]).g i +
            (schedule_min_end s1 p : Int) ≤ schedule_min_end s1 i) :=
  schedule_min_end_spec calls_fork 100 (schedule_of (dag_of_calls calls_fork) 2 [0, 1])
    dag_make_fork calls_fork_ok.2.1 calls_fork_ok.2.2 (by decide) (by decide)
    (schedule_is_valid_order _ (by decide)) (by decide) (by decide) (fun _ => 0) (fun _ => 0)
    0 100 (by decide)

set_option maxRecDepth 100000 in
/-- Witness of C16 on the fork graph, prefix `[source, 1]`, two machines. -/
theorem schedule_min_end_ge_forward_witness :
    ∃ s1, schedule_build_fujita 100 (fun _ => 0) (fun _ => 0)
        (schedule_of (dag_of_calls calls_fork) 2 [0, 1]) 0 = some (s1, 0) ∧
      ∀ i, i < dag_size (schedule_of (dag_of_calls calls_fork) 2 [0, 1]).g →
        level_forward (schedule_of (dag_of_calls calls_fork) 2 [0, 1]).g i ≤
          (schedule_min_end s1 i : Int) :=
  schedule_min_end_ge_forward calls_fork 100 (schedule_of (dag_of_calls calls_fork) 2 [0, 1])
    dag_make_fork calls_fork_ok.2.1 calls_fork_ok.2.2 (by decide) (by decide)
    (schedule_is_valid_order _ (by decide)) (by decide) (by decide) (fun _ => 0) (fun _ => 0)
    0 100 (by decide)

set_option maxRecDepth 100000 in
/-- Counterexample to C15 as stated: on the chain of tasks of weights
`2^31 - 1`, `2^31 - 1` and 2 with one machine and the valid prefix `[source]`,
task 3 is not in the order, its only predecessor is task 2 with
`schedule_min_end = 4294967294`, its weight is 2, and its
`schedule_min_end` is 0. -/
theorem schedule_min_end_wraps :
    dag_make 100 calls_big_chain3 = some (dag_of_calls calls_big_chain3) ∧
    schedule_is_valid (schedule_of (dag_of_calls calls_big_chain3) 1 [0]) = true ∧
    dag_preds (dag_of_calls calls_big_chain3) 3 = [2] ∧
    dag_weight (dag_of_calls calls_big_chain3) 3 = 2 ∧
    (schedule_build_fujita 100 (fun _ => 0) (fun _ => 0)
        (schedule_of (dag_of_calls calls_big_chain3) 1 [0]) 0).map
      (fun r => (r.2, schedule_min_end r.1 2, schedule_min_end r.1 3)) =
      some (0, 4294967294, 0) := by decide!

set_option maxRecDepth 100000 in
/-- Counterexample to C16 as stated: on the chain of tasks of weights
`2^31 - 1`, `2^31 - 1` and 2 with one machine and the valid prefix `[source]`,
task 3 has `level_forward = 4294967296` and `schedule_min_end = 0`. -/
theorem schedule_min_end_below_forward :
    dag_make 100 calls_big_chain3 = some (dag_of_calls calls_big_chain3) ∧
    schedule_is_valid (schedule_of (dag_of_calls calls_big_chain3) 1 [0]) = true ∧
    level_forward (dag_of_calls calls_big_chain3) 3 = 4294967296 ∧
    (schedule_build_fujita 100 (fun _ => 0) (fun _ => 0)
        (schedule_of (dag_of_calls calls_big_chain3) 1 [0]) 0).map
      (fun r => (r.2, schedule_min_end r.1 3)) = some (0, 0) := by decide!


/-! ## The coordinate list of the bound engines -/

theorem wrap_int_id (x : Int) (h0 : -2147483648 ≤ x) (h1 : x < 2147483648) :
    wrap_int x = x := by
  unfold wrap_int to_int to_unsigned
  split <;> omega

/-- The second loop of `get_comp_list` on values that do not decrease and
are at least the last value pushed: the values pushed increase strictly. -/
theorem comp_push_sorted (last : Nat) (l : List Nat) (h1 : ∀ x ∈ l, last ≤ x)
    (h2 : l.Pairwise (fun a b => a ≤ b)) :
    (comp_push last l).Pairwise (fun a b => a < b) ∧
      ∀ x ∈ comp_push last l, last < x ∧ x ∈ l := by
  induction l generalizing last with
  | nil => simp [comp_push]
  | cons c rest ih =>
    have hc := h1 c (List.mem_cons_self _ _)
    obtain ⟨h3, h4⟩ := List.pairwise_cons.1 h2
    simp only [comp_push]
    by_cases hcl : c = last
    · simp only [hcl, bne_self_eq_false, Bool.false_eq_true, if_false]
      obtain ⟨i1, i2⟩ := ih last (fun x hx => h1 x (List.mem_cons_of_mem _ hx)) h4
      exact ⟨i1, fun x hx => ⟨(i2 x hx).1, List.mem_cons_of_mem _ (i2 x hx).2⟩⟩
    · have hne : (c != last) = true := by simpa using hcl
      simp only [hne, if_true]
      obtain ⟨i1, i2⟩ := ih c h3 h4
      refine ⟨List.pairwise_cons.2 ⟨fun x hx => (i2 x hx).1, i1⟩, ?_⟩
      intro x hx
      rcases List.mem_cons.1 hx with rfl | hx
      · exact ⟨by omega, List.mem_cons_self _ _⟩
      · have := i2 x hx
        exact ⟨by omega, List.mem_cons_of_mem _ this.2⟩

theorem comp_items_mem (s : schedule) (x : Nat × Int) (hx : x ∈ comp_items s) :
    ∃ k, k < dag_size s.g ∧ (x.1 = schedule_max_start s k ∨ x.1 = schedule_min_end s k) ∧
      x.2 = wrap_int (-(to_int x.1)) := by
  unfold comp_items at hx
  rw [List.mem_flatMap] at hx
  obtain ⟨k, hk, hx⟩ := hx
  rw [List.mem_range] at hk
  simp only [List.mem_cons, List.mem_singleton, List.not_mem_nil, or_false] at hx
  rcases hx with rfl | rfl
  · exact ⟨k, hk, Or.inl rfl, rfl⟩
  · exact ⟨k, hk, Or.inr rfl, rfl⟩

/-- When the heap returns its entries by decreasing key and every
coordinate is below `2^31`, the list of `get_comp_list` increases strictly
and holds coordinates only. -/
theorem get_comp_list_sorted (heap : List (Nat × Int) → List Nat) (hheap : binheap_spec heap)
    (s : schedule)
    (hc : ∀ k, k < dag_size s.g →
      schedule_max_start s k < 2147483648 ∧ schedule_min_end s k < 2147483648) :
    (get_comp_list heap s).Pairwise (fun a b => a < b) ∧
      ∀ x ∈ get_comp_list heap s, x < 2147483648 ∧
        ∃ k, k < dag_size s.g ∧ (x = schedule_max_start s k ∨ x = schedule_min_end s k) := by
  obtain ⟨sorted, hperm, hmap, hpw⟩ := hheap (comp_items s)
  have hitem : ∀ x ∈ sorted, x.1 < 2147483648 ∧ x.2 = -(x.1 : Int) ∧
      ∃ k, k < dag_size s.g ∧ (x.1 = schedule_max_start s k ∨ x.1 = schedule_min_end s k) := by
    intro x hx
    obtain ⟨k, hk, hxk, hkey⟩ := comp_items_mem s x (hperm.mem_iff.1 hx)
    have hlt : x.1 < 2147483648 := by
      rcases hxk with h | h
      · rw [h]
        exact (hc k hk).1
      · rw [h]
        exact (hc k hk).2
    refine ⟨hlt, ?_, k, hk, hxk⟩
    rw [hkey, to_int_cast _ hlt]
    apply wrap_int_id <;> omega
  have hvals : (heap (comp_items s)).Pairwise (fun a b => a ≤ b) := by
    rw [← hmap, List.pairwise_map]
    apply List.Pairwise.imp_of_mem _ hpw
    intro a b ha hb hab
    have h1 := (hitem a ha).2.1
    have h2 := (hitem b hb).2.1
    omega
  have hmem : ∀ x ∈ heap (comp_items s), x < 2147483648 ∧
      ∃ k, k < dag_size s.g ∧ (x = schedule_max_start s k ∨ x = schedule_min_end s k) := by
    intro x hx
    rw [← hmap] at hx
    obtain ⟨y, hy, rfl⟩ := List.mem_map.1 hx
    exact ⟨(hitem y hy).1, (hitem y hy).2.2⟩
  unfold get_comp_list
  cases hh : heap (comp_items s) with
  | nil => simp
  | cons c rest =>
    rw [hh] at hvals hmem
    obtain ⟨h3, h4⟩ := List.pairwise_cons.1 hvals
    obtain ⟨i1, i2⟩ := comp_push_sorted c rest h3 h4
    refine ⟨List.pairwise_cons.2 ⟨fun x hx => (i2 x hx).1, i1⟩, ?_⟩
    intro x hx
    rcases List.mem_cons.1 hx with rfl | hx
    · exact hmem _ (List.mem_cons_self _ _)
    · exact hmem x (List.mem_cons_of_mem _ (i2 x hx).2)


/-! ## The Fernandez bound -/

/-- The addend of `work_density` for a task that overlaps the interval is the
minimum of the specification, between 0 and the weight of the task. -/
theorem density_term_exact (s : schedule) (ci cj k : Nat) (hcij : ci < cj)
    (hcj : cj < 2147483648) (hms : schedule_max_start s k < cj)
    (hme : schedule_min_end s k > ci) (hme2 : schedule_min_end s k < 2147483648)
    (hw : 0 ≤ dag_weight s.g k) :
    density_term s ci cj k =
        min (min ((schedule_min_end s k : Int) - ci) (dag_weight s.g k))
          (min ((cj : Int) - (schedule_max_start s k : Int)) ((cj : Int) - ci)) ∧
      0 ≤ density_term s ci cj k ∧ density_term s ci cj k ≤ dag_weight s.g k := by
  have e1 : to_int (to_unsigned ((schedule_min_end s k : Int) - (ci : Int))) =
      (schedule_min_end s k : Int) - ci := wrap_int_id _ (by omega) (by omega)
  have e3 : to_int (to_unsigned ((cj : Int) - (schedule_max_start s k : Int))) =
      (cj : Int) - schedule_max_start s k := wrap_int_id _ (by omega) (by omega)
  have e4 : to_int (to_unsigned ((cj : Int) - (ci : Int))) = (cj : Int) - ci :=
    wrap_int_id _ (by omega) (by omega)
  unfold density_term
  simp only [e1, e3, e4, min_def]
  refine ⟨?_, ?_, ?_⟩
  · split_ifs <;> omega
  · split_ifs <;> omega
  · split_ifs <;> omega

theorem work_fold_exact (s : schedule) (ci cj : Nat) (hcij : ci < cj) (hcj : cj < 2147483648)
    (l : List Nat)
    (hme : ∀ k ∈ l, schedule_min_end s k < 2147483648) (hw : ∀ k ∈ l, 0 ≤ dag_weight s.g k) :
    ∀ a : Int, 0 ≤ a → a + (l.map (dag_weight s.g)).sum < 2147483648 →
      l.foldl (fun wd k =>
          if schedule_max_start s k < cj ∧ schedule_min_end s k > ci then
            wrap_int (wd + density_term s ci cj k)
          else wd) a =
        a + (l.map (fun k =>
          if (schedule_max_start s k : Int) < cj ∧ (schedule_min_end s k : Int) > ci then
            min (min ((schedule_min_end s k : Int) - ci) (dag_weight s.g k))
              (min ((cj : Int) - (schedule_max_start s k : Int)) ((cj : Int) - ci))
          else 0)).sum ∧
      0 ≤ a + (l.map (fun k =>
          if (schedule_max_start s k : Int) < cj ∧ (schedule_min_end s k : Int) > ci then
            min (min ((schedule_min_end s k : Int) - ci) (dag_weight s.g k))
              (min ((cj : Int) - (schedule_max_start s k : Int)) ((cj : Int) - ci))
          else 0)).sum ∧
      a + (l.map (fun k =>
          if (schedule_max_start s k : Int) < cj ∧ (schedule_min_end s k : Int) > ci then
            min (min ((schedule_min_end s k : Int) - ci) (dag_weight s.g k))
              (min ((cj : Int) - (schedule_max_start s k : Int)) ((cj : Int) - ci))
          else 0)).sum ≤ a + (l.map (dag_weight s.g)).sum := by
  induction l with
  | nil =>
    intro a ha _
    simp [ha]
  | cons k rest ih =>
    intro a ha hb
    have hwk := hw k (List.mem_cons_self _ _)
    have hmek := hme k (List.mem_cons_self _ _)
    have ih1 := ih (fun x hx => hme x (List.mem_cons_of_mem _ hx))
      (fun x hx => hw x (List.mem_cons_of_mem _ hx))
    simp only [List.foldl_cons, List.map_cons, List.sum_cons] at hb ⊢
    have hrest : 0 ≤ (rest.map (dag_weight s.g)).sum := by
      apply List.sum_nonneg
      intro x hx
      obtain ⟨y, hy, rfl⟩ := List.mem_map.1 hx
      exact hw y (List.mem_cons_of_mem _ hy)
    by_cases hcond : schedule_max_start s k < cj ∧ schedule_min_end s k > ci
    · have hcond2 : (schedule_max_start s k : Int) < cj ∧ (schedule_min_end s k : Int) > ci := by
        omega
      obtain ⟨t1, t2, t3⟩ := density_term_exact s ci cj k hcij hcj hcond.1 hcond.2 hmek hwk
      rw [if_pos hcond, if_pos hcond2, ← t1]
      rw [wrap_int_id _ (by omega) (by omega)]
      obtain ⟨i1, i2, i3⟩ := ih1 (a + density_term s ci cj k) (by omega) (by omega)
      refine ⟨?_, ?_, ?_⟩
      · rw [i1]
        ring
      · omega
      · omega
    · have hcond2 : ¬ ((schedule_max_start s k : Int) < cj ∧
          (schedule_min_end s k : Int) > ci) := by omega
      rw [if_neg hcond, if_neg hcond2]
      obtain ⟨i1, i2, i3⟩ := ih1 a ha (by omega)
      refine ⟨?_, ?_, ?_⟩
      · rw [i1]
        ring
      · omega
      · omega

/-- The function `work_density` between two coordinates `c_i < c_j` below
`2^31` computes the work density of the specification, when the weights are
non-negative and sum to less than `2^31`. -/
theorem work_density_exact (s : schedule) (ci cj : Nat) (hcij : ci < cj)
    (hcj : cj < 2147483648)
    (hme : ∀ k, k < dag_size s.g → schedule_min_end s k < 2147483648)
    (hw : ∀ k, k < dag_size s.g → 0 ≤ dag_weight s.g k)
    (htot : total_weight s.g < 2147483648) :
    work_density s ci cj = spec_work s ci cj ∧ 0 ≤ work_density s ci cj ∧
      work_density s ci cj ≤ total_weight s.g := by
  obtain ⟨h1, h2, h3⟩ := work_fold_exact s ci cj hcij hcj (List.range (dag_size s.g))
    (fun k hk => hme k (List.mem_range.1 hk)) (fun k hk => hw k (List.mem_range.1 hk)) 0
    (le_refl _) (by
      unfold total_weight at htot
      omega)
  unfold work_density spec_work total_weight
  rw [h1]
  simp only [zero_add] at h2 h3 ⊢
  exact ⟨trivial, h2, h3⟩


/-- The ceiling of `W / m` for a natural `W`, as the `unsigned` quotient and
remainder test of `schedule_fernandez_bound` compute it. -/
theorem ceil_div_nat (W m : Nat) (hm : 1 ≤ m) :
    -((-(W : Int)) / (m : Int)) =
        ((W / m : Nat) : Int) + (if W % m != 0 then 1 else 0) ∧
      ((W / m : Nat) : Int) + (if W % m != 0 then 1 else 0) ≤ (W : Int) := by
  have hdm := Nat.div_add_mod W m
  have hlt := Nat.mod_lt W (show 0 < m by omega)
  have hW : (W : Int) = (m : Int) * ((W / m : Nat) : Int) + ((W % m : Nat) : Int) := by
    exact_mod_cast hdm.symm
  have hq : ((W / m : Nat) : Int) ≤ (m : Int) * ((W / m : Nat) : Int) := by
    have : (W / m) ≤ m * (W / m) := Nat.le_mul_of_pos_left _ (by omega)
    exact_mod_cast this
  by_cases hr : W % m = 0
  · have hne : (W % m != 0) = false := by simp [hr]
    simp only [hne, Bool.false_eq_true, if_false, add_zero]
    have h := ((Int.ediv_emod_unique (a := -(W : Int)) (b := (m : Int)) (r := 0)
      (q := -((W / m : Nat) : Int)) (by omega)).2
      ⟨by rw [hW, hr]; push_cast; ring, le_refl _, by omega⟩).1
    rw [h]
    refine ⟨by ring, ?_⟩
    rw [hr] at hW
    omega
  · have hne : (W % m != 0) = true := by simp [hr]
    simp only [hne, if_true]
    have h := ((Int.ediv_emod_unique (a := -(W : Int)) (b := (m : Int))
      (r := (m : Int) - ((W % m : Nat) : Int)) (q := -((W / m : Nat) : Int) - 1) (by omega)).2
      ⟨by rw [hW]; ring, by omega, by omega⟩).1
    rw [h]
    refine ⟨by ring, ?_⟩
    omega

/-- The value `cur_q` of `schedule_fernandez_bound` for two coordinates
`c_i < c_j` below `2^31` is the `q(c_i, c_j)` of the specification, and it is
at most the sum of the weights. -/
theorem fernandez_q_exact (s : schedule) (hm : 1 ≤ s.m) (ci cj : Nat) (hcij : ci < cj)
    (hcj : cj < 2147483648)
    (hme : ∀ k, k < dag_size s.g → schedule_min_end s k < 2147483648)
    (hw : ∀ k, k < dag_size s.g → 0 ≤ dag_weight s.g k)
    (htot : total_weight s.g < 2147483648) :
    fernandez_q s ci cj = spec_q s (ci : Int) (cj : Int) ∧
      fernandez_q s ci cj ≤ total_weight s.g ∧ -2147483648 < fernandez_q s ci cj := by
  obtain ⟨h1, h2, h3⟩ := work_density_exact s ci cj hcij hcj hme hw htot
  have hWn : ((to_unsigned (work_density s ci cj) : Nat) : Int) = work_density s ci cj :=
    to_unsigned_cast _ h2 (by omega)
  obtain ⟨c1, c2⟩ := ceil_div_nat (to_unsigned (work_density s ci cj)) s.m hm
  rw [hWn] at c1 c2
  have hD : ((to_unsigned ((ci : Int) - (cj : Int)) : Nat) : Int) =
      (ci : Int) - cj + 4294967296 := by
    unfold to_unsigned
    omega
  have hite : (0 : Int) ≤ (if to_unsigned (work_density s ci cj) % s.m != 0 then 1 else 0) := by
    split <;> decide
  have hq0 : (0 : Int) ≤ ((to_unsigned (work_density s ci cj) / s.m : Nat) : Int) :=
    Int.ofNat_nonneg _
  have key : ∀ q e : Int, 0 ≤ q → 0 ≤ e → q + e ≤ work_density s ci cj →
      to_int (to_unsigned ((ci : Int) - cj + 4294967296 + q + e)) = (ci : Int) - cj + (q + e) := by
    intro q e h4 h5 h6
    unfold to_int to_unsigned
    split <;> omega
  have hval : fernandez_q s ci cj = (ci : Int) - cj +
      (((to_unsigned (work_density s ci cj) / s.m : Nat) : Int) +
        (if to_unsigned (work_density s ci cj) % s.m != 0 then 1 else 0)) := by
    unfold fernandez_q
    rw [hD]
    exact key _ _ hq0 hite c2
  have hcc : (ci : Int) < cj := by exact_mod_cast hcij
  have hcb : (cj : Int) < 2147483648 := by exact_mod_cast hcj
  have hc0 : (0 : Int) ≤ ci := Int.ofNat_nonneg _
  refine ⟨?_, ?_, ?_⟩
  · rw [hval]
    unfold spec_q
    rw [← h1, c1]
  · rw [hval]
    linarith
  · rw [hval]
    linarith

theorem pairs_max_eq (cur : Nat → Nat → Int) (c : List Nat) (mx : Int) :
    pairs_max cur c mx =
      ((index_pairs c).map (fun p => cur p.1 p.2)).foldl
        (fun mx q => if q > mx then q else mx) mx := by
  induction c generalizing mx with
  | nil => rfl
  | cons a rest ih =>
    simp only [pairs_max, index_pairs, List.map_append, List.foldl_append, List.map_map]
    rw [ih]
    congr 1
    rw [List.foldl_map]
    rfl

theorem index_pairs_mem (c : List Nat) (hs : c.Pairwise (fun a b => a < b)) (p : Nat × Nat)
    (hp : p ∈ index_pairs c) : p.1 < p.2 ∧ p.1 ∈ c ∧ p.2 ∈ c := by
  induction c with
  | nil => simp [index_pairs] at hp
  | cons a rest ih =>
    obtain ⟨h1, h2⟩ := List.pairwise_cons.1 hs
    simp only [index_pairs, List.mem_append, List.mem_map] at hp
    rcases hp with ⟨b, hb, rfl⟩ | hp
    · exact ⟨h1 b hb, List.mem_cons_self _ _, List.mem_cons_of_mem _ hb⟩
    · obtain ⟨i1, i2, i3⟩ := ih h2 hp
      exact ⟨i1, List.mem_cons_of_mem _ i2, List.mem_cons_of_mem _ i3⟩

theorem fold_max_max (qs : List Int) (a b : Int) :
    qs.foldl (fun mx q => if q > mx then q else mx) (max a b) =
      max a (qs.foldl (fun mx q => if q > mx then q else mx) b) := by
  induction qs generalizing a b with
  | nil => rfl
  | cons q rest ih =>
    simp only [List.foldl_cons]
    have : (if q > max a b then q else max a b) = max a (if q > b then q else b) := by
      simp only [max_def]
      split_ifs <;> omega
    rw [this, ih]

theorem max_or_zero_fold (qs : List Int) (a : Int) :
    max_or_zero (a :: qs) = qs.foldl (fun mx q => if q > mx then q else mx) a := by
  induction qs generalizing a with
  | nil => rfl
  | cons q rest ih =>
    show max a (max_or_zero (q :: rest)) = _
    rw [ih, List.foldl_cons, ← fold_max_max]
    congr 1
    simp only [max_def]
    split_ifs <;> omega

theorem fold_max_le (qs : List Int) (a B : Int) (ha : a ≤ B) (h : ∀ q ∈ qs, q ≤ B) :
    qs.foldl (fun mx q => if q > mx then q else mx) a ≤ B := by
  induction qs generalizing a with
  | nil => exact ha
  | cons q rest ih =>
    simp only [List.foldl_cons]
    apply ih
    · have := h q (List.mem_cons_self _ _)
      split <;> omega
    · exact fun x hx => h x (List.mem_cons_of_mem _ hx)


theorem total_weight_nonneg (g : dag) (hw : ∀ k, k < dag_size g → 0 ≤ dag_weight g k) :
    0 ≤ total_weight g := by
  unfold total_weight
  apply List.sum_nonneg
  intro x hx
  obtain ⟨k, hk, rfl⟩ := List.mem_map.1 hx
  exact hw k (List.mem_range.1 hk)

/-- The function `schedule_build` keeps the graph and the machine count. -/
theorem schedule_build_fujita_keeps (fuel : Nat) (fs fe : Nat → Nat) (s0 : schedule) (T : Nat)
    (s : schedule) (r : Int) (h : schedule_build_fujita fuel fs fe s0 T = some (s, r)) :
    s.g = s0.g ∧ s.m = s0.m ∧ s.order = s0.order := by
  unfold schedule_build_fujita at h
  dsimp only at h
  split at h
  · exact absurd h (by simp)
  · split at h
    · exact absurd h (by simp)
    · simp only [Option.some.injEq, Prod.mk.injEq] at h
      obtain ⟨h1, _⟩ := h
      subst h1
      exact ⟨rfl, rfl, rfl⟩

/-- The value `schedule_build` returns with, written with the projections
of the returned pair. -/
theorem built_from_some (calls : List (Int × List Nat)) (m : Nat) (order : List Nat)
    (h : (schedule_build_fujita 100 (fun _ => 0) (fun _ => 0)
      (schedule_of (dag_of_calls calls) m order) 0).isSome = true) :
    schedule_build_fujita 100 (fun _ => 0) (fun _ => 0)
      (schedule_of (dag_of_calls calls) m order) 0 = some (built_from calls m order, 0) := by
  unfold built_from
  generalize hx : schedule_build_fujita 100 (fun _ => 0) (fun _ => 0)
    (schedule_of (dag_of_calls calls) m order) 0 = x at h ⊢
  cases x with
  | none => simp at h
  | some p =>
    unfold schedule_build_fujita at hx
    dsimp only at hx
    split at hx
    · exact absurd hx (by simp)
    · split at hx
      · exact absurd hx (by simp)
      · simp only [Option.some.injEq] at hx
        subst hx
        rfl

/-- C18 (amended): let `schedule_build` have run on a schedule with `m >= 1`
machines over a graph whose weights are non-negative and sum to less than
`2^31`, with `level(source)` plus that sum below `2^31`, and let all
coordinates (`max_start` and `min_end` of every task) be below `2^31`. Then
`schedule_fernandez_bound` returns `level(source) + max(0, max over index pairs
i < j of the coordinate list c of q(c_i, c_j))`, with
`q(c_i, c_j) = (c_i - c_j) + ceil(W(c_i, c_j) / m)` in exact integers and
`W` the sum over the tasks `k` with `max_start[k] < c_j` and `min_end[k] > c_i`
of `min(min_end[k] - c_i, weight(k), c_j - max_start[k], c_j - c_i)`, where `c`
is the list `get_comp_list` produces. -/
theorem schedule_fernandez_bound_spec (heap : List (Nat × Int) → List Nat)
    (hheap : binheap_spec heap) (fuel : Nat) (fs fe : Nat → Nat) (s0 : schedule) (T : Nat)
    (s : schedule) (r : Int) (hbuild : schedule_build_fujita fuel fs fe s0 T = some (s, r))
    (hm : 1 ≤ s0.m) (hw : ∀ k, k < dag_size s0.g → 0 ≤ dag_weight s0.g k)
    (htot : total_weight s0.g < 2147483648)
    (hlev : dag_level s0.g (dag_source s0.g) + total_weight s0.g < 2147483648)
    (hc : ∀ k, k < dag_size s0.g →
      schedule_max_start s k < 2147483648 ∧ schedule_min_end s k < 2147483648) :
    schedule_fernandez_bound heap s = spec_fernandez s (get_comp_list heap s) := by
  obtain ⟨hg, hsm, _⟩ := schedule_build_fujita_keeps fuel fs fe s0 T s r hbuild
  rw [← hg] at hw htot hlev hc
  rw [← hsm] at hm
  obtain ⟨hsorted, hmem⟩ := get_comp_list_sorted heap hheap s hc
  have hq : ∀ p ∈ index_pairs (get_comp_list heap s),
      fernandez_q s p.1 p.2 = spec_q s (p.1 : Int) (p.2 : Int) ∧
        fernandez_q s p.1 p.2 ≤ total_weight s.g := by
    intro p hp
    obtain ⟨h1, _, h3⟩ := index_pairs_mem _ hsorted p hp
    obtain ⟨e1, e2, _⟩ := fernandez_q_exact s hm p.1 p.2 h1 (hmem p.2 h3).1
      (fun k hk => (hc k hk).2) hw htot
    exact ⟨e1, e2⟩
  have hmap : (index_pairs (get_comp_list heap s)).map (fun p => fernandez_q s p.1 p.2) =
      (index_pairs (get_comp_list heap s)).map (fun p => spec_q s (p.1 : Int) (p.2 : Int)) :=
    List.map_congr_left (fun p hp => (hq p hp).1)
  have htw := total_weight_nonneg s.g hw
  have hle : pairs_max (fernandez_q s) (get_comp_list heap s) INT_MIN ≤ total_weight s.g := by
    rw [pairs_max_eq]
    apply fold_max_le
    · unfold INT_MIN
      omega
    · intro q hq1
      obtain ⟨p, hp, rfl⟩ := List.mem_map.1 hq1
      exact (hq p hp).2
  have hmax : max_or_zero (0 :: (index_pairs (get_comp_list heap s)).map
      (fun p => spec_q s (p.1 : Int) (p.2 : Int))) =
      max 0 (pairs_max (fernandez_q s) (get_comp_list heap s) INT_MIN) := by
    rw [max_or_zero_fold, pairs_max_eq, ← fold_max_max, hmap]
    rfl
  have hlow : -2147483648 ≤ dag_level s.g (dag_source s.g) := by
    unfold dag_level to_int
    split <;> omega
  unfold schedule_fernandez_bound spec_fernandez
  rw [hmax]
  dsimp only
  split
  · rename_i hpos
    rw [wrap_int_id _ (by omega) (by omega), max_eq_right (by omega)]
  · rename_i hpos
    rw [max_eq_left (by omega), add_zero]


set_option maxRecDepth 100000 in
/-- Witness of C18 on the graph of `test_schedule` with six independent
tasks of weights 5, 2, 2, 2, 2, 2, two machines, prefix `[source]`. -/
theorem schedule_fernandez_bound_spec_witness :
    schedule_fernandez_bound list_heap (built_from test_calls_b 2 [0]) =
      spec_fernandez (built_from test_calls_b 2 [0])
        (get_comp_list list_heap (built_from test_calls_b 2 [0])) :=
  schedule_fernandez_bound_spec list_heap list_heap_spec 100 (fun _ => 0) (fun _ => 0)
    (schedule_of (dag_of_calls test_calls_b) 2 [0]) 0 (built_from test_calls_b 2 [0]) 0
    (built_from_some test_calls_b 2 [0] (by decide!)) (by decide) (by decide!) (by decide!)
    (by decide!) (by decide!)

set_option maxRecDepth 100000 in
/-- The value `test_schedule` asserts: on six independent tasks of weights
5, 2, 2, 2, 2, 2 with two machines and the prefix `[source]` the coordinate
list is 0, 2, 3, 5 and the Fernandez bound is 8. -/
theorem test_fernandez_value :
    get_comp_list list_heap (built_from test_calls_b 2 [0]) = [0, 2, 3, 5] ∧
      schedule_fernandez_bound list_heap (built_from test_calls_b 2 [0]) = 8 := by
  decide!

set_option maxRecDepth 100000 in
/-- C18 as stated fails: on five independent tasks of weight `2^30`, four
machines and the valid prefix `[source]`, every coordinate is 0 or `2^30`,
the formula gives `2^30 + 2^28`, and `schedule_fernandez_bound` returns
`2^30`, because the sum `W(0, 2^30) = 5 * 2^30` wraps in `work_density`. -/
theorem schedule_fernandez_bound_wraps :
    schedule_is_valid (schedule_of (dag_of_calls calls_big_five) 4 [0]) = true ∧
      (schedule_build_fujita 100 (fun _ => 0) (fun _ => 0)
        (schedule_of (dag_of_calls calls_big_five) 4 [0]) 0).isSome = true ∧
      (List.range (dag_size (dag_of_calls calls_big_five))).map (fun k =>
        (schedule_max_start (built_from calls_big_five 4 [0]) k,
          schedule_min_end (built_from calls_big_five 4 [0]) k)) =
        [(0, 0), (0, 1073741824), (0, 1073741824), (0, 1073741824), (0, 1073741824),
          (0, 1073741824), (1073741824, 1073741824)] ∧
      get_comp_list list_heap (built_from calls_big_five 4 [0]) = [0, 1073741824] ∧
      spec_fernandez (built_from calls_big_five 4 [0])
        (get_comp_list list_heap (built_from calls_big_five 4 [0])) = 1342177280 ∧
      schedule_fernandez_bound list_heap (built_from calls_big_five 4 [0]) = 1073741824 := by
  decide!


set_option maxRecDepth 100000 in
/-- C19 fails on the fork graph with two machines: after `schedule_build(S, 0)`
on the valid prefix `[source]`, `schedule_fernandez_bound` returns 3, while the
complete valid order 0, 1, 2, 3, 4, 5, which extends the prefix, has
`schedule_length` 2, because `schedule_compute` puts two of the three tasks
that follow task 1 on one machine at the same time. -/
theorem schedule_fernandez_bound_above_completion :
    schedule_is_valid (schedule_of (dag_of_calls calls_fork) 2 [0]) = true ∧
      (schedule_build_fujita 100 (fun _ => 0) (fun _ => 0)
        (schedule_of (dag_of_calls calls_fork) 2 [0]) 0).isSome = true ∧
      schedule_fernandez_bound list_heap (built_from calls_fork 2 [0]) = 3 ∧
      schedule_is_valid (schedule_of (dag_of_calls calls_fork) 2 [0, 1, 2, 3, 4, 5]) = true ∧
      (schedule_build_fujita 100 (fun _ => 0) (fun _ => 0)
        (schedule_of (dag_of_calls calls_fork) 2 [0, 1, 2, 3, 4, 5]) 0).isSome = true ∧
      schedule_length (built_from calls_fork 2 [0, 1, 2, 3, 4, 5]) = 2 ∧
      list_makespan (dag_of_calls calls_fork) 2 [0, 1, 2, 3, 4, 5] = 2 := by
  decide!

set_option maxRecDepth 100000 in
/-- C20 fails on a single task of weight 1 with one machine: on the valid
prefix `[source]`, after `schedule_build(S, 0)`, `fujita_bound` returns 2, while
the complete valid order 0, 1, 2 has `schedule_length` 1. The first loop of
`fujita_bound` starts at `delta = 1`, so the smallest target it ever tests is
`level(source) + 1` and the value returned is never `level(source)`. -/
theorem fujita_bound_above_completion :
    schedule_is_valid (schedule_of (dag_of_calls calls_one) 1 [0]) = true ∧
      dag_level (dag_of_calls calls_one) (dag_source (dag_of_calls calls_one)) = 1 ∧
      (schedule_build_fujita 100 (fun _ => 0) (fun _ => 0)
        (schedule_of (dag_of_calls calls_one) 1 [0]) 0).isSome = true ∧
      (fujita_bound list_heap 100 100 (fun _ => 0) (fun _ => 0)
        (built_from calls_one 1 [0])).map Prod.snd = some 2 ∧
      (fujita_bound list_heap 100 100 (fun _ => 0) (fun _ => 0)
        (schedule_of (dag_of_calls calls_one) 1 [0])).map Prod.snd = some 2 ∧
      schedule_is_valid (schedule_of (dag_of_calls calls_one) 1 [0, 1, 2]) = true ∧
      schedule_length (built_from calls_one 1 [0, 1, 2]) = 1 ∧
      list_makespan (dag_of_calls calls_one) 1 [0, 1, 2] = 1 := by
  decide!



/-! ## The iterative bound of `fujita_bound` -/

/-- The first loop of `fujita_bound` keeps the graph, and the `delta` it
ends with is 1 or a positive even value below `2^32` when it starts with such
a value. -/
theorem fujita_double_keeps (heap : List (Nat × Int) → List Nat) (bfuel : Nat)
    (fs fe : Nat → Nat) :
    ∀ (fuel : Nat) (s : schedule) (delta : Nat) (s1 : schedule) (d1 : Nat),
      fujita_double heap bfuel fs fe fuel s delta = some (s1, d1) →
      s1.g = s.g ∧
        ((1 ≤ delta ∧ (delta = 1 ∨ (delta % 2 = 0 ∧ delta < 4294967296))) →
          (1 ≤ d1 ∧ (d1 = 1 ∨ (d1 % 2 = 0 ∧ d1 < 4294967296)))) := by
  intro fuel
  induction fuel with
  | zero =>
    intro s delta s1 d1 h
    simp [fujita_double] at h
  | succ fuel ih =>
    intro s delta s1 d1 h
    unfold fujita_double at h
    split at h
    · exact absurd h (by simp)
    · rename_i sb c hb
      obtain ⟨hg, _, _⟩ := schedule_build_fujita_keeps _ _ _ _ _ _ _ hb
      split at h
      · exact absurd h (by simp)
      · split at h
        · simp only [Option.some.injEq, Prod.mk.injEq] at h
          obtain ⟨h1, h2⟩ := h
          subst h1
          subst h2
          exact ⟨hg, fun hd => hd⟩
        · split at h
          · exact absurd h (by simp)
          · rename_i hz
            obtain ⟨i1, i2⟩ := ih _ _ _ _ h
            refine ⟨i1.trans hg, fun _ => i2 ⟨by omega, Or.inr ?_⟩⟩
            unfold to_unsigned
            omega

/-- The binary search of `fujita_bound`, started with `best_time = high_time`
above `low_time` and without overflow, returns a value above `low_time` and
at most `high_time`. -/
theorem fujita_search_gt (heap : List (Nat × Int) → List Nat) (bfuel : Nat)
    (fs fe : Nat → Nat) :
    ∀ (fuel : Nat) (s : schedule) (low high best : Int) (s2 : schedule) (v : Int),
      fujita_search heap bfuel fs fe fuel s low high best = some (s2, v) →
      -2147483648 ≤ low → low < high → high < 2147483648 → high - low < 2147483648 →
      best = high → low < v ∧ v ≤ high := by
  intro fuel
  induction fuel with
  | zero =>
    intro s low high best s2 v h
    simp [fujita_search] at h
  | succ fuel ih =>
    intro s low high best s2 v h h1 h2 h3 h4 h5
    have hcur : wrap_int (Int.tdiv (wrap_int (high - low)) 2 + low) =
        (high - low) / 2 + low := by
      rw [wrap_int_id (high - low) (by omega) (by omega),
        Int.tdiv_eq_ediv (by omega : 0 ≤ high - low) (by decide)]
      exact wrap_int_id _ (by omega) (by omega)
    unfold fujita_search at h
    rw [hcur] at h
    split at h
    · simp only [Option.some.injEq, Prod.mk.injEq] at h
      omega
    · rename_i hne
      split at h
      · exact absurd h (by simp)
      · split at h
        · exact absurd h (by simp)
        · split at h
          · have hb : (if best < (high - low) / 2 + low then best
                else (high - low) / 2 + low) = (high - low) / 2 + low := by
              rw [if_neg (by omega)]
            rw [hb] at h
            obtain ⟨i1, i2⟩ := ih _ _ _ _ _ _ h h1 (by omega) (by omega) (by omega) rfl
            omega
          · obtain ⟨i1, i2⟩ := ih _ _ _ _ _ _ h (by omega) (by omega) h3 (by omega) h5
            omega

/-- The value `fujita_bound` returns lies above `level(source)` and is at
most `level(source) + delta`, when `level(source) + delta` is below `2^31`
for the `delta` its doubling loop stops at. -/
theorem fujita_bound_range (heap : List (Nat × Int) → List Nat) (fuel bfuel : Nat)
    (fs fe : Nat → Nat) (s s1 s2 : schedule) (delta : Nat) (v : Int)
    (hd : fujita_double heap bfuel fs fe fuel s 1 = some (s1, delta))
    (hb : fujita_bound heap fuel bfuel fs fe s = some (s2, v))
    (hno : dag_level s.g (dag_source s.g) + (delta : Int) < 2147483648) :
    dag_level s.g (dag_source s.g) < v ∧ v ≤ dag_level s.g (dag_source s.g) + (delta : Int) := by
  obtain ⟨hg, hdelta⟩ := fujita_double_keeps heap bfuel fs fe fuel s 1 s1 delta hd
  obtain ⟨hd0, hdl⟩ := hdelta ⟨le_refl 1, Or.inl rfl⟩
  unfold fujita_bound at hb
  rw [hd] at hb
  dsimp only at hb
  rw [hg] at hb
  have hlow : -2147483648 ≤ dag_level s.g (dag_source s.g) := by
    unfold dag_level to_int
    split <;> omega
  have e1 : to_int (to_unsigned (dag_level s.g (dag_source s.g) + ((delta / 2 : Nat) : Int))) =
      dag_level s.g (dag_source s.g) + ((delta / 2 : Nat) : Int) :=
    wrap_int_id _ (by omega) (by omega)
  have e2 : to_int (to_unsigned (dag_level s.g (dag_source s.g) + (delta : Int))) =
      dag_level s.g (dag_source s.g) + (delta : Int) :=
    wrap_int_id _ (by omega) (by omega)
  rw [e1, e2] at hb
  obtain ⟨i1, i2⟩ := fujita_search_gt heap bfuel fs fe fuel s1 _ _ _ s2 v hb (by omega)
    (by omega) hno (by omega) rfl
  omega

/-- C21 (amended): for a valid non-empty prefix `S` of tasks of the graph and
`m >= 1`, when `fujita_bound(S)` returns and `level(source) + delta` is below
`2^31` for the `delta` its doubling loop stops at, the value returned is at
least `level(source)`. -/
theorem fujita_bound_ge_level (heap : List (Nat × Int) → List Nat) (fuel bfuel : Nat)
    (fs fe : Nat → Nat) (s s1 s2 : schedule) (delta : Nat) (v : Int)
    (_hvalid : schedule_is_valid s = true) (_hne : s.order ≠ [])
    (_horder : ∀ t ∈ s.order, t < dag_size s.g) (_hm : 1 ≤ s.m)
    (hd : fujita_double heap bfuel fs fe fuel s 1 = some (s1, delta))
    (hb : fujita_bound heap fuel bfuel fs fe s = some (s2, v))
    (hno : dag_level s.g (dag_source s.g) + (delta : Int) < 2147483648) :
    dag_level s.g (dag_source s.g) ≤ v :=
  le_of_lt (fujita_bound_range heap fuel bfuel fs fe s s1 s2 delta v hd hb hno).1

/-- A returned pair, written with the projections of the pair. -/
theorem option_pair_eta {α β : Type} (x : Option (α × β)) (d : α × β)
    (h : x.isSome = true) : x = some ((x.getD d).1, (x.getD d).2) := by
  cases x with
  | none => simp at h
  | some p => rfl

set_option maxRecDepth 100000 in
/-- Witness of C21 on the 11-task test graph, two machines, prefix
`[source]`. -/
theorem fujita_bound_ge_level_witness :
    dag_level (built_from test_calls 2 [0]).g (dag_source (built_from test_calls 2 [0]).g) ≤
        ((fujita_bound list_heap 100 100 (fun _ => 0) (fun _ => 0)
          (built_from test_calls 2 [0])).getD (built_from test_calls 2 [0], 0)).2 :=
  fujita_bound_ge_level list_heap 100 100 (fun _ => 0) (fun _ => 0)
    (built_from test_calls 2 [0]) _ _ _ _ (by decide!) (by decide!) (by decide!) (by decide!)
    (option_pair_eta _ (built_from test_calls 2 [0], 0) (by decide!))
    (option_pair_eta _ (built_from test_calls 2 [0], 0) (by decide!)) (by decide!)

set_option maxRecDepth 100000 in
/-- C21 as stated fails: on a single task of weight `INT_MAX` with one machine
and the valid prefix `[source]`, `fujita_bound` returns, and the value it
returns is `INT_MIN`, below `level(source) = INT_MAX`: the doubling loop stops
at `delta = 1` and `level(source) + delta` does not fit the `int`
`high_time`. -/
theorem fujita_bound_below_level :
    schedule_is_valid (schedule_of (dag_of_calls calls_max_task) 1 [0]) = true ∧
      dag_level (dag_of_calls calls_max_task) (dag_source (dag_of_calls calls_max_task)) =
        2147483647 ∧
      (fujita_double list_heap 100 (fun _ => 0) (fun _ => 0) 100
        (built_from calls_max_task 1 [0]) 1).map Prod.snd = some 1 ∧
      (fujita_bound list_heap 100 100 (fun _ => 0) (fun _ => 0)
        (built_from calls_max_task 1 [0])).map Prod.snd = some (-2147483648) := by
  decide!


/-! ## Running `schedule_build` again -/

theorem rule_acc_congr (r : pass_rule) (v1 v2 : Nat → Nat) (l : List Nat)
    (h : ∀ p ∈ l, v1 p = v2 p) : rule_acc r v1 l = rule_acc r v2 l := by
  unfold rule_acc
  generalize r.e = a
  induction l generalizing a with
  | nil => rfl
  | cons x rest ih =>
    simp only [List.foldl_cons]
    rw [h x (List.mem_cons_self _ _)]
    exact ih (fun p hp => h p (List.mem_cons_of_mem _ hp)) _

/-- Two arrays that hold the same seeds on the tasks of the order and obey
the recurrence of `end_visit` on the other tasks agree on every task. -/
theorem min_ends_unique (g : dag) (hwf : dag_wf g) (order : List Nat) (sched_ends : Nat → Nat)
    (me1 me2 : Nat → Nat)
    (hs1 : ∀ x, x ∈ order → me1 x = sched_ends x)
    (hs2 : ∀ x, x ∈ order → me2 x = sched_ends x)
    (hr1 : ∀ x, x < dag_size g → x ∉ order →
      me1 x = to_unsigned (dag_weight g x + (rule_acc (end_rule g) me1 (dag_preds g x) : Int)))
    (hr2 : ∀ x, x < dag_size g → x ∉ order →
      me2 x = to_unsigned (dag_weight g x + (rule_acc (end_rule g) me2 (dag_preds g x) : Int))) :
    ∀ x, x < dag_size g → me1 x = me2 x := by
  intro x
  induction x using Nat.strong_induction_on with
  | _ x ih =>
    intro hx
    by_cases hin : x ∈ order
    · rw [hs1 x hin, hs2 x hin]
    · rw [hr1 x hx hin, hr2 x hx hin]
      rw [rule_acc_congr (end_rule g) me1 me2 (dag_preds g x)
        (fun p hp => ih p (hwf.wf.preds_lt x p hp) (lt_trans (hwf.wf.preds_lt x p hp) hx))]

/-- Two arrays that hold `total_time` at the sink, the same seeds on the
other tasks of the order and obey the recurrence of `start_visit` on the
remaining tasks agree on every task. -/
theorem max_starts_unique (g : dag) (hwf : dag_wf g) (order : List Nat) (seed : Nat → Nat)
    (T : Nat) (p1 p2 : Nat → Nat)
    (hk1 : p1 (dag_sink g) = T) (hk2 : p2 (dag_sink g) = T)
    (hs1 : ∀ x, x ∈ order → x ≠ dag_sink g → p1 x = seed x)
    (hs2 : ∀ x, x ∈ order → x ≠ dag_sink g → p2 x = seed x)
    (hr1 : ∀ x, x < dag_size g → x ∉ order → x ≠ dag_sink g →
      p1 x = start_value g T x (rule_acc (start_rule g T) p1 (dag_succs g x)))
    (hr2 : ∀ x, x < dag_size g → x ∉ order → x ≠ dag_sink g →
      p2 x = start_value g T x (rule_acc (start_rule g T) p2 (dag_succs g x))) :
    ∀ k x, x + k = dag_size g → 0 < k → p1 x = p2 x := by
  intro k
  induction k using Nat.strong_induction_on with
  | _ k ih =>
    intro x hxk hk
    by_cases hsink : x = dag_sink g
    · rw [hsink, hk1, hk2]
    · by_cases hin : x ∈ order
      · rw [hs1 x hin hsink, hs2 x hin hsink]
      · rw [hr1 x (by omega) hin hsink, hr2 x (by omega) hin hsink]
        rw [rule_acc_congr (start_rule g T) p1 p2 (dag_succs g x) (fun y hy => by
          have hy1 : y < dag_size g := hwf.wf.succs_lt x y hy
          have hy2 : x < y := hwf.wf.preds_lt y x ((hwf.wf.mem_iff x y).1 hy)
          exact ih (dag_size g - y) (by omega) y (by omega) (by omega))]

theorem schedule_compute_congr (s s2 : schedule) (hg : s2.g = s.g) (hm : s2.m = s.m)
    (ho : s2.order = s.order) : schedule_compute s2 = schedule_compute s := by
  unfold schedule_compute
  rw [hg, hm, ho]

/-- What `schedule_build` leaves depends on the graph, the machine count, the
order and the target only: two schedules that agree on these get the same
length and the same `min_end` and `max_start` for every task, whatever their
buffers held. -/
theorem schedule_build_fujita_det (s s2 : schedule) (hg : s2.g = s.g) (hm : s2.m = s.m)
    (ho : s2.order = s.order) (hwf : dag_wf s.g)
    (horder : ∀ t ∈ s.order, t < dag_size s.g) (h0 : 0 ∈ s.order)
    (hcl : ∀ t ∈ s.order, ∀ p ∈ dag_preds s.g t, p ∈ s.order)
    (fs fe fs2 fe2 : Nat → Nat) (T fuel : Nat)
    (hfuel : 2 * dag_size s.g + s.order.length + 1 < fuel) :
    ∃ r1 r2, schedule_build_fujita fuel fs fe s T = some (r1, 0) ∧
      schedule_build_fujita fuel fs2 fe2 s2 T = some (r2, 0) ∧
      schedule_length r2 = schedule_length r1 ∧
      ∀ i, i < dag_size s.g →
        schedule_min_end r2 i = schedule_min_end r1 i ∧
          schedule_max_start r2 i = schedule_max_start r1 i := by
  have hc := schedule_compute_congr s s2 hg hm ho
  obtain ⟨ms, me, hb, hms, hme⟩ := schedule_build_fujita_some s hwf horder fs fe T fuel hfuel
  obtain ⟨ms2, me2, hb2, hms2, hme2⟩ := schedule_build_fujita_some s2 (by rw [hg]; exact hwf)
    (by rw [hg, ho]; exact horder) fs2 fe2 T fuel (by rw [hg, ho]; exact hfuel)
  obtain ⟨me', e1, e2, _, e4⟩ := schedule_min_ends_spec s hwf horder (build_arrays fs fe s).2
    (schedule_compute s).2 fuel (by omega)
  obtain ⟨me2', f1, f2, _, f4⟩ := schedule_min_ends_spec s2 (by rw [hg]; exact hwf)
    (by rw [hg, ho]; exact horder) (build_arrays fs2 fe2 s2).2
    (schedule_compute s2).2 fuel (by rw [hg, ho]; omega)
  obtain ⟨ms', pre, a1, a2, _, a4, a5, a6⟩ := schedule_max_starts_spec s hwf horder
    (build_arrays fs fe s).1 (schedule_compute s).2 (build_target s T) fuel (by omega)
  obtain ⟨ms2', pre2, b1, b2, _, b4, b5, b6⟩ := schedule_max_starts_spec s2
    (by rw [hg]; exact hwf) (by rw [hg, ho]; exact horder)
    (build_arrays fs2 fe2 s2).1 (schedule_compute s2).2 (build_target s2 T) fuel
    (by rw [hg]; omega)
  rw [hme] at e1
  rw [hme2] at f1
  rw [hms] at a1
  rw [hms2] at b1
  simp only [Option.some.injEq] at e1 f1 a1 b1
  subst e1
  subst f1
  subst a1
  subst b1
  have ht : build_target s2 T = build_target s T := by
    unfold build_target
    rw [hg]
  have hd : ∀ X, start_diff s2 X = start_diff s X := by
    intro X
    unfold start_diff
    rw [hg]
  simp only [hg, ho, hc, ht, hd] at f2 f4 b2 b4 b5 b6
  refine ⟨_, _, hb, hb2, ?_, ?_⟩
  · show to_unsigned (schedule_compute s2).1 = to_unsigned (schedule_compute s).1
    rw [hc]
  · intro i hi
    constructor
    · show me2 i = me i
      exact min_ends_unique s.g hwf s.order (schedule_compute s).2 me2 me f2 e2
        (f4 h0) (e4 h0) i hi
    · show ms2 i = ms i
      rw [b2 i hi, a2 i hi]
      rw [max_starts_unique s.g hwf s.order
        (fun x => to_unsigned (((schedule_compute s).2 x : Int) - dag_weight s.g x))
        (build_target s T) pre2 pre b4 a4 b5 a5 (b6 hcl) (a6 hcl) (dag_size s.g - i) i
        (by omega) (by omega)]

/-- C22: on a built graph, for a valid non-empty prefix and every target `T`,
`schedule_build(S, T)` returns 0, a second `schedule_build(S, T)` on the
unchanged prefix returns 0 and leaves the same `schedule_length` and the same
`schedule_min_end` and `schedule_max_start` for every task as the first run,
and so does a run that starts from any other contents of the two buffers. -/
theorem schedule_build_again (calls : List (Int × List Nat)) (gfuel : Nat) (s : schedule)
    (hmk : dag_make gfuel calls = some s.g) (hne : s.order ≠ [])
    (hv : order_valid s.g s.order) (horder : ∀ t ∈ s.order, t < dag_size s.g)
    (fs fe fs2 fe2 : Nat → Nat) (T fuel : Nat)
    (hfuel : 2 * dag_size s.g + s.order.length + 1 < fuel) :
    ∃ s1 s2, schedule_build_fujita fuel fs fe s T = some (s1, 0) ∧
      schedule_build_fujita fuel fs2 fe2 s1 T = some (s2, 0) ∧
      schedule_length s2 = schedule_length s1 ∧
      (∀ i, i < dag_size s.g →
        schedule_min_end s2 i = schedule_min_end s1 i ∧
          schedule_max_start s2 i = schedule_max_start s1 i) ∧
      ∀ (s0 : schedule) (fs0 fe0 : Nat → Nat), s0.g = s.g → s0.m = s.m → s0.order = s.order →
        ∃ s3, schedule_build_fujita fuel fs0 fe0 s0 T = some (s3, 0) ∧
          schedule_length s3 = schedule_length s1 ∧
          ∀ i, i < dag_size s.g →
            schedule_min_end s3 i = schedule_min_end s1 i ∧
              schedule_max_start s3 i = schedule_max_start s1 i := by
  have hwf := (dag_make_built gfuel calls s.g hmk).wf
  have h0 := valid_has_source s.g hwf s.order hne hv horder
  have hcl : ∀ t ∈ s.order, ∀ p ∈ dag_preds s.g t, p ∈ s.order :=
    fun t ht p hp => order_valid_pred_mem s.g s.order hv t p ht hp
  obtain ⟨s1, _, h1, _, _, _⟩ := schedule_build_fujita_det s s rfl rfl rfl hwf horder h0 hcl
    fs fe fs fe T fuel hfuel
  have hdet : ∀ (s0 : schedule) (fs0 fe0 : Nat → Nat), s0.g = s.g → s0.m = s.m →
      s0.order = s.order →
      ∃ s3, schedule_build_fujita fuel fs0 fe0 s0 T = some (s3, 0) ∧
        schedule_length s3 = schedule_length s1 ∧
        ∀ i, i < dag_size s.g →
          schedule_min_end s3 i = schedule_min_end s1 i ∧
            schedule_max_start s3 i = schedule_max_start s1 i := by
    intro s0 fs0 fe0 hg hm ho
    obtain ⟨r1, r2, i1, i2, i3, i4⟩ := schedule_build_fujita_det s s0 hg hm ho hwf horder h0
      hcl fs fe fs0 fe0 T fuel hfuel
    rw [h1] at i1
    simp only [Option.some.injEq, Prod.mk.injEq, and_true] at i1
    subst i1
    exact ⟨r2, i2, i3, i4⟩
  obtain ⟨hg, hm, ho⟩ := schedule_build_fujita_keeps fuel fs fe s T s1 0 h1
  obtain ⟨s2, j1, j2, j3⟩ := hdet s1 fs2 fe2 hg hm ho
  exact ⟨s1, s2, h1, j1, j2, j3, hdet⟩

set_option maxRecDepth 100000 in
/-- Witness of C22 on the fork graph, prefix `[source, 1]`, two machines,
target 5, the first run starting from buffers that hold 7 everywhere. -/
theorem schedule_build_again_witness :
    ∃ s1 s2, schedule_build_fujita 100 (fun _ => 7) (fun _ => 7)
        (schedule_of (dag_of_calls calls_fork) 2 [0, 1]) 5 = some (s1, 0) ∧
      schedule_build_fujita 100 (fun _ => 0) (fun _ => 0) s1 5 = some (s2, 0) ∧
      schedule_length s2 = schedule_length s1 ∧
      (∀ i, i < dag_size (schedule_of (dag_of_calls calls_fork) 2 [0, 1]).g →
        schedule_min_end s2 i = schedule_min_end s1 i ∧
          schedule_max_start s2 i = schedule_max_start s1 i) ∧
      ∀ (s0 : schedule) (fs0 fe0 : Nat → Nat),
        s0.g = (schedule_of (dag_of_calls calls_fork) 2 [0, 1]).g →
        s0.m = (schedule_of (dag_of_calls calls_fork) 2 [0, 1]).m →
        s0.order = (schedule_of (dag_of_calls calls_fork) 2 [0, 1]).order →
        ∃ s3, schedule_build_fujita 100 fs0 fe0 s0 5 = some (s3, 0) ∧
          schedule_length s3 = schedule_length s1 ∧
          ∀ i, i < dag_size (schedule_of (dag_of_calls calls_fork) 2 [0, 1]).g →
            schedule_min_end s3 i = schedule_min_end s1 i ∧
              schedule_max_start s3 i = schedule_max_start s1 i :=
  schedule_build_again calls_fork 100 (schedule_of (dag_of_calls calls_fork) 2 [0, 1])
    dag_make_fork (by decide) (schedule_is_valid_order _ (by decide)) (by decide)
    (fun _ => 7) (fun _ => 7) (fun _ => 0) (fun _ => 0) 5 100 (by decide)


/-! ## The state at the entry of the calls of `bb` -/

theorem bb_loop_trace_erase
    (rect : schedule → bitmap → Nat → Nat → Option (bb_result × List (schedule × bitmap)))
    (rec : schedule → bitmap → Nat → Nat → Option bb_result)
    (h : ∀ s b n t, (rect s b n t).map Prod.fst = rec s b n t) (items : List Nat) :
    ∀ (s : schedule) (ready_set : bitmap) (best ticks : Nat),
      (bb_loop_trace rect items s ready_set best ticks).map Prod.fst =
        bb_loop rec items s ready_set best ticks := by
  induction items with
  | nil =>
    intro s ready_set best ticks
    rfl
  | cons x rest ih =>
    intro s ready_set best ticks
    unfold bb_loop_trace bb_loop
    cases hadd : schedule_add s x with
    | none => rfl
    | some p =>
      obtain ⟨s1, c⟩ := p
      dsimp only
      rw [← h]
      cases hr : rect s1 (bitmap_set (mark_ready s1 (dag_succs s1.g x) ready_set).2 x false).1
          best ticks with
      | none => rfl
      | some q =>
        obtain ⟨r, entries⟩ := q
        dsimp only [Option.map_some']
        by_cases hneg : r.value < 0
        · rw [if_pos hneg, if_pos hneg]
          rfl
        · rw [if_neg hneg, if_neg hneg]
          cases hpop : schedule_pop r.s with
          | none => rfl
          | some q2 =>
            obtain ⟨s2, c2⟩ := q2
            dsimp only
            rw [← ih]
            rw [Option.map_map]
            rfl

/-- Without its record `bb_trace` is `bb`. -/
theorem bb_trace_erase (env : bb_env) :
    ∀ (fuel : Nat) (s : schedule) (ready_set : bitmap) (best ticks : Nat),
      (bb_trace env fuel s ready_set best ticks).map Prod.fst =
        bb env fuel s ready_set best ticks := by
  intro fuel
  induction fuel with
  | zero =>
    intro s ready_set best ticks
    rfl
  | succ fuel ih =>
    intro s ready_set best ticks
    unfold bb_trace bb
    dsimp only
    split
    · rfl
    · split
      · rfl
      · split
        · rfl
        · rw [Option.map_map]
          rw [← bb_loop_trace_erase (bb_trace env fuel) (bb env fuel) ih]
          rfl

/-- Without its record `bbsearch_trace` is `bbsearch`. -/
theorem bbsearch_trace_erase (heap : List (Nat × Int) → List Nat) (clock : Nat → Int)
    (cps : Int) (fuel : Nat) (g : dag) (m : Nat) (timeout : Int) :
    (bbsearch_trace heap clock cps fuel g m timeout).map Prod.fst =
      bbsearch heap clock cps fuel g m timeout := by
  unfold bbsearch_trace bbsearch
  cases hadd : (schedule_create g m).bind (fun s0 => schedule_add s0 (dag_source g)) with
  | none => rfl
  | some p =>
    obtain ⟨s, c⟩ := p
    dsimp only
    rw [Option.map_map, ← bb_trace_erase, Option.map_map]
    rfl

theorem bb_loop_trace_cons
    (rec : schedule → bitmap → Nat → Nat → Option (bb_result × List (schedule × bitmap)))
    (x : Nat) (rest : List Nat) (s : schedule) (ready_set : bitmap) (best ticks : Nat)
    (rc : Int) (hadd : schedule_add s x = some (schedule_pushed s x, rc)) :
    bb_loop_trace rec (x :: rest) s ready_set best ticks =
      match rec (schedule_pushed s x) (ready_pushed s ready_set x) best ticks with
      | none => none
      | some (r, entries) =>
        if r.value < 0 then
          some (⟨r.value, r.s, (bitmap_set r.ready_set x true).1, r.ticks⟩, entries)
        else
          match schedule_pop r.s with
          | none => none
          | some (s2, _) =>
            (bb_loop_trace rec rest s2
              (clear_ready (ready_new s ready_set x) (bitmap_set r.ready_set x true).1)
              (if best < to_unsigned r.value then best else to_unsigned r.value) r.ticks).map
              (fun p => (p.1, entries ++ p.2)) := by
  rw [bb_loop_trace, hadd]

/-- The loop of `bb` over ready tasks: when every recursive call on a
schedule one task longer returns, leaves the state as it found it unless it
returns a negative value, and has made only calls that satisfy the entry
invariant, so does the loop. -/
theorem bb_loop_trace_inv (g : dag) (hwf : dag_wf g) (m : Nat)
    (rec : schedule → bitmap → Nat → Nat → Option (bb_result × List (schedule × bitmap)))
    (len : Nat)
    (hrec : ∀ s ready_set best ticks, bb_pre g m s ready_set → s.order.length = len + 1 →
      ∃ r entries, rec s ready_set best ticks = some (r, entries) ∧
        (r.value < 0 ∨ bb_restored s ready_set r) ∧
        ∀ e ∈ entries, bb_pre g m e.1 e.2 ∧ e.1.order ≠ [])
    (items : List Nat) :
    ∀ (s : schedule) (ready_set : bitmap) (best ticks : Nat), bb_pre g m s ready_set →
      s.order.length = len → (∀ x ∈ items, bitmap_get ready_set x = true) →
      ∃ r entries, bb_loop_trace rec items s ready_set best ticks = some (r, entries) ∧
        (r.value < 0 ∨ bb_restored s ready_set r) ∧
        ∀ e ∈ entries, bb_pre g m e.1 e.2 ∧ e.1.order ≠ [] := by
  induction items with
  | nil =>
    intro s ready_set best ticks _ _ _
    exact ⟨⟨to_int best, s, ready_set, ticks⟩, [], rfl, Or.inr ⟨rfl, rfl, rfl, rfl, rfl⟩,
      fun e he => absurd he (List.not_mem_nil e)⟩
  | cons x rest ih =>
    intro s ready_set best ticks hpre hlen hitems
    have hx := hitems x (List.mem_cons_self _ _)
    obtain ⟨hadd, hpre1⟩ := bb_add_step g hwf m s ready_set hpre x hx
    obtain ⟨r1, log1, hr1, hpost1, hlog1⟩ :=
      hrec (schedule_pushed s x) (ready_pushed s ready_set x) best ticks hpre1 (by simp [hlen])
    rw [bb_loop_trace_cons rec x rest s ready_set best ticks 0 hadd, hr1]
    dsimp only
    by_cases hneg : r1.value < 0
    · rw [if_pos hneg]
      exact ⟨_, _, rfl, Or.inl hneg, hlog1⟩
    · rw [if_neg hneg]
      have hres : bb_restored (schedule_pushed s x) (ready_pushed s ready_set x) r1 := by
        rcases hpost1 with h | h
        · exact absurd h hneg
        · exact h
      obtain ⟨hready, s2, hpop, hs2o, hs2c, hs2g, hs2m⟩ :=
        bb_restore_step g hwf m s ready_set hpre x hx r1 hres
      rw [hpop]
      dsimp only
      rw [hready]
      have hpre2 : bb_pre g m s2 ready_set := by
        refine ⟨by rw [hs2g, hpre.hg], by rw [hs2m, hpre.hm], by rw [hs2o]; exact hpre.nodup,
          by rw [hs2o]; exact hpre.lt, by rw [hs2o]; exact hpre.valid, ?_,
          by rw [hs2o]; exact hpre.ready⟩
        intro i
        have := hpre.contents i
        unfold schedule_contains at this ⊢
        rw [hs2c, hs2o]
        exact this
      obtain ⟨r, log2, hr, hpost, hlog2⟩ := ih s2 ready_set
        (if best < to_unsigned r1.value then best else to_unsigned r1.value) r1.ticks hpre2
        (by rw [hs2o]; exact hlen) (fun y hy => hitems y (List.mem_cons_of_mem _ hy))
      rw [hr]
      refine ⟨r, log1 ++ log2, rfl, ?_, ?_⟩
      · rcases hpost with h | ⟨e1, e2, e3, e4, e5⟩
        · exact Or.inl h
        · exact Or.inr ⟨by rw [e1, hs2o], by rw [e2, hs2c], by rw [e3, hs2g],
            by rw [e4, hs2m], e5⟩
      · intro e he
        rcases List.mem_append.1 he with h | h
        · exact hlog1 e h
        · exact hlog2 e h

/-- Every call of `bb` on a state that satisfies the entry invariant returns,
leaves the state as it found it unless it returns a negative value, and
makes only calls that satisfy the entry invariant. -/
theorem bb_trace_inv (g : dag) (hwf : dag_wf g) (m : Nat) (env : bb_env)
    (hheap : binheap_spec env.heap) :
    ∀ (fuel : Nat) (s : schedule) (ready_set : bitmap) (best ticks : Nat),
      bb_pre g m s ready_set → s.order ≠ [] → dag_size g + 1 ≤ s.order.length + fuel →
      ∃ r entries, bb_trace env fuel s ready_set best ticks = some (r, entries) ∧
        (r.value < 0 ∨ bb_restored s ready_set r) ∧
        ∀ e ∈ entries, bb_pre g m e.1 e.2 ∧ e.1.order ≠ [] := by
  intro fuel
  induction fuel with
  | zero =>
    intro s ready_set best ticks hpre _ hfuel
    have := nodup_length_le s.order (dag_size g) hpre.nodup hpre.lt
    omega
  | succ fuel ih =>
    intro s ready_set best ticks hpre hne hfuel
    have hself : ∀ e ∈ [(s, ready_set)], bb_pre g m e.1 e.2 ∧ e.1.order ≠ [] := by
      intro e he
      rw [List.mem_singleton.1 he]
      exact ⟨hpre, hne⟩
    rw [bb_trace]
    by_cases hto : (env.do_timeout && decide (env.clock ticks ≥ env.end_time)) = true
    · rw [if_pos hto]
      exact ⟨_, _, rfl, Or.inl (show (-2 : Int) < 0 by decide), hself⟩
    · rw [if_neg hto]
      have hsb2 : (schedule_build s 0).2 = 0 := rfl
      simp only [hsb2, ne_eq, not_true_eq_false, if_false]
      by_cases hleaf : schedule_size (schedule_build s 0).1 =
          dag_size (schedule_dag (schedule_build s 0).1)
      · rw [if_pos hleaf]
        exact ⟨_, _, rfl, Or.inr ⟨rfl, rfl, rfl, rfl, rfl⟩, hself⟩
      · rw [if_neg hleaf]
        have hpre0 : bb_pre g m (schedule_build s 0).1 ready_set :=
          ⟨hpre.hg, hpre.hm, hpre.nodup, hpre.lt, hpre.valid, hpre.contents, hpre.ready⟩
        have hitems : ∀ x ∈ env.heap (ready_items (schedule_dag (schedule_build s 0).1)
            ready_set), bitmap_get ready_set x = true :=
          fun x hx => ((heap_items_mem env.heap hheap _ ready_set x).1 hx).2
        obtain ⟨r, log, hr, hpost, hlog⟩ := bb_loop_trace_inv g hwf m (bb_trace env fuel)
          s.order.length
          (fun s1 rs1 b1 t1 hp1 hl1 => ih s1 rs1 b1 t1 hp1
            (fun h => by rw [h] at hl1; simp at hl1) (by omega))
          _ (schedule_build s 0).1 ready_set best
          (if env.do_timeout = true then ticks + 1 else ticks) hpre0 rfl hitems
        rw [hr]
        refine ⟨r, (s, ready_set) :: log, rfl, ?_, ?_⟩
        · rcases hpost with h | ⟨e1, e2, e3, e4, e5⟩
          · exact Or.inl h
          · exact Or.inr ⟨e1, e2, e3, e4, e5⟩
        · intro e he
          rcases List.mem_cons.1 he with h | h
          · rw [h]
            exact ⟨hpre, hne⟩
          · exact hlog e h

/-- The entry invariant of `bb` gives what the specification says of the
entry of a call. -/
theorem bb_pre_entry_ok (g : dag) (hwf : dag_wf g) (m : Nat) (e : schedule × bitmap)
    (hpre : bb_pre g m e.1 e.2) (hne : e.1.order ≠ []) : entry_ok g e := by
  refine ⟨hpre.valid, hpre.nodup, ?_, ?_⟩
  · cases ho : e.1.order with
    | nil => exact absurd ho hne
    | cons y rest =>
      have hy : y < dag_size g := hpre.lt y (by rw [ho]; exact List.mem_cons_self _ _)
      have hv := hpre.valid
      rw [ho] at hv
      rw [valid_head_source g hwf y rest hy hv]
      rfl
  · intro i hi
    rw [hpre.ready i]
    exact ⟨fun h => h.2, fun h => ⟨hi, h⟩⟩

/-- The calls of `bb` made in `bbsearch`, as compiled without `FUJITA`, on a
graph built with user dependencies only and for `m >= 1`: `bbsearch` returns,
and every call recorded by `bbsearch_trace` meets what the specification says
of the entry of a call. -/
theorem bbsearch_trace_entries (heap : List (Nat × Int) → List Nat) (hheap : binheap_spec heap)
    (clock : Nat → Int) (cps : Int) (calls : List (Int × List Nat)) (gfuel : Nat) (g : dag)
    (hmk : dag_make gfuel calls = some g) (hdeps : calls_user_deps calls) (m : Nat)
    (hm : 1 ≤ m) (bfuel : Nat) (hfuel : dag_size g ≤ bfuel) (timeout : Int) :
    ∃ v entries, bbsearch_trace heap clock cps bfuel g m timeout = some (v, entries) ∧
      bbsearch heap clock cps bfuel g m timeout = some v ∧ entries ≠ [] ∧
      ∀ e ∈ entries, e.1.g = g ∧ e.1.m = m ∧ entry_ok g e := by
  have hb := dag_make_built gfuel calls g hmk
  have hsa := dag_make_source_alone gfuel calls g hmk hdeps
  obtain ⟨hadd, hpre⟩ := bbsearch_init g hb.wf hsa m
  have hmain : ∀ env : bb_env, env.heap = heap → ∀ ticks,
      ∃ r entries, bb_trace env bfuel (schedule_pushed (schedule_new g m) 0)
        ((dag_succs g (dag_source g)).foldl (fun b i => (bitmap_set b i true).1)
          (bitmap_create 0)) UINT_MAX ticks = some (r, entries) ∧ entries ≠ [] ∧
        ∀ e ∈ entries, e.1.g = g ∧ e.1.m = m ∧ entry_ok g e := by
    intro env henv ticks
    obtain ⟨r, log, hr, _, hlog⟩ := bb_trace_inv g hb.wf m env (by rw [henv]; exact hheap)
      bfuel _ _ UINT_MAX ticks hpre (by simp) (by
        show dag_size g + 1 ≤ ([] ++ [0] : List Nat).length + bfuel
        simp
        omega)
    refine ⟨r, log, hr, ?_, fun e he => ⟨(hlog e he).1.hg, (hlog e he).1.hm,
      bb_pre_entry_ok g hb.wf m e (hlog e he).1 (hlog e he).2⟩⟩
    intro hnil
    rw [hnil] at hr
    cases bfuel with
    | zero =>
      have := hb.wf.two
      unfold dag_size at hfuel
      omega
    | succ k =>
      rw [bb_trace] at hr
      split at hr
      · simp at hr
      · dsimp only at hr
        split at hr
        · simp at hr
        · split at hr
          · simp at hr
          · simp at hr
  have herase := bbsearch_trace_erase heap clock cps bfuel g m timeout
  have key : ∃ v entries, bbsearch_trace heap clock cps bfuel g m timeout = some (v, entries) ∧
      entries ≠ [] ∧ ∀ e ∈ entries, e.1.g = g ∧ e.1.m = m ∧ entry_ok g e := by
    unfold bbsearch_trace
    rw [bbsearch_start g m hm, hadd]
    dsimp only
    by_cases ht : timeout < 0
    · simp only [ht, if_true]
      obtain ⟨r, log, hr, h1, h2⟩ := hmain ⟨heap, clock, false, 0⟩ rfl 0
      rw [hr]
      exact ⟨r.value, log, rfl, h1, h2⟩
    · simp only [ht, if_false]
      obtain ⟨r, log, hr, h1, h2⟩ :=
        hmain ⟨heap, clock, true, clock 0 + timeout * cps⟩ rfl 1
      rw [hr]
      exact ⟨r.value, log, rfl, h1, h2⟩
  obtain ⟨v, entries, h1, h2, h3⟩ := key
  refine ⟨v, entries, h1, ?_, h2, h3⟩
  rw [← herase, h1]
  rfl

set_option maxRecDepth 100000 in
/-- C23 as stated fails on a graph in which a dependency array names the
source next to a user task (`dag_vertex` with the dependencies 0 and 1): at
the entry of the first call of `bb` the order is `[source]` and the ready-set
bit of task 2 is 1, although its predecessor 1 is not in the order, because
`bbsearch` marks every successor of the source. -/
theorem bb_entry_source_dep :
    (dag_make 100 calls_source_dep).isSome = true ∧
      dag_preds (dag_of_calls calls_source_dep) 2 = [0, 1] ∧
      (bbsearch_trace list_heap (fun _ => 0) 1 10 (dag_of_calls calls_source_dep) 2 (-1)).map
        (fun p => p.2.head?.map (fun e => (e.1.order, bitmap_get e.2 2))) =
        some (some ([0], true)) := by
  decide!


/-! ## The coordinate list -/

/-- The second loop of `get_comp_list` drops only values equal to the last
value pushed. -/
theorem comp_push_mem (last : Nat) (l : List Nat) :
    ∀ x ∈ l, x = last ∨ x ∈ comp_push last l := by
  induction l generalizing last with
  | nil =>
    intro x hx
    exact absurd hx (List.not_mem_nil x)
  | cons c rest ih =>
    intro x hx
    simp only [comp_push]
    by_cases hcl : c = last
    · simp only [hcl, bne_self_eq_false, Bool.false_eq_true, if_false]
      rcases List.mem_cons.1 hx with h | h
      · exact Or.inl (h.trans hcl)
      · exact ih last x h
    · have hne : (c != last) = true := by simp [hcl]
      simp only [hne, if_true]
      rcases List.mem_cons.1 hx with h | h
      · exact Or.inr (by rw [h]; exact List.mem_cons_self _ _)
      · rcases ih c x h with h1 | h1
        · exact Or.inr (by rw [h1]; exact List.mem_cons_self _ _)
        · exact Or.inr (List.mem_cons_of_mem _ h1)

/-- Every coordinate is in the list of `get_comp_list`. -/
theorem get_comp_list_complete (heap : List (Nat × Int) → List Nat)
    (hheap : binheap_spec heap) (s : schedule) (k : Nat) (hk : k < dag_size s.g) :
    schedule_max_start s k ∈ get_comp_list heap s ∧
      schedule_min_end s k ∈ get_comp_list heap s := by
  obtain ⟨sorted, hperm, hmap, _⟩ := hheap (comp_items s)
  have hin : ∀ v, (∃ key, (v, key) ∈ comp_items s) → v ∈ get_comp_list heap s := by
    intro v ⟨key, hv⟩
    have h1 : v ∈ heap (comp_items s) := by
      rw [← hmap]
      exact List.mem_map.2 ⟨(v, key), hperm.mem_iff.2 hv, rfl⟩
    unfold get_comp_list
    cases hh : heap (comp_items s) with
    | nil =>
      rw [hh] at h1
      exact absurd h1 (List.not_mem_nil v)
    | cons c rest =>
      rw [hh] at h1
      dsimp only
      rcases List.mem_cons.1 h1 with h | h
      · rw [h]
        exact List.mem_cons_self _ _
      · rcases comp_push_mem c rest v h with h2 | h2
        · rw [h2]
          exact List.mem_cons_self _ _
        · exact List.mem_cons_of_mem _ h2
  have hmem : ∀ x, x ∈ [(schedule_max_start s k, wrap_int (-(to_int (schedule_max_start s k)))),
      (schedule_min_end s k, wrap_int (-(to_int (schedule_min_end s k))))] →
      x ∈ comp_items s := by
    intro x hx
    unfold comp_items
    rw [List.mem_flatMap]
    exact ⟨k, List.mem_range.2 hk, hx⟩
  exact ⟨hin _ ⟨_, hmem _ (List.mem_cons_self _ _)⟩,
    hin _ ⟨_, hmem _ (List.mem_cons_of_mem _ (List.mem_cons_self _ _))⟩⟩

/-- C24 (amended): for a schedule on which `schedule_build` has run and whose
coordinates are all below `2^31`, with a heap that returns the entry of
largest key first, the list built by `get_comp_list` contains exactly the
values among `max_start[i]` and `min_end[i]` over all tasks `i`, with no value
repeated, in strictly ascending order. -/
theorem get_comp_list_spec (heap : List (Nat × Int) → List Nat) (hheap : binheap_spec heap)
    (fuel : Nat) (fs fe : Nat → Nat) (s0 : schedule) (T : Nat) (s : schedule) (r : Int)
    (hbuild : schedule_build_fujita fuel fs fe s0 T = some (s, r))
    (hc : ∀ k, k < dag_size s0.g →
      schedule_max_start s k < 2147483648 ∧ schedule_min_end s k < 2147483648) :
    (get_comp_list heap s).Pairwise (fun a b => a < b) ∧ (get_comp_list heap s).Nodup ∧
      ∀ x, x ∈ get_comp_list heap s ↔
        ∃ k, k < dag_size s0.g ∧ (x = schedule_max_start s k ∨ x = schedule_min_end s k) := by
  obtain ⟨hg, _, _⟩ := schedule_build_fujita_keeps fuel fs fe s0 T s r hbuild
  rw [← hg] at hc ⊢
  obtain ⟨h1, h2⟩ := get_comp_list_sorted heap hheap s hc
  refine ⟨h1, h1.imp (fun h => Nat.ne_of_lt h), fun x => ⟨fun hx => (h2 x hx).2, ?_⟩⟩
  rintro ⟨k, hk, h | h⟩
  · rw [h]
    exact (get_comp_list_complete heap hheap s k hk).1
  · rw [h]
    exact (get_comp_list_complete heap hheap s k hk).2

set_option maxRecDepth 100000 in
/-- Witness of C24 on the six independent tasks of `test_schedule`, two
machines, prefix `[source]`. -/
theorem get_comp_list_spec_witness :
    (get_comp_list list_heap (built_from test_calls_b 2 [0])).Pairwise (fun a b => a < b) ∧
      (get_comp_list list_heap (built_from test_calls_b 2 [0])).Nodup ∧
      ∀ x, x ∈ get_comp_list list_heap (built_from test_calls_b 2 [0]) ↔
        ∃ k, k < dag_size (schedule_of (dag_of_calls test_calls_b) 2 [0]).g ∧
          (x = schedule_max_start (built_from test_calls_b 2 [0]) k ∨
            x = schedule_min_end (built_from test_calls_b 2 [0]) k) :=
  get_comp_list_spec list_heap list_heap_spec 100 (fun _ => 0) (fun _ => 0)
    (schedule_of (dag_of_calls test_calls_b) 2 [0]) 0 (built_from test_calls_b 2 [0]) 0
    (built_from_some test_calls_b 2 [0] (by decide!)) (by decide!)

set_option maxRecDepth 100000 in
/-- C24 as stated fails: on the six independent tasks of `test_schedule` with
two machines and the prefix `[source]` the coordinates are 0, 2, 3 and 5, and
`get_comp_list` builds the list 0, 2, 3, 5, which ascends. -/
theorem get_comp_list_ascends :
    (List.range (dag_size (dag_of_calls test_calls_b))).map (fun k =>
        (schedule_max_start (built_from test_calls_b 2 [0]) k,
          schedule_min_end (built_from test_calls_b 2 [0]) k)) =
        [(0, 0), (0, 5), (3, 2), (3, 2), (3, 2), (3, 2), (3, 2), (5, 5)] ∧
      get_comp_list list_heap (built_from test_calls_b 2 [0]) = [0, 2, 3, 5] ∧
      ¬ (get_comp_list list_heap (built_from test_calls_b 2 [0])).Pairwise
        (fun a b => a > b) := by
  decide!


/-! ## How often the level loop finalizes a task -/

/-- A visit of the level loop keeps the invariant and the work list it
found, and every task it finishes is on the work list it leaves. -/
theorem lvl_fold_new (ns0 : List node) (hwf : nodes_wf ns0) (rem : List Nat) :
    ∀ st : lvl_state, (∀ p ∈ rem, p + 1 < ns0.length) → lvl_inv ns0 st →
      lvl_inv ns0 (rem.foldl lvl_visit_pred st) ∧
        (∀ x ∈ st.lvl_ready, x ∈ (rem.foldl lvl_visit_pred st).lvl_ready) ∧
        ∀ x, bitmap_get (rem.foldl lvl_visit_pred st).lvl_finished x = true →
          bitmap_get st.lvl_finished x = true ∨ x ∈ (rem.foldl lvl_visit_pred st).lvl_ready := by
  induction rem with
  | nil =>
    intro st _ hinv
    exact ⟨hinv, fun x hx => hx, fun x hx => Or.inl hx⟩
  | cons p rest ih =>
    intro st hrem hinv
    obtain ⟨h1, _, h3, _, h5⟩ := lvl_visit_pred_inv ns0 hwf st p
      (hrem p (List.mem_cons_self _ _)) hinv
    obtain ⟨i1, i2, i3⟩ := ih (lvl_visit_pred st p)
      (fun q hq => hrem q (List.mem_cons_of_mem _ hq)) h1
    rw [List.foldl_cons]
    refine ⟨i1, ?_, ?_⟩
    · intro x hx
      apply i2
      rcases h5 with h | h
      · rw [h]
        exact hx
      · rw [h]
        exact List.mem_cons_of_mem _ hx
    · intro x hx
      rcases i3 x hx with h | h
      · rcases h3 x h with h' | ⟨h', h''⟩
        · exact Or.inl h'
        · right
          apply i2
          rw [h'', h']
          exact List.mem_cons_self _ _
      · exact Or.inr h

/-- In a run of the level loop that ends, every task of the work list and
every task finished during the run is popped. -/
theorem lvl_pops_cover (ns0 : List node) (hwf : nodes_wf ns0) :
    ∀ (fuel : Nat) (st st1 : lvl_state), lvl_inv ns0 st → lvl_loop fuel st = some st1 →
      (∀ x ∈ st.lvl_ready, x ∈ lvl_pops fuel st) ∧
        ∀ x, bitmap_get st1.lvl_finished x = true →
          bitmap_get st.lvl_finished x = true ∨ x ∈ lvl_pops fuel st := by
  intro fuel
  induction fuel with
  | zero =>
    intro st st1 _ h
    simp [lvl_loop] at h
  | succ fuel ih =>
    intro st st1 hinv h
    rw [lvl_loop] at h
    rw [lvl_pops]
    cases hwl : st.lvl_ready with
    | nil =>
      rw [hwl] at h
      simp only [Option.some.injEq] at h
      subst h
      exact ⟨fun x hx => absurd hx (List.not_mem_nil x), fun x hx => Or.inl hx⟩
    | cons idx rest =>
      rw [hwl] at h
      dsimp only at h ⊢
      have hpreds : (node_at st.nodes idx).preds = (node_at ns0 idx).preds :=
        (hinv.shape.2 idx).2.1
      have hrem : ∀ p ∈ (node_at ns0 idx).preds, p + 1 < ns0.length := by
        intro p hp
        have h1 := hwf.preds_lt idx p hp
        have h2 : idx < ns0.length := by
          by_contra hx
          rw [node_at_ge (Nat.le_of_not_lt hx)] at hp
          simp [node_init] at hp
        omega
      have hinv0 : lvl_inv ns0 { st with lvl_ready := rest } :=
        ⟨hinv.shape, hinv.fin_lt, hinv.sink_fin, hinv.sink_level, hinv.fin_level⟩
      have hvisit : lvl_visit { st with lvl_ready := rest } idx =
          (node_at ns0 idx).preds.foldl lvl_visit_pred { st with lvl_ready := rest } := by
        unfold lvl_visit
        rw [show (node_at ({ st with lvl_ready := rest } : lvl_state).nodes idx).preds =
          (node_at ns0 idx).preds from hpreds]
      obtain ⟨f1, f2, f3⟩ := lvl_fold_new ns0 hwf (node_at ns0 idx).preds
        { st with lvl_ready := rest } hrem hinv0
      rw [← hvisit] at f1 f2 f3
      obtain ⟨i1, i2⟩ := ih _ st1 f1 h
      constructor
      · intro x hx
        rcases List.mem_cons.1 hx with hx | hx
        · rw [hx]
          exact List.mem_cons_self _ _
        · exact List.mem_cons_of_mem _ (i1 x (f2 x hx))
      · intro x hx
        rcases i2 x hx with h1 | h1
        · rcases f3 x h1 with h2 | h2
          · exact Or.inl h2
          · exact Or.inr (List.mem_cons_of_mem _ (i1 x h2))
        · exact Or.inr (List.mem_cons_of_mem _ h1)

/-- The level loop of `dag_build`, from its start state on a graph with its
sink, ends with enough fuel, and it pops every task at least once. -/
theorem lvl_start_pops (g1 : dag) (hwf : dag_wf g1)
    (hsl : (node_at g1.nodes (g1.nodes.length - 1)).level = 0) :
    ∃ fuel st, lvl_loop fuel
        { nodes := g1.nodes, lvl_ready := [dag_sink g1],
          lvl_finished := (bitmap_set (bitmap_create (dag_size g1)) (dag_sink g1) true).1 } =
        some st ∧
      ∀ x, x < dag_size g1 → x ∈ lvl_pops fuel
        { nodes := g1.nodes, lvl_ready := [dag_sink g1],
          lvl_finished := (bitmap_set (bitmap_create (dag_size g1)) (dag_sink g1) true).1 } := by
  have hfin : ∀ x, bitmap_get
      (bitmap_set (bitmap_create (dag_size g1)) (dag_sink g1) true).1 x = true →
      x = g1.nodes.length - 1 := by
    intro x hx
    rw [bitmap_get_set, bitmap_get_create] at hx
    by_cases hxs : x = dag_sink g1
    · exact hxs
    · simp [hxs] at hx
  have hinv0 : lvl_inv g1.nodes
      { nodes := g1.nodes, lvl_ready := [dag_sink g1],
        lvl_finished := (bitmap_set (bitmap_create (dag_size g1)) (dag_sink g1) true).1 } := by
    refine ⟨⟨rfl, fun i => ⟨rfl, rfl, rfl⟩⟩, ?_, ?_, hsl, ?_⟩
    · intro x hx
      have := hfin x hx
      have := hwf.two
      omega
    · rw [bitmap_get_set]
      simp [dag_sink]
    · intro x hx hxs
      exact absurd (hfin x hx) hxs
  have hprog0 : lvl_progress g1.nodes
      (bitmap_set (bitmap_create (dag_size g1)) (dag_sink g1) true).1 [dag_sink g1] 0 [] := by
    intro q hne hall
    right
    left
    cases hs : (node_at g1.nodes q).succs with
    | nil => exact absurd hs hne
    | cons y rest =>
      have hy : y ∈ (node_at g1.nodes q).succs := by
        rw [hs]
        exact List.mem_cons_self _ _
      refine ⟨y, List.mem_cons_self _ _, ?_⟩
      have := hfin y (hall y hy)
      simp [dag_sink, this]
  obtain ⟨fuel0, st0, hrun0, hinvf, hprogf⟩ :=
    lvl_loop_terminates g1.nodes hwf.wf _ hinv0 hprog0
  obtain ⟨c1, c2⟩ := lvl_pops_cover g1.nodes hwf.wf fuel0 _ st0 hinv0 hrun0
  refine ⟨fuel0, st0, hrun0, ?_⟩
  intro x hx
  have hfx := lvl_all_finished g1 hwf st0.lvl_finished hinvf.sink_fin hprogf
    (g1.nodes.length - 1 - x) x (by unfold dag_size at hx; omega)
  rcases c2 x hfx with h | h
  · apply c1
    rw [hfin x h]
    exact List.mem_cons_self _ _
  · exact h

/-- During the level computation of `dag_build` on a graph made by
`dag_create` and `dag_vertex` calls the work-list loop terminates, and every
task is finalized at least once: it is pushed on the work list (the sink by
the seeding step, every other task by `lvl_visit`) and popped from it. -/
theorem dag_build_finalizes (calls : List (Int × List Nat)) (g0 : dag)
    (hv : dag_vertices calls dag_create = some g0) :
    ∃ fuel g pops, dag_build fuel g0 = some g ∧ dag_build_pops fuel g0 = some pops ∧
      ∀ x, x < dag_size g → x ∈ pops := by
  have hwf := dag_vertices_wf calls dag_create g0 hv nodes_wf_create
  have hb : g0.built = false := by
    rw [dag_vertices_built calls dag_create g0 hv]
    rfl
  have hex : ∀ d ∈ (if (exit_nodes g0).length = 0 then [0] else exit_nodes g0),
      d < g0.nodes.length := by
    intro d hd
    split at hd
    · simp only [List.mem_singleton] at hd
      rw [hd]
      exact hwf.pos
    · unfold exit_nodes at hd
      exact List.mem_range.1 (List.mem_filter.1 hd).1
  obtain ⟨⟨nodes1, n1⟩, hloop⟩ :=
    vertex_loop_some g0.nodes.length _ g0.nodes (node_init 0) hex
  have hvx : dag_vertex g0 0 (exit_nodes g0) =
      some ({ g0 with nodes := nodes1 ++ [n1] }, g0.nodes.length) := by
    unfold dag_vertex
    simp only [hloop]
  have hwf1 := sink_vertex_wf g0 _ _ hwf hvx
  obtain ⟨ds, hds, hlen, hlt, hA, hB, hC⟩ := dag_vertex_nodes g0 _ 0 _ _ hvx
  have hsl : (node_at ({ g0 with nodes := nodes1 ++ [n1] } : dag).nodes
      (({ g0 with nodes := nodes1 ++ [n1] } : dag).nodes.length - 1)).level = 0 := by
    rw [hlen, Nat.add_sub_cancel, hB]
  obtain ⟨fuel, st, hrun, hpops⟩ := lvl_start_pops _ hwf1 hsl
  obtain ⟨hshape, _⟩ := (lvl_loop_levels _ hwf1 hsl).2 fuel st hrun
  refine ⟨fuel, { nodes := st.nodes, built := true },
    lvl_pops fuel
      { nodes := ({ g0 with nodes := nodes1 ++ [n1] } : dag).nodes,
        lvl_ready := [dag_sink { g0 with nodes := nodes1 ++ [n1] }],
        lvl_finished := (bitmap_set (bitmap_create
          (dag_size { g0 with nodes := nodes1 ++ [n1] }))
          (dag_sink { g0 with nodes := nodes1 ++ [n1] }) true).1 }, ?_, ?_, ?_⟩
  · have hbuild : dag_build fuel g0 =
        match lvl_loop fuel
            { nodes := ({ g0 with nodes := nodes1 ++ [n1] } : dag).nodes,
              lvl_ready := [dag_sink { g0 with nodes := nodes1 ++ [n1] }],
              lvl_finished := (bitmap_set (bitmap_create
                (dag_size { g0 with nodes := nodes1 ++ [n1] }))
                (dag_sink { g0 with nodes := nodes1 ++ [n1] }) true).1 } with
        | none => none
        | some st => some { nodes := st.nodes, built := true } := by
      unfold dag_build
      rw [hvx]
      simp only [hb, Bool.not_false, if_true]
      try rfl
    rw [hbuild, hrun]
  · unfold dag_build_pops
    rw [hvx]
    simp only [hb, Bool.not_false, if_true]
  · intro x hx
    apply hpops
    unfold dag_size at hx ⊢
    rw [← hshape.1]
    exact hx

/-- The level loop on the calls of the fork graph. -/
theorem dag_build_finalizes_witness :
    ∃ fuel g pops, dag_build fuel ((dag_vertices calls_fork dag_create).getD dag_create) =
        some g ∧
      dag_build_pops fuel ((dag_vertices calls_fork dag_create).getD dag_create) = some pops ∧
      ∀ x, x < dag_size g → x ∈ pops :=
  dag_build_finalizes calls_fork _ (by decide)

set_option maxRecDepth 100000 in
/-- C25 (code bug): a task is not finalized exactly once during the level
computation of `dag_build`.  On two independent tasks (tasks 1 and 2 between
the source 0 and the sink 3) the level loop pops 3, 2, 0, 1, 0, so the source
is finalized and pushed twice: `lvl_visit` has no test of `lvl_finished` for
the predecessor, unlike `end_visit` and `start_visit`, and both visits, that
of task 2 and that of task 1, find every successor of the source finished. -/
theorem dag_build_finalizes_twice :
    (dag_vertices calls_two dag_create).bind (fun g0 => dag_build_pops 100 g0) =
        some [3, 2, 0, 1, 0] ∧
      (dag_make 100 calls_two).map dag_size = some 4 := by
  decide!


/-! ## Pruning with the Fernandez bound -/

theorem calls_prune_ok : calls_user_deps calls_prune ∧ calls_nonneg calls_prune ∧
    calls_total calls_prune < 2147483648 := by
  unfold calls_user_deps calls_nonneg calls_total calls_prune
  decide

set_option maxRecDepth 100000 in
/-- C26 fails on a task of weight 1 followed by two tasks of weight 1, next
to an independent task of weight 2, with two machines and no deadline: the
build that consults no bound returns 2, the build with Fernandez pruning
returns 3. The first complete order reached, 0, 1, 4, 2, 3, 5, has length 3;
with pruning the call on the prefix 0, 1, 2 then returns at once, its
Fernandez bound being 3, although the completion 0, 1, 2, 3, 4, 5 has
`schedule_length` 2, the value `schedule_compute` gives when it puts tasks 2
and 3 on one machine at the same time. -/
theorem bbsearch_fb_differs :
    dag_make 100 calls_prune = some (dag_of_calls calls_prune) ∧
      bbsearch list_heap (fun _ => 0) 1 10 (dag_of_calls calls_prune) 2 (-1) = some 2 ∧
      bbsearch_fb list_heap (fun _ => 0) 1 10 100 (fun _ => 0) (fun _ => 0)
        (dag_of_calls calls_prune) 2 (-1) = some 3 ∧
      list_makespan (dag_of_calls calls_prune) 2 [0, 1, 4, 2, 3, 5] = 3 ∧
      schedule_fernandez_bound list_heap (built_from calls_prune 2 [0, 1, 2]) = 3 ∧
      list_makespan (dag_of_calls calls_prune) 2 [0, 1, 2, 3, 4, 5] = 2 := by
  decide!


/-! ## Machines that hold two tasks at once -/

set_option maxRecDepth 100000 in
/-- C27 fails on the fork graph with two machines and the complete valid
order 0, 1, 2, 3, 4, 5: `schedule_compute` assigns the tasks 2, 3 and 4, each
of weight 1, to machine 0 with finish time 2, so the three of them occupy
machine 0 during `[1, 2)`. Each of them starts at the finish time 1 of its
predecessor, task 1, which is later than the time 0 at which machine 1 is
free, and is put on the machine of task 1 without a test that this machine
is free. -/
theorem schedule_compute_overlap :
    schedule_is_valid (schedule_of (dag_of_calls calls_fork) 2 [0, 1, 2, 3, 4, 5]) = true ∧
      [2, 3, 4].map (fun t =>
        ((compute_run (dag_of_calls calls_fork) 2 [0, 1, 2, 3, 4, 5]).assignments t,
          dag_weight (dag_of_calls calls_fork) t,
          (compute_run (dag_of_calls calls_fork) 2 [0, 1, 2, 3, 4, 5]).task_ends t)) =
        [(0, 1, 2), (0, 1, 2), (0, 1, 2)] ∧
      ((compute_run (dag_of_calls calls_fork) 2 [0, 1, 2, 3, 4, 5]).assignments 1,
        (compute_run (dag_of_calls calls_fork) 2 [0, 1, 2, 3, 4, 5]).task_ends 1) = (0, 1) ∧
      (schedule_compute (schedule_of (dag_of_calls calls_fork) 2 [0, 1, 2, 3, 4, 5])).1 = 2 := by
  decide!


/-! ## The latest starts of the tasks outside the order -/

/-- The accumulation of `start_visit` over a list: at most `INT_MAX`, at most
every entry, and it is `INT_MAX` or one of the entries. -/
theorem start_acc_aux (g : dag) (T : Nat) (vals : Nat → Nat) (l : List Nat) (a : Nat) :
    l.foldl (fun a p => (start_rule g T).op (vals p) a) a ≤ a ∧
      (∀ p ∈ l, l.foldl (fun a p => (start_rule g T).op (vals p) a) a ≤ vals p) ∧
      (l.foldl (fun a p => (start_rule g T).op (vals p) a) a = a ∨
        ∃ p ∈ l, l.foldl (fun a p => (start_rule g T).op (vals p) a) a = vals p) := by
  induction l generalizing a with
  | nil => simp
  | cons x rest ih =>
    simp only [List.foldl_cons]
    obtain ⟨h1, h2, h3⟩ := ih ((start_rule g T).op (vals x) a)
    have hop : (start_rule g T).op (vals x) a = if vals x < a then vals x else a := rfl
    have hle : (start_rule g T).op (vals x) a ≤ a ∧ (start_rule g T).op (vals x) a ≤ vals x := by
      rw [hop]
      split <;> omega
    refine ⟨le_trans h1 hle.1, ?_, ?_⟩
    · intro p hp
      rcases List.mem_cons.1 hp with h | h
      · rw [h]
        exact le_trans h1 hle.2
      · exact h2 p h
    · rcases h3 with h | ⟨p, hp, h⟩
      · rw [h, hop]
        by_cases hc : vals x < a
        · rw [if_pos hc]
          exact Or.inr ⟨x, List.mem_cons_self _ _, rfl⟩
        · rw [if_neg hc]
          exact Or.inl rfl
      · exact Or.inr ⟨p, List.mem_cons_of_mem _ hp, h⟩

theorem start_acc_spec (g : dag) (T : Nat) (vals : Nat → Nat) (l : List Nat) :
    rule_acc (start_rule g T) vals l ≤ 2147483647 ∧
      (∀ p ∈ l, rule_acc (start_rule g T) vals l ≤ vals p) ∧
      (rule_acc (start_rule g T) vals l = 2147483647 ∨
        ∃ p ∈ l, rule_acc (start_rule g T) vals l = vals p) := by
  have he : (start_rule g T).e = 2147483647 := by
    show to_unsigned INT_MAX = 2147483647
    decide
  unfold rule_acc
  rw [he]
  exact start_acc_aux g T vals l 2147483647

/-- On a built graph with non-negative weights that sum to less than `2^31`
an array that holds `T` at the sink and obeys the recurrence of `start_visit`
on the other tasks outside a predecessor-closed order holds `T - level(i)`
for every task `i` outside the order, when `level(source) <= T < 2^31`. -/
theorem max_starts_exact (calls : List (Int × List Nat)) (g : dag)
    (hb : built_graph calls g) (hnn : calls_nonneg calls)
    (htot : calls_total calls < 2147483648) (order : List Nat)
    (hcl : ∀ t ∈ order, ∀ p ∈ dag_preds g t, p ∈ order) (T : Nat)
    (hT1 : dag_level g (dag_source g) ≤ (T : Int)) (hT2 : T < 2147483648) (pre : Nat → Nat)
    (hsink : pre (dag_sink g) = T)
    (hrec : ∀ x, x < dag_size g → x ∉ order → x ≠ dag_sink g →
      pre x = start_value g T x (rule_acc (start_rule g T) pre (dag_succs g x))) :
    ∀ k x, x + k = dag_size g → 0 < k → x ∉ order →
      (pre x : Int) = (T : Int) - dag_level g x := by
  obtain ⟨_, hl0, hlev⟩ := built_levels_int calls g hb hnn htot
  have hw := built_weight_nonneg calls g hb hnn
  have hsrc := level_le_source calls g hb hnn htot
  intro k
  induction k using Nat.strong_induction_on with
  | _ k ih =>
    intro x hxk hk hx
    by_cases hxs : x = dag_sink g
    · rw [hxs, hsink, hl0]
      simp
    · have hx1 : x + 1 < g.nodes.length := by
        unfold dag_sink at hxs
        unfold dag_size at hxk
        omega
      rw [hrec x (by omega) hx hxs]
      obtain ⟨⟨s0, hs0, hs0l⟩, hall⟩ := hlev x hx1
      have hsucc : ∀ y ∈ dag_succs g x, (pre y : Int) = (T : Int) - dag_level g y := by
        intro y hy
        have hy1 : y < dag_size g := hb.wf.wf.succs_lt x y hy
        have hy2 : x < y := hb.wf.wf.preds_lt y x ((hb.wf.wf.mem_iff x y).1 hy)
        refine ih (dag_size g - y) (by omega) y (by omega) (by omega) ?_
        intro hyo
        exact hx (hcl y hyo x ((hb.wf.wf.mem_iff x y).1 hy))
      obtain ⟨a1, a2, a3⟩ := start_acc_spec g T pre (dag_succs g x)
      have hwx : 0 ≤ dag_weight g x := hw x
      have hlx : dag_level g x ≤ dag_level g 0 := hsrc x (by omega)
      have hls : ∀ y ∈ dag_succs g x, 0 ≤ dag_level g y := by
        intro y hy
        have := level_ge_weight calls g hb hnn htot y (hb.wf.wf.succs_lt x y hy)
        have := hw y
        show 0 ≤ dag_level g y
        unfold dag_weight dag_node at *
        omega
      have hacc : ((rule_acc (start_rule g T) pre (dag_succs g x) : Nat) : Int) =
          (T : Int) - dag_level g x + dag_weight g x := by
        have u1 := a2 s0 hs0
        have u2 := hsucc s0 hs0
        have hsrc0 : dag_source g = 0 := rfl
        rw [hsrc0] at hT1
        rcases a3 with h | ⟨p, hp, h⟩
        · have := hls s0 hs0
          omega
        · have v1 := hsucc p hp
          have v2 := hall p hp
          omega
      unfold start_value
      have hval : to_unsigned (((rule_acc (start_rule g T) pre (dag_succs g x) : Nat) : Int) -
          dag_weight g x) = ((T : Int) - dag_level g x).toNat := by
        rw [hacc]
        have hsrc0 : dag_source g = 0 := rfl
        rw [hsrc0] at hT1
        unfold to_unsigned
        congr 1
        have : (0 : Int) ≤ (T : Int) - dag_level g x := by omega
        have h2 : (T : Int) - dag_level g x + dag_weight g x - dag_weight g x =
            (T : Int) - dag_level g x := by ring
        rw [h2]
        exact Int.emod_eq_of_lt this (by
          have := hls s0 hs0
          omega)
      rw [hval]
      have hsrc0 : dag_source g = 0 := rfl
      rw [hsrc0] at hT1
      have hge : (0 : Int) ≤ (T : Int) - dag_level g x := by omega
      have hlx0 : 0 ≤ dag_level g x := by
        have := hls s0 hs0
        omega
      split
      · rw [Int.toNat_of_nonneg hge]
      · rename_i hnlt
        have : ((T : Int) - dag_level g x).toNat ≤ T := by omega
        have heq : ((T : Int) - dag_level g x).toNat = T := by omega
        omega

/-- C28 (amended): on a built graph with non-negative weights that sum to
less than `2^31`, for a valid prefix and a target `T` that is 0 or satisfies
`level(source) <= T < 2^31`, `schedule_build(S, T)` returns 0 and every task
`i` that is not in the order has
`schedule_max_start(S, i) = (T - level(i)) + (T - level(source))` when `T >= 1`
and `schedule_max_start(S, i) = level(source) - level(i)` when `T = 0`. -/
theorem schedule_max_start_spec (calls : List (Int × List Nat)) (gfuel : Nat) (s : schedule)
    (hmk : dag_make gfuel calls = some s.g) (hnn : calls_nonneg calls)
    (htot : calls_total calls < 2147483648) (hv : order_valid s.g s.order)
    (horder : ∀ t ∈ s.order, t < dag_size s.g) (fs fe : Nat → Nat) (T fuel : Nat)
    (hT : T = 0 ∨ (dag_level s.g (dag_source s.g) ≤ (T : Int) ∧ T < 2147483648))
    (hfuel : 2 * dag_size s.g + s.order.length + 1 < fuel) :
    ∃ s1, schedule_build_fujita fuel fs fe s T = some (s1, 0) ∧
      ∀ i, i < dag_size s.g → i ∉ s.order →
        (1 ≤ T → (schedule_max_start s1 i : Int) =
          ((T : Int) - dag_level s.g i) + ((T : Int) - dag_level s.g (dag_source s.g))) ∧
        (T = 0 → (schedule_max_start s1 i : Int) =
          dag_level s.g (dag_source s.g) - dag_level s.g i) := by
  have hbg := dag_make_built gfuel calls s.g hmk
  have hwf := hbg.wf
  have hcl : ∀ t ∈ s.order, ∀ p ∈ dag_preds s.g t, p ∈ s.order :=
    fun t ht p hp => order_valid_pred_mem s.g s.order hv t p ht hp
  obtain ⟨ms, me, hb, hms, _⟩ := schedule_build_fujita_some s hwf horder fs fe T fuel hfuel
  obtain ⟨ms1, pre, a1, a2, _, a4, _, a6⟩ := schedule_max_starts_spec s hwf horder
    (build_arrays fs fe s).1 (schedule_compute s).2 (build_target s T) fuel (by omega)
  rw [hms] at a1
  simp only [Option.some.injEq] at a1
  subst a1
  have hsrc0 : dag_source s.g = 0 := rfl
  have hL0 : 0 ≤ dag_level s.g (dag_source s.g) := by
    have h1 := level_ge_weight calls s.g hbg hnn htot 0 hwf.wf.pos
    have h2 := built_weight_nonneg calls s.g hbg hnn 0
    rw [hsrc0]
    unfold dag_weight dag_node at h1
    omega
  have hL1 : dag_level s.g (dag_source s.g) < 2147483648 := by
    unfold dag_level to_int
    split <;> omega
  have hTt : ((build_target s T : Nat) : Int) =
      if T = 0 then dag_level s.g (dag_source s.g) else (T : Int) := by
    unfold build_target
    by_cases h0 : T = 0
    · rw [if_pos h0, if_pos h0]
      exact to_unsigned_cast _ hL0 (by omega)
    · rw [if_neg h0, if_neg h0]
  have hT1 : dag_level s.g (dag_source s.g) ≤ ((build_target s T : Nat) : Int) := by
    rw [hTt]
    split
    · exact le_refl _
    · rcases hT with h | h
      · rename_i hne
        exact absurd h hne
      · exact h.1
  have hT2 : build_target s T < 2147483648 := by
    have : ((build_target s T : Nat) : Int) < 2147483648 := by
      rw [hTt]
      split
      · exact hL1
      · rcases hT with h | h
        · rename_i hne
          exact absurd h hne
        · exact_mod_cast h.2
    exact_mod_cast this
  have hpre := max_starts_exact calls s.g hbg hnn htot s.order hcl (build_target s T) hT1 hT2
    pre a4 (a6 hcl)
  have hdiff : start_diff s (build_target s T) =
      ((build_target s T : Nat) : Int) - dag_level s.g (dag_source s.g) := by
    unfold start_diff
    exact wrap_int_id _ (by omega) (by omega)
  refine ⟨_, hb, ?_⟩
  intro i hi hio
  have hp := hpre (dag_size s.g - i) i (by omega) (by omega) hio
  have hli : 0 ≤ dag_level s.g i := by
    have h1 := level_ge_weight calls s.g hbg hnn htot i hi
    have h2 := built_weight_nonneg calls s.g hbg hnn i
    unfold dag_weight dag_node at h1
    omega
  have hli2 : dag_level s.g i ≤ dag_level s.g (dag_source s.g) :=
    level_le_source calls s.g hbg hnn htot i hi
  have hval : ((ms i : Nat) : Int) =
      (((build_target s T : Nat) : Int) - dag_level s.g i) +
        (((build_target s T : Nat) : Int) - dag_level s.g (dag_source s.g)) := by
    rw [a2 i hi, hp, hdiff]
    apply to_unsigned_cast
    · omega
    · have : ((build_target s T : Nat) : Int) < 2147483648 := by exact_mod_cast hT2
      omega
  constructor
  · intro h1
    show ((ms i : Nat) : Int) = _
    rw [hval, hTt, if_neg (by omega)]
  · intro h0
    show ((ms i : Nat) : Int) = _
    rw [hval, hTt, if_pos h0]
    ring

theorem dag_make_test : dag_make 100 test_calls = some (dag_of_calls test_calls) := by
  decide

set_option maxRecDepth 100000 in
/-- Witness of C28 on the 11-task test graph, prefix `[source, g, a, c, d]`,
two machines, default target. -/
theorem schedule_max_start_spec_witness :
    ∃ s1, schedule_build_fujita 100 (fun _ => 0) (fun _ => 0)
        (schedule_of (dag_of_calls test_calls) 2 [0, 7, 1, 3, 4]) 0 = some (s1, 0) ∧
      ∀ i, i < dag_size (schedule_of (dag_of_calls test_calls) 2 [0, 7, 1, 3, 4]).g →
        i ∉ (schedule_of (dag_of_calls test_calls) 2 [0, 7, 1, 3, 4]).order →
        (1 ≤ 0 → (schedule_max_start s1 i : Int) =
          (((0 : Nat) : Int) -
              dag_level (schedule_of (dag_of_calls test_calls) 2 [0, 7, 1, 3, 4]).g i) +
            (((0 : Nat) : Int) -
              dag_level (schedule_of (dag_of_calls test_calls) 2 [0, 7, 1, 3, 4]).g
                (dag_source (schedule_of (dag_of_calls test_calls) 2 [0, 7, 1, 3, 4]).g))) ∧
        (0 = 0 → (schedule_max_start s1 i : Int) =
          dag_level (schedule_of (dag_of_calls test_calls) 2 [0, 7, 1, 3, 4]).g
              (dag_source (schedule_of (dag_of_calls test_calls) 2 [0, 7, 1, 3, 4]).g) -
            dag_level (schedule_of (dag_of_calls test_calls) 2 [0, 7, 1, 3, 4]).g i) :=
  schedule_max_start_spec test_calls 100
    (schedule_of (dag_of_calls test_calls) 2 [0, 7, 1, 3, 4]) dag_make_test
    (by unfold calls_nonneg test_calls; decide) (by unfold calls_total test_calls; decide)
    (schedule_is_valid_order _ (by decide!)) (by decide!) (fun _ => 0) (fun _ => 0) 0 100
    (Or.inl rfl) (by decide!)

set_option maxRecDepth 100000 in
/-- The values `test_schedule` asserts on the 11-task graph after
`schedule_build` on the prefix `[source, g, a, c, d]`: `max_start` of `g`, `a`,
`d`, `h`, `e` and of the sink is 0, 0, 4, 19, 7 and 48. -/
theorem test_max_starts :
    [7, 1, 4, 8, 5, 12].map (schedule_max_start (built_from test_calls 2 [0, 7, 1, 3, 4])) =
      [0, 0, 4, 19, 7, 48] := by
  decide!

set_option maxRecDepth 100000 in
/-- C28 as stated fails for a target of `2^31` or more: on a single task of
weight 1 with the valid prefix `[source]` and `T = 2^31 >= level(source) = 1`,
`schedule_build` leaves `max_start = 2^32 - 3` for the task, where
`(T - level(i)) + (T - level(source)) = 2^32 - 2`: `start_visit` starts its
minimum at `INT_MAX`, below the `max_start` of the sink. -/
theorem schedule_max_start_large_target :
    schedule_is_valid (schedule_of (dag_of_calls calls_one) 1 [0]) = true ∧
      (schedule_build_fujita 100 (fun _ => 0) (fun _ => 0)
        (schedule_of (dag_of_calls calls_one) 1 [0]) 2147483648).map
        (fun p => (p.2, schedule_max_start p.1 1)) = some (0, 4294967293) ∧
      dag_level (dag_of_calls calls_one) 1 = 1 ∧
      dag_level (dag_of_calls calls_one) (dag_source (dag_of_calls calls_one)) = 1 ∧
      ((2147483648 : Int) - dag_level (dag_of_calls calls_one) 1) +
        ((2147483648 : Int) -
          dag_level (dag_of_calls calls_one) (dag_source (dag_of_calls calls_one))) =
        4294967294 := by
  decide!


/-! ## Orders that are not valid -/

/-- On a valid order `schedule_compute` reads no entry of `task_ends` before
it has written it: every predecessor of a task stands before the task. -/
theorem valid_reads_written (g : dag) (order : List Nat) (hv : order_valid g order) :
    reads_unwritten g order = false := by
  unfold reads_unwritten
  rw [List.any_eq_false]
  intro i hi
  rw [List.mem_range] at hi
  rw [Bool.not_eq_true, List.any_eq_false]
  intro p hp
  have hget : order[i]? = some (order.getD i 0) := by
    rw [List.getD_eq_getElem?_getD, List.getElem?_eq_getElem hi]
    rfl
  obtain ⟨j, hj, hjp⟩ := hv i _ hget p hp
  have hmem : p ∈ order.take i := by
    rw [List.mem_iff_getElem?]
    refine ⟨j, ?_⟩
    rw [List.getElem?_take_of_lt hj]
    exact hjp
  simp [hmem]

set_option maxRecDepth 100000 in
/-- A dependency array that names the source next to a task lets `bb` run on
orders that are not valid prefixes.  On `calls_source_dep` (a task of weight
5, then a task of weight 1 with the dependencies 0 and 1) and two machines,
the first eleven calls of `bb` have the orders below; the eleventh,
`[source, sink]`, is not valid, and on it `schedule_compute` reads the entry
of `task_ends` of task 2, which it has neither cleared nor written, while on
the ten orders before it every entry read has been cleared or written. -/
theorem bb_reaches_unwritten :
    (dag_make 100 calls_source_dep).isSome = true ∧
      (bbsearch_trace list_heap (fun _ => 0) 1 10 (dag_of_calls calls_source_dep) 2 (-1)).map
        (fun p => (p.2.take 11).map (fun e =>
          (e.1.order, schedule_is_valid e.1,
            reads_unwritten (dag_of_calls calls_source_dep) e.1.order))) =
        some [([0], true, false), ([0, 1], true, false), ([0, 1, 2], true, false),
          ([0, 1, 2, 3], true, false), ([0, 2], false, false), ([0, 2, 1], false, false),
          ([0, 2, 1], false, false), ([0, 2, 1, 3], false, false), ([0, 2, 3], false, false),
          ([0, 2, 3, 2], false, false), ([0, 3], false, true)] := by
  decide!


/-! ## The three builds of the search -/

/-- The build without `FUJITA` is the function `bb`. -/
theorem bb_in_no_bound (be : bound_env) (env : bb_env) :
    ∀ fuel, bb_in bb_build.no_bound be env fuel = bb env fuel := by
  intro fuel
  induction fuel with
  | zero => rfl
  | succ fuel ih =>
    funext s ready_set best ticks
    rw [bb_in, bb, ih]
    rfl

/-- The build with `FUJITA` and `FB` is the function `bb_fb`. -/
theorem bb_in_fernandez (be : bound_env) (env : bb_env) :
    ∀ fuel, bb_in bb_build.fernandez be env fuel =
      bb_fb env be.bfuel be.fresh_starts be.fresh_ends fuel := by
  intro fuel
  induction fuel with
  | zero => rfl
  | succ fuel ih =>
    funext s ready_set best ticks
    rw [bb_in, bb_fb, ih]
    simp only [build_in, prune_in]
    split
    · rfl
    · cases hb : schedule_build_fujita be.bfuel be.fresh_starts be.fresh_ends s 0 with
      | none => rfl
      | some sb =>
        simp only
        split
        · rfl
        · split
          · rfl
          · by_cases hp : to_unsigned (schedule_fernandez_bound env.heap sb.1) ≥ best
            · simp [hp]
            · simp [hp]

theorem bbsearch_in_no_bound (be : bound_env) (heap : List (Nat × Int) → List Nat)
    (clock : Nat → Int) (cps : Int) (fuel : Nat) (g : dag) (m : Nat) (timeout : Int) :
    bbsearch_in bb_build.no_bound be heap clock cps fuel g m timeout =
      bbsearch heap clock cps fuel g m timeout := by
  unfold bbsearch_in bbsearch
  cases hadd : (schedule_create g m).bind (fun s0 => schedule_add s0 (dag_source g)) with
  | none => rfl
  | some p =>
    obtain ⟨s, c⟩ := p
    dsimp only
    rw [bb_in_no_bound]

theorem bbsearch_in_fernandez (be : bound_env) (heap : List (Nat × Int) → List Nat)
    (clock : Nat → Int) (cps : Int) (fuel : Nat) (g : dag) (m : Nat) (timeout : Int) :
    bbsearch_in bb_build.fernandez be heap clock cps fuel g m timeout =
      bbsearch_fb heap clock cps fuel be.bfuel be.fresh_starts be.fresh_ends g m timeout := by
  unfold bbsearch_in bbsearch_fb
  cases hadd : (schedule_create g m).bind (fun s0 => schedule_add s0 (dag_source g)) with
  | none => rfl
  | some p =>
    obtain ⟨s, c⟩ := p
    dsimp only
    rw [bb_in_fernandez]

/-- The loop of `bb` over ready tasks, for a recursive call that returns the
makespan of some completion or the best value so far. -/
theorem bb_loop_weak (g : dag) (hwf : dag_wf g) (m : Nat) (env : bb_env)
    (rec : schedule → bitmap → Nat → Nat → Option bb_result) (len : Nat)
    (hrec : ∀ s ready_set best ticks, bb_pre g m s ready_set → s.order.length = len + 1 →
      (best = UINT_MAX ∨ best < 2147483648) →
      ∃ r, rec s ready_set best ticks = some r ∧
        (bb_timed_out env ticks r ∨
          bb_weak g m env (completion g s.order) s ready_set best ticks r))
    (items : List Nat) :
    ∀ (s : schedule) (ready_set : bitmap) (best ticks : Nat), bb_pre g m s ready_set →
      s.order.length = len → (∀ x ∈ items, bitmap_get ready_set x = true) →
      (items ≠ [] ∨ best < 2147483648) → (best = UINT_MAX ∨ best < 2147483648) →
      ∃ r, bb_loop rec items s ready_set best ticks = some r ∧
        (bb_timed_out env ticks r ∨
          bb_weak g m env (fun o => ∃ x ∈ items, completion g (s.order ++ [x]) o)
            s ready_set best ticks r) := by
  induction items with
  | nil =>
    intro s ready_set best ticks _ _ _ hb _
    refine ⟨⟨to_int best, s, ready_set, ticks⟩, rfl, Or.inr ?_⟩
    have hb1 : best < 2147483648 := by
      rcases hb with h | h
      · exact absurd rfl h
      · exact h
    refine ⟨⟨rfl, rfl, rfl, rfl, rfl⟩, fun _ => rfl, le_refl _, ?_, best, ?_, hb1, le_refl _,
      Or.inl rfl⟩
    · intro j h1 h2
      simp only at h2
      omega
    · exact to_int_cast best hb1
  | cons x rest ih =>
    intro s ready_set best ticks hpre hlen hitems _ hbest
    have hx := hitems x (List.mem_cons_self _ _)
    obtain ⟨hadd, hpre1⟩ := bb_add_step g hwf m s ready_set hpre x hx
    obtain ⟨r1, hr1, hpost1⟩ := hrec (schedule_pushed s x) (ready_pushed s ready_set x) best ticks
      hpre1 (by simp [hlen]) hbest
    rw [bb_loop_cons rec x rest s ready_set best ticks 0 hadd, hr1]
    simp only
    rcases hpost1 with hto | hn
    · obtain ⟨h1, h2, h3, h4, h5⟩ := hto
      rw [if_pos (by rw [h2]; decide)]
      exact ⟨_, rfl, Or.inl ⟨h1, h2, h3, h4, h5⟩⟩
    · obtain ⟨hres, ht1, ht2, ht3, V1, hV1, hV1lt, hV1le, hV1ex⟩ := hn
      rw [if_neg (by rw [hV1]; omega)]
      obtain ⟨hready, s2, hpop, hs2o, hs2c, hs2g, hs2m⟩ :=
        bb_restore_step g hwf m s ready_set hpre x hx r1 hres
      rw [hpop]
      simp only
      rw [hready]
      have hconv : to_unsigned r1.value = V1 := by
        rw [hV1]
        unfold to_unsigned
        omega
      rw [hconv]
      have hpre2 : bb_pre g m s2 ready_set := by
        refine ⟨by rw [hs2g, hpre.hg], by rw [hs2m, hpre.hm], by rw [hs2o]; exact hpre.nodup,
          by rw [hs2o]; exact hpre.lt, by rw [hs2o]; exact hpre.valid, ?_,
          by rw [hs2o]; exact hpre.ready⟩
        intro i
        have := hpre.contents i
        unfold schedule_contains at this ⊢
        rw [hs2c, hs2o]
        exact this
      have hbest1 : (if best < V1 then best else V1) < 2147483648 := by
        split <;> omega
      obtain ⟨r, hr, hpost⟩ := ih s2 ready_set (if best < V1 then best else V1) r1.ticks hpre2
        (by rw [hs2o]; exact hlen) (fun y hy => hitems y (List.mem_cons_of_mem _ hy))
        (Or.inr hbest1) (Or.inr hbest1)
      refine ⟨r, hr, ?_⟩
      rcases hpost with hto | hn
      · obtain ⟨h1, h2, h3, h4, h5⟩ := hto
        left
        refine ⟨h1, h2, by omega, h4, ?_⟩
        apply clock_quiet_trans env ticks r1.ticks _ ht3 h5
      · obtain ⟨hres2, hu1, hu2, hu3, V, hV, hVlt, hVle, hVex⟩ := hn
        right
        obtain ⟨e1, e2, e3, e4, e5⟩ := hres2
        refine ⟨⟨by rw [e1, hs2o], by rw [e2, hs2c], by rw [e3, hs2g], by rw [e4, hs2m], e5⟩,
          ?_, by omega, clock_quiet_trans env ticks r1.ticks _ ht3 hu3, V, hV, hVlt, ?_, ?_⟩
        · intro hd
          rw [hu1 hd, ht1 hd]
        · have : (if best < V1 then best else V1) ≤ best := by
            split <;> omega
          omega
        · rcases hVex with h | ⟨o, ⟨y, hy, hyo⟩, ho⟩
          · by_cases hbv : best < V1
            · rw [if_pos hbv] at h
              exact Or.inl h
            · rw [if_neg hbv] at h
              rcases hV1ex with h1 | ⟨o, ho1, ho2⟩
              · left
                omega
              · right
                exact ⟨o, ⟨x, List.mem_cons_self _ _, ho1⟩, by omega⟩
          · right
            rw [hs2o] at hyo
            exact ⟨o, ⟨y, List.mem_cons_of_mem _ hy, hyo⟩, ho⟩

/-- A call of `bb` in the build `b` on a schedule that meets the entry
invariant returns; either it ran into the deadline, or it left the state as
it found it and its value is `best_soln` or the makespan of a completion of
the order, whichever it is below `2^31`. -/
theorem bb_in_spec (calls : List (Int × List Nat)) (g : dag) (hb : built_graph calls g)
    (hnn : calls_nonneg calls) (htot : calls_total calls < 2147483648) (m : Nat) (hm : 1 ≤ m)
    (b : bb_build) (be : bound_env) (env : bb_env) (hheap : binheap_spec env.heap)
    (hok : build_ok b be env.heap g m) :
    ∀ (fuel : Nat) (s : schedule) (ready_set : bitmap) (best ticks : Nat),
      bb_pre g m s ready_set → s.order ≠ [] → dag_size g + 1 ≤ s.order.length + fuel →
      (best = UINT_MAX ∨ best < 2147483648) →
      ∃ r, bb_in b be env fuel s ready_set best ticks = some r ∧
        (bb_timed_out env ticks r ∨
          bb_weak g m env (completion g s.order) s ready_set best ticks r) := by
  have hw : ∀ x, 0 ≤ dag_weight g x := built_weight_nonneg calls g hb hnn
  intro fuel
  induction fuel with
  | zero =>
    intro s ready_set best ticks hpre _ hfuel
    have := nodup_length_le s.order (dag_size g) hpre.nodup hpre.lt
    omega
  | succ fuel ih =>
    intro s ready_set best ticks hpre hne hfuel hbest
    rw [bb_in]
    by_cases hto : (env.do_timeout && decide (env.clock ticks ≥ env.end_time)) = true
    · rw [if_pos hto]
      simp only [Bool.and_eq_true, decide_eq_true_eq] at hto
      refine ⟨_, rfl, Or.inl ⟨hto.1, rfl, Nat.lt_succ_self _, ?_, ?_⟩⟩
      · exact hto.2
      · intro j h1 h2
        simp only [Nat.add_sub_cancel] at h2
        omega
    · rw [if_neg hto]
      simp only [Bool.and_eq_true, decide_eq_true_eq, not_and, not_le] at hto
      obtain ⟨s1, hs1, hsbo, hsbc, hsbg, hsbm, hsbl, hprune⟩ := hok s ready_set hpre hne
      have hquiet : clock_quiet env ticks (if env.do_timeout = true then ticks + 1 else ticks) := by
        intro j h1 h2
        by_cases hd : env.do_timeout = true
        · rw [if_pos hd] at h2
          have : j = ticks := by omega
          rw [this]
          exact hto hd
        · rw [if_neg hd] at h2
          omega
      rw [hs1]
      simp only [ne_eq, not_true_eq_false, if_false]
      by_cases hleaf : schedule_size s1 = dag_size (schedule_dag s1)
      · rw [if_pos hleaf]
        have hlen : s.order.length = dag_size g := by
          unfold schedule_size schedule_dag at hleaf
          rw [hsbo, hsbg, hpre.hg] at hleaf
          exact hleaf
        have hcomp : order_complete g s.order :=
          full_order_complete g s.order hpre.nodup hpre.lt hlen
        have hself : completion g s.order s.order := ⟨⟨[], by simp⟩, hcomp, hpre.valid⟩
        have hL : (list_makespan g m s.order : Int) < 2147483648 := by
          have h1 := list_makespan_le g m hm hw s.order
          have h2 := order_weight_le_total calls g hb hnn s.order hpre.nodup hpre.lt
          omega
        refine ⟨_, rfl, Or.inr ⟨⟨hsbo, hsbc, hsbg, hsbm, rfl⟩, ?_, ?_, hquiet,
          (if best < list_makespan g m s.order then best else list_makespan g m s.order),
          ?_, ?_, ?_, ?_⟩⟩
        · intro hd
          simp [hd]
        · show ticks ≤ (if env.do_timeout = true then ticks + 1 else ticks)
          split <;> omega
        · show to_int _ = _
          rw [hsbl]
          apply to_int_cast
          split <;> omega
        · split <;> omega
        · split <;> omega
        · by_cases hbl : best < list_makespan g m s.order
          · rw [if_pos hbl]
            exact Or.inl rfl
          · rw [if_neg hbl]
            exact Or.inr ⟨s.order, hself, rfl⟩
      · rw [if_neg hleaf]
        have hlen : s.order.length < dag_size g := by
          unfold schedule_size schedule_dag at hleaf
          rw [hsbo, hsbg, hpre.hg] at hleaf
          have := nodup_length_le s.order (dag_size g) hpre.nodup hpre.lt
          omega
        obtain ⟨s2, p, hp, hpo, hpc, hpg, hpm, hpb⟩ := hprune hlen best
        rw [hp]
        cases p with
        | true =>
          simp only
          have hb1 : best < 2147483648 := by
            rcases hbest with h | h
            · exact absurd h (hpb rfl)
            · exact h
          refine ⟨_, rfl, Or.inr ⟨⟨hpo, hpc, hpg, hpm, rfl⟩, ?_, ?_, hquiet, best,
            to_int_cast best hb1, hb1, le_refl _, Or.inl rfl⟩⟩
          · intro hd
            simp [hd]
          · show ticks ≤ (if env.do_timeout = true then ticks + 1 else ticks)
            split <;> omega
        | false =>
          simp only
          have hpre1 : bb_pre g m s2 ready_set := by
            refine ⟨by rw [hpg, hpre.hg], by rw [hpm, hpre.hm], by rw [hpo]; exact hpre.nodup,
              by rw [hpo]; exact hpre.lt, by rw [hpo]; exact hpre.valid, ?_,
              by rw [hpo]; exact hpre.ready⟩
            intro i
            have := hpre.contents i
            unfold schedule_contains at this ⊢
            rw [hpc, hpo]
            exact this
          have hdag : schedule_dag s2 = g := by
            unfold schedule_dag
            rw [hpg, hpre.hg]
          rw [hdag]
          have hmem := heap_items_mem env.heap hheap g ready_set
          have hne2 : env.heap (ready_items g ready_set) ≠ [] := by
            obtain ⟨y, hy1, hy2, hy3⟩ := exists_ready g hb.wf s.order hlen
            have : y ∈ env.heap (ready_items g ready_set) :=
              (hmem y).2 ⟨hy1, (hpre.ready y).2 ⟨hy1, hy2, hy3⟩⟩
            intro h
            rw [h] at this
            simp at this
          obtain ⟨r, hr, hpost⟩ := bb_loop_weak g hb.wf m env (bb_in b be env fuel)
            s.order.length
            (fun sa rs1 b1 t1 hp1 hl1 hb1 => ih sa rs1 b1 t1 hp1
              (by intro h; rw [h] at hl1; simp at hl1) (by omega) hb1)
            (env.heap (ready_items g ready_set)) s2 ready_set best
            (if env.do_timeout = true then ticks + 1 else ticks) hpre1 (by rw [hpo])
            (fun x hx => ((hmem x).1 hx).2) (Or.inl hne2) hbest
          refine ⟨r, hr, ?_⟩
          rcases hpost with hto2 | hn
          · obtain ⟨h1, h2, h3, h4, h5⟩ := hto2
            left
            rw [if_pos h1] at h3 h5
            rw [if_pos h1] at hquiet
            exact ⟨h1, h2, by omega, h4, clock_quiet_trans env ticks (ticks + 1) _ hquiet h5⟩
          · obtain ⟨hres, hu1, hu2, hu3, V, hV, hVlt, hVle, hVex⟩ := hn
            right
            obtain ⟨e1, e2, e3, e4, e5⟩ := hres
            refine ⟨⟨by rw [e1, hpo], by rw [e2, hpc], by rw [e3, hpg], by rw [e4, hpm], e5⟩,
              ?_, ?_, clock_quiet_trans env ticks _ _ hquiet hu3, V, hV, hVlt, hVle, ?_⟩
            · intro hd
              rw [hu1 hd]
              simp [hd]
            · have : ticks ≤ (if env.do_timeout = true then ticks + 1 else ticks) := by
                split <;> omega
              omega
            · rcases hVex with h | ⟨o, ⟨y, _, hyo⟩, ho⟩
              · exact Or.inl h
              · right
                refine ⟨o, ?_, ho⟩
                obtain ⟨⟨rest, hrest⟩, hc, hv⟩ := hyo
                exact ⟨⟨y :: rest, by rw [hrest, hpo]; simp⟩, hc, hv⟩

/-- The sum of the weights of the graph is at most the sum over the calls. -/
theorem total_weight_le_calls (calls : List (Int × List Nat)) (g : dag)
    (hb : built_graph calls g) (hnn : calls_nonneg calls) :
    total_weight g ≤ calls_total calls :=
  order_weight_le_total calls g hb hnn (List.range (dag_size g)) (List.nodup_range _)
    (fun _ ht => List.mem_range.1 ht)

/-- The coordinates `schedule_build` leaves for the target
`level(source) + delta`, as `fujita_bound` calls it: on a built graph with
non-negative weights of sum `W`, for a valid non-empty order of distinct
tasks and `W + level(source) + 2 * delta` below `2^31`, every `max_start` lies
between `delta` and `W + level(source) + 2 * delta` and every `min_end` is at
most `W + level(source)`. -/
theorem build_coords (calls : List (Int × List Nat)) (s : schedule)
    (hb : built_graph calls s.g) (hnn : calls_nonneg calls)
    (htot : calls_total calls < 2147483648) (hm : 1 ≤ s.m)
    (hne : s.order ≠ []) (hv : order_valid s.g s.order) (hnd : s.order.Nodup)
    (horder : ∀ t ∈ s.order, t < dag_size s.g) (fs fe : Nat → Nat) (delta fuel : Nat)
    (hd : 1 ≤ delta)
    (hno : calls_total calls + dag_level s.g (dag_source s.g) + 2 * (delta : Int) <
      2147483648)
    (hfuel : 2 * dag_size s.g + s.order.length + 1 < fuel) :
    ∃ s1, schedule_build_fujita fuel fs fe s
        (to_unsigned (dag_level s.g (dag_source s.g) + (delta : Int))) = some (s1, 0) ∧
      s1.order = s.order ∧ s1.contents = s.contents ∧ s1.g = s.g ∧ s1.m = s.m ∧
      ∀ k, k < dag_size s.g →
        (delta : Int) ≤ schedule_max_start s1 k ∧
        (schedule_max_start s1 k : Int) ≤
          calls_total calls + dag_level s.g (dag_source s.g) + 2 * (delta : Int) ∧
        (schedule_min_end s1 k : Int) ≤ calls_total calls + dag_level s.g (dag_source s.g) := by
  have hwf := hb.wf
  have hw := built_weight_nonneg calls s.g hb hnn
  have hW := order_weight_le_total calls s.g hb hnn s.order hnd horder
  have hW0 := order_weight_nonneg s.g hw s.order
  have h0 := valid_has_source s.g hwf s.order hne hv horder
  have hcl : ∀ t ∈ s.order, ∀ p ∈ dag_preds s.g t, p ∈ s.order :=
    fun t ht p hp => order_valid_pred_mem s.g s.order hv t p ht hp
  have hsrc0 : dag_source s.g = 0 := rfl
  have hL0 : 0 ≤ dag_level s.g (dag_source s.g) := by
    have h1 := level_ge_weight calls s.g hb hnn htot 0 hwf.wf.pos
    have h2 := built_weight_nonneg calls s.g hb hnn 0
    rw [hsrc0]
    unfold dag_weight dag_node at h1
    omega
  have hTc : ((to_unsigned (dag_level s.g (dag_source s.g) + (delta : Int)) : Nat) : Int) =
      dag_level s.g (dag_source s.g) + (delta : Int) :=
    to_unsigned_cast _ (by omega) (by omega)
  generalize hTdef : to_unsigned (dag_level s.g (dag_source s.g) + (delta : Int)) = T at hTc
  have hTpos : T ≠ 0 := by
    intro h
    rw [h] at hTc
    simp at hTc
    omega
  have hbt : build_target s T = T := by
    unfold build_target
    rw [if_neg hTpos]
  obtain ⟨ms, me, hbuild, hms, hme⟩ := schedule_build_fujita_some s hwf horder fs fe T fuel hfuel
  obtain ⟨ms1, pre, a1, a2, _, a4, a5, a6⟩ := schedule_max_starts_spec s hwf horder
    (build_arrays fs fe s).1 (schedule_compute s).2 (build_target s T) fuel (by omega)
  rw [hms] at a1
  simp only [Option.some.injEq] at a1
  subst a1
  obtain ⟨me1, hme1, hseed, _, hval⟩ := schedule_min_ends_spec s hwf horder
    (build_arrays fs fe s).2 (schedule_compute s).2 fuel (by omega)
  rw [hme] at hme1
  have hmeeq : me = me1 := Option.some.inj hme1
  subst hmeeq
  rw [hbt] at a2 a4 a6
  have hex := min_ends_exact calls s hb hnn htot hm h0 hnd horder me hseed (hval h0)
  obtain ⟨hprec, _, _⟩ := compute_run_prec s.g s.m hm hw s.order hv hnd (by omega)
  obtain ⟨hte, _, _⟩ := compute_run_bound s.g s.m hm hw s.order
  have hpre := max_starts_exact calls s.g hb hnn htot s.order hcl T (by omega)
    (by omega) pre a4 (a6 hcl)
  have hdiff : start_diff s T = (delta : Int) := by
    unfold start_diff
    rw [hTc]
    have : dag_level s.g (dag_source s.g) + (delta : Int) - dag_level s.g (dag_source s.g) =
        (delta : Int) := by ring
    rw [this]
    exact wrap_int_id _ (by omega) (by omega)
  refine ⟨_, hbuild, rfl, rfl, rfl, rfl, ?_⟩
  intro k hk
  have hlk : 0 ≤ dag_level s.g k ∧ dag_weight s.g k ≤ dag_level s.g k := by
    have h1 := level_ge_weight calls s.g hb hnn htot k hk
    have h2 := built_weight_nonneg calls s.g hb hnn k
    unfold dag_weight dag_node at h1 ⊢
    omega
  have hlk2 : dag_level s.g k ≤ dag_level s.g (dag_source s.g) :=
    level_le_source calls s.g hb hnn htot k hk
  have hmek : (me k : Int) ≤ calls_total calls + dag_level s.g (dag_source s.g) := by
    have := (hex k hk).1
    rw [hsrc0]
    omega
  have hprek : (0 : Int) ≤ pre k ∧
      (pre k : Int) ≤ calls_total calls + dag_level s.g (dag_source s.g) + (delta : Int) := by
    by_cases hks : k = dag_sink s.g
    · rw [hks, a4, hTc]
      omega
    · by_cases hko : k ∈ s.order
      · rw [a5 k hko hks]
        have hle : dag_weight s.g k ≤
            (((schedule_compute s).2 k : Nat) : Int) := by
          by_cases hk0 : k = 0
          · have := built_source_weight calls s.g hb
            rw [hk0]
            unfold dag_weight dag_node
            rw [this]
            exact Int.ofNat_nonneg _
          · have hpne := hwf.wf.preds_ne k (by omega) hk
            cases hps : (node_at s.g.nodes k).preds with
            | nil => exact absurd hps hpne
            | cons p ps =>
              have hpm : p ∈ dag_preds s.g k := by
                show p ∈ (node_at s.g.nodes k).preds
                rw [hps]
                exact List.mem_cons_self _ _
              have := hprec k hko p hpm
              show dag_weight s.g k ≤ (((compute_run s.g s.m s.order).task_ends k : Nat) : Int)
              omega
        have hub : (((schedule_compute s).2 k : Nat) : Int) ≤ order_weight s.g s.order :=
          hte k
        have hwk := hw k
        have hc : ((to_unsigned ((((schedule_compute s).2 k : Nat) : Int) - dag_weight s.g k) :
            Nat) : Int) = (((schedule_compute s).2 k : Nat) : Int) - dag_weight s.g k :=
          to_unsigned_cast _ (by omega) (by
            unfold dag_weight dag_node
            omega)
        rw [hc]
        unfold dag_weight dag_node at hle ⊢
        omega
      · rw [hpre (dag_size s.g - k) k (by omega) (by omega) hko, hTc]
        omega
  have hmsk : ((ms k : Nat) : Int) = (pre k : Int) + (delta : Int) := by
    rw [a2 k hk, hdiff]
    exact to_unsigned_cast _ (by omega) (by omega)
  refine ⟨?_, ?_, hmek⟩
  · show (delta : Int) ≤ ((ms k : Nat) : Int)
    omega
  · show ((ms k : Nat) : Int) ≤ _
    omega

theorem any_map_pair (p : Nat → Nat → Bool) (a : Nat) (l : List Nat) :
    (l.map (fun b => (a, b))).any (fun q => p q.1 q.2) = l.any (p a) := by
  induction l with
  | nil => rfl
  | cons b bs ih =>
    simp only [List.any_cons, List.map_cons]
    rw [ih]

theorem pairs_any_eq (p : Nat → Nat → Bool) (c : List Nat) :
    pairs_any p c = (index_pairs c).any (fun q => p q.1 q.2) := by
  induction c with
  | nil => rfl
  | cons a rest ih =>
    simp only [pairs_any, index_pairs, List.any_append, ih, any_map_pair]

theorem fold_max_ge (qs : List Int) (a : Int) :
    a ≤ qs.foldl (fun mx q => if q > mx then q else mx) a ∧
      ∀ q ∈ qs, q ≤ qs.foldl (fun mx q => if q > mx then q else mx) a := by
  induction qs generalizing a with
  | nil => exact ⟨le_refl _, fun q hq => absurd hq (List.not_mem_nil q)⟩
  | cons x rest ih =>
    simp only [List.foldl_cons]
    obtain ⟨h1, h2⟩ := ih (if x > a then x else a)
    refine ⟨?_, ?_⟩
    · have : a ≤ (if x > a then x else a) := by
        split <;> omega
      omega
    · intro q hq
      rcases List.mem_cons.1 hq with h | h
      · rw [h]
        have : x ≤ (if x > a then x else a) := by
          split <;> omega
        omega
      · exact h2 q h

/-- No division of `schedule_machine_bound` traps when every coordinate is
below `2^31`: the interval of two entries of the coordinate list is
positive. -/
theorem machine_bound_no_trap (heap : List (Nat × Int) → List Nat) (hheap : binheap_spec heap)
    (s : schedule)
    (hc : ∀ k, k < dag_size s.g →
      schedule_max_start s k < 2147483648 ∧ schedule_min_end s k < 2147483648) :
    machine_bound_traps heap s = false := by
  obtain ⟨hsorted, hmem⟩ := get_comp_list_sorted heap hheap s hc
  unfold machine_bound_traps
  rw [pairs_any_eq, List.any_eq_false]
  intro q hq
  obtain ⟨h1, h2, h3⟩ := index_pairs_mem _ hsorted q hq
  have hb := (hmem q.2 h3).1
  have hI : to_int (to_unsigned ((q.2 : Int) - (q.1 : Int))) = (q.2 : Int) - (q.1 : Int) :=
    wrap_int_id _ (by omega) (by omega)
  unfold machine_traps
  rw [hI]
  simp only [Bool.or_eq_true, Bool.and_eq_true, decide_eq_true_eq, not_or, not_and]
  constructor
  · omega
  · intro _
    omega

/-- The value `cur_m` of `schedule_machine_bound` is 0 or 1 when the work
density is between 0 and the interval. -/
theorem machine_m_small (s : schedule) (ci cj : Nat) (hcij : ci < cj) (hcj : cj < 2147483648)
    (h0 : 0 ≤ work_density s ci cj)
    (h1 : work_density s ci cj ≤ (cj : Int) - (ci : Int)) :
    0 ≤ machine_m s ci cj ∧ machine_m s ci cj ≤ 1 := by
  have hI : to_int (to_unsigned ((cj : Int) - (ci : Int))) = (cj : Int) - (ci : Int) :=
    wrap_int_id _ (by omega) (by omega)
  unfold machine_m
  rw [hI]
  generalize work_density s ci cj = W at h0 h1
  have hIpos : (0 : Int) < (cj : Int) - (ci : Int) := by omega
  generalize (cj : Int) - (ci : Int) = I at h1 hIpos hI
  rw [Int.tdiv_eq_ediv h0 (le_of_lt hIpos), Int.tmod_eq_emod h0 (le_of_lt hIpos)]
  by_cases hWI : W = I
  · rw [hWI, Int.ediv_self (by omega), Int.emod_self]
    simp only [bne_self_eq_false, Bool.false_eq_true, if_false, add_zero]
    rw [wrap_int_id 1 (by decide) (by decide)]
    exact ⟨by decide, le_refl _⟩
  · have hlt : W < I := by omega
    rw [Int.ediv_eq_zero_of_lt h0 hlt, Int.emod_eq_of_lt h0 hlt]
    by_cases hW0 : W = 0
    · rw [hW0]
      simp only [bne_self_eq_false, Bool.false_eq_true, if_false, add_zero]
      rw [wrap_int_id 0 (by decide) (by decide)]
      exact ⟨le_refl _, by decide⟩
    · have hne : (W != 0) = true := by simp [hW0]
      rw [hne]
      simp only [if_true, zero_add]
      rw [wrap_int_id 1 (by decide) (by decide)]
      exact ⟨by decide, le_refl _⟩

/-- The work density of the specification is 0 when no task has its
`max_start` below `c_j` and its `min_end` above `c_i`. -/
theorem spec_work_zero (s : schedule) (ci cj : Int)
    (h : ∀ k, k < dag_size s.g →
      ¬ ((schedule_max_start s k : Int) < cj ∧ (schedule_min_end s k : Int) > ci)) :
    spec_work s ci cj = 0 := by
  unfold spec_work
  apply List.sum_eq_zero
  intro x hx
  obtain ⟨k, hk, rfl⟩ := List.mem_map.1 hx
  rw [if_neg (h k (List.mem_range.1 hk))]

/-- The test of `fujita_bound` accepts a schedule whose `max_start` values
all lie `W + B` or more above 0 and whose `min_end` values are at most `B`,
`W` being the sum of the weights: every interval of the coordinate list that
holds work is at least as long as the work. -/
theorem machines_suffice_gap (heap : List (Nat × Int) → List Nat) (hheap : binheap_spec heap)
    (s : schedule) (hm : 1 ≤ s.m) (hpos : 0 < dag_size s.g)
    (hw : ∀ k, k < dag_size s.g → 0 ≤ dag_weight s.g k)
    (htot : total_weight s.g < 2147483648) (B delta : Int) (hB : B < delta)
    (hgap : total_weight s.g + B ≤ delta)
    (hc : ∀ k, k < dag_size s.g →
      delta ≤ schedule_max_start s k ∧ schedule_max_start s k < 2147483648 ∧
        (schedule_min_end s k : Int) ≤ B) :
    machines_suffice heap s = true := by
  have hc1 : ∀ k, k < dag_size s.g →
      schedule_max_start s k < 2147483648 ∧ schedule_min_end s k < 2147483648 := by
    intro k hk
    obtain ⟨h1, h2, h3⟩ := hc k hk
    exact ⟨h2, by omega⟩
  obtain ⟨hsorted, hmem⟩ := get_comp_list_sorted heap hheap s hc1
  have hpair : ∀ q ∈ index_pairs (get_comp_list heap s),
      0 ≤ machine_m s q.1 q.2 ∧ machine_m s q.1 q.2 ≤ 1 := by
    intro q hq
    obtain ⟨h1, h2, h3⟩ := index_pairs_mem _ hsorted q hq
    obtain ⟨hb2, k2, hk2, hv2⟩ := hmem q.2 h3
    obtain ⟨hb1, k1, hk1, hv1⟩ := hmem q.1 h2
    obtain ⟨e1, e2, e3⟩ := work_density_exact s q.1 q.2 h1 hb2 (fun k hk => (hc1 k hk).2) hw htot
    apply machine_m_small s q.1 q.2 h1 hb2 e2
    by_cases hlow : (q.2 : Int) < delta
    · rw [e1, spec_work_zero s _ _ (fun k hk => by
        have := (hc k hk).1
        omega)]
      omega
    · by_cases hhigh : B < (q.1 : Int)
      · rw [e1, spec_work_zero s _ _ (fun k hk => by
          have := (hc k hk).2.2
          omega)]
        omega
      · have : (q.2 : Int) - (q.1 : Int) ≥ delta - B := by omega
        omega
  have hne : ∃ q, q ∈ index_pairs (get_comp_list heap s) := by
    obtain ⟨i1, i2⟩ := get_comp_list_complete heap hheap s 0 hpos
    have hlt : schedule_min_end s 0 < schedule_max_start s 0 := by
      obtain ⟨h1, h2, h3⟩ := hc 0 hpos
      have : ((schedule_min_end s 0 : Nat) : Int) < ((schedule_max_start s 0 : Nat) : Int) := by
        omega
      exact_mod_cast this
    generalize get_comp_list heap s = c at hsorted i1 i2
    clear hpair hmem
    induction c with
    | nil => simp at i1
    | cons a rest ih =>
      cases rest with
      | nil =>
        simp only [List.mem_singleton] at i1 i2
        omega
      | cons b rest2 =>
        exact ⟨(a, b), by simp [index_pairs]⟩
  obtain ⟨q, hq⟩ := hne
  have hv : 0 ≤ schedule_machine_bound heap s ∧ schedule_machine_bound heap s ≤ 1 := by
    unfold schedule_machine_bound
    rw [pairs_max_eq]
    constructor
    · exact le_trans (hpair q hq).1
        ((fold_max_ge _ INT_MIN).2 (machine_m s q.1 q.2) (List.mem_map.2 ⟨q, hq, rfl⟩))
    · apply fold_max_le
      · decide
      · intro x hx
        obtain ⟨p, hp, rfl⟩ := List.mem_map.1 hx
        exact (hpair p hp).2
  unfold machines_suffice schedule_m
  rw [decide_eq_true_eq]
  generalize schedule_machine_bound heap s = v at hv
  have hcast : ((to_unsigned v : Nat) : Int) = v := to_unsigned_cast v hv.1 (by omega)
  have : ((to_unsigned v : Nat) : Int) ≤ (s.m : Int) := by
    rw [hcast]
    omega
  exact_mod_cast this

theorem fujita_pre_keeps (calls : List (Int × List Nat)) (s s1 : schedule)
    (h : fujita_pre calls s) (hg : s1.g = s.g) (hm : s1.m = s.m) (ho : s1.order = s.order) :
    fujita_pre calls s1 :=
  ⟨by rw [hg]; exact h.built, by rw [hm]; exact h.hm, by rw [ho]; exact h.ne,
    by rw [hg, ho]; exact h.valid, by rw [ho]; exact h.nodup, by rw [hg, ho]; exact h.lt⟩

/-- What a call of `schedule_build` made by `fujita_bound` with the target
`level(source) + delta` leaves, `W` being the sum over the calls: no division
of `schedule_machine_bound` traps, and the test of `fujita_bound` accepts when
`delta` exceeds `2 * W + level(source)`. -/
theorem fujita_step (calls : List (Int × List Nat)) (hnn : calls_nonneg calls)
    (htot : calls_total calls < 2147483648)
    (heap : List (Nat × Int) → List Nat) (hheap : binheap_spec heap) (bfuel : Nat)
    (fs fe : Nat → Nat) (s : schedule) (hpre : fujita_pre calls s)
    (hbf : 2 * dag_size s.g + s.order.length + 1 < bfuel) (delta : Nat) (hd : 1 ≤ delta)
    (hno : calls_total calls + dag_level s.g (dag_source s.g) + 2 * (delta : Int) <
      2147483648) :
    ∃ s1, schedule_build_fujita bfuel fs fe s
        (to_unsigned (dag_level s.g (dag_source s.g) + (delta : Int))) = some (s1, 0) ∧
      s1.order = s.order ∧ s1.contents = s.contents ∧ s1.g = s.g ∧ s1.m = s.m ∧
      machine_bound_traps heap s1 = false ∧
      (2 * calls_total calls + dag_level s.g (dag_source s.g) < (delta : Int) →
        machines_suffice heap s1 = true) := by
  obtain ⟨s1, hb1, ho, hc, hg, hm, hco⟩ := build_coords calls s hpre.built hnn htot hpre.hm
    hpre.ne hpre.valid hpre.nodup hpre.lt fs fe delta bfuel hd hno hbf
  have hw := built_weight_nonneg calls s.g hpre.built hnn
  have hW := total_weight_le_calls calls s.g hpre.built hnn
  have hL0 : 0 ≤ dag_level s.g (dag_source s.g) := by
    have h1 := level_ge_weight calls s.g hpre.built hnn htot 0 hpre.built.wf.wf.pos
    have h2 := hw 0
    have hsrc0 : dag_source s.g = 0 := rfl
    rw [hsrc0]
    unfold dag_weight dag_node at h1
    omega
  have hW0 : 0 ≤ total_weight s.g := total_weight_nonneg s.g (fun k _ => hw k)
  refine ⟨s1, hb1, ho, hc, hg, hm, ?_, ?_⟩
  · apply machine_bound_no_trap heap hheap s1
    intro k hk
    rw [hg] at hk
    obtain ⟨h1, h2, h3⟩ := hco k hk
    constructor <;> omega
  · intro hacc
    apply machines_suffice_gap heap hheap s1 (by rw [hm]; exact hpre.hm)
      (by rw [hg]; exact hpre.built.wf.wf.pos) (by rw [hg]; exact fun k _ => hw k)
      (by rw [hg]; omega) (calls_total calls + dag_level s.g (dag_source s.g)) (delta : Int)
      (by omega) (by rw [hg]; omega)
    intro k hk
    rw [hg] at hk
    obtain ⟨h1, h2, h3⟩ := hco k hk
    refine ⟨h1, by omega, h3⟩

/-- The first loop of `fujita_bound` returns: it stops at the latest at the
first `delta` that exceeds `2 * W + level(source)`, `W` being the sum over the
calls, provided no target met on the way reaches `2^31`. -/
theorem fujita_double_some (calls : List (Int × List Nat)) (hnn : calls_nonneg calls)
    (htot : calls_total calls < 2147483648)
    (heap : List (Nat × Int) → List Nat) (hheap : binheap_spec heap) (bfuel : Nat)
    (fs fe : Nat → Nat) (g : dag) (D : Nat)
    (hD1 : 2 * calls_total calls + dag_level g (dag_source g) < (D : Int))
    (hD2 : calls_total calls + dag_level g (dag_source g) + 4 * (D : Int) < 2147483648) :
    ∀ (fuel : Nat) (s : schedule) (delta : Nat), fujita_pre calls s → s.g = g →
      2 * dag_size s.g + s.order.length + 1 < bfuel → 1 ≤ delta → delta < 2 * D →
      D ≤ delta * 2 ^ fuel →
      ∃ s1 d1, fujita_double heap bfuel fs fe (fuel + 1) s delta = some (s1, d1) ∧
        s1.order = s.order ∧ s1.contents = s.contents ∧ s1.g = s.g ∧ s1.m = s.m ∧
        delta ≤ d1 ∧ d1 < 2 * D := by
  intro fuel
  induction fuel with
  | zero =>
    intro s delta hpre hg hbf hd hlt hpow
    rw [← hg] at hD1 hD2
    obtain ⟨s1, hb1, ho, hc, hg1, hm, htrap, hacc⟩ := fujita_step calls hnn htot heap hheap bfuel
      fs fe s hpre hbf delta hd (by omega)
    have hok := hacc (by
      simp only [pow_zero, mul_one] at hpow
      omega)
    refine ⟨s1, delta, ?_, ho, hc, hg1, hm, le_refl _, hlt⟩
    rw [fujita_double, hb1]
    simp only [htrap, hok, Bool.false_eq_true, if_false, if_true]
  | succ fuel ih =>
    intro s delta hpre hg hbf hd hlt hpow
    have hD1s := hD1
    have hD2s := hD2
    rw [← hg] at hD1s hD2s
    have hWnn : 0 ≤ calls_total calls :=
      le_trans (total_weight_nonneg s.g (fun k _ => built_weight_nonneg calls s.g hpre.built hnn k))
        (total_weight_le_calls calls s.g hpre.built hnn)
    have hLlow : -2147483648 ≤ dag_level s.g (dag_source s.g) := by
      unfold dag_level to_int
      split <;> omega
    obtain ⟨s1, hb1, ho, hc, hg1, hm, htrap, hacc⟩ := fujita_step calls hnn htot heap hheap bfuel
      fs fe s hpre hbf delta hd (by omega)
    rw [fujita_double, hb1]
    simp only [htrap, Bool.false_eq_true, if_false]
    by_cases hok : machines_suffice heap s1 = true
    · rw [if_pos hok]
      exact ⟨s1, delta, rfl, ho, hc, hg1, hm, le_refl _, hlt⟩
    · rw [if_neg hok]
      have hsmall : delta < D := by
        by_contra hge
        apply hok
        apply hacc
        omega
      have hdbl : to_unsigned ((delta : Int) * 2) = delta * 2 := by
        have : ((to_unsigned ((delta : Int) * 2) : Nat) : Int) = (delta : Int) * 2 :=
          to_unsigned_cast _ (by omega) (by omega)
        exact_mod_cast this
      rw [hdbl, if_neg (by omega)]
      obtain ⟨s2, d2, h2, ho2, hc2, hg2, hm2, hle2, hlt2⟩ := ih s1 (delta * 2)
        (fujita_pre_keeps calls s s1 hpre hg1 hm ho) (by rw [hg1, hg])
        (by rw [hg1, ho]; exact hbf) (by omega) (by omega)
        (by rw [pow_succ] at hpow; calc D ≤ delta * (2 ^ fuel * 2) := hpow
          _ = delta * 2 * 2 ^ fuel := by ring)
      exact ⟨s2, d2, h2, by rw [ho2, ho], by rw [hc2, hc], by rw [hg2, hg1], by rw [hm2, hm],
        by omega, hlt2⟩

/-- The binary search of `fujita_bound` returns: every target it builds lies
above `level(source)` and below `2^31`, and the gap between `low_time` and
`high_time` halves. -/
theorem fujita_search_some (calls : List (Int × List Nat)) (hnn : calls_nonneg calls)
    (htot : calls_total calls < 2147483648)
    (heap : List (Nat × Int) → List Nat) (hheap : binheap_spec heap) (bfuel : Nat)
    (fs fe : Nat → Nat) (g : dag) :
    ∀ (fuel : Nat) (s : schedule) (low high best : Int), fujita_pre calls s → s.g = g →
      2 * dag_size s.g + s.order.length + 1 < bfuel →
      dag_level g (dag_source g) ≤ low → low < high →
      calls_total calls + 2 * high < 2147483648 + dag_level g (dag_source g) →
      high - low ≤ ((2 ^ fuel : Nat) : Int) →
      ∃ s2 v, fujita_search heap bfuel fs fe (fuel + 1) s low high best = some (s2, v) ∧
        s2.order = s.order ∧ s2.contents = s.contents ∧ s2.g = s.g ∧ s2.m = s.m := by
  intro fuel
  induction fuel with
  | zero =>
    intro s low high best hpre hg hbf hlow hlt hno hpow
    have hWnn : 0 ≤ calls_total calls :=
      le_trans (total_weight_nonneg s.g (fun k _ => built_weight_nonneg calls s.g hpre.built hnn k))
        (total_weight_le_calls calls s.g hpre.built hnn)
    have hLlow : -2147483648 ≤ dag_level g (dag_source g) := by
      unfold dag_level to_int
      split <;> omega
    simp only [pow_zero, Nat.cast_one] at hpow
    have hcur : wrap_int (Int.tdiv (wrap_int (high - low)) 2 + low) = low := by
      rw [wrap_int_id (high - low) (by omega) (by omega),
        Int.tdiv_eq_ediv (by omega : 0 ≤ high - low) (by decide)]
      have : (high - low) / 2 = 0 := by omega
      rw [this, zero_add]
      exact wrap_int_id _ (by omega) (by omega)
    refine ⟨s, best, ?_, rfl, rfl, rfl, rfl⟩
    rw [fujita_search, if_pos hcur]
  | succ fuel ih =>
    intro s low high best hpre hg hbf hlow hlt hno hpow
    have hWnn : 0 ≤ calls_total calls :=
      le_trans (total_weight_nonneg s.g (fun k _ => built_weight_nonneg calls s.g hpre.built hnn k))
        (total_weight_le_calls calls s.g hpre.built hnn)
    have hLlow : -2147483648 ≤ dag_level g (dag_source g) := by
      unfold dag_level to_int
      split <;> omega
    have hcur : wrap_int (Int.tdiv (wrap_int (high - low)) 2 + low) =
        (high - low) / 2 + low := by
      rw [wrap_int_id (high - low) (by omega) (by omega),
        Int.tdiv_eq_ediv (by omega : 0 ≤ high - low) (by decide)]
      exact wrap_int_id _ (by omega) (by omega)
    rw [fujita_search, hcur]
    by_cases hex : (high - low) / 2 + low = low
    · rw [if_pos hex]
      exact ⟨s, best, rfl, rfl, rfl, rfl, rfl⟩
    · rw [if_neg hex]
      have hpow2 : ((2 ^ (fuel + 1) : Nat) : Int) = 2 * ((2 ^ fuel : Nat) : Int) := by
        rw [pow_succ]
        push_cast
        ring
      rw [hpow2] at hpow
      have hdelta : ∃ delta : Nat, 1 ≤ delta ∧
          (high - low) / 2 + low = dag_level g (dag_source g) + (delta : Int) := by
        refine ⟨((high - low) / 2 + low - dag_level g (dag_source g)).toNat, ?_, ?_⟩
        · omega
        · omega
      obtain ⟨delta, hd1, hd2⟩ := hdelta
      rw [hd2]
      rw [← hg] at hd2 hlow hno ⊢
      obtain ⟨s1, hb1, ho, hc, hg1, hm, htrap, _⟩ := fujita_step calls hnn htot heap hheap bfuel
        fs fe s hpre hbf delta hd1 (by omega)
      rw [hb1]
      simp only [htrap, Bool.false_eq_true, if_false]
      have hpre1 := fujita_pre_keeps calls s s1 hpre hg1 hm ho
      by_cases hok : machines_suffice heap s1 = true
      · rw [if_pos hok]
        obtain ⟨s2, v, h2, ho2, hc2, hg2, hm2⟩ := ih s1 low
          (dag_level s.g (dag_source s.g) + (delta : Int))
          (if best < dag_level s.g (dag_source s.g) + (delta : Int) then best
            else dag_level s.g (dag_source s.g) + (delta : Int))
          hpre1 (by rw [hg1, hg]) (by rw [hg1, ho]; exact hbf) (by rw [← hg]; exact hlow)
          (by omega) (by rw [← hg]; omega) (by omega)
        exact ⟨s2, v, h2, by rw [ho2, ho], by rw [hc2, hc], by rw [hg2, hg1], by rw [hm2, hm]⟩
      · rw [if_neg hok]
        obtain ⟨s2, v, h2, ho2, hc2, hg2, hm2⟩ := ih s1
          (dag_level s.g (dag_source s.g) + (delta : Int)) high best
          hpre1 (by rw [hg1, hg]) (by rw [hg1, ho]; exact hbf) (by rw [← hg]; omega)
          (by omega) (by rw [← hg]; omega) (by omega)
        exact ⟨s2, v, h2, by rw [ho2, ho], by rw [hc2, hc], by rw [hg2, hg1], by rw [hm2, hm]⟩

/-- The level of the source of a built graph with non-negative weights of
sum `W < 2^31` lies between 0 and `W`. -/
theorem source_level_range (calls : List (Int × List Nat)) (g : dag)
    (hb : built_graph calls g) (hnn : calls_nonneg calls)
    (htot : calls_total calls < 2147483648) :
    0 ≤ dag_level g (dag_source g) ∧ dag_level g (dag_source g) ≤ calls_total calls := by
  obtain ⟨hl, _, _⟩ := built_levels_int calls g hb hnn htot
  have h1 := level_le_total calls g hb hnn 0
  have hsrc0 : dag_source g = 0 := rfl
  rw [hsrc0, hl 0]
  exact ⟨Int.ofNat_nonneg _, h1⟩

/-- The function `fujita_bound` returns on the schedules `bb` calls it on,
when the weights are non-negative and sum to less than `2^27`: it keeps the
order, the contains bitmap, the graph and the machine count, and its value
lies above `level(source)` and below `2^31`. -/
theorem fujita_bound_some (calls : List (Int × List Nat)) (hnn : calls_nonneg calls)
    (htot : calls_total calls < 134217728)
    (heap : List (Nat × Int) → List Nat) (hheap : binheap_spec heap) (ffuel bfuel : Nat)
    (fs fe : Nat → Nat) (s : schedule) (hpre : fujita_pre calls s)
    (hbf : 2 * dag_size s.g + s.order.length + 1 < bfuel) (hff : 32 ≤ ffuel) :
    ∃ s2 v, fujita_bound heap ffuel bfuel fs fe s = some (s2, v) ∧
      s2.order = s.order ∧ s2.contents = s.contents ∧ s2.g = s.g ∧ s2.m = s.m ∧
      dag_level s.g (dag_source s.g) < v ∧ v < 2147483648 := by
  have htot31 : calls_total calls < 2147483648 := by omega
  obtain ⟨hL0, hL1⟩ := source_level_range calls s.g hpre.built hnn htot31
  obtain ⟨f, hf⟩ : ∃ f, ffuel = f + 1 := ⟨ffuel - 1, by omega⟩
  have hWnn : 0 ≤ calls_total calls := by omega
  obtain ⟨D, hD⟩ : ∃ D : Nat, (D : Int) = 2 * calls_total calls +
      dag_level s.g (dag_source s.g) + 1 :=
    ⟨(2 * calls_total calls + dag_level s.g (dag_source s.g) + 1).toNat, by omega⟩
  have hpow : 2147483648 ≤ 2 ^ f := by
    have : 2 ^ 31 ≤ 2 ^ f := Nat.pow_le_pow_right (by decide) (by omega)
    simpa using this
  have hDlt : D < 2147483648 := by omega
  obtain ⟨s1, d1, hd, ho1, hc1, hg1, hm1, hle1, hlt1⟩ := fujita_double_some calls hnn htot31
    heap hheap bfuel fs fe s.g D (by omega) (by omega) f s 1 hpre rfl hbf (le_refl _)
    (by omega) (by omega)
  have hpre1 := fujita_pre_keeps calls s s1 hpre hg1 hm1 ho1
  have hlow : to_int (to_unsigned (dag_level s1.g (dag_source s1.g) + ((d1 / 2 : Nat) : Int))) =
      dag_level s.g (dag_source s.g) + ((d1 / 2 : Nat) : Int) := by
    rw [hg1]
    exact wrap_int_id _ (by omega) (by omega)
  have hhigh : to_int (to_unsigned (dag_level s1.g (dag_source s1.g) + (d1 : Int))) =
      dag_level s.g (dag_source s.g) + (d1 : Int) := by
    rw [hg1]
    exact wrap_int_id _ (by omega) (by omega)
  have hpowc : ((2147483648 : Nat) : Int) ≤ ((2 ^ f : Nat) : Int) := by exact_mod_cast hpow
  obtain ⟨s2, v, hs, ho2, hc2, hg2, hm2⟩ := fujita_search_some calls hnn htot31 heap hheap bfuel
    fs fe s.g f s1 (dag_level s.g (dag_source s.g) + ((d1 / 2 : Nat) : Int))
    (dag_level s.g (dag_source s.g) + (d1 : Int))
    (dag_level s.g (dag_source s.g) + (d1 : Int)) hpre1 hg1 (by rw [hg1, ho1]; exact hbf)
    (by omega) (by omega) (by omega) (by
      simp only [Nat.cast_ofNat] at hpowc
      omega)
  obtain ⟨i1, i2⟩ := fujita_search_gt heap bfuel fs fe (f + 1) s1 _ _ _ s2 v hs (by omega)
    (by omega) (by omega) (by omega) rfl
  refine ⟨s2, v, ?_, by rw [ho2, ho1], by rw [hc2, hc1], by rw [hg2, hg1], by rw [hm2, hm1],
    by omega, by omega⟩
  unfold fujita_bound
  rw [hf, hd]
  simp only
  rw [hlow, hhigh]
  exact hs

/-- The Fernandez bound read as an `unsigned` is below `UINT_MAX` when the
level of the source is not negative. -/
theorem fernandez_below_max (heap : List (Nat × Int) → List Nat) (s : schedule)
    (h0 : 0 ≤ dag_level s.g (dag_source s.g)) :
    to_unsigned (schedule_fernandez_bound heap s) < UINT_MAX := by
  have hL1 : dag_level s.g (dag_source s.g) < 2147483648 := by
    unfold dag_level to_int
    split <;> omega
  have hq : pairs_max (fernandez_q s) (get_comp_list heap s) INT_MIN ≤ 2147483647 := by
    rw [pairs_max_eq]
    apply fold_max_le
    · decide
    · intro q hq
      obtain ⟨p, _, rfl⟩ := List.mem_map.1 hq
      show fernandez_q s p.1 p.2 ≤ 2147483647
      unfold fernandez_q to_int
      split <;> omega
  unfold schedule_fernandez_bound UINT_MAX
  simp only
  generalize pairs_max (fernandez_q s) (get_comp_list heap s) INT_MIN = q at hq
  split
  · unfold wrap_int to_int to_unsigned
    split <;> omega
  · unfold to_unsigned
    omega

theorem build_ok_no_bound (be : bound_env) (heap : List (Nat × Int) → List Nat) (g : dag)
    (m : Nat) : build_ok bb_build.no_bound be heap g m := by
  intro s ready_set hpre _
  refine ⟨(schedule_build s 0).1, rfl, rfl, rfl, rfl, rfl, ?_, ?_⟩
  · unfold list_makespan schedule_length schedule_build schedule_compute schedule_new
    simp only
    rw [hpre.hg, hpre.hm]
  · intro _ best
    exact ⟨_, false, rfl, rfl, rfl, rfl, rfl, fun h => absurd h (by simp)⟩

/-- What `schedule_build` with the bound dataflows does on a schedule that
meets the entry invariant of `bb`. -/
theorem build_in_fujita (calls : List (Int × List Nat)) (g : dag) (hb : built_graph calls g)
    (m : Nat) (bfuel : Nat) (fs fe : Nat → Nat) (hbf : 3 * dag_size g + 1 < bfuel)
    (s : schedule) (ready_set : bitmap) (hpre : bb_pre g m s ready_set) :
    ∃ s1, schedule_build_fujita bfuel fs fe s 0 = some (s1, 0) ∧ s1.order = s.order ∧
      s1.contents = s.contents ∧ s1.g = s.g ∧ s1.m = s.m ∧
      schedule_length s1 = list_makespan g m s.order := by
  have hlen := nodup_length_le s.order (dag_size g) hpre.nodup hpre.lt
  obtain ⟨ms, me, hbuild, _, _⟩ := schedule_build_fujita_some s (by rw [hpre.hg]; exact hb.wf)
    (by rw [hpre.hg]; exact hpre.lt) fs fe 0 bfuel (by rw [hpre.hg]; omega)
  refine ⟨_, hbuild, rfl, rfl, rfl, rfl, ?_⟩
  unfold list_makespan schedule_length schedule_build built_schedule schedule_compute
    schedule_new
  simp only
  rw [hpre.hg, hpre.hm]

theorem build_ok_fernandez (calls : List (Int × List Nat)) (g : dag)
    (hb : built_graph calls g) (hnn : calls_nonneg calls)
    (htot : calls_total calls < 2147483648) (m : Nat) (be : bound_env)
    (heap : List (Nat × Int) → List Nat) (hbf : 3 * dag_size g + 1 < be.bfuel) :
    build_ok bb_build.fernandez be heap g m := by
  intro s ready_set hpre _
  obtain ⟨s1, h1, ho, hc, hg, hm, hl⟩ := build_in_fujita calls g hb m be.bfuel be.fresh_starts
    be.fresh_ends hbf s ready_set hpre
  refine ⟨s1, h1, ho, hc, hg, hm, hl, ?_⟩
  intro _ best
  refine ⟨s1, _, rfl, ho, hc, hg, hm, ?_⟩
  intro hp
  rw [decide_eq_true_eq] at hp
  have := fernandez_below_max heap s1 (by
    rw [hg, hpre.hg]
    exact (source_level_range calls g hb hnn htot).1)
  omega

theorem build_ok_fujita (calls : List (Int × List Nat)) (g : dag)
    (hb : built_graph calls g) (hnn : calls_nonneg calls)
    (htot : calls_total calls < 134217728) (m : Nat) (hm : 1 ≤ m) (be : bound_env)
    (heap : List (Nat × Int) → List Nat) (hheap : binheap_spec heap)
    (hbf : 3 * dag_size g + 1 < be.bfuel) (hff : 32 ≤ be.ffuel) :
    build_ok bb_build.fujita be heap g m := by
  intro s ready_set hpre hne
  obtain ⟨s1, h1, ho, hc, hg, hm1, hl⟩ := build_in_fujita calls g hb m be.bfuel be.fresh_starts
    be.fresh_ends hbf s ready_set hpre
  refine ⟨s1, h1, ho, hc, hg, hm1, hl, ?_⟩
  intro _ best
  have hlen := nodup_length_le s.order (dag_size g) hpre.nodup hpre.lt
  have hfp : fujita_pre calls s1 :=
    ⟨by rw [hg, hpre.hg]; exact hb, by rw [hm1, hpre.hm]; exact hm, by rw [ho]; exact hne,
      by rw [hg, ho, hpre.hg]; exact hpre.valid, by rw [ho]; exact hpre.nodup,
      by rw [hg, ho, hpre.hg]; exact hpre.lt⟩
  obtain ⟨s2, v, hv, ho2, hc2, hg2, hm2, hv1, hv2⟩ := fujita_bound_some calls hnn htot heap hheap
    be.ffuel be.bfuel be.fresh_starts be.fresh_ends s1 hfp (by rw [hg, ho, hpre.hg]; omega) hff
  refine ⟨s2, decide (to_unsigned v ≥ best), ?_, by rw [ho2, ho], by rw [hc2, hc],
    by rw [hg2, hg], by rw [hm2, hm1], ?_⟩
  · show (fujita_bound heap be.ffuel be.bfuel be.fresh_starts be.fresh_ends s1).map _ = _
    rw [hv]
    rfl
  · intro hp
    rw [decide_eq_true_eq] at hp
    have h0 := (source_level_range calls g hb hnn (by omega)).1
    rw [hg, hpre.hg] at hv1
    have : ((to_unsigned v : Nat) : Int) = v := to_unsigned_cast v (by omega) (by omega)
    unfold UINT_MAX
    omega

theorem build_ok_guard (calls : List (Int × List Nat)) (g : dag)
    (hb : built_graph calls g) (hnn : calls_nonneg calls)
    (htot : calls_total calls < 2147483648) (m : Nat) (hm : 1 ≤ m) (b : bb_build)
    (be : bound_env) (heap : List (Nat × Int) → List Nat) (hheap : binheap_spec heap)
    (hguard : build_guard b be calls g) : build_ok b be heap g m := by
  cases b with
  | no_bound => exact build_ok_no_bound be heap g m
  | fernandez => exact build_ok_fernandez calls g hb hnn htot m be heap hguard
  | fujita =>
    exact build_ok_fujita calls g hb hnn hguard.2.2 m hm be heap hheap hguard.1 hguard.2.1

/-- A call of `bb`, in any build, under a configured deadline reads the clock
at its top; the readings it consumes stay below the deadline, except that the
last one may reach it, and then the call returns -2. -/
theorem bb_in_deadline (b : bb_build) (be : bound_env) (env : bb_env)
    (hd : env.do_timeout = true) :
    ∀ (fuel : Nat) (s : schedule) (ready_set : bitmap) (best ticks : Nat) (r : bb_result),
      bb_in b be env fuel s ready_set best ticks = some r →
      ticks < r.ticks ∧
        ((r.value = -2 ∧ env.end_time ≤ env.clock (r.ticks - 1) ∧
            clock_quiet env ticks (r.ticks - 1)) ∨
          clock_quiet env ticks r.ticks) := by
  intro fuel
  induction fuel with
  | zero =>
    intro s ready_set best ticks r h
    simp [bb_in] at h
  | succ fuel ih =>
    intro s ready_set best ticks r h
    rw [bb_in] at h
    by_cases hto : (env.do_timeout && decide (env.clock ticks ≥ env.end_time)) = true
    · rw [if_pos hto] at h
      simp only [Option.some.injEq] at h
      simp only [Bool.and_eq_true, decide_eq_true_eq] at hto
      rw [← h]
      refine ⟨Nat.lt_succ_self _, Or.inl ⟨rfl, hto.2, ?_⟩⟩
      intro j h1 h2
      simp only [Nat.add_sub_cancel] at h2
      omega
    · rw [if_neg hto] at h
      simp only [Bool.and_eq_true, decide_eq_true_eq, not_and, not_le] at hto
      have hq : clock_quiet env ticks (ticks + 1) := by
        intro j h1 h2
        have : j = ticks := by omega
        rw [this]
        exact hto hd
      simp only [hd, if_true] at h
      split at h
      · exact absurd h (by simp)
      · split at h
        · simp only [Option.some.injEq] at h
          rw [← h]
          exact ⟨Nat.lt_succ_self _, Or.inr hq⟩
        · split at h
          · simp only [Option.some.injEq] at h
            rw [← h]
            exact ⟨Nat.lt_succ_self _, Or.inr hq⟩
          · split at h
            · exact absurd h (by simp)
            · simp only [Option.some.injEq] at h
              rw [← h]
              exact ⟨Nat.lt_succ_self _, Or.inr hq⟩
            · obtain ⟨h1, h2⟩ := bb_loop_deadline env (bb_in b be env fuel) ih _ _ _ _ _ _ h
              refine ⟨by omega, ?_⟩
              rcases h2 with ⟨h3, h4, h5, h6⟩ | h3
              · exact Or.inl ⟨h3, h5, clock_quiet_trans env _ _ _ hq h6⟩
              · exact Or.inr (clock_quiet_trans env _ _ _ hq h3)

/-- With a budget of 0 seconds the first reading of `bb` already reaches the
deadline, in any build. -/
theorem bbsearch_in_zero_timeout (b : bb_build) (be : bound_env)
    (heap : List (Nat × Int) → List Nat) (clock : Nat → Int)
    (hmono : clock 0 ≤ clock 1) (cps : Int) (bfuel : Nat) (hfuel : 0 < bfuel) (g : dag)
    (hpos : 0 < dag_size g) (m : Nat) (hm : 1 ≤ m) :
    bbsearch_in b be heap clock cps bfuel g m 0 = some (-2) := by
  have hadd : schedule_add (schedule_new g m) (dag_source g) =
      some (schedule_pushed (schedule_new g m) 0, 0) := by
    unfold schedule_add dag_source
    simp [schedule_new, hpos, bitmap_set, bitmap_create]
  unfold bbsearch_in
  rw [bbsearch_start g m hm, hadd]
  simp only [lt_self_iff_false, if_false, zero_mul, add_zero]
  obtain ⟨k, hk⟩ : ∃ k, bfuel = k + 1 := ⟨bfuel - 1, by omega⟩
  rw [hk, bb_in]
  simp [hmono]

/-- What `bbsearch` returns, in a build that meets `build_guard`, on a graph
made with user dependencies only, non-negative weights and a total weight
below `2^31`: it returns; with a deadline the value may be -2; otherwise the
value is the makespan of a complete valid order. -/
theorem bbsearch_in_spec (heap : List (Nat × Int) → List Nat) (hheap : binheap_spec heap)
    (clock : Nat → Int) (cps : Int) (calls : List (Int × List Nat)) (fuel : Nat) (g : dag)
    (hmk : dag_make fuel calls = some g) (hdeps : calls_user_deps calls)
    (hnn : calls_nonneg calls) (htot : calls_total calls < 2147483648) (m : Nat)
    (hm : 1 ≤ m) (bfuel : Nat) (hfuel : dag_size g ≤ bfuel) (b : bb_build) (be : bound_env)
    (hguard : build_guard b be calls g) (timeout : Int) :
    ∃ v, bbsearch_in b be heap clock cps bfuel g m timeout = some v ∧
      ((0 ≤ timeout ∧ v = -2) ∨
        ∃ V : Nat, v = (V : Int) ∧ V < 2147483648 ∧
          ∃ o, order_complete g o ∧ order_valid g o ∧ list_makespan g m o = V) := by
  have hb := dag_make_built fuel calls g hmk
  have hsa := dag_make_source_alone fuel calls g hmk hdeps
  obtain ⟨hadd, hpre⟩ := bbsearch_init g hb.wf hsa m
  have hok := build_ok_guard calls g hb hnn htot m hm b be heap hheap hguard
  have hmain : ∀ env : bb_env, env.heap = heap → ∀ ticks,
      ∃ r, bb_in b be env bfuel (schedule_pushed (schedule_new g m) 0)
        ((dag_succs g (dag_source g)).foldl (fun b i => (bitmap_set b i true).1)
          (bitmap_create 0)) UINT_MAX ticks = some r ∧
      ((env.do_timeout = true ∧ r.value = -2) ∨
        ∃ V : Nat, r.value = (V : Int) ∧ V < 2147483648 ∧
          ∃ o, order_complete g o ∧ order_valid g o ∧ list_makespan g m o = V) := by
    intro env henv ticks
    obtain ⟨r, hr, hpost⟩ := bb_in_spec calls g hb hnn htot m hm b be env
      (by rw [henv]; exact hheap) (by rw [henv]; exact hok)
      bfuel _ _ UINT_MAX ticks hpre (by simp) (by
        show dag_size g + 1 ≤ ([] ++ [0] : List Nat).length + bfuel
        simp
        omega) (Or.inl rfl)
    refine ⟨r, hr, ?_⟩
    rcases hpost with hto | hn
    · exact Or.inl ⟨hto.1, hto.2.1⟩
    · obtain ⟨_, _, _, _, V, hV, hVlt, _, hVex⟩ := hn
      right
      refine ⟨V, hV, hVlt, ?_⟩
      rcases hVex with h | ⟨o, ho, hVo⟩
      · simp only [UINT_MAX] at h
        omega
      · exact ⟨o, ho.2.1, ho.2.2, hVo.symm⟩
  unfold bbsearch_in
  rw [bbsearch_start g m hm, hadd]
  simp only
  by_cases ht : timeout < 0
  · simp only [ht, if_true]
    obtain ⟨r, hr, hpost⟩ := hmain ⟨heap, clock, false, 0⟩ rfl 0
    rw [hr]
    refine ⟨r.value, rfl, ?_⟩
    rcases hpost with ⟨h, _⟩ | h
    · simp at h
    · exact Or.inr h
  · simp only [ht, if_false]
    obtain ⟨r, hr, hpost⟩ := hmain ⟨heap, clock, true, clock 0 + timeout * cps⟩ rfl 1
    rw [hr]
    refine ⟨r.value, rfl, ?_⟩
    rcases hpost with ⟨_, h⟩ | h
    · exact Or.inl ⟨by omega, h⟩
    · exact Or.inr h


/-! ## The search against the level of the source and the deadline, in every build -/

/-- C3 (amended): on a graph built with user dependencies only and
non-negative weights whose sum is below `2^31`, and for `m >= 1`,
`bbsearch(G, m, -1)` returns a value that is at least `dag_level(G, source)`,
in each of the three builds of `bbsearch.c`: the one without `FUJITA` (the
function `bbsearch`, see `bbsearch_in_no_bound`), the one with `FUJITA` and
`FB` (the function `bbsearch_fb`, see `bbsearch_in_fernandez`) and the one
with `FUJITA` alone, for which the sum of the weights is to be below `2^27`
(`build_guard`).  The recursion has fuel for a depth of as many calls as the
graph has tasks. -/
theorem bbsearch_ge_level (heap : List (Nat × Int) → List Nat)
    (hheap : binheap_spec heap) (clock : Nat → Int) (cps : Int)
    (calls : List (Int × List Nat)) (fuel : Nat) (g : dag)
    (hmk : dag_make fuel calls = some g) (hdeps : calls_user_deps calls)
    (hnn : calls_nonneg calls) (htot : calls_total calls < 2147483648) (m : Nat)
    (hm : 1 ≤ m) (bfuel : Nat) (hfuel : dag_size g ≤ bfuel) (b : bb_build) (be : bound_env)
    (hguard : build_guard b be calls g) :
    ∃ v, bbsearch_in b be heap clock cps bfuel g m (-1) = some v ∧
      dag_level g (dag_source g) ≤ v := by
  obtain ⟨v, hv, h⟩ := bbsearch_in_spec heap hheap clock cps calls fuel g hmk hdeps hnn htot m hm
    bfuel hfuel b be hguard (-1)
  refine ⟨v, hv, ?_⟩
  rcases h with ⟨h, _⟩ | ⟨V, hV, _, o, hc, hvo, hL⟩
  · omega
  · rw [hV, ← hL]
    exact makespan_ge_level calls g (dag_make_built fuel calls g hmk) hnn htot m hm o hc hvo

/-- Witness of C3 on the fork graph with two machines, in the build that
consults `fujita_bound`. -/
theorem bbsearch_ge_level_witness :
    ∃ v, bbsearch_in bb_build.fujita ⟨100, 100, fun _ => 0, fun _ => 0⟩ list_heap
        (fun _ => 0) 1 6 (dag_of_calls calls_fork) 2 (-1) = some v ∧
      dag_level (dag_of_calls calls_fork) (dag_source (dag_of_calls calls_fork)) ≤ v :=
  bbsearch_ge_level list_heap list_heap_spec (fun _ => 0) 1 calls_fork 100
    (dag_of_calls calls_fork) dag_make_fork calls_fork_ok.1 calls_fork_ok.2.1
    calls_fork_ok.2.2 2 (by decide) 6 (le_of_eq dag_size_fork) bb_build.fujita
    ⟨100, 100, fun _ => 0, fun _ => 0⟩
    (show 3 * dag_size (dag_of_calls calls_fork) + 1 < 100 ∧ 32 ≤ 100 ∧
      calls_total calls_fork < 134217728 from ⟨by decide, by decide, by decide⟩)

/-- C5 (amended): in each of the three builds of `bbsearch.c`, with a
deadline configured, a reading of the clock at the top of a `bb` call that
reaches the deadline is the last reading the call and every enclosing call
consume, and they return -2; `bbsearch(G, m, 0)` returns -2 on every built
graph for `m >= 1` when the clock is non-decreasing; on a graph built with
user dependencies only and non-negative weights whose sum is below `2^31`
(below `2^27` in the build that consults `fujita_bound`, `build_guard`),
`bbsearch` with `timeout < 0` returns a value that is not negative, and with
`timeout >= 0` either -2 or a value that is not negative. -/
theorem bbsearch_deadline (heap : List (Nat × Int) → List Nat) (hheap : binheap_spec heap)
    (clock : Nat → Int) (hmono : ∀ n, clock n ≤ clock (n + 1)) (cps : Int)
    (calls : List (Int × List Nat)) (fuel : Nat) (g : dag)
    (hmk : dag_make fuel calls = some g) (hdeps : calls_user_deps calls)
    (hnn : calls_nonneg calls) (htot : calls_total calls < 2147483648) (m : Nat)
    (hm : 1 ≤ m) (bfuel : Nat) (hfuel : dag_size g ≤ bfuel) (b : bb_build) (be : bound_env)
    (hguard : build_guard b be calls g) :
    (∀ (b1 : bb_build) (be1 : bound_env) (env : bb_env) (f : Nat) (s : schedule)
        (rs : bitmap) (best ticks : Nat) (r : bb_result), env.do_timeout = true →
        bb_in b1 be1 env f s rs best ticks = some r →
        ∀ j, ticks ≤ j → j < r.ticks → env.end_time ≤ env.clock j →
          r.value = -2 ∧ r.ticks = j + 1) ∧
    (∀ (b1 : bb_build) (be1 : bound_env) (calls1 : List (Int × List Nat)) (fuel1 : Nat)
        (g1 : dag) (m1 bfuel1 : Nat),
        dag_make fuel1 calls1 = some g1 → 1 ≤ m1 → 0 < bfuel1 →
        bbsearch_in b1 be1 heap clock cps bfuel1 g1 m1 0 = some (-2)) ∧
    (∀ timeout : Int, timeout < 0 →
        ∃ v, bbsearch_in b be heap clock cps bfuel g m timeout = some v ∧ 0 ≤ v) ∧
    (∀ timeout : Int, 0 ≤ timeout →
        ∃ v, bbsearch_in b be heap clock cps bfuel g m timeout = some v ∧
          (v = -2 ∨ 0 ≤ v)) := by
  refine ⟨?_, ?_, ?_, ?_⟩
  · intro b1 be1 env f s rs best ticks r hd hr j hj1 hj2 hj3
    obtain ⟨h1, h2⟩ := bb_in_deadline b1 be1 env hd f s rs best ticks r hr
    rcases h2 with ⟨h3, h4, h5⟩ | h3
    · refine ⟨h3, ?_⟩
      by_contra hne
      have := h5 j hj1 (by omega)
      omega
    · have := h3 j hj1 hj2
      omega
  · intro b1 be1 calls1 fuel1 g1 m1 bfuel1 hmk1 hm1 hf1
    exact bbsearch_in_zero_timeout b1 be1 heap clock (hmono 0) cps bfuel1 hf1 g1
      (dag_make_built fuel1 calls1 g1 hmk1).wf.wf.pos m1 hm1
  · intro timeout ht
    obtain ⟨v, hv, h⟩ := bbsearch_in_spec heap hheap clock cps calls fuel g hmk hdeps hnn htot
      m hm bfuel hfuel b be hguard timeout
    refine ⟨v, hv, ?_⟩
    rcases h with ⟨h, _⟩ | ⟨V, hV, _⟩
    · omega
    · omega
  · intro timeout ht
    obtain ⟨v, hv, h⟩ := bbsearch_in_spec heap hheap clock cps calls fuel g hmk hdeps hnn htot
      m hm bfuel hfuel b be hguard timeout
    refine ⟨v, hv, ?_⟩
    rcases h with ⟨_, h⟩ | ⟨V, hV, _⟩
    · exact Or.inl h
    · right
      omega

/-- Witness of C5 on the fork graph, in the build with `FUJITA` and `FB`: a
budget of 0 seconds gives -2, no budget gives a value that is not
negative. -/
theorem bbsearch_deadline_witness :
    bbsearch_in bb_build.fernandez ⟨100, 100, fun _ => 0, fun _ => 0⟩ list_heap (fun _ => 0) 1 6
        (dag_of_calls calls_fork) 2 0 = some (-2) ∧
      ∃ v, bbsearch_in bb_build.fernandez ⟨100, 100, fun _ => 0, fun _ => 0⟩ list_heap
          (fun _ => 0) 1 6 (dag_of_calls calls_fork) 2 (-1) = some v ∧ 0 ≤ v :=
  have h := bbsearch_deadline list_heap list_heap_spec (fun _ => 0) (fun _ => le_refl _) 1
    calls_fork 100 (dag_of_calls calls_fork) dag_make_fork calls_fork_ok.1 calls_fork_ok.2.1
    calls_fork_ok.2.2 2 (by decide) 6 (le_of_eq dag_size_fork) bb_build.fernandez
    ⟨100, 100, fun _ => 0, fun _ => 0⟩
    (show 3 * dag_size (dag_of_calls calls_fork) + 1 < 100 from by decide)
  ⟨h.2.1 bb_build.fernandez ⟨100, 100, fun _ => 0, fun _ => 0⟩ calls_fork 100
      (dag_of_calls calls_fork) 2 6 dag_make_fork (by decide) (by decide),
    h.2.2.1 (-1) (by decide)⟩

/-! ## The length `schedule_build` sets, in both builds of `schedule.c` -/

/-- C6 (amended): for a valid prefix (`schedule_is_valid` holds) of tasks of
the graph, `m >= 1` machines, and weights of the tasks of the order that are
not negative and sum to less than `2^32`, the length `schedule_build(s, T)`
sets is the one the procedure of the specification gives on the order of `s`:
busy-until times start at 0, each task goes to the lowest-indexed
least-loaded machine `mu*` at `E[mu*]` unless the largest predecessor finish
`rho` exceeds `E[mu*]`, when it goes at `rho` to the machine of the first
predecessor attaining `rho`; the length is the largest busy-until time.  This
holds of `schedule_build` as compiled without `FUJITA` and, on a built graph,
of `schedule_build` as compiled with `FUJITA`, which returns 0. -/
theorem schedule_build_refines (s : schedule) (T : Nat) (hm : 1 ≤ s.m)
    (_hvalid : schedule_is_valid s = true) (horder : ∀ t ∈ s.order, t < dag_size s.g)
    (hw : ∀ t ∈ s.order, 0 ≤ dag_weight s.g t)
    (hB : order_weight s.g s.order < 4294967296) :
    (schedule_length (schedule_build s T).1 : Int) = spec_length s.g s.m s.order ∧
      ∀ (calls : List (Int × List Nat)) (gfuel : Nat), dag_make gfuel calls = some s.g →
        ∀ (fuel : Nat) (fs fe : Nat → Nat), 2 * dag_size s.g + s.order.length + 1 < fuel →
          ∃ s1, schedule_build_fujita fuel fs fe s T = some (s1, 0) ∧
            (schedule_length s1 : Int) = spec_length s.g s.m s.order := by
  have h0 := schedule_length_refines s T hm hw hB
  refine ⟨h0, ?_⟩
  intro calls gfuel hmk fuel fs fe hfuel
  obtain ⟨ms, me, hbuild, _, _⟩ := schedule_build_fujita_some s
    (dag_make_built gfuel calls s.g hmk).wf horder fs fe T fuel hfuel
  exact ⟨_, hbuild, h0⟩

set_option maxRecDepth 100000 in
/-- Witness of C6: the valid prefix `[source, 1, 2]` of the fork graph on two
machines. -/
theorem schedule_build_refines_witness :
    schedule_is_valid (schedule_of (dag_of_calls calls_fork) 2 [0, 1, 2]) = true ∧
    ((schedule_length (schedule_build (schedule_of (dag_of_calls calls_fork) 2 [0, 1, 2]) 0).1 :
        Int) = spec_length (dag_of_calls calls_fork) 2 [0, 1, 2] ∧
      ∀ (calls : List (Int × List Nat)) (gfuel : Nat),
        dag_make gfuel calls = some (schedule_of (dag_of_calls calls_fork) 2 [0, 1, 2]).g →
        ∀ (fuel : Nat) (fs fe : Nat → Nat),
          2 * dag_size (schedule_of (dag_of_calls calls_fork) 2 [0, 1, 2]).g +
            (schedule_of (dag_of_calls calls_fork) 2 [0, 1, 2]).order.length + 1 < fuel →
          ∃ s1, schedule_build_fujita fuel fs fe
              (schedule_of (dag_of_calls calls_fork) 2 [0, 1, 2]) 0 = some (s1, 0) ∧
            (schedule_length s1 : Int) = spec_length (dag_of_calls calls_fork) 2 [0, 1, 2]) :=
  ⟨by decide, schedule_build_refines (schedule_of (dag_of_calls calls_fork) 2 [0, 1, 2]) 0
    (by decide) (by decide) (by decide) (by decide) (by decide)⟩

/-! ## The entry of every call of `bb`, in every build -/

/-- The record of the calls leaves what the loop of `bb` returns as it
is. -/
theorem bb_loop_log_erase
    (rec : schedule → bitmap → Nat → Nat → Option bb_result)
    (recl : schedule → bitmap → Nat → Nat → Option bb_result × List (schedule × bitmap))
    (h : ∀ s rs best ticks, (recl s rs best ticks).1 = rec s rs best ticks)
    (items : List Nat) :
    ∀ (s : schedule) (ready_set : bitmap) (best ticks : Nat),
      (bb_loop_log recl items s ready_set best ticks).1 =
        bb_loop rec items s ready_set best ticks := by
  induction items with
  | nil =>
    intro s ready_set best ticks
    rfl
  | cons x rest ih =>
    intro s ready_set best ticks
    rw [bb_loop_log, bb_loop]
    cases hadd : schedule_add s x with
    | none => rfl
    | some p =>
      obtain ⟨s1, c⟩ := p
      dsimp only
      rw [← h]
      generalize recl s1 (bitmap_set (mark_ready s1 (dag_succs s1.g x) ready_set).2 x false).1
        best ticks = q
      obtain ⟨res, log⟩ := q
      cases res with
      | none => rfl
      | some r =>
        dsimp only
        split
        · rfl
        · cases hpop : schedule_pop r.s with
          | none => rfl
          | some p2 =>
            obtain ⟨s2, c2⟩ := p2
            dsimp only
            exact ih _ _ _ _

/-- The record of the calls leaves what `bb` returns as it is. -/
theorem bb_in_log_erase (b : bb_build) (be : bound_env) (env : bb_env) :
    ∀ (fuel : Nat) (s : schedule) (ready_set : bitmap) (best ticks : Nat),
      (bb_in_log b be env fuel s ready_set best ticks).1 =
        bb_in b be env fuel s ready_set best ticks := by
  intro fuel
  induction fuel with
  | zero =>
    intro s ready_set best ticks
    rfl
  | succ fuel ih =>
    intro s ready_set best ticks
    rw [bb_in_log, bb_in]
    split
    · rfl
    · cases hb : build_in b be s with
      | none => rfl
      | some sb =>
        dsimp only
        split
        · rfl
        · split
          · rfl
          · cases hp : prune_in b be env.heap sb.1 best with
            | none => rfl
            | some q =>
              obtain ⟨s2, p⟩ := q
              cases p with
              | true => rfl
              | false =>
                dsimp only
                exact bb_loop_log_erase (bb_in b be env fuel) (bb_in_log b be env fuel) ih _ _ _
                  _ _

theorem bbsearch_in_log_erase (b : bb_build) (be : bound_env)
    (heap : List (Nat × Int) → List Nat) (clock : Nat → Int) (cps : Int) (fuel : Nat) (g : dag)
    (m : Nat) (timeout : Int) :
    (bbsearch_in_log b be heap clock cps fuel g m timeout).1 =
      bbsearch_in b be heap clock cps fuel g m timeout := by
  unfold bbsearch_in_log bbsearch_in
  cases hadd : (schedule_create g m).bind (fun s0 => schedule_add s0 (dag_source g)) with
  | none => rfl
  | some p =>
    obtain ⟨s, c⟩ := p
    dsimp only
    rw [bb_in_log_erase]

/-- The function `schedule_build` with the bound dataflows keeps the order,
the contains bitmap, the graph and the machine count. -/
theorem schedule_build_fujita_same (fuel : Nat) (fs fe : Nat → Nat) (s0 : schedule) (T : Nat)
    (s : schedule) (r : Int) (h : schedule_build_fujita fuel fs fe s0 T = some (s, r)) :
    s.order = s0.order ∧ s.contents = s0.contents ∧ s.g = s0.g ∧ s.m = s0.m := by
  unfold schedule_build_fujita at h
  dsimp only at h
  split at h
  · exact absurd h (by simp)
  · split at h
    · exact absurd h (by simp)
    · simp only [Option.some.injEq, Prod.mk.injEq] at h
      obtain ⟨h1, _⟩ := h
      subst h1
      exact ⟨rfl, rfl, rfl, rfl⟩

/-- The first loop of `fujita_bound` keeps the order, the contains bitmap,
the graph and the machine count. -/
theorem fujita_double_same (heap : List (Nat × Int) → List Nat) (bfuel : Nat)
    (fs fe : Nat → Nat) :
    ∀ (fuel : Nat) (s : schedule) (delta : Nat) (s1 : schedule) (d1 : Nat),
      fujita_double heap bfuel fs fe fuel s delta = some (s1, d1) →
      s1.order = s.order ∧ s1.contents = s.contents ∧ s1.g = s.g ∧ s1.m = s.m := by
  intro fuel
  induction fuel with
  | zero =>
    intro s delta s1 d1 h
    simp [fujita_double] at h
  | succ fuel ih =>
    intro s delta s1 d1 h
    unfold fujita_double at h
    split at h
    · exact absurd h (by simp)
    · rename_i sb c hb
      obtain ⟨ho, hc, hg, hm⟩ := schedule_build_fujita_same _ _ _ _ _ _ _ hb
      split at h
      · exact absurd h (by simp)
      · split at h
        · simp only [Option.some.injEq, Prod.mk.injEq] at h
          obtain ⟨h1, _⟩ := h
          subst h1
          exact ⟨ho, hc, hg, hm⟩
        · split at h
          · exact absurd h (by simp)
          · obtain ⟨i1, i2, i3, i4⟩ := ih _ _ _ _ h
            exact ⟨i1.trans ho, i2.trans hc, i3.trans hg, i4.trans hm⟩

/-- The binary search of `fujita_bound` keeps the order, the contains bitmap,
the graph and the machine count. -/
theorem fujita_search_same (heap : List (Nat × Int) → List Nat) (bfuel : Nat)
    (fs fe : Nat → Nat) :
    ∀ (fuel : Nat) (s : schedule) (low high best : Int) (s2 : schedule) (v : Int),
      fujita_search heap bfuel fs fe fuel s low high best = some (s2, v) →
      s2.order = s.order ∧ s2.contents = s.contents ∧ s2.g = s.g ∧ s2.m = s.m := by
  intro fuel
  induction fuel with
  | zero =>
    intro s low high best s2 v h
    simp [fujita_search] at h
  | succ fuel ih =>
    intro s low high best s2 v h
    unfold fujita_search at h
    split at h
    · simp only [Option.some.injEq, Prod.mk.injEq] at h
      obtain ⟨h1, _⟩ := h
      subst h1
      exact ⟨rfl, rfl, rfl, rfl⟩
    · split at h
      · exact absurd h (by simp)
      · rename_i sb c hb
        obtain ⟨ho, hc, hg, hm⟩ := schedule_build_fujita_same _ _ _ _ _ _ _ hb
        split at h
        · exact absurd h (by simp)
        · split at h
          · obtain ⟨i1, i2, i3, i4⟩ := ih _ _ _ _ _ _ h
            exact ⟨i1.trans ho, i2.trans hc, i3.trans hg, i4.trans hm⟩
          · obtain ⟨i1, i2, i3, i4⟩ := ih _ _ _ _ _ _ h
            exact ⟨i1.trans ho, i2.trans hc, i3.trans hg, i4.trans hm⟩

/-- The function `fujita_bound` keeps the order, the contains bitmap, the
graph and the machine count. -/
theorem fujita_bound_same (heap : List (Nat × Int) → List Nat) (fuel bfuel : Nat)
    (fs fe : Nat → Nat) (s s2 : schedule) (v : Int)
    (h : fujita_bound heap fuel bfuel fs fe s = some (s2, v)) :
    s2.order = s.order ∧ s2.contents = s.contents ∧ s2.g = s.g ∧ s2.m = s.m := by
  unfold fujita_bound at h
  split at h
  · exact absurd h (by simp)
  · rename_i s1 delta hd
    obtain ⟨ho, hc, hg, hm⟩ := fujita_double_same heap bfuel fs fe fuel s 1 s1 delta hd
    obtain ⟨i1, i2, i3, i4⟩ := fujita_search_same heap bfuel fs fe fuel s1 _ _ _ s2 v h
    exact ⟨i1.trans ho, i2.trans hc, i3.trans hg, i4.trans hm⟩

/-- In every build `schedule_build`, when it returns, keeps the order, the
contains bitmap, the graph and the machine count. -/
theorem build_in_same (b : bb_build) (be : bound_env) (s s1 : schedule) (c : Int)
    (h : build_in b be s = some (s1, c)) :
    s1.order = s.order ∧ s1.contents = s.contents ∧ s1.g = s.g ∧ s1.m = s.m := by
  cases b with
  | no_bound =>
    simp only [build_in, Option.some.injEq] at h
    rw [← (Prod.mk.inj h).1]
    exact ⟨rfl, rfl, rfl, rfl⟩
  | fernandez => exact schedule_build_fujita_same _ _ _ _ _ _ _ h
  | fujita => exact schedule_build_fujita_same _ _ _ _ _ _ _ h

/-- In every build the bound, when it returns, keeps the order, the contains
bitmap, the graph and the machine count. -/
theorem prune_in_same (b : bb_build) (be : bound_env) (heap : List (Nat × Int) → List Nat)
    (s s2 : schedule) (best : Nat) (p : Bool)
    (h : prune_in b be heap s best = some (s2, p)) :
    s2.order = s.order ∧ s2.contents = s.contents ∧ s2.g = s.g ∧ s2.m = s.m := by
  cases b with
  | no_bound =>
    simp only [prune_in, Option.some.injEq, Prod.mk.injEq] at h
    rw [← h.1]
    exact ⟨rfl, rfl, rfl, rfl⟩
  | fernandez =>
    simp only [prune_in, Option.some.injEq, Prod.mk.injEq] at h
    rw [← h.1]
    exact ⟨rfl, rfl, rfl, rfl⟩
  | fujita =>
    simp only [prune_in, Option.map_eq_some'] at h
    obtain ⟨q, hq, hq2⟩ := h
    obtain ⟨s3, v⟩ := q
    simp only [Prod.mk.injEq] at hq2
    rw [← hq2.1]
    exact fujita_bound_same heap _ _ _ _ s s3 v hq

theorem bb_pre_same (g : dag) (m : Nat) (s s2 : schedule) (ready_set : bitmap)
    (hpre : bb_pre g m s ready_set) (ho : s2.order = s.order) (hc : s2.contents = s.contents)
    (hg : s2.g = s.g) (hm : s2.m = s.m) : bb_pre g m s2 ready_set := by
  refine ⟨by rw [hg, hpre.hg], by rw [hm, hpre.hm], by rw [ho]; exact hpre.nodup,
    by rw [ho]; exact hpre.lt, by rw [ho]; exact hpre.valid, ?_,
    by rw [ho]; exact hpre.ready⟩
  intro i
  have := hpre.contents i
  unfold schedule_contains at this ⊢
  rw [hc, ho]
  exact this

/-- The loop of `bb` over ready tasks, in any build: when every recursive call
on a state that meets the entry invariant leaves the state as it found it
unless it returns a negative value, and has made only calls that meet the
entry invariant, so does the loop. -/
theorem bb_loop_log_inv (g : dag) (hwf : dag_wf g) (m : Nat)
    (rec : schedule → bitmap → Nat → Nat → Option bb_result × List (schedule × bitmap))
    (hrec : ∀ s ready_set best ticks, bb_pre g m s ready_set → s.order ≠ [] →
      (∀ r, (rec s ready_set best ticks).1 = some r → r.value < 0 ∨ bb_restored s ready_set r) ∧
        ∀ e ∈ (rec s ready_set best ticks).2, bb_pre g m e.1 e.2 ∧ e.1.order ≠ [])
    (items : List Nat) :
    ∀ (s : schedule) (ready_set : bitmap) (best ticks : Nat), bb_pre g m s ready_set →
      (∀ x ∈ items, bitmap_get ready_set x = true) →
      (∀ r, (bb_loop_log rec items s ready_set best ticks).1 = some r →
        r.value < 0 ∨ bb_restored s ready_set r) ∧
        ∀ e ∈ (bb_loop_log rec items s ready_set best ticks).2,
          bb_pre g m e.1 e.2 ∧ e.1.order ≠ [] := by
  induction items with
  | nil =>
    intro s ready_set best ticks _ _
    refine ⟨?_, fun e he => absurd he (List.not_mem_nil e)⟩
    intro r hr
    simp only [bb_loop_log, Option.some.injEq] at hr
    rw [← hr]
    exact Or.inr ⟨rfl, rfl, rfl, rfl, rfl⟩
  | cons x rest ih =>
    intro s ready_set best ticks hpre hitems
    have hx := hitems x (List.mem_cons_self _ _)
    obtain ⟨hadd, hpre1⟩ := bb_add_step g hwf m s ready_set hpre x hx
    obtain ⟨hpost1, hlog1⟩ := hrec (schedule_pushed s x) (ready_pushed s ready_set x) best
      ticks hpre1 (by simp)
    rw [bb_loop_log, hadd]
    dsimp only
    generalize rec (schedule_pushed s x) (ready_pushed s ready_set x) best ticks = q
      at hpost1 hlog1
    obtain ⟨res, log1⟩ := q
    cases res with
    | none =>
      dsimp only
      exact ⟨fun r hr => absurd hr (by simp), hlog1⟩
    | some r1 =>
      dsimp only
      by_cases hneg : r1.value < 0
      · rw [if_pos hneg]
        refine ⟨?_, hlog1⟩
        intro r hr
        simp only [Option.some.injEq] at hr
        rw [← hr]
        exact Or.inl hneg
      · rw [if_neg hneg]
        have hres : bb_restored (schedule_pushed s x) (ready_pushed s ready_set x) r1 := by
          rcases hpost1 r1 rfl with h | h
          · exact absurd h hneg
          · exact h
        obtain ⟨hready, s2, hpop, hs2o, hs2c, hs2g, hs2m⟩ :=
          bb_restore_step g hwf m s ready_set hpre x hx r1 hres
        rw [hpop]
        dsimp only
        rw [hready]
        have hpre2 : bb_pre g m s2 ready_set := bb_pre_same g m s s2 ready_set hpre hs2o hs2c
          hs2g hs2m
        obtain ⟨hpost, hlog2⟩ := ih s2 ready_set
          (if best < to_unsigned r1.value then best else to_unsigned r1.value) r1.ticks hpre2
          (fun y hy => hitems y (List.mem_cons_of_mem _ hy))
        refine ⟨?_, ?_⟩
        · intro r hr
          rcases hpost r hr with h | ⟨e1, e2, e3, e4, e5⟩
          · exact Or.inl h
          · exact Or.inr ⟨by rw [e1, hs2o], by rw [e2, hs2c], by rw [e3, hs2g],
              by rw [e4, hs2m], e5⟩
        · intro e he
          rcases List.mem_append.1 he with h | h
          · exact hlog1 e h
          · exact hlog2 e h

/-- Every call of `bb`, in any build, on a state that meets the entry
invariant leaves the state as it found it unless it returns a negative value,
and makes only calls that meet the entry invariant; this holds whether or not
the call returns. -/
theorem bb_in_log_inv (g : dag) (hwf : dag_wf g) (m : Nat) (b : bb_build) (be : bound_env)
    (env : bb_env) (hheap : binheap_spec env.heap) :
    ∀ (fuel : Nat) (s : schedule) (ready_set : bitmap) (best ticks : Nat),
      bb_pre g m s ready_set → s.order ≠ [] →
      (∀ r, (bb_in_log b be env fuel s ready_set best ticks).1 = some r →
        r.value < 0 ∨ bb_restored s ready_set r) ∧
        ∀ e ∈ (bb_in_log b be env fuel s ready_set best ticks).2,
          bb_pre g m e.1 e.2 ∧ e.1.order ≠ [] := by
  intro fuel
  induction fuel with
  | zero =>
    intro s ready_set best ticks _ _
    exact ⟨fun r hr => absurd hr (by simp [bb_in_log]),
      fun e he => absurd he (by simp [bb_in_log])⟩
  | succ fuel ih =>
    intro s ready_set best ticks hpre hne
    have hself : ∀ e ∈ [(s, ready_set)], bb_pre g m e.1 e.2 ∧ e.1.order ≠ [] := by
      intro e he
      rw [List.mem_singleton.1 he]
      exact ⟨hpre, hne⟩
    rw [bb_in_log]
    by_cases hto : (env.do_timeout && decide (env.clock ticks ≥ env.end_time)) = true
    · rw [if_pos hto]
      refine ⟨?_, hself⟩
      intro r hr
      simp only [Option.some.injEq] at hr
      rw [← hr]
      exact Or.inl (show (-2 : Int) < 0 by decide)
    · rw [if_neg hto]
      cases hb : build_in b be s with
      | none => exact ⟨fun r hr => absurd hr (by simp), hself⟩
      | some sb =>
        obtain ⟨s1, c⟩ := sb
        obtain ⟨ho1, hc1, hg1, hm1⟩ := build_in_same b be s s1 c hb
        dsimp only
        by_cases hc0 : c ≠ 0
        · rw [if_pos hc0]
          refine ⟨?_, hself⟩
          intro r hr
          simp only [Option.some.injEq] at hr
          rw [← hr]
          exact Or.inl (show (-1 : Int) < 0 by decide)
        · rw [if_neg hc0]
          by_cases hleaf : schedule_size s1 = dag_size (schedule_dag s1)
          · rw [if_pos hleaf]
            refine ⟨?_, hself⟩
            intro r hr
            simp only [Option.some.injEq] at hr
            rw [← hr]
            exact Or.inr ⟨ho1, hc1, hg1, hm1, rfl⟩
          · rw [if_neg hleaf]
            cases hp : prune_in b be env.heap s1 best with
            | none => exact ⟨fun r hr => absurd hr (by simp), hself⟩
            | some q =>
              obtain ⟨s2, p⟩ := q
              obtain ⟨ho2, hc2, hg2, hm2⟩ := prune_in_same b be env.heap s1 s2 best p hp
              cases p with
              | true =>
                dsimp only
                refine ⟨?_, hself⟩
                intro r hr
                simp only [Option.some.injEq] at hr
                rw [← hr]
                exact Or.inr ⟨ho2.trans ho1, hc2.trans hc1, hg2.trans hg1, hm2.trans hm1, rfl⟩
              | false =>
                dsimp only
                have hpre2 : bb_pre g m s2 ready_set := bb_pre_same g m s s2 ready_set hpre
                  (ho2.trans ho1) (hc2.trans hc1) (hg2.trans hg1) (hm2.trans hm1)
                have hitems : ∀ x ∈ env.heap (ready_items (schedule_dag s2) ready_set),
                    bitmap_get ready_set x = true :=
                  fun x hx => ((heap_items_mem env.heap hheap _ ready_set x).1 hx).2
                obtain ⟨hpost, hlog⟩ := bb_loop_log_inv g hwf m (bb_in_log b be env fuel)
                  (fun sa rs1 b1 t1 hp1 hn1 => ih sa rs1 b1 t1 hp1 hn1)
                  (env.heap (ready_items (schedule_dag s2) ready_set)) s2 ready_set best
                  (if env.do_timeout = true then ticks + 1 else ticks) hpre2 hitems
                refine ⟨?_, ?_⟩
                · intro r hr
                  rcases hpost r hr with h | ⟨e1, e2, e3, e4, e5⟩
                  · exact Or.inl h
                  · exact Or.inr ⟨e1.trans (ho2.trans ho1), e2.trans (hc2.trans hc1),
                      e3.trans (hg2.trans hg1), e4.trans (hm2.trans hm1), e5⟩
                · intro e he
                  rcases List.mem_cons.1 he with h | h
                  · rw [h]
                    exact ⟨hpre, hne⟩
                  · exact hlog e h

/-- A call of `bb` that has fuel records its own entry. -/
theorem bb_in_log_ne (b : bb_build) (be : bound_env) (env : bb_env) (fuel : Nat)
    (s : schedule) (ready_set : bitmap) (best ticks : Nat) :
    (bb_in_log b be env (fuel + 1) s ready_set best ticks).2 ≠ [] := by
  rw [bb_in_log]
  split
  · simp
  · cases hb : build_in b be s with
    | none => simp
    | some sb =>
      dsimp only
      split
      · simp
      · split
        · simp
        · cases hp : prune_in b be env.heap sb.1 best with
          | none => simp
          | some q =>
            obtain ⟨s2, p⟩ := q
            cases p with
            | true => simp
            | false => simp

/-- The calls of `bb` made in `bbsearch`, in any build, on a graph built with
user dependencies only and for `m >= 1`: the record leaves the value as it is,
holds the first call, and every call recorded meets the entry invariant. -/
theorem bbsearch_in_log_inv (heap : List (Nat × Int) → List Nat) (hheap : binheap_spec heap)
    (clock : Nat → Int) (cps : Int) (calls : List (Int × List Nat)) (gfuel : Nat) (g : dag)
    (hmk : dag_make gfuel calls = some g) (hdeps : calls_user_deps calls) (m : Nat)
    (hm : 1 ≤ m) (fuel : Nat) (hfuel : 0 < fuel) (timeout : Int) (b : bb_build)
    (be : bound_env) :
    (bbsearch_in_log b be heap clock cps fuel g m timeout).1 =
        bbsearch_in b be heap clock cps fuel g m timeout ∧
      (bbsearch_in_log b be heap clock cps fuel g m timeout).2 ≠ [] ∧
      ∀ e ∈ (bbsearch_in_log b be heap clock cps fuel g m timeout).2,
        e.1.g = g ∧ e.1.m = m ∧ entry_ok g e := by
  have hb := dag_make_built gfuel calls g hmk
  have hsa := dag_make_source_alone gfuel calls g hmk hdeps
  obtain ⟨hadd, hpre⟩ := bbsearch_init g hb.wf hsa m
  refine ⟨bbsearch_in_log_erase b be heap clock cps fuel g m timeout, ?_⟩
  obtain ⟨k, hk⟩ : ∃ k, fuel = k + 1 := ⟨fuel - 1, by omega⟩
  have hmain : ∀ env : bb_env, env.heap = heap → ∀ ticks,
      (bb_in_log b be env fuel (schedule_pushed (schedule_new g m) 0)
        ((dag_succs g (dag_source g)).foldl (fun b i => (bitmap_set b i true).1)
          (bitmap_create 0)) UINT_MAX ticks).2 ≠ [] ∧
      ∀ e ∈ (bb_in_log b be env fuel (schedule_pushed (schedule_new g m) 0)
        ((dag_succs g (dag_source g)).foldl (fun b i => (bitmap_set b i true).1)
          (bitmap_create 0)) UINT_MAX ticks).2, e.1.g = g ∧ e.1.m = m ∧ entry_ok g e := by
    intro env henv ticks
    obtain ⟨_, hlog⟩ := bb_in_log_inv g hb.wf m b be env (by rw [henv]; exact hheap) fuel
      (schedule_pushed (schedule_new g m) 0)
      ((dag_succs g (dag_source g)).foldl (fun b i => (bitmap_set b i true).1)
        (bitmap_create 0)) UINT_MAX ticks hpre (by simp)
    refine ⟨?_, fun e he => ⟨(hlog e he).1.hg, (hlog e he).1.hm,
      bb_pre_entry_ok g hb.wf m e (hlog e he).1 (hlog e he).2⟩⟩
    rw [hk]
    exact bb_in_log_ne b be env k _ _ _ _
  unfold bbsearch_in_log
  rw [bbsearch_start g m hm, hadd]
  dsimp only
  by_cases ht : timeout < 0
  · simp only [ht, if_true]
    exact hmain ⟨heap, clock, false, 0⟩ rfl 0
  · simp only [ht, if_false]
    exact hmain ⟨heap, clock, true, clock 0 + timeout * cps⟩ rfl 1

/-- C23 (amended): for a graph built through `dag_create`, `dag_vertex` calls
whose dependency arrays name user tasks only, and `dag_build`, and for every
`m >= 1`, at the entry of every call of `bb` made in `bbsearch` the order of
the schedule is a valid prefix of distinct tasks that starts with the source,
and for every task `i` the ready-set bit of `i` is 1 if and only if `i` is
not in the order and every predecessor of `i` is.  In the build without
`FUJITA` the calls are those `bbsearch_trace` records, and `bbsearch`
returns; in each of the three builds they are those `bbsearch_in_log`
records, whether or not the search returns. -/
theorem bb_entry_state (heap : List (Nat × Int) → List Nat) (hheap : binheap_spec heap)
    (clock : Nat → Int) (cps : Int) (calls : List (Int × List Nat)) (gfuel : Nat) (g : dag)
    (hmk : dag_make gfuel calls = some g) (hdeps : calls_user_deps calls) (m : Nat)
    (hm : 1 ≤ m) (bfuel : Nat) (hfuel : dag_size g ≤ bfuel) (timeout : Int) :
    (∃ v entries, bbsearch_trace heap clock cps bfuel g m timeout = some (v, entries) ∧
      bbsearch heap clock cps bfuel g m timeout = some v ∧ entries ≠ [] ∧
      ∀ e ∈ entries, e.1.g = g ∧ e.1.m = m ∧ entry_ok g e) ∧
    ∀ (b : bb_build) (be : bound_env),
      (bbsearch_in_log b be heap clock cps bfuel g m timeout).1 =
          bbsearch_in b be heap clock cps bfuel g m timeout ∧
        (bbsearch_in_log b be heap clock cps bfuel g m timeout).2 ≠ [] ∧
        ∀ e ∈ (bbsearch_in_log b be heap clock cps bfuel g m timeout).2,
          e.1.g = g ∧ e.1.m = m ∧ entry_ok g e := by
  have hpos : 0 < bfuel := by
    have := (dag_make_built gfuel calls g hmk).wf.wf.pos
    unfold dag_size at hfuel
    omega
  exact ⟨bbsearch_trace_entries heap hheap clock cps calls gfuel g hmk hdeps m hm bfuel hfuel
      timeout,
    fun b be => bbsearch_in_log_inv heap hheap clock cps calls gfuel g hmk hdeps m hm bfuel hpos
      timeout b be⟩

/-- Witness of C23 on the fork graph with two machines and no deadline. -/
theorem bb_entry_state_witness :
    (∃ v entries, bbsearch_trace list_heap (fun _ => 0) 1 10 (dag_of_calls calls_fork) 2 (-1) =
        some (v, entries) ∧
      bbsearch list_heap (fun _ => 0) 1 10 (dag_of_calls calls_fork) 2 (-1) = some v ∧
      entries ≠ [] ∧
      ∀ e ∈ entries, e.1.g = dag_of_calls calls_fork ∧ e.1.m = 2 ∧
        entry_ok (dag_of_calls calls_fork) e) ∧
    ∀ (b : bb_build) (be : bound_env),
      (bbsearch_in_log b be list_heap (fun _ => 0) 1 10 (dag_of_calls calls_fork) 2 (-1)).1 =
          bbsearch_in b be list_heap (fun _ => 0) 1 10 (dag_of_calls calls_fork) 2 (-1) ∧
        (bbsearch_in_log b be list_heap (fun _ => 0) 1 10 (dag_of_calls calls_fork) 2 (-1)).2 ≠
          [] ∧
        ∀ e ∈ (bbsearch_in_log b be list_heap (fun _ => 0) 1 10 (dag_of_calls calls_fork) 2
            (-1)).2,
          e.1.g = dag_of_calls calls_fork ∧ e.1.m = 2 ∧ entry_ok (dag_of_calls calls_fork) e :=
  bb_entry_state list_heap list_heap_spec (fun _ => 0) 1 calls_fork 100
    (dag_of_calls calls_fork) dag_make_fork calls_fork_ok.1 2 (by decide) 10 (by decide) (-1)

end Scheduling
